import Mathlib

/-!
# go-grok: pattern expansion and typed capture

A shallow embedding of `grok.go`.

Modelling conventions.

* A Go `string` is a list of characters (`Str`); the texts handled here are
  valid UTF-8, on which the byte-wise library calls used by the source
  (`strings.ReplaceAll`, `strings.Split`) agree with their character-wise
  reading.
* A Go `map[string]V` is an association list with at most one entry per key,
  written by `mapSet` and read by `mapGet`.
* The host engine (`regexp`) is a black box.  A compiled expression is a value
  of `Regexp`, carrying what the source reads from it: `SubexpNames` and
  `FindStringSubmatch`.  `regexp.Compile` is a parameter of `compile`.
* The one regular expression the source itself owns, `reusePattern`, is the
  token grammar; its matching is written out by hand in `matchToken` and
  `findAllStringSubmatch`.
* `patterns.Default` is a parameter (`Default`) of the functions that read it.
* Texts are lists without a bound on their length: the memory and the time that
  the program needs for a text are not part of the embedding.  A statement
  that `expand` returns a source is a statement on the program only where that
  source can be held in memory; with `A` defined as `%{A}%{A}` it cannot.
-/

namespace GoGrok

deriving instance DecidableEq for Except

/-- A Go string. -/
abbrev Str := List Char

/-- A Go `map[string]V`. -/
abbrev GoMap (V : Type) := List (Str × V)

/-- Map read `m[k]` with the comma-ok flag folded into the option. -/
def mapGet {V : Type} : GoMap V → Str → Option V
  | [], _ => none
  | (k', v) :: rest, k => if k' = k then some v else mapGet rest k

/-- Map write `m[k] = v`: overwrites the entry of `k` or adds one. -/
def mapSet {V : Type} : GoMap V → Str → V → GoMap V
  | [], k, v => [(k, v)]
  | (k', v') :: rest, k, v =>
    if k' = k then (k, v) :: rest else (k', v') :: mapSet rest k v

/-- Key set of a map, as a list. -/
def mapKeys {V : Type} (m : GoMap V) : List Str := m.map Prod.fst

/-! ## Library functions used by the source -/

/-- Worker of `replaceAll` for a non-empty `old`: `skip` counts the characters
of an occurrence just replaced that still have to be dropped. -/
def replaceAllGo (old new : Str) : Nat → Str → Str
  | _, [] => []
  | skip + 1, _ :: cs => replaceAllGo old new skip cs
  | 0, c :: cs =>
    if old.isPrefixOf (c :: cs) then new ++ replaceAllGo old new (old.length - 1) cs
    else c :: replaceAllGo old new 0 cs

/-- The call `strings.ReplaceAll(s, old, new)`: every non-overlapping occurrence of
`old`, leftmost first, is replaced by `new`; an empty `old` matches before
every character and at the end. -/
def replaceAll (s old new : Str) : Str :=
  match old with
  | [] => new ++ s.flatMap (fun c => c :: new)
  | _ :: _ => replaceAllGo old new 0 s

/-- The call `strings.Split(s, sep)` for a one-character separator. -/
def split (sep : Char) : Str → List Str
  | [] => [[]]
  | c :: cs =>
    if c = sep then [] :: split sep cs
    else
      match split sep cs with
      | [] => [[c]]
      | p :: ps => (c :: p) :: ps

/-- The constant `dotSep`. -/
def dotSep : Str := ['_', '_', '_']

/-- Name encoding done in `expand`: `strings.ReplaceAll(id, ".", dotSep)`. -/
def encode (name : Str) : Str := replaceAll name ['.'] dotSep

/-- Name decoding done in `captureTypeFn`: `strings.ReplaceAll(name, dotSep, ".")`. -/
def decode (name : Str) : Str := replaceAll name dotSep ['.']

/-! ## The token grammar `reusePattern` -/

/-- The class `\w` of the host engine: `[0-9A-Za-z_]`. -/
def isWord (c : Char) : Bool := c.isAlphanum || c == '_'

/-- The class `[\w+.]`. -/
def isIdChar (c : Char) : Bool := isWord c || c == '+' || c == '.'

/-- The part `\w+)}` of `reusePattern`, after `%{SYNTAX:ID:`. -/
def matchTokenType (w i r4 : Str) : Option Str :=
  let t := r4.takeWhile isWord
  if t = [] then none
  else
    match r4.dropWhile isWord with
    | [] => none
    | d :: _ => if d = '}' then some (w ++ ':' :: i ++ ':' :: t) else none

/-- The part `[\w+.]+(?::\w+)?)}` of `reusePattern`, after `%{SYNTAX:`. -/
def matchTokenId (w r2 : Str) : Option Str :=
  let i := r2.takeWhile isIdChar
  if i = [] then none
  else
    match r2.dropWhile isIdChar with
    | [] => none
    | d :: r4 =>
      if d = '}' then some (w ++ ':' :: i)
      else if d = ':' then matchTokenType w i r4
      else none

/-- The part `\w+(?::[\w+.]+(?::\w+)?)?)}` of `reusePattern`, after `%{`. -/
def matchTokenSyntax (rest : Str) : Option Str :=
  let w := rest.takeWhile isWord
  if w = [] then none
  else
    match rest.dropWhile isWord with
    | [] => none
    | d :: r2 =>
      if d = '}' then some w
      else if d = ':' then matchTokenId w r2
      else none

/-- Match of `reusePattern = %{(\w+(?::[\w+.]+(?::\w+)?)?)}` anchored at the start
of `s`.  Returns submatch 1 (the text between the braces).  The classes
exclude `:` and `}`, so each repetition takes its maximal run and the match at
a position is unique. -/
def matchToken (s : Str) : Option Str :=
  match s with
  | c0 :: c1 :: rest => if c0 = '%' ∧ c1 = '{' then matchTokenSyntax rest else none
  | _ => none

/-- Whole text of the token whose inner text is `inner` (submatch 0). -/
def tokenText (inner : Str) : Str := '%' :: '{' :: inner ++ ['}']

/-- Worker of `findAllStringSubmatch`; `skip` counts the characters of the last
match that remain to be stepped over. -/
def findAllGo : Nat → Str → List (Str × Str)
  | _, [] => []
  | skip + 1, _ :: cs => findAllGo skip cs
  | 0, c :: cs =>
    match matchToken (c :: cs) with
    | some inner => (tokenText inner, inner) :: findAllGo (inner.length + 2) cs
    | none => findAllGo 0 cs

/-- The call `reusePattern.FindAllStringSubmatch(s, -1)`: the successive non-overlapping
matches, each as (submatch 0, submatch 1). -/
def findAllStringSubmatch (s : Str) : List (Str × Str) := findAllGo 0 s

/-! ## The engine -/

/-- Errors returned by the package. -/
inductive GrokError where
  /-- `fmt.Errorf("pattern definition %q unknown: %w", grokId, ErrParseFailure)` -/
  | parseFailure (grokId : Str)
  /-- `fmt.Errorf("invalid type for %v: %w", name, ErrTypeNotProvided)` -/
  | typeNotProvided (name : Str)
  /-- error of `regexp.Compile` on the given source -/
  | regexpError (source : Str)
  /-- `*strconv.NumError` of `strconv.Atoi` / `strconv.ParseBool` on the given input -/
  | numError (input : Str)
  deriving DecidableEq, Repr

/-- `errors.Is(e, ErrParseFailure)`. -/
def GrokError.wrapsParseFailure : GrokError → Bool
  | .parseFailure _ => true
  | _ => false

/-- `errors.Is(e, ErrTypeNotProvided)`. -/
def GrokError.wrapsTypeNotProvided : GrokError → Bool
  | .typeNotProvided _ => true
  | _ => false

/-- A compiled expression of the host engine, as seen by the source. -/
structure Regexp where
  /-- `re.SubexpNames()`: entry 0 is the whole expression, unnamed groups are `""` -/
  SubexpNames : List Str
  /-- `re.FindStringSubmatch(text)`: `nil` when there is no match -/
  FindStringSubmatch : Str → List Str

/-- The struct `Grok`. -/
structure Grok where
  patternDefinitions : GoMap Str
  re : Option Regexp
  typeHints : GoMap Str
  lookupDefaultPatterns : Bool

/-- `New()`. -/
def New : Grok :=
  { patternDefinitions := [], re := none, typeHints := [], lookupDefaultPatterns := true }

/-- `NewWithoutDefaultPatterns()`. -/
def NewWithoutDefaultPatterns : Grok :=
  { patternDefinitions := [], re := none, typeHints := [], lookupDefaultPatterns := false }

/-- `grok.AddPattern(name, patternDefinition)`. -/
def AddPattern (grok : Grok) (name patternDefinition : Str) : Grok :=
  { grok with patternDefinitions := mapSet grok.patternDefinitions name patternDefinition }

/-- `grok.lookupPattern(grokId)`; `Default` stands for `patterns.Default`. -/
def lookupPattern (Default : GoMap Str) (grok : Grok) (grokId : Str) : Str × Bool :=
  match mapGet grok.patternDefinitions grokId with
  | some knownPattern => (knownPattern, true)
  | none =>
    if grok.lookupDefaultPatterns then
      match mapGet Default grokId with
      | some knownPattern => (knownPattern, true)
      | none => ([], false)
    else ([], false)

/-- The replacement text `"(" + knownPattern + ")"`. -/
def wrapBare (knownPattern : Str) : Str := '(' :: knownPattern ++ [')']

/-- The replacement text `"(?P<" + targetId + ">" + knownPattern + ")"`. -/
def wrapNamed (targetId knownPattern : Str) : Str :=
  '(' :: '?' :: 'P' :: '<' :: targetId ++ '>' :: knownPattern ++ [')']

/-- Body of the inner loop of `expand` for one `nameSubmatch`: the state is the
pair (`expandedPattern`, `hints`). -/
def expandToken (Default : GoMap Str) (grok : Grok) (namedCapturesOnly : Bool)
    (st : Str × GoMap Str) (nameSubmatch : Str × Str) : Except GrokError (Str × GoMap Str) :=
  let nameParts := split ':' nameSubmatch.2
  let grokId := nameParts.headD []
  let targetId := if nameParts.length > 1 then encode (nameParts.getD 1 []) else nameParts.headD []
  let hints := if nameParts.length = 3 then mapSet st.2 targetId (nameParts.getD 2 []) else st.2
  match lookupPattern Default grok grokId with
  | (_, false) => .error (.parseFailure grokId)
  | (knownPattern, true) =>
    let replacementPattern :=
      if namedCapturesOnly && nameParts.length == 1 then wrapBare knownPattern
      else wrapNamed targetId knownPattern
    .ok (replaceAll st.1 nameSubmatch.1 replacementPattern, hints)

/-- The inner loop of `expand` over the matches of one pass. -/
def expandPass (Default : GoMap Str) (grok : Grok) (namedCapturesOnly : Bool) :
    List (Str × Str) → Str × GoMap Str → Except GrokError (Str × GoMap Str)
  | [], st => .ok st
  | m :: ms, st =>
    match expandToken Default grok namedCapturesOnly st m with
    | .error e => .error e
    | .ok st' => expandPass Default grok namedCapturesOnly ms st'

/-- The outer loop of `expand`; the first argument is `recursionBreak`. -/
def expandLoop (Default : GoMap Str) (grok : Grok) (namedCapturesOnly : Bool) :
    Nat → Str × GoMap Str → Except GrokError (Str × GoMap Str)
  | 0, st => .ok st
  | recursionBreak + 1, st =>
    match findAllStringSubmatch st.1 with
    | [] => .ok st
    | m :: ms =>
      match expandPass Default grok namedCapturesOnly (m :: ms) st with
      | .error e => .error e
      | .ok st' => expandLoop Default grok namedCapturesOnly recursionBreak st'

/-- `grok.expand(pattern, namedCapturesOnly)`: the expanded source and the hints, or
the error. -/
def expand (Default : GoMap Str) (grok : Grok) (pattern : Str) (namedCapturesOnly : Bool) :
    Except GrokError (Str × GoMap Str) :=
  expandLoop Default grok namedCapturesOnly 1000 (pattern, [])

/-- The `SYNTAX` part of a token: `nameParts[0]`. -/
def syntaxOf (inner : Str) : Str := (split ':' inner).headD []

/-- The name `grokId` resolves, and so does every token of its body, through
reference chains of at most `n` definitions.  A name on a reference cycle
resolves within no `n`. -/
def resolvesWithin (Default : GoMap Str) (grok : Grok) : Nat → Str → Bool
  | 0, _ => false
  | n + 1, grokId =>
    match lookupPattern Default grok grokId with
    | (body, true) =>
      (findAllStringSubmatch body).all
        (fun m => resolvesWithin Default grok n (syntaxOf m.2))
    | (_, false) => false

/-- `grok.compile(pattern, namedCapturesOnly)` (and `Compile`, which only forwards);
`regexpCompile` stands for `regexp.Compile`, `none` being its error.  Returns
the instance after the call and the error, if any. -/
def compile (regexpCompile : Str → Option Regexp) (Default : GoMap Str) (grok : Grok)
    (pattern : Str) (namedCapturesOnly : Bool) : Grok × Option GrokError :=
  match expand Default grok pattern namedCapturesOnly with
  | .error err => (grok, some err)
  | .ok (expandedExpression, hints) =>
    match regexpCompile expandedExpression with
    | none => (grok, some (.regexpError expandedExpression))
    | some compiledExpression =>
      ({ grok with re := some compiledExpression, typeHints := hints }, none)

/-- `grok.Compile(pattern, namedCapturesOnly)`. -/
def Compile (regexpCompile : Str → Option Regexp) (Default : GoMap Str) (grok : Grok)
    (pattern : Str) (namedCapturesOnly : Bool) : Grok × Option GrokError :=
  compile regexpCompile Default grok pattern namedCapturesOnly

/-- A host engine that compiles the source `src` to `re` and rejects every other
source; used to state what the engine does on one concrete source. -/
def hostCompile (src : Str) (re : Regexp) : Str → Option Regexp :=
  fun s => if s = src then some re else none

/-- The instance of the nested-composition example: exactly the definitions
`A` = `\d+` and `B` = `%{A:x}-%{A:y}`, no default patterns. -/
def nestedGrok : Grok :=
  AddPattern (AddPattern NewWithoutDefaultPatterns "A".toList "\\d+".toList)
    "B".toList "%\x7bA:x\x7d-%\x7bA:y\x7d".toList

/-! ## Capture extraction -/

/-- Outcome of a call that may panic in the Go runtime (nil dereference, index
out of range). -/
inductive Run (α : Type) where
  | panic : Run α
  | ret : α → Run α
  deriving DecidableEq, Repr

/-- A value of type `interface{}` as produced by `convertMatch`. -/
inductive Value where
  | nil : Value
  | str : Str → Value
  | int : Int → Value
  | bool : Bool → Value
  deriving DecidableEq, Repr

/-- The loop `for i, name := range names` of `captureTypeFn`, walking `names` and
`matches` side by side.  The result is the returned pair (map or `nil`, error or
`nil`); `matches[i]` out of range panics. -/
def captureGroups {K : Type} (conversionFn : Option (Str → Str → Except GrokError K)) :
    List Str → List Str → GoMap K → Run (Option (GoMap K) × Option GrokError)
  | [], _, captures => .ret (some captures, none)
  | name :: names, ms, captures =>
    if name.length = 0 then captureGroups conversionFn names ms.tail captures
    else
      match ms with
      | [] => .panic
      | m :: rest =>
        if m.length = 0 then captureGroups conversionFn names rest captures
        else
          match conversionFn with
          | none => captureGroups conversionFn names rest captures
          | some fn =>
            match fn m name with
            | .error err => .ret (none, some err)
            | .ok v => captureGroups conversionFn names rest (mapSet captures (decode name) v)

/-- `captureTypeFn(re, text, conversionFn)` for a non-nil `re`. -/
def captureTypeFn {K : Type} (re : Regexp) (text : Str)
    (conversionFn : Option (Str → Str → Except GrokError K)) :
    Run (Option (GoMap K) × Option GrokError) :=
  let captures : GoMap K := []
  let ms := re.FindStringSubmatch text
  if ms.length = 0 then .ret (some captures, none)
  else
    let names := re.SubexpNames
    if names.length = 0 then .ret (some captures, none)
    else captureGroups conversionFn names ms captures

/-- Value of a decimal digit character, `ch - '0'`. -/
def digitVal (ch : Char) : Nat := ch.toNat - '0'.toNat

/-- The text after the optional sign: `s[1:]` when `s[0]` is `+` or `-`. -/
def stripSign (s : Str) : Str :=
  if s.head? = some '+' ∨ s.head? = some '-' then s.tail else s

/-- `strconv.Atoi(s)` with a 64-bit `int`: an optional sign, then one or more
decimal digits accumulated as `n = n*10 + digit`, the value within the `int`
range; `none` is the `*NumError` (bad syntax or out of range). -/
def Atoi (s : Str) : Option Int :=
  let neg := s.head? = some '-'
  let ds := stripSign s
  if ds = [] ∨ ¬ (ds.all Char.isDigit) then none
  else
    let n : Nat := ds.foldl (fun acc ch => acc * 10 + digitVal ch) 0
    let v : Int := if neg then - (n : Int) else (n : Int)
    if v < -(2 ^ 63 : Int) ∨ (2 ^ 63 : Int) - 1 < v then none else some v

/-- Positional value of a digit string, most significant digit first. -/
def natValue : Str → Nat
  | [] => 0
  | c :: cs => digitVal c * 10 ^ cs.length + natValue cs

/-- The integer written by an optional sign and a digit string. -/
def decimalValue (sign digits : Str) : Int :=
  if sign = ['-'] then - (natValue digits : Int) else (natValue digits : Int)

/-- `strconv.ParseBool(s)`; `none` is the `*NumError`. -/
def ParseBool (s : Str) : Option Bool :=
  if s = ['1'] ∨ s = ['t'] ∨ s = ['T'] ∨ s = ['T', 'R', 'U', 'E'] ∨ s = ['t', 'r', 'u', 'e']
      ∨ s = ['T', 'r', 'u', 'e'] then some true
  else if s = ['0'] ∨ s = ['f'] ∨ s = ['F'] ∨ s = ['F', 'A', 'L', 'S', 'E']
      ∨ s = ['f', 'a', 'l', 's', 'e'] ∨ s = ['F', 'a', 'l', 's', 'e'] then some false
  else none

/-- `grok.convertMatch(match, name)`.  The two `strconv.ParseFloat` calls have no
effect (their results are dropped), so `double` and `float` fall through the
switch to `return nil, nil`. -/
def convertMatch (grok : Grok) (mtch name : Str) : Except GrokError Value :=
  match mapGet grok.typeHints name with
  | none => .ok (.str mtch)
  | some hint =>
    if hint = "string".toList then .ok (.str mtch)
    else if hint = "double".toList then .ok .nil
    else if hint = "float".toList then .ok .nil
    else if hint = "int".toList ∨ hint = "long".toList then
      match Atoi mtch with
      | some n => .ok (.int n)
      | none => .error (.numError mtch)
    else if hint = "bool".toList ∨ hint = "boolean".toList then
      match ParseBool mtch with
      | some b => .ok (.bool b)
      | none => .error (.numError mtch)
    else .error (.typeNotProvided name)

/-- The conversion function literal passed by `captureString` (and, up to the
`[]byte` cast, by `captureBytes`). -/
def stringConv : Option (Str → Str → Except GrokError Str) := some (fun v _ => .ok v)

/-- `grok.captureString(text)`; a nil `grok.re` panics on first use. -/
def captureString (grok : Grok) (text : Str) : Run (Option (GoMap Str) × Option GrokError) :=
  match grok.re with
  | none => .panic
  | some re => captureTypeFn re text stringConv

/-- `grok.captureBytes(text)`; `[]byte` values are kept as their text. -/
def captureBytes (grok : Grok) (text : Str) : Run (Option (GoMap Str) × Option GrokError) :=
  match grok.re with
  | none => .panic
  | some re => captureTypeFn re text stringConv

/-- `grok.captureTyped(text)`. -/
def captureTyped (grok : Grok) (text : Str) : Run (Option (GoMap Value) × Option GrokError) :=
  match grok.re with
  | none => .panic
  | some re => captureTypeFn re text (some (convertMatch grok))

/-- `grok.ParseString(text)`. -/
def ParseString (grok : Grok) (text : Str) : Run (Option (GoMap Str) × Option GrokError) :=
  captureString grok text

/-- `grok.Parse(text)`. -/
def Parse (grok : Grok) (text : Str) : Run (Option (GoMap Str) × Option GrokError) :=
  captureBytes grok text

/-- `grok.ParseTyped(text)`: on success the captures are copied into a fresh map. -/
def ParseTyped (grok : Grok) (text : Str) : Run (Option (GoMap Value) × Option GrokError) :=
  match captureTyped grok text with
  | .panic => .panic
  | .ret (_, some err) => .ret (none, some err)
  | .ret (captures, none) =>
    .ret (some ((captures.getD []).foldl (fun acc kv => mapSet acc kv.1 kv.2) []), none)

/-- `grok.ParseTypedString(text)`: `grok.ParseTyped([]byte(text))`; texts and
byte sequences are the same lists here. -/
def ParseTypedString (grok : Grok) (text : Str) :
    Run (Option (GoMap Value) × Option GrokError) :=
  ParseTyped grok text

/-! ## Specification vocabulary -/

/-- A non-empty run of characters of a class. -/
def IsRun (p : Char → Bool) (w : Str) : Prop := w ≠ [] ∧ ∀ c ∈ w, p c = true

/-- The texts that `reusePattern` accepts between the braces:
`SYNTAX`, `SYNTAX:ID` or `SYNTAX:ID:TYPE`. -/
def TokenInner (inner : Str) : Prop :=
  IsRun isWord inner ∨
  (∃ w i, IsRun isWord w ∧ IsRun isIdChar i ∧ inner = w ++ ':' :: i) ∨
  (∃ w i t, IsRun isWord w ∧ IsRun isIdChar i ∧ IsRun isWord t ∧
    inner = w ++ ':' :: i ++ ':' :: t)

/-- The token `%{inner}` occurs in `s` (at some position). -/
def HasToken (s inner : Str) : Prop :=
  ∃ pre suf, s = pre ++ suf ∧ matchToken suf = some inner

/-- Characters allowed between the braces of a token. -/
def IsTokChar (c : Char) : Prop := isIdChar c = true ∨ c = ':'

/-- A character that can stand neither inside a token nor at its ends. -/
def IsBreaker (c : Char) : Prop := ¬ IsTokChar c ∧ c ≠ '%' ∧ c ≠ '{' ∧ c ≠ '}'

/-! ## Instances used in the examples and counterexamples -/

/-- The instance of the float example before `Compile`: `NUM` = `\d+\.\d+`. -/
def floatGrok : Grok := AddPattern NewWithoutDefaultPatterns "NUM".toList "\\d+\\.\\d+".toList

/-- The host engine on the source of the float example: one group `n`, matched on
the whole text `3.5`. -/
def floatHost : Str → Option Regexp :=
  hostCompile "(?P<n>\\d+\\.\\d+)".toList
    ⟨["".toList, "n".toList], fun _ => ["3.5".toList, "3.5".toList]⟩

/-- The texts that `strconv.ParseBool` reads as true. -/
def trueTexts : List Str :=
  ["1".toList, "t".toList, "T".toList, "TRUE".toList, "true".toList, "True".toList]

/-- The texts that `strconv.ParseBool` reads as false. -/
def falseTexts : List Str :=
  ["0".toList, "f".toList, "F".toList, "FALSE".toList, "false".toList, "False".toList]

/-- Name number `i` of the chain: `a` repeated `i + 1` times. -/
def chainName (i : Nat) : Str := List.replicate (i + 1) 'a'

/-- Body number `i` of the chain: `x` for the first name, a reference to the
previous name for the others. -/
def chainBody : Nat → Str
  | 0 => ['x']
  | i + 1 => tokenText (chainName i)

/-- The instance obtained from `NewWithoutDefaultPatterns` by `n` calls of
`AddPattern`, one for each name of the chain. -/
def chainGrok (n : Nat) : Grok :=
  (List.range n).foldl (fun g i => AddPattern g (chainName i) (chainBody i))
    NewWithoutDefaultPatterns

/-- The token of name `j` inside `k` pairs of parentheses. -/
def chainText (k j : Nat) : Str :=
  List.replicate k '(' ++ (tokenText (chainName j) ++ List.replicate k ')')

/-- The type hints that `convertMatch` recognises. -/
def recognisedTypes : List Str :=
  ["string".toList, "int".toList, "long".toList, "double".toList, "float".toList,
    "bool".toList, "boolean".toList]

/-- The text writes an integer of the signed 64-bit range: an optional sign, then
one or more decimal digits. -/
def IsIntText (m : Str) : Prop :=
  ∃ sign digits, m = sign ++ digits ∧ (sign = [] ∨ sign = ['+'] ∨ sign = ['-']) ∧
    IsRun Char.isDigit digits ∧
    -(2 ^ 63 : Int) ≤ decimalValue sign digits ∧ decimalValue sign digits ≤ (2 ^ 63 : Int) - 1

/-- An instance after `Compile` of an expression with the one group `n`, on which
every text matches as a whole, with the given hint table. -/
def oneGroupGrok (hints : GoMap Str) : Grok :=
  { patternDefinitions := [("W".toList, "\\w+".toList)],
    re := some ⟨["".toList, "n".toList], fun text => [text, text]⟩,
    typeHints := hints, lookupDefaultPatterns := false }

/-- The instance of the unknown-type examples before `Compile`: `W` = `\w+`. -/
def wordGrok : Grok := AddPattern NewWithoutDefaultPatterns "W".toList "\\w+".toList

/-- The host engine on the source `(?P<a>\w+) (?P<b>\w+)`, matched on `x 1`. -/
def twoGroupHost : Str → Option Regexp :=
  hostCompile "(?P<a>\\w+) (?P<b>\\w+)".toList
    ⟨["".toList, "a".toList, "b".toList], fun _ => ["x 1".toList, "x".toList, "1".toList]⟩

/-- The host engine on the source `(?P<a>\w+) (?P<a>\w+)`, matched on `1 2`. -/
def sameNameHost : Str → Option Regexp :=
  hostCompile "(?P<a>\\w+) (?P<a>\\w+)".toList
    ⟨["".toList, "a".toList, "a".toList], fun _ => ["1 2".toList, "1".toList, "2".toList]⟩

/-- An instance after `Compile` with the two groups `a` and `b`, both with hint
`int`, matched on `1 abc`. -/
def twoIntGrok : Grok :=
  { patternDefinitions := [("W".toList, "\\w+".toList)],
    re := some ⟨["".toList, "a".toList, "b".toList],
      fun _ => ["1 abc".toList, "1".toList, "abc".toList]⟩,
    typeHints := [("a".toList, "int".toList), ("b".toList, "int".toList)],
    lookupDefaultPatterns := false }

/-- The host engine on the source `(?P<n>\w+)`: one group `n`, every text matched
as a whole. -/
def wordHost : Str → Option Regexp :=
  hostCompile "(?P<n>\\w+)".toList ⟨["".toList, "n".toList], fun text => [text, text]⟩

/-- `grok.MatchString(text)`.  For the host engine `re.MatchString(text)` holds
exactly when `re.FindStringSubmatch(text)` is not `nil`; a nil `grok.re` panics. -/
def MatchString (grok : Grok) (text : Str) : Run Bool :=
  match grok.re with
  | none => .panic
  | some re => .ret (decide (re.FindStringSubmatch text ≠ []))

/-- `grok.Match(text)`. -/
def Match (grok : Grok) (text : Str) : Run Bool :=
  match grok.re with
  | none => .panic
  | some re => .ret (decide (re.FindStringSubmatch text ≠ []))

/-- The instance of the recompilation example before `Compile`: `N` = `\d+`. -/
def numGrok : Grok := AddPattern NewWithoutDefaultPatterns "N".toList "\\d+".toList

/-- The host engine on the source `(?P<n>\d+)`: one group `n`, every text matched
as a whole. -/
def numHost : Str → Option Regexp :=
  hostCompile "(?P<n>\\d+)".toList ⟨["".toList, "n".toList], fun text => [text, text]⟩

/-- An instance after `Compile` of the expression `x`, which has no group, on a
text it does not match: the host engine reports the names `""` and no match. -/
def missGrok : Grok :=
  { patternDefinitions := [], re := some ⟨["".toList], fun _ => []⟩,
    typeHints := [], lookupDefaultPatterns := false }

/-- An instance after `Compile` with an unnamed group, the groups `a___b` and `c`,
and a last group `d`; on every text the host engine reports the submatches
`xyz`, `x`, `y`, the empty text and `z`. -/
def mixedGrok : Grok :=
  { patternDefinitions := [],
    re := some ⟨["".toList, "".toList, "a___b".toList, "c".toList, "d".toList],
      fun _ => ["xyz".toList, "x".toList, "y".toList, "".toList, "z".toList]⟩,
    typeHints := [], lookupDefaultPatterns := false }

/-- An instance after `Compile` of `%{MONGO_QUERY}` with namedCapturesOnly false:
the groups of `(?P<MONGO_QUERY>\{ (?P<MONGO_QUERY>(.*?)) \} ntoreturn:)` are the
outer group, the inner group of the same name and the unnamed group of the
content; the submatches are those of the text `{ q } ntoreturn:`. -/
def mongoGrok : Grok :=
  { patternDefinitions :=
      [("MONGO_QUERY_CONTENT".toList, "(.*?)".toList),
        ("MONGO_QUERY".toList,
          "\\\x7b %\x7bMONGO_QUERY_CONTENT:MONGO_QUERY\x7d \\\x7d ntoreturn:".toList)],
    re := some ⟨["".toList, "MONGO_QUERY".toList, "MONGO_QUERY".toList, "".toList],
      fun _ => ["\x7b q \x7d ntoreturn:".toList, "\x7b q \x7d ntoreturn:".toList, "q".toList,
        "q".toList]⟩,
    typeHints := [], lookupDefaultPatterns := false }

/-- `grok.AddPatterns(patternDefinitions)`: the loop
`for name, patternDefinition := range patternDefinitions` writes each entry into
`grok.patternDefinitions`.  The entries are visited in the order of the list;
the Go runtime may visit them in any order, which the theorems cover by
ranging over the permutations of the list.  A `nil` map and an empty map are
both the empty list. -/
def AddPatterns (grok : Grok) (patternDefinitions : GoMap Str) : Grok :=
  { grok with
    patternDefinitions :=
      patternDefinitions.foldl (fun acc kv => mapSet acc kv.1 kv.2) grok.patternDefinitions }

/-- The host engine on the source `(?P<a___b>\w+)`: one group `a___b`, every text
matched as a whole. -/
def underscoreHost : Str → Option Regexp :=
  hostCompile "(?P<a___b>\\w+)".toList ⟨["".toList, "a___b".toList], fun text => [text, text]⟩

/-- The tokens reached by the expansion of `pattern`: the tokens of `pattern`, and
the tokens of the body of the definition that a reached token refers to. -/
inductive Reached (Default : GoMap Str) (grok : Grok) (pattern : Str) : Str → Prop where
  | start (inner : Str) : HasToken pattern inner → Reached Default grok pattern inner
  | step (inner body inner' : Str) : Reached Default grok pattern inner →
      lookupPattern Default grok (syntaxOf inner) = (body, true) → HasToken body inner' →
      Reached Default grok pattern inner'

/-- Every token of the text is a reached token. -/
def TokensReached (Default : GoMap Str) (grok : Grok) (pattern : Str) (s : Str) : Prop :=
  ∀ i, HasToken s i → Reached Default grok pattern i

/-- Every entry of the hint table is `encode(ID)` ↦ `TYPE` for a reached three-part
token `%{S:ID:TYPE}`. -/
def HintsReached (Default : GoMap Str) (grok : Grok) (pattern : Str) (hints : GoMap Str) :
    Prop :=
  ∀ k t, mapGet hints k = some t →
    ∃ w i, IsRun isWord w ∧ IsRun isIdChar i ∧ IsRun isWord t ∧
      Reached Default grok pattern (w ++ ':' :: i ++ ':' :: t) ∧ k = encode i

/-- The state after `n` substitution passes from `st`: each pass runs the inner loop
of `expand` on the matches of the token regular expression in the current
text. -/
def passes (Default : GoMap Str) (grok : Grok) (namedCapturesOnly : Bool) :
    Nat → Str × GoMap Str → Except GrokError (Str × GoMap Str)
  | 0, st => .ok st
  | n + 1, st =>
    match expandPass Default grok namedCapturesOnly (findAllStringSubmatch st.1) st with
    | .error e => .error e
    | .ok st' => passes Default grok namedCapturesOnly n st'

/-- The instance with the one definition `A` = `%{A}`. -/
def selfCycleGrok : Grok :=
  AddPattern NewWithoutDefaultPatterns "A".toList (tokenText "A".toList)

/-- The instance with the two definitions `A` = `%{B}` and `B` = `%{A}`. -/
def twoCycleGrok : Grok :=
  AddPattern (AddPattern NewWithoutDefaultPatterns "A".toList (tokenText "B".toList))
    "B".toList (tokenText "A".toList)

/-- A map with each value converted by `f`. -/
def mapVals {A B : Type} (f : A → B) (m : GoMap A) : GoMap B := m.map (fun kv => (kv.1, f kv.2))

/-- The result of an extraction with each value of the returned map converted by
`f`. -/
def castResult {A B : Type} (f : A → B) :
    Run (Option (GoMap A) × Option GrokError) → Run (Option (GoMap B) × Option GrokError)
  | .panic => .panic
  | .ret (caps, err) => .ret (caps.map (mapVals f), err)

/-- `grok.captureBytes(text)` with the conversion `[]byte(v)` of its function literal
read as `cast v`, for any representation `B` of byte sequences. -/
def captureBytesAs {B : Type} (cast : Str → B) (grok : Grok) (text : Str) :
    Run (Option (GoMap B) × Option GrokError) :=
  match grok.re with
  | none => .panic
  | some re => captureTypeFn re text (some (fun v _ => .ok (cast v)))

/-- The wrapped body that a token stands for, in the words of the specification:
`(`body`)` for a bare token in named-captures-only mode, `(?P<name>`body`)`
otherwise, where body is the definition of the token's `SYNTAX` and name is the
encoded `ID`, or the `SYNTAX` of a bare token; `none` when the `SYNTAX` is not
defined. -/
def wrappedBody (Default : GoMap Str) (grok : Grok) (namedCapturesOnly : Bool) (inner : Str) :
    Option Str :=
  let nameParts := split ':' inner
  match lookupPattern Default grok (nameParts.headD []) with
  | (_, false) => none
  | (body, true) =>
    some (if namedCapturesOnly && nameParts.length == 1 then wrapBare body
      else wrapNamed
        (if nameParts.length > 1 then encode (nameParts.getD 1 []) else nameParts.headD [])
        body)

/-- The hint table after the step on a token: `TYPE` recorded under the encoded `ID`
of a three-part token. -/
def recordHint (hints : GoMap Str) (inner : Str) : GoMap Str :=
  let nameParts := split ':' inner
  if nameParts.length = 3 then
    mapSet hints
      (if nameParts.length > 1 then encode (nameParts.getD 1 []) else nameParts.headD [])
      (nameParts.getD 2 [])
  else hints

/-- Worker of `substituteTokens`; `skip` counts the characters of the token just
replaced that remain to be dropped. -/
def substituteGo (σ : Str → Option Str) : Nat → Str → Str
  | _, [] => []
  | skip + 1, _ :: cs => substituteGo σ skip cs
  | 0, c :: cs =>
    match matchToken (c :: cs) with
    | some inner =>
      match σ inner with
      | some repl => repl ++ substituteGo σ (inner.length + 2) cs
      | none => c :: substituteGo σ 0 cs
    | none => c :: substituteGo σ 0 cs

/-- Simultaneous substitution: in one scan from the left, every occurrence of a
token `%{inner}` with `σ inner = some repl` is replaced by `repl`; the other
characters are kept. -/
def substituteTokens (σ : Str → Option Str) (s : Str) : Str := substituteGo σ 0 s

/-- The substitution that replaces the one token `tok` by `repl`. -/
def oneToken (tok repl : Str) : Str → Option Str :=
  fun inner => if inner = tok then some repl else none

/-- The substitution `σ` where it is defined, `τ` elsewhere. -/
def substThen (σ τ : Str → Option Str) : Str → Option Str :=
  fun inner =>
    match σ inner with
    | some r => some r
    | none => τ inner

/-- The substitution `ρ` on the tokens of the list, undefined elsewhere. -/
def restrictSubst (l : List Str) (ρ : Str → Option Str) : Str → Option Str :=
  fun inner => if inner ∈ l then ρ inner else none

/-- Every replacement text is a parenthesised text that holds no token. -/
def InertImages (σ : Str → Option Str) : Prop :=
  ∀ inner r, σ inner = some r → ∃ R, r = ('(' :: R) ++ [')'] ∧ ∀ i, ¬ HasToken ('(' :: R) i

/-- The instance of the one-level example: `A` = `a+`, `B` = `b`. -/
def levelGrok : Grok :=
  AddPattern (AddPattern NewWithoutDefaultPatterns "A".toList "a+".toList) "B".toList
    "b".toList

/-- The second text is the first with a group name `?P<S>` inserted after some of
its opening parentheses: the relation between the sources that `expand` builds
with namedCapturesOnly true and false. -/
inductive WrapSim : Str → Str → Prop where
  | nil : WrapSim [] []
  | cons (c : Char) (t f : Str) : WrapSim t f → WrapSim (c :: t) (c :: f)
  | name (S t f : Str) : (∀ c ∈ S, c ≠ '%') → WrapSim t f →
      WrapSim ('(' :: t) ('(' :: '?' :: 'P' :: '<' :: S ++ '>' :: f)

/-- Two substitutions replace the same tokens, by related texts. -/
def SubstSim (σt σf : Str → Option Str) : Prop :=
  ∀ inner, (σt inner = none ∧ σf inner = none) ∨
    ∃ rt rf, σt inner = some rt ∧ σf inner = some rf ∧ WrapSim rt rf

/-- Two outcomes of an expansion agree up to the group names: the same error, or
related sources with the same hint table. -/
def ResultSim : Except GrokError (Str × GoMap Str) → Except GrokError (Str × GoMap Str) → Prop
  | .error e1, .error e2 => e1 = e2
  | .ok st1, .ok st2 => WrapSim st1.1 st2.1 ∧ st1.2 = st2.2
  | _, _ => False

/-- An instance after `Compile` with the two groups `a` and `a` of one name, with
hint `int`, matched on `1 2`. -/
def sameNameIntGrok : Grok :=
  { patternDefinitions := [("W".toList, "\\w+".toList)],
    re := some ⟨["".toList, "a".toList, "a".toList],
      fun _ => ["1 2".toList, "1".toList, "2".toList]⟩,
    typeHints := [("a".toList, "int".toList)],
    lookupDefaultPatterns := false }

/-- An instance after `Compile` with the two groups `a` and `b`, both with hint
`bool`, matched on `true x`. -/
def twoBoolGrok : Grok :=
  { patternDefinitions := [("W".toList, "\\w+".toList)],
    re := some ⟨["".toList, "a".toList, "b".toList],
      fun _ => ["true x".toList, "true".toList, "x".toList]⟩,
    typeHints := [("a".toList, "bool".toList), ("b".toList, "bool".toList)],
    lookupDefaultPatterns := false }

/-- An instance after `Compile` with the two groups `a` and `a` of one name, with
hint `bool`, matched on `true false`. -/
def sameNameBoolGrok : Grok :=
  { patternDefinitions := [("W".toList, "\\w+".toList)],
    re := some ⟨["".toList, "a".toList, "a".toList],
      fun _ => ["true false".toList, "true".toList, "false".toList]⟩,
    typeHints := [("a".toList, "bool".toList)],
    lookupDefaultPatterns := false }

/-- An instance after `Compile` with the group `ok` of hint `bool` and the group
`destination___port` of hint `int`, matched on `true 1234`. -/
def boolPortGrok : Grok :=
  { patternDefinitions := [("W".toList, "\\w+".toList)],
    re := some ⟨["".toList, "ok".toList, "destination___port".toList],
      fun _ => ["true 1234".toList, "true".toList, "1234".toList]⟩,
    typeHints := [("ok".toList, "bool".toList), ("destination___port".toList, "int".toList)],
    lookupDefaultPatterns := false }

/-- The tokens that the inner loop of `expand` processes, in order, in a run of the
outer loop with budget `n` from the state `st`: in each pass the matches of the
token regular expression in the current text; a text without a token and a
pass that fails end the run. -/
def processedTokens (Default : GoMap Str) (grok : Grok) (namedCapturesOnly : Bool) :
    Nat → Str × GoMap Str → List Str
  | 0, _ => []
  | n + 1, st =>
    match findAllStringSubmatch st.1 with
    | [] => []
    | m :: ms =>
      match expandPass Default grok namedCapturesOnly (m :: ms) st with
      | .error _ => (m :: ms).map Prod.snd
      | .ok st' =>
        (m :: ms).map Prod.snd ++ processedTokens Default grok namedCapturesOnly n st'

/-- The instance with the one definition `A` = `%{A}%{A}`. -/
def doubleGrok : Grok :=
  AddPattern NewWithoutDefaultPatterns "A".toList (tokenText "A".toList ++ tokenText "A".toList)

/-- The number of tokens after `j` passes on a text of `c` tokens `%{A}` under the
definition `A` = `%{A}%{A}`: each of the `c` matches of a pass doubles the
number of tokens. -/
def tokenGrowth : Nat → Nat → Nat
  | c, 0 => c
  | c, j + 1 => tokenGrowth (c * 2 ^ c) j

/-- The instance with the definition `A` = `%{A}%{X}`, where `X` is not defined. -/
def cycleUnknownGrok : Grok :=
  AddPattern NewWithoutDefaultPatterns "A".toList (tokenText "A".toList ++ tokenText "X".toList)

/-- Each name of `S` is defined by a body that holds exactly one token occurrence,
which refers to a name of `S`: the references from a name of `S` form one
chain that never ends, so in a finite registry it runs into a cycle. -/
def SingleReferenceNames (Default : GoMap Str) (grok : Grok) (S : Str → Prop) : Prop :=
  ∀ n, S n → ∃ body m, lookupPattern Default grok n = (body, true) ∧
    findAllStringSubmatch body = [m] ∧ S (syntaxOf m.2)

/-! ## Lemmas on the library functions -/

theorem replaceAllGo_skip (old new : Str) (x r : Str) :
    replaceAllGo old new x.length (x ++ r) = replaceAllGo old new 0 r := by
  induction x with
  | nil => rfl
  | cons c cs ih => simpa [replaceAllGo] using ih

theorem replaceAll_nil (old new : Str) (h : old ≠ []) : replaceAll [] old new = [] := by
  cases old with
  | nil => exact absurd rfl h
  | cons o os => rfl

theorem replaceAll_prefix (old new r : Str) (h : old ≠ []) :
    replaceAll (old ++ r) old new = new ++ replaceAll r old new := by
  cases old with
  | nil => exact absurd rfl h
  | cons o os =>
    show replaceAllGo (o :: os) new 0 (o :: (os ++ r)) = new ++ replaceAllGo (o :: os) new 0 r
    have hp : (o :: os).isPrefixOf (o :: (os ++ r)) = true := by
      rw [List.isPrefixOf_iff_prefix]
      exact List.prefix_append _ _
    rw [replaceAllGo, if_pos hp]
    simp only [List.length_cons, Nat.add_sub_cancel]
    rw [replaceAllGo_skip]

theorem replaceAll_cons_of_no_occ (old new : Str) (c : Char) (cs : Str) (h : old ≠ [])
    (hp : ¬ old <+: c :: cs) :
    replaceAll (c :: cs) old new = c :: replaceAll cs old new := by
  cases old with
  | nil => exact absurd rfl h
  | cons o os =>
    show replaceAllGo (o :: os) new 0 (c :: cs) = c :: replaceAllGo (o :: os) new 0 cs
    have hp2 : ¬ ((o :: os).isPrefixOf (c :: cs) = true) := by
      rw [List.isPrefixOf_iff_prefix]
      exact hp
    rw [replaceAllGo, if_neg hp2]

theorem replaceAll_self (old new : Str) (h : old ≠ []) : replaceAll old old new = new := by
  have := replaceAll_prefix old new [] h
  rw [List.append_nil, replaceAll_nil old new h, List.append_nil] at this
  exact this

/-- Characters of a replaced text come from the text or from the replacement. -/
theorem mem_replaceAll (old new : Str) (h : old ≠ []) (c : Char) :
    ∀ n (s : Str), s.length ≤ n → c ∈ replaceAll s old new → c ∈ s ∨ c ∈ new := by
  intro n
  induction n with
  | zero =>
    intro s hs hc
    have : s = [] := List.length_eq_zero.mp (Nat.le_zero.mp hs)
    subst this
    rw [replaceAll_nil old new h] at hc
    exact absurd hc (List.not_mem_nil c)
  | succ n ih =>
    intro s hs hc
    cases s with
    | nil =>
      rw [replaceAll_nil old new h] at hc
      exact absurd hc (List.not_mem_nil c)
    | cons d ds =>
      by_cases hp : old <+: d :: ds
      · obtain ⟨r, hr⟩ := hp
        rw [← hr, replaceAll_prefix old new r h] at hc
        rcases List.mem_append.mp hc with h1 | h1
        · exact Or.inr h1
        · have hlen : r.length ≤ n := by
            have h2 : (old ++ r).length = (d :: ds).length := by rw [hr]
            have h3 : 0 < old.length := List.length_pos.mpr h
            simp only [List.length_append, List.length_cons] at h2 hs
            omega
          rcases ih r hlen h1 with h2 | h2
          · left
            rw [← hr]
            exact List.mem_append_right _ h2
          · exact Or.inr h2
      · rw [replaceAll_cons_of_no_occ old new d ds h hp] at hc
        rcases List.mem_cons.mp hc with h1 | h1
        · left
          rw [h1]
          exact List.mem_cons_self _ _
        · have hlen : ds.length ≤ n := by
            simp only [List.length_cons] at hs
            omega
          rcases ih ds hlen h1 with h2 | h2
          · exact Or.inl (List.mem_cons_of_mem _ h2)
          · exact Or.inr h2

theorem split_of_not_mem (sep : Char) (s : Str) (h : sep ∉ s) : split sep s = [s] := by
  induction s with
  | nil => rfl
  | cons c cs ih =>
    have hc : c ≠ sep := fun e => h (e ▸ List.mem_cons_self _ _)
    have hcs : sep ∉ cs := fun e => h (List.mem_cons_of_mem _ e)
    simp [split, hc, ih hcs]

theorem split_append_sep (sep : Char) (a b : Str) (h : sep ∉ a) :
    split sep (a ++ sep :: b) = a :: split sep b := by
  induction a with
  | nil => simp [split]
  | cons c cs ih =>
    have hc : c ≠ sep := fun e => h (e ▸ List.mem_cons_self _ _)
    have hcs : sep ∉ cs := fun e => h (List.mem_cons_of_mem _ e)
    simp [split, hc, ih hcs]

/-! ## Lemmas on the token grammar -/

theorem takeWhile_run (p : Char → Bool) (w : Str) (d : Char) (r : Str)
    (hw : ∀ c ∈ w, p c = true) (hd : p d = false) :
    (w ++ d :: r).takeWhile p = w := by
  rw [List.takeWhile_append_of_pos hw]
  simp [List.takeWhile, hd]

theorem dropWhile_run (p : Char → Bool) (w : Str) (d : Char) (r : Str)
    (hw : ∀ c ∈ w, p c = true) (hd : p d = false) :
    (w ++ d :: r).dropWhile p = d :: r := by
  rw [List.dropWhile_append_of_pos hw]
  simp [List.dropWhile, hd]

/-- Decomposition of a text at the end of its maximal run. -/
theorem run_of_span (p : Char → Bool) (s : Str) (d : Char) (r : Str)
    (ht : s.takeWhile p ≠ []) (hd : s.dropWhile p = d :: r) :
    IsRun p (s.takeWhile p) ∧ s = s.takeWhile p ++ d :: r := by
  refine ⟨⟨ht, fun c hc => List.mem_takeWhile_imp hc⟩, ?_⟩
  rw [← hd, List.takeWhile_append_dropWhile]

theorem matchTokenType_spec (w i r4 inner : Str) (h : matchTokenType w i r4 = some inner) :
    ∃ t r, IsRun isWord t ∧ r4 = t ++ '}' :: r ∧ inner = w ++ ':' :: i ++ ':' :: t := by
  unfold matchTokenType at h
  simp only at h
  split at h
  · exact absurd h (by simp)
  · rename_i ht
    split at h
    · exact absurd h (by simp)
    · rename_i d r hd
      split at h
      · rename_i hd2
        subst hd2
        obtain ⟨h1, h2⟩ := run_of_span isWord r4 _ r ht hd
        exact ⟨_, r, h1, h2, (Option.some.inj h).symm⟩
      · exact absurd h (by simp)

theorem matchTokenId_spec (w r2 inner : Str) (h : matchTokenId w r2 = some inner) :
    (∃ i r, IsRun isIdChar i ∧ r2 = i ++ '}' :: r ∧ inner = w ++ ':' :: i) ∨
    (∃ i t r, IsRun isIdChar i ∧ IsRun isWord t ∧ r2 = i ++ ':' :: (t ++ '}' :: r) ∧
      inner = w ++ ':' :: i ++ ':' :: t) := by
  unfold matchTokenId at h
  simp only at h
  split at h
  · exact absurd h (by simp)
  · rename_i hi
    split at h
    · exact absurd h (by simp)
    · rename_i d r hd
      obtain ⟨h1, h2⟩ := run_of_span isIdChar r2 _ r hi hd
      split at h
      · rename_i hd2
        subst hd2
        exact Or.inl ⟨_, r, h1, h2, (Option.some.inj h).symm⟩
      · split at h
        · rename_i hd3
          subst hd3
          obtain ⟨t, r', ht, hr, hin⟩ := matchTokenType_spec _ _ _ _ h
          refine Or.inr ⟨_, t, r', h1, ht, ?_, hin⟩
          rw [← hr]
          exact h2
        · exact absurd h (by simp)

theorem matchTokenSyntax_spec (rest inner : Str) (h : matchTokenSyntax rest = some inner) :
    TokenInner inner ∧ ∃ r, rest = inner ++ '}' :: r := by
  unfold matchTokenSyntax at h
  simp only at h
  split at h
  · exact absurd h (by simp)
  · rename_i hw
    split at h
    · exact absurd h (by simp)
    · rename_i d r hd
      obtain ⟨h1, h2⟩ := run_of_span isWord rest _ r hw hd
      split at h
      · rename_i hd2
        subst hd2
        have hin : inner = rest.takeWhile isWord := (Option.some.inj h).symm
        rw [hin]
        exact ⟨Or.inl h1, r, h2⟩
      · split at h
        · rename_i hd3
          subst hd3
          rcases matchTokenId_spec _ _ _ h with ⟨i, r', hi, hr, hin⟩ | ⟨i, t, r', hi, ht, hr, hin⟩
          · refine ⟨Or.inr (Or.inl ⟨_, i, h1, hi, hin⟩), r', ?_⟩
            calc rest = rest.takeWhile isWord ++ ':' :: r := h2
              _ = inner ++ '}' :: r' := by rw [hin, hr]; simp
          · refine ⟨Or.inr (Or.inr ⟨_, i, t, h1, hi, ht, hin⟩), r', ?_⟩
            calc rest = rest.takeWhile isWord ++ ':' :: r := h2
              _ = inner ++ '}' :: r' := by rw [hin, hr]; simp
        · exact absurd h (by simp)

/-- What a match of the token grammar at the start of `s` says about `s`. -/
theorem matchToken_spec (s inner : Str) (h : matchToken s = some inner) :
    TokenInner inner ∧ ∃ r, s = tokenText inner ++ r := by
  unfold matchToken at h
  split at h
  · rename_i c0 c1 rest
    split at h
    · rename_i hc
      obtain ⟨h0, h1⟩ := hc
      subst h0
      subst h1
      obtain ⟨ht, r, hr⟩ := matchTokenSyntax_spec _ _ h
      refine ⟨ht, r, ?_⟩
      rw [hr]
      simp [tokenText]
    · exact absurd h (by simp)
  · exact absurd h (by simp)

theorem isWord_colon : isWord ':' = false := by decide
theorem isWord_rbrace : isWord '}' = false := by decide
theorem isIdChar_colon : isIdChar ':' = false := by decide
theorem isIdChar_rbrace : isIdChar '}' = false := by decide

theorem matchTokenSyntax_complete (inner r : Str) (h : TokenInner inner) :
    matchTokenSyntax (inner ++ '}' :: r) = some inner := by
  rcases h with ⟨hne, hw⟩ | ⟨w, i, ⟨hwne, hw⟩, ⟨hine, hi⟩, rfl⟩ |
    ⟨w, i, t, ⟨hwne, hw⟩, ⟨hine, hi⟩, ⟨htne, ht⟩, rfl⟩
  · unfold matchTokenSyntax
    simp [takeWhile_run isWord inner '}' r hw isWord_rbrace,
      dropWhile_run isWord inner '}' r hw isWord_rbrace, hne]
  · have e1 : w ++ ':' :: i ++ '}' :: r = w ++ ':' :: (i ++ '}' :: r) := by simp
    rw [e1]
    unfold matchTokenSyntax matchTokenId
    simp [takeWhile_run isWord w ':' _ hw isWord_colon,
      dropWhile_run isWord w ':' _ hw isWord_colon, hwne,
      takeWhile_run isIdChar i '}' r hi isIdChar_rbrace,
      dropWhile_run isIdChar i '}' r hi isIdChar_rbrace, hine]
  · have e1 : w ++ ':' :: i ++ ':' :: t ++ '}' :: r = w ++ ':' :: (i ++ ':' :: (t ++ '}' :: r)) := by
      simp
    rw [e1]
    unfold matchTokenSyntax matchTokenId matchTokenType
    simp [takeWhile_run isWord w ':' _ hw isWord_colon,
      dropWhile_run isWord w ':' _ hw isWord_colon, hwne,
      takeWhile_run isIdChar i ':' _ hi isIdChar_colon,
      dropWhile_run isIdChar i ':' _ hi isIdChar_colon, hine,
      takeWhile_run isWord t '}' r ht isWord_rbrace,
      dropWhile_run isWord t '}' r ht isWord_rbrace, htne]

/-- A text that starts with a token is matched, whatever follows. -/
theorem matchToken_complete (inner r : Str) (h : TokenInner inner) :
    matchToken (tokenText inner ++ r) = some inner := by
  have e : tokenText inner ++ r = '%' :: '{' :: (inner ++ '}' :: r) := by simp [tokenText]
  rw [e]
  unfold matchToken
  simp only [and_self, if_true]
  exact matchTokenSyntax_complete inner r h

theorem matchToken_iff (s inner : Str) :
    matchToken s = some inner ↔ TokenInner inner ∧ ∃ r, s = tokenText inner ++ r := by
  constructor
  · exact matchToken_spec s inner
  · rintro ⟨h, r, rfl⟩
    exact matchToken_complete inner r h

theorem isIdChar_of_isWord (c : Char) (h : isWord c = true) : isIdChar c = true := by
  simp [isIdChar, h]

theorem tokenInner_chars (inner : Str) (h : TokenInner inner) : ∀ c ∈ inner, IsTokChar c := by
  rcases h with ⟨_, hw⟩ | ⟨w, i, ⟨_, hw⟩, ⟨_, hi⟩, rfl⟩ |
    ⟨w, i, t, ⟨_, hw⟩, ⟨_, hi⟩, ⟨_, ht⟩, rfl⟩
  · intro c hc
    exact Or.inl (isIdChar_of_isWord c (hw c hc))
  · intro c hc
    simp only [List.mem_append, List.mem_cons] at hc
    rcases hc with hc | hc | hc
    · exact Or.inl (isIdChar_of_isWord c (hw c hc))
    · exact Or.inr hc
    · exact Or.inl (hi c hc)
  · intro c hc
    simp only [List.mem_append, List.mem_cons] at hc
    rcases hc with (hc | hc | hc) | hc | hc
    · exact Or.inl (isIdChar_of_isWord c (hw c hc))
    · exact Or.inr hc
    · exact Or.inl (hi c hc)
    · exact Or.inr hc
    · exact Or.inl (isIdChar_of_isWord c (ht c hc))

theorem tokenInner_ne_nil (inner : Str) (h : TokenInner inner) : inner ≠ [] := by
  rcases h with ⟨hne, _⟩ | ⟨w, i, _, _, rfl⟩ | ⟨w, i, t, _, _, _, rfl⟩
  · exact hne
  · simp
  · simp

theorem isBreaker_lparen : IsBreaker '(' := by
  refine ⟨?_, by decide, by decide, by decide⟩
  rintro (h | h)
  · exact absurd h (by decide)
  · exact absurd h (by decide)

theorem isBreaker_rparen : IsBreaker ')' := by
  refine ⟨?_, by decide, by decide, by decide⟩
  rintro (h | h)
  · exact absurd h (by decide)
  · exact absurd h (by decide)

theorem not_mem_tokenText_of_breaker (inner : Str) (h : TokenInner inner) (c : Char)
    (hc : IsBreaker c) : c ∉ tokenText inner := by
  intro hm
  simp only [tokenText, List.mem_cons, List.mem_append, List.mem_singleton] at hm
  obtain ⟨h1, h2, h3, h4⟩ := hc
  rcases hm with (hm | hm | hm) | hm
  · exact h2 hm
  · exact h3 hm
  · exact h1 (tokenInner_chars inner h c hm)
  · rcases hm with hm | hm
    · exact h4 hm
    · exact absurd hm (List.not_mem_nil c)

theorem isTokChar_ne_percent (c : Char) (h : IsTokChar c) : c ≠ '%' := by
  rintro rfl
  rcases h with h | h
  · exact absurd h (by decide)
  · exact absurd h (by decide)

theorem matchToken_of_head_ne (c : Char) (cs : Str) (h : c ≠ '%') : matchToken (c :: cs) = none := by
  unfold matchToken
  split
  · rename_i c0 c1 rest heq
    have : c = c0 := (List.cons.inj heq).1
    subst this
    rw [if_neg]
    rintro ⟨h0, _⟩
    exact h h0
  · rfl

theorem matchToken_nil : matchToken [] = none := rfl

/-- A breaker ends the look-ahead of the token match like the end of the text. -/
theorem matchToken_append_breaker (x y : Str) (c : Char) (hc : IsBreaker c) :
    matchToken (x ++ c :: y) = matchToken x := by
  have key : ∀ inner, matchToken (x ++ c :: y) = some inner ↔ matchToken x = some inner := by
    intro inner
    rw [matchToken_iff, matchToken_iff]
    constructor
    · rintro ⟨ht, r, hr⟩
      refine ⟨ht, ?_⟩
      rcases List.append_eq_append_iff.mp hr with ⟨a', h1, h2⟩ | ⟨c', h1, h2⟩
      · cases a' with
        | nil => exact ⟨[], by simpa using h1.symm⟩
        | cons d a'' =>
          exfalso
          have hd : c = d := (List.cons.inj h2).1
          subst hd
          apply not_mem_tokenText_of_breaker inner ht c hc
          rw [h1]
          simp
      · exact ⟨c', h1⟩
    · rintro ⟨ht, r, hr⟩
      exact ⟨ht, r ++ c :: y, by rw [hr]; simp⟩
  cases h1 : matchToken (x ++ c :: y) with
  | some a => exact ((key a).mp h1).symm
  | none =>
    cases h2 : matchToken x with
    | none => rfl
    | some b => rw [(key b).mpr h2] at h1; exact absurd h1 (by simp)

theorem hasToken_nil (inner : Str) : ¬ HasToken [] inner := by
  rintro ⟨pre, suf, h, hm⟩
  have : suf = [] := (List.append_eq_nil.mp h.symm).2
  subst this
  exact absurd hm (by simp [matchToken_nil])

theorem hasToken_cons (c : Char) (cs inner : Str) :
    HasToken (c :: cs) inner ↔ matchToken (c :: cs) = some inner ∨ HasToken cs inner := by
  constructor
  · rintro ⟨pre, suf, h, hm⟩
    cases pre with
    | nil =>
      left
      simp only [List.nil_append] at h
      rw [h]
      exact hm
    | cons d pre' =>
      right
      simp only [List.cons_append, List.cons.injEq] at h
      exact ⟨pre', suf, h.2, hm⟩
  · rintro (h | ⟨pre, suf, h, hm⟩)
    · exact ⟨[], c :: cs, rfl, h⟩
    · exact ⟨c :: pre, suf, by rw [h]; rfl, hm⟩

theorem hasToken_append_right (a b inner : Str) (h : HasToken b inner) : HasToken (a ++ b) inner := by
  obtain ⟨pre, suf, h1, hm⟩ := h
  exact ⟨a ++ pre, suf, by rw [h1]; simp, hm⟩

theorem hasToken_tokenInner (s inner : Str) (h : HasToken s inner) : TokenInner inner := by
  obtain ⟨pre, suf, _, hm⟩ := h
  exact (matchToken_spec suf inner hm).1

theorem findAllGo_of_length_le : ∀ (s : Str) (k : Nat), s.length ≤ k → findAllGo k s = []
  | [], _, _ => by simp [findAllGo]
  | c :: cs, 0, h => by simp at h
  | c :: cs, k + 1, h => by
    rw [findAllGo]
    exact findAllGo_of_length_le cs k (by simpa using h)

/-- The matches found by the scan are exactly the token occurrences. -/
theorem mem_findAllGo (s : Str) : ∀ (k : Nat), (∀ c ∈ s.take k, c ≠ '%') →
    ∀ m, m ∈ findAllGo k s ↔ ∃ inner, m = (tokenText inner, inner) ∧ HasToken s inner := by
  induction s with
  | nil =>
    intro k _ m
    simp only [findAllGo, List.not_mem_nil, false_iff]
    rintro ⟨inner, _, h⟩
    exact hasToken_nil inner h
  | cons c cs ih =>
    intro k hk m
    cases k with
    | succ k' =>
      rw [findAllGo]
      have hc : c ≠ '%' := hk c (by simp)
      have hk' : ∀ c' ∈ cs.take k', c' ≠ '%' := fun c' h' => hk c' (by simp [h'])
      rw [ih k' hk' m]
      constructor
      · rintro ⟨inner, h1, h2⟩
        exact ⟨inner, h1, (hasToken_cons c cs inner).mpr (Or.inr h2)⟩
      · rintro ⟨inner, h1, h2⟩
        rcases (hasToken_cons c cs inner).mp h2 with h3 | h3
        · rw [matchToken_of_head_ne c cs hc] at h3
          exact absurd h3 (by simp)
        · exact ⟨inner, h1, h3⟩
    | zero =>
      rw [findAllGo]
      cases hm : matchToken (c :: cs) with
      | none =>
        simp only
        rw [ih 0 (by simp) m]
        constructor
        · rintro ⟨inner, h1, h2⟩
          exact ⟨inner, h1, (hasToken_cons c cs inner).mpr (Or.inr h2)⟩
        · rintro ⟨inner, h1, h2⟩
          rcases (hasToken_cons c cs inner).mp h2 with h3 | h3
          · rw [hm] at h3
            exact absurd h3 (by simp)
          · exact ⟨inner, h1, h3⟩
      | some inner0 =>
        simp only [List.mem_cons]
        obtain ⟨ht, r, hr⟩ := matchToken_spec _ _ hm
        have hcs : cs = ('{' :: inner0 ++ ['}']) ++ r := by
          have : c :: cs = '%' :: (('{' :: inner0 ++ ['}']) ++ r) := by
            rw [hr]
            simp [tokenText]
          exact (List.cons.inj this).2
        have hk' : ∀ c' ∈ cs.take (inner0.length + 2), c' ≠ '%' := by
          intro c' h'
          have hlen : ('{' :: inner0 ++ ['}']).length = inner0.length + 2 := by simp
          rw [hcs, ← hlen, List.take_left] at h'
          simp only [List.cons_append, List.mem_cons, List.mem_append, List.mem_singleton,
            List.not_mem_nil, or_false] at h'
          rcases h' with h' | h' | h'
          · rw [h']; decide
          · exact isTokChar_ne_percent c' (tokenInner_chars inner0 ht c' h')
          · rw [h']; decide
        rw [ih _ hk' m]
        constructor
        · rintro (h1 | ⟨inner, h1, h2⟩)
          · exact ⟨inner0, h1, (hasToken_cons c cs inner0).mpr (Or.inl hm)⟩
          · exact ⟨inner, h1, (hasToken_cons c cs inner).mpr (Or.inr h2)⟩
        · rintro ⟨inner, h1, h2⟩
          rcases (hasToken_cons c cs inner).mp h2 with h3 | h3
          · left
            rw [hm] at h3
            rw [h1, Option.some.inj h3]
          · exact Or.inr ⟨inner, h1, h3⟩

theorem mem_findAll (s : Str) (m : Str × Str) :
    m ∈ findAllStringSubmatch s ↔ ∃ inner, m = (tokenText inner, inner) ∧ HasToken s inner :=
  mem_findAllGo s 0 (by simp) m

theorem findAll_eq_nil_iff (s : Str) :
    findAllStringSubmatch s = [] ↔ ∀ inner, ¬ HasToken s inner := by
  constructor
  · intro h inner hi
    have : (tokenText inner, inner) ∈ findAllStringSubmatch s :=
      (mem_findAll s _).mpr ⟨inner, rfl, hi⟩
    rw [h] at this
    exact absurd this (List.not_mem_nil _)
  · intro h
    apply List.eq_nil_iff_forall_not_mem.mpr
    intro m hm
    obtain ⟨inner, _, hi⟩ := (mem_findAll s m).mp hm
    exact h inner hi

theorem hasToken_append_breaker (x y : Str) (c : Char) (hc : IsBreaker c) (inner : Str) :
    HasToken (x ++ c :: y) inner ↔ HasToken x inner ∨ HasToken y inner := by
  induction x with
  | nil =>
    rw [List.nil_append, hasToken_cons, matchToken_of_head_ne c y hc.2.1]
    constructor
    · rintro (h | h)
      · exact absurd h (by simp)
      · exact Or.inr h
    · rintro (h | h)
      · exact absurd h (hasToken_nil inner)
      · exact Or.inr h
  | cons d x' ih =>
    rw [List.cons_append, hasToken_cons, ih, hasToken_cons]
    have e : matchToken (d :: (x' ++ c :: y)) = matchToken (d :: x') :=
      matchToken_append_breaker (d :: x') y c hc
    rw [e]
    exact (or_assoc).symm

theorem hasToken_append_of_no_percent (pre s inner : Str) (h : ∀ c ∈ pre, c ≠ '%') :
    HasToken (pre ++ s) inner ↔ HasToken s inner := by
  induction pre with
  | nil => rfl
  | cons d pre' ih =>
    rw [List.cons_append, hasToken_cons, matchToken_of_head_ne d _ (h d (by simp)),
      ih (fun c hc => h c (by simp [hc]))]
    constructor
    · rintro (h1 | h1)
      · exact absurd h1 (by simp)
      · exact h1
    · exact Or.inr

/-- The tokens of a wrapped body are the tokens of the body. -/
theorem hasToken_wrapBare (body inner : Str) :
    HasToken (wrapBare body) inner ↔ HasToken body inner := by
  have e : wrapBare body = ['('] ++ (body ++ ')' :: []) := by simp [wrapBare]
  rw [e, hasToken_append_of_no_percent _ _ _ (by simp),
    hasToken_append_breaker body [] ')' isBreaker_rparen]
  constructor
  · rintro (h | h)
    · exact h
    · exact absurd h (hasToken_nil inner)
  · exact Or.inl

theorem hasToken_wrapNamed (targetId body inner : Str) (hid : ∀ c ∈ targetId, c ≠ '%') :
    HasToken (wrapNamed targetId body) inner ↔ HasToken body inner := by
  have e : wrapNamed targetId body =
      ('(' :: '?' :: 'P' :: '<' :: targetId ++ ['>']) ++ (body ++ ')' :: []) := by
    simp [wrapNamed]
  have hpre : ∀ c ∈ ('(' :: '?' :: 'P' :: '<' :: targetId ++ ['>']), c ≠ '%' := by
    intro c hc
    simp only [List.cons_append, List.mem_cons, List.mem_append, List.mem_singleton] at hc
    rcases hc with hc | hc | hc | hc | hc | hc
    · rw [hc]; decide
    · rw [hc]; decide
    · rw [hc]; decide
    · rw [hc]; decide
    · exact hid c hc
    · rcases hc with hc | hc
      · rw [hc]; decide
      · exact absurd hc (List.not_mem_nil c)
  rw [e, hasToken_append_of_no_percent _ _ _ hpre,
    hasToken_append_breaker body [] ')' isBreaker_rparen]
  constructor
  · rintro (h | h)
    · exact h
    · exact absurd h (hasToken_nil inner)
  · exact Or.inl

theorem isWord_ne_colon (c : Char) (h : isWord c = true) : c ≠ ':' := by
  rintro rfl
  exact absurd h (by decide)

theorem isIdChar_ne_colon (c : Char) (h : isIdChar c = true) : c ≠ ':' := by
  rintro rfl
  exact absurd h (by decide)

theorem isIdChar_ne_percent (c : Char) (h : isIdChar c = true) : c ≠ '%' := by
  rintro rfl
  exact absurd h (by decide)

theorem colon_not_mem_of_run (p : Char → Bool) (hp : p ':' = false) (w : Str) (h : IsRun p w) :
    ':' ∉ w := by
  intro hm
  have := h.2 ':' hm
  rw [hp] at this
  exact absurd this (by simp)

/-- The three shapes of `nameParts`. -/
theorem split_tokenInner (inner : Str) (h : TokenInner inner) :
    (IsRun isWord inner ∧ split ':' inner = [inner]) ∨
    (∃ w i, IsRun isWord w ∧ IsRun isIdChar i ∧ inner = w ++ ':' :: i ∧
      split ':' inner = [w, i]) ∨
    (∃ w i t, IsRun isWord w ∧ IsRun isIdChar i ∧ IsRun isWord t ∧
      inner = w ++ ':' :: i ++ ':' :: t ∧ split ':' inner = [w, i, t]) := by
  rcases h with hw | ⟨w, i, hw, hi, rfl⟩ | ⟨w, i, t, hw, hi, ht, rfl⟩
  · exact Or.inl ⟨hw, split_of_not_mem ':' inner (colon_not_mem_of_run isWord isWord_colon _ hw)⟩
  · refine Or.inr (Or.inl ⟨w, i, hw, hi, rfl, ?_⟩)
    rw [split_append_sep ':' w i (colon_not_mem_of_run isWord isWord_colon _ hw),
      split_of_not_mem ':' i (colon_not_mem_of_run isIdChar isIdChar_colon _ hi)]
  · refine Or.inr (Or.inr ⟨w, i, t, hw, hi, ht, rfl, ?_⟩)
    have e : w ++ ':' :: i ++ ':' :: t = w ++ ':' :: (i ++ ':' :: t) := by simp
    rw [e, split_append_sep ':' w _ (colon_not_mem_of_run isWord isWord_colon _ hw),
      split_append_sep ':' i t (colon_not_mem_of_run isIdChar isIdChar_colon _ hi),
      split_of_not_mem ':' t (colon_not_mem_of_run isWord isWord_colon _ ht)]

theorem encode_no_percent (i : Str) (h : ∀ c ∈ i, isIdChar c = true) :
    ∀ c ∈ encode i, c ≠ '%' := by
  intro c hc
  rcases mem_replaceAll ['.'] dotSep (by simp) c i.length i (le_refl _) hc with h1 | h1
  · exact isIdChar_ne_percent c (h c h1)
  · simp only [dotSep, List.mem_cons, List.mem_singleton, List.not_mem_nil, or_false] at h1
    rcases h1 with h1 | h1 | h1 <;> (rw [h1]; decide)

theorem expandLoop_succ (Default : GoMap Str) (grok : Grok) (nco : Bool) (n : Nat)
    (st : Str × GoMap Str) :
    expandLoop Default grok nco (n + 1) st =
      match findAllStringSubmatch st.1 with
      | [] => .ok st
      | m :: ms =>
        match expandPass Default grok nco (m :: ms) st with
        | .error e => .error e
        | .ok st' => expandLoop Default grok nco n st' := rfl

theorem expandLoop_of_noToken (Default : GoMap Str) (grok : Grok) (nco : Bool) (n : Nat)
    (st : Str × GoMap Str) (h : findAllStringSubmatch st.1 = []) :
    expandLoop Default grok nco n st = .ok st := by
  cases n with
  | zero => rfl
  | succ n => rw [expandLoop_succ, h]

theorem tokenText_ne_nil (inner : Str) : tokenText inner ≠ [] := by simp [tokenText]

/-- The scan of a text that is exactly one token. -/
theorem findAll_tokenText (inner : Str) (h : TokenInner inner) :
    findAllStringSubmatch (tokenText inner) = [(tokenText inner, inner)] := by
  have hm : matchToken (tokenText inner) = some inner := by
    have := matchToken_complete inner [] h
    rwa [List.append_nil] at this
  show findAllGo 0 ('%' :: ('{' :: inner ++ ['}'])) = _
  rw [findAllGo]
  have hm' : matchToken ('%' :: ('{' :: inner ++ ['}'])) = some inner := hm
  rw [hm']
  simp only
  rw [findAllGo_of_length_le _ _ (by simp)]

/-- One pass over a text that is exactly one resolvable token. -/
theorem expandToken_tokenText (Default : GoMap Str) (grok : Grok) (nco : Bool) (inner : Str)
    (hints : GoMap Str) (body : Str)
    (hreg : lookupPattern Default grok (syntaxOf inner) = (body, true)) :
    expandToken Default grok nco (tokenText inner, hints) (tokenText inner, inner) =
      .ok
        (if nco && (split ':' inner).length == 1 then wrapBare body
          else wrapNamed
            (if (split ':' inner).length > 1 then encode ((split ':' inner).getD 1 [])
              else (split ':' inner).headD []) body,
         if (split ':' inner).length = 3 then
            mapSet hints
              (if (split ':' inner).length > 1 then encode ((split ':' inner).getD 1 [])
                else (split ':' inner).headD [])
              ((split ':' inner).getD 2 [])
          else hints) := by
  unfold expandToken
  simp only
  unfold syntaxOf at hreg
  rw [hreg]
  simp only
  rw [replaceAll_self _ _ (tokenText_ne_nil inner)]

theorem mapGet_mapSet_same {V : Type} (m : GoMap V) (k : Str) (v : V) :
    mapGet (mapSet m k v) k = some v := by
  induction m with
  | nil => simp [mapSet, mapGet]
  | cons kv rest ih =>
    obtain ⟨k', v'⟩ := kv
    by_cases h : k' = k
    · simp [mapSet, mapGet, h]
    · simp [mapSet, mapGet, h, ih]

theorem mapGet_mapSet_ne {V : Type} (m : GoMap V) (k k' : Str) (v : V) (h : k' ≠ k) :
    mapGet (mapSet m k v) k' = mapGet m k' := by
  induction m with
  | nil => simp [mapSet, mapGet, Ne.symm h]
  | cons kv rest ih =>
    obtain ⟨k0, v0⟩ := kv
    by_cases h0 : k0 = k
    · subst h0
      simp [mapSet, mapGet, Ne.symm h]
    · by_cases h1 : k0 = k'
      · subst h1
        simp [mapSet, mapGet, h0]
      · simp [mapSet, mapGet, h0, h1, ih]

theorem captureGroups_cons {K : Type} (conv : Option (Str → Str → Except GrokError K))
    (name : Str) (names ms : List Str) (captures : GoMap K) :
    captureGroups conv (name :: names) ms captures =
      if name.length = 0 then captureGroups conv names ms.tail captures
      else
        match ms with
        | [] => .panic
        | m :: rest =>
          if m.length = 0 then captureGroups conv names rest captures
          else
            match conv with
            | none => captureGroups conv names rest captures
            | some fn =>
              match fn m name with
              | .error err => .ret (none, some err)
              | .ok v => captureGroups conv names rest (mapSet captures (decode name) v) := by
  rw [captureGroups.eq_def]

/-- Groups whose decoded name is not `k` leave the entry of `k` alone. -/
theorem captureGroups_untouched {K : Type} (conv : Option (Str → Str → Except GrokError K))
    (k : Str) : ∀ (names ms : List Str) (caps caps' : GoMap K),
    (∀ n ∈ names, n ≠ [] → decode n ≠ k) →
    captureGroups conv names ms caps = .ret (some caps', none) →
    mapGet caps' k = mapGet caps k := by
  intro names
  induction names with
  | nil =>
    intro ms caps caps' _ h
    simp only [captureGroups, Run.ret.injEq, Prod.mk.injEq, Option.some.injEq, and_true] at h
    rw [h]
  | cons n names ih =>
    intro ms caps caps' hn h
    have hrest : ∀ n' ∈ names, n' ≠ [] → decode n' ≠ k :=
      fun n' h' => hn n' (List.mem_cons_of_mem _ h')
    rw [captureGroups_cons] at h
    split at h
    · exact ih _ _ _ hrest h
    · rename_i hlen
      have hne : n ≠ [] := fun e => hlen (by rw [e]; rfl)
      split at h
      · exact absurd h (by simp)
      · rename_i m rest
        split at h
        · exact ih _ _ _ hrest h
        · split at h
          · exact ih _ _ _ hrest h
          · rename_i fn
            split at h
            · exact absurd h (by simp)
            · rename_i v _
              rw [ih _ _ _ hrest h]
              exact mapGet_mapSet_ne _ _ _ _ (Ne.symm (hn n (List.mem_cons_self _ _) hne))

/-- With enough submatches the untyped extraction returns a map. -/
theorem captureGroups_string_total : ∀ (names ms : List Str) (caps : GoMap Str),
    names.length ≤ ms.length →
    ∃ caps', captureGroups stringConv names ms caps = .ret (some caps', none) := by
  intro names
  induction names with
  | nil =>
    intro ms caps _
    exact ⟨caps, rfl⟩
  | cons n names ih =>
    intro ms caps hlen
    cases ms with
    | nil => simp at hlen
    | cons m rest =>
      have hlen' : names.length ≤ rest.length := by simpa using hlen
      rw [captureGroups_cons]
      split
      · exact ih _ _ hlen'
      · simp only
        split
        · exact ih _ _ hlen'
        · simp only [stringConv]
          exact ih _ _ hlen'

theorem noToken_wrapBare (body : Str) (h : findAllStringSubmatch body = []) :
    findAllStringSubmatch (wrapBare body) = [] := by
  rw [findAll_eq_nil_iff] at h ⊢
  intro inner hi
  exact h inner ((hasToken_wrapBare body inner).mp hi)

theorem noToken_wrapNamed (targetId body : Str) (hid : ∀ c ∈ targetId, c ≠ '%')
    (h : findAllStringSubmatch body = []) :
    findAllStringSubmatch (wrapNamed targetId body) = [] := by
  rw [findAll_eq_nil_iff] at h ⊢
  intro inner hi
  exact h inner ((hasToken_wrapNamed targetId body inner hid).mp hi)

/-- Expansion of a text that is exactly one token whose body has no token:
one pass replaces it, the next pass finds nothing. -/
theorem expand_tokenText (Default : GoMap Str) (grok : Grok) (nco : Bool) (inner : Str)
    (repl : Str) (hints : GoMap Str)
    (hti : TokenInner inner)
    (hstep : expandToken Default grok nco (tokenText inner, []) (tokenText inner, inner) =
      .ok (repl, hints))
    (hrepl : findAllStringSubmatch repl = []) :
    expand Default grok (tokenText inner) nco = .ok (repl, hints) := by
  unfold expand
  rw [show (1000 : Nat) = 999 + 1 from rfl, expandLoop_succ]
  simp only
  rw [findAll_tokenText inner hti]
  simp only [expandPass, hstep]
  exact expandLoop_of_noToken _ _ _ _ _ hrepl

theorem syntaxOf_word (S : Str) (h : IsRun isWord S) : syntaxOf S = S := by
  unfold syntaxOf
  rw [split_of_not_mem ':' S (colon_not_mem_of_run isWord isWord_colon _ h)]
  rfl

theorem isWord_ne_percent (c : Char) (h : isWord c = true) : c ≠ '%' := by
  rintro rfl
  exact absurd h (by decide)

theorem expand_bare_true (Default : GoMap Str) (grok : Grok) (S b : Str)
    (hS : IsRun isWord S) (hreg : lookupPattern Default grok S = (b, true))
    (hb : findAllStringSubmatch b = []) :
    expand Default grok (tokenText S) true = .ok (wrapBare b, []) := by
  have hsp : split ':' S = [S] :=
    split_of_not_mem ':' S (colon_not_mem_of_run isWord isWord_colon _ hS)
  apply expand_tokenText Default grok true S _ _ (Or.inl hS)
  · rw [expandToken_tokenText Default grok true S [] b (by rw [syntaxOf_word S hS]; exact hreg)]
    simp [hsp]
  · exact noToken_wrapBare b hb

theorem expand_bare_false (Default : GoMap Str) (grok : Grok) (S b : Str)
    (hS : IsRun isWord S) (hreg : lookupPattern Default grok S = (b, true))
    (hb : findAllStringSubmatch b = []) :
    expand Default grok (tokenText S) false = .ok (wrapNamed S b, []) := by
  have hsp : split ':' S = [S] :=
    split_of_not_mem ':' S (colon_not_mem_of_run isWord isWord_colon _ hS)
  apply expand_tokenText Default grok false S _ _ (Or.inl hS)
  · rw [expandToken_tokenText Default grok false S [] b (by rw [syntaxOf_word S hS]; exact hreg)]
    simp [hsp]
  · exact noToken_wrapNamed S b (fun c hc => isWord_ne_percent c (hS.2 c hc)) hb

theorem compile_ok (rc : Str → Option Regexp) (Default : GoMap Str) (grok : Grok)
    (pattern : Str) (nco : Bool) (src : Str) (hints : GoMap Str) (re : Regexp)
    (he : expand Default grok pattern nco = .ok (src, hints)) (hrc : rc src = some re) :
    Compile rc Default grok pattern nco =
      ({ grok with re := some re, typeHints := hints }, none) := by
  unfold Compile compile
  rw [he]
  simp only
  rw [hrc]

/-- C1 (amended).  Let `S` be a registered name made of one or more word
characters, so that `%{S}` is a bare token, and let its body `b` contain no
token.  Then `expand` of `%{S}` returns `(b)` when `namedCapturesOnly` is true
and `(?P<S>b)` when it is false, both with an empty hint table.  Consequently,
for the expression `re` that the host engine compiles from that source: in the
first mode, where the wrapper group is unnamed and no group of `b` decodes to
`S`, the capture result has no key `S`; in the second mode, where the wrapper
group is named `S`, `S` is its own decoding and no group of `b` decodes to `S`,
the capture result has the key `S` with the text matched by the wrapper group
whenever that text is non-empty. -/
theorem expand_bare_token (Default : GoMap Str) (grok : Grok) (S b : Str)
    (hS : IsRun isWord S)
    (hreg : lookupPattern Default grok S = (b, true))
    (hb : findAllStringSubmatch b = []) :
    expand Default grok (tokenText S) true = .ok (wrapBare b, []) ∧
    expand Default grok (tokenText S) false = .ok (wrapNamed S b, []) ∧
    (∀ (rc : Str → Option Regexp) (re : Regexp) (text : Str) (inner : List Str),
      rc (wrapBare b) = some re →
      re.SubexpNames = [] :: [] :: inner →
      (∀ n ∈ inner, decode n ≠ S) →
      (re.FindStringSubmatch text = [] ∨
        re.SubexpNames.length ≤ (re.FindStringSubmatch text).length) →
      ∃ caps, ParseString (Compile rc Default grok (tokenText S) true).1 text =
          .ret (some caps, none) ∧ mapGet caps S = none) ∧
    (∀ (rc : Str → Option Regexp) (re : Regexp) (text : Str) (inner ms : List Str)
      (m0 m1 : Str),
      rc (wrapNamed S b) = some re →
      re.SubexpNames = [] :: S :: inner →
      re.FindStringSubmatch text = m0 :: m1 :: ms →
      inner.length ≤ ms.length →
      m1 ≠ [] →
      decode S = S →
      (∀ n ∈ inner, decode n ≠ S) →
      ∃ caps, ParseString (Compile rc Default grok (tokenText S) false).1 text =
          .ret (some caps, none) ∧ mapGet caps S = some m1) := by
  have h1 := expand_bare_true Default grok S b hS hreg hb
  have h2 := expand_bare_false Default grok S b hS hreg hb
  refine ⟨h1, h2, ?_, ?_⟩
  · intro rc re text inner hrc hnames hinner hlen
    rw [compile_ok rc Default grok _ true _ _ re h1 hrc]
    simp only [ParseString, captureString, captureTypeFn]
    rcases hlen with hnil | hlen
    · rw [hnil]
      exact ⟨[], by simp, rfl⟩
    · split
      · exact ⟨[], rfl, rfl⟩
      · split
        · exact ⟨[], rfl, rfl⟩
        · obtain ⟨caps, hc⟩ := captureGroups_string_total re.SubexpNames
            (re.FindStringSubmatch text) [] hlen
          refine ⟨caps, hc, ?_⟩
          rw [captureGroups_untouched stringConv S _ _ _ _ ?_ hc]
          · rfl
          · intro n hn hne
            rw [hnames] at hn
            simp only [List.mem_cons] at hn
            rcases hn with hn | hn | hn
            · exact absurd hn hne
            · exact absurd hn hne
            · exact hinner n hn
  · intro rc re text inner ms m0 m1 hrc hnames hfind hlen hm1 hdec hinner
    rw [compile_ok rc Default grok _ false _ _ re h2 hrc]
    simp only [ParseString, captureString, captureTypeFn]
    rw [hfind, hnames]
    have hSlen : ¬ S.length = 0 := fun e => hS.1 (List.length_eq_zero.mp e)
    have hm1len : ¬ m1.length = 0 := fun e => hm1 (List.length_eq_zero.mp e)
    simp only [List.length_cons, Nat.add_one_ne_zero, if_false]
    rw [captureGroups_cons]
    simp only [List.length_nil, if_true, List.tail_cons]
    rw [captureGroups_cons]
    simp only [if_neg hSlen, if_neg hm1len, stringConv]
    obtain ⟨caps, hc⟩ := captureGroups_string_total inner ms (mapSet [] (decode S) m1) hlen
    refine ⟨caps, hc, ?_⟩
    rw [captureGroups_untouched stringConv S _ _ _ _ ?_ hc]
    · rw [hdec]
      exact mapGet_mapSet_same _ _ _
    · intro n hn _
      exact hinner n hn

/-- Witness of `expand_bare_token`: the name `W` with body `\w+`. -/
theorem expand_bare_token_witness :
    IsRun isWord "W".toList ∧
    lookupPattern [] (AddPattern NewWithoutDefaultPatterns "W".toList "\\w+".toList) "W".toList =
      ("\\w+".toList, true) ∧
    findAllStringSubmatch "\\w+".toList = [] ∧
    expand [] (AddPattern NewWithoutDefaultPatterns "W".toList "\\w+".toList)
      (tokenText "W".toList) true = .ok ("(\\w+)".toList, []) ∧
    expand [] (AddPattern NewWithoutDefaultPatterns "W".toList "\\w+".toList)
      (tokenText "W".toList) false = .ok ("(?P<W>\\w+)".toList, []) :=
  have hS : IsRun isWord "W".toList := ⟨by decide, by decide⟩
  have h := expand_bare_token [] (AddPattern NewWithoutDefaultPatterns "W".toList "\\w+".toList)
    "W".toList "\\w+".toList hS (by decide) (by decide)
  ⟨hS, by decide, by decide, h.1, h.2.1⟩

/-- C1 as stated fails.  (1) The registered name `a-b` is not a word, `%{a-b}` is
no token and `expand` returns the expression unchanged.  (2) The registered
name `A___B` is surfaced under the key `A.B`, not `A___B`.  (3) With body `a*`
and a text on which the wrapper group matches the empty text, the second mode
yields no key.  (4) With body `(?P<W>a)` the first mode yields the key `W`.
In (2)-(4) the host engine is given by the group names and submatches it
reports for the expanded source. -/
theorem expand_bare_token_counterexample :
    (lookupPattern [] (AddPattern NewWithoutDefaultPatterns "a-b".toList "x".toList)
        "a-b".toList = ("x".toList, true) ∧
      findAllStringSubmatch "x".toList = [] ∧
      expand [] (AddPattern NewWithoutDefaultPatterns "a-b".toList "x".toList)
        (tokenText "a-b".toList) true = .ok (tokenText "a-b".toList, []) ∧
      expand [] (AddPattern NewWithoutDefaultPatterns "a-b".toList "x".toList)
        (tokenText "a-b".toList) true ≠ .ok (wrapBare "x".toList, [])) ∧
    (expand [] (AddPattern NewWithoutDefaultPatterns "A___B".toList "x".toList)
        (tokenText "A___B".toList) false = .ok ("(?P<A___B>x)".toList, []) ∧
      ParseString
        (Compile
          (hostCompile "(?P<A___B>x)".toList
            ⟨["".toList, "A___B".toList], fun _ => ["x".toList, "x".toList]⟩)
          [] (AddPattern NewWithoutDefaultPatterns "A___B".toList "x".toList)
          (tokenText "A___B".toList) false).1 "x".toList =
        .ret (some [("A.B".toList, "x".toList)], none) ∧
      mapGet [("A.B".toList, "x".toList)] "A___B".toList = none) ∧
    (expand [] (AddPattern NewWithoutDefaultPatterns "W".toList "a*".toList)
        (tokenText "W".toList) false = .ok ("(?P<W>a*)".toList, []) ∧
      ParseString
        (Compile
          (hostCompile "(?P<W>a*)".toList
            ⟨["".toList, "W".toList], fun _ => ["".toList, "".toList]⟩)
          [] (AddPattern NewWithoutDefaultPatterns "W".toList "a*".toList)
          (tokenText "W".toList) false).1 "b".toList =
        .ret (some [], none)) ∧
    (findAllStringSubmatch "(?P<W>a)".toList = [] ∧
      expand [] (AddPattern NewWithoutDefaultPatterns "W".toList "(?P<W>a)".toList)
        (tokenText "W".toList) true = .ok ("((?P<W>a))".toList, []) ∧
      ParseString
        (Compile
          (hostCompile "((?P<W>a))".toList
            ⟨["".toList, "".toList, "W".toList], fun _ => ["a".toList, "a".toList, "a".toList]⟩)
          [] (AddPattern NewWithoutDefaultPatterns "W".toList "(?P<W>a)".toList)
          (tokenText "W".toList) true).1 "a".toList =
        .ret (some [("W".toList, "a".toList)], none)) := by
  refine ⟨⟨?_, ?_, ?_, ?_⟩, ⟨?_, ?_, ?_⟩, ⟨?_, ?_⟩, ⟨?_, ?_, ?_⟩⟩ <;> decide

theorem encode_cons (c : Char) (cs : Str) :
    encode (c :: cs) = if c = '.' then dotSep ++ encode cs else c :: encode cs := by
  unfold encode
  by_cases h : c = '.'
  · subst h
    rw [if_pos rfl]
    exact replaceAll_prefix ['.'] dotSep cs (by simp)
  · rw [if_neg h]
    apply replaceAll_cons_of_no_occ ['.'] dotSep c cs (by simp)
    intro hp
    have := (List.cons_prefix_cons.mp hp).1
    exact h this.symm

theorem encode_nil : encode [] = [] := rfl

/-- An encoded name contains no dot. -/
theorem dot_not_mem_encode (name : Str) : '.' ∉ encode name := by
  induction name with
  | nil => simp [encode_nil]
  | cons c cs ih =>
    rw [encode_cons]
    split
    · intro h
      rcases List.mem_append.mp h with h | h
      · exact absurd h (by decide)
      · exact ih h
    · rename_i hc
      intro h
      rcases List.mem_cons.mp h with h | h
      · exact hc h.symm
      · exact ih h

/-- The step of `expand` for a token whose `nameParts` has an `ID`. -/
theorem expandToken_with_id (Default : GoMap Str) (grok : Grok) (nco : Bool)
    (inner S ID body : Str) (rest : List Str)
    (hparts : split ':' inner = S :: ID :: rest)
    (hreg : lookupPattern Default grok S = (body, true))
    (p : Str) (hints : GoMap Str) :
    expandToken Default grok nco (p, hints) (tokenText inner, inner) =
      .ok (replaceAll p (tokenText inner) (wrapNamed (encode ID) body),
        if rest.length = 1 then mapSet hints (encode ID) (rest.headD []) else hints) := by
  unfold expandToken
  simp only [hparts, List.headD_cons, hreg]
  cases rest with
  | nil => simp
  | cons ty rest' =>
    cases rest' with
    | nil => simp
    | cons ty' rest'' => simp

/-- C2.  Let `%{inner}` be a token accepted by `reusePattern` that carries an
explicit id, so that `nameParts` is `SYNTAX, ID` or `SYNTAX, ID, TYPE`, and let
`SYNTAX` be registered with body `body`.  Then, in both modes, the step of
`expand` for this token replaces its occurrences in the current expression by
the named group `(?P<encode(ID)>body)`; the group name contains no `.`; and
when the body has no token, `expand` of the expression `%{inner}` returns
exactly that group. -/
theorem expand_token_with_id (Default : GoMap Str) (grok : Grok) (nco : Bool)
    (inner S ID body : Str) (rest : List Str)
    (htok : matchToken (tokenText inner) = some inner)
    (hparts : split ':' inner = S :: ID :: rest)
    (hreg : lookupPattern Default grok S = (body, true)) :
    (∀ (p : Str) (hints : GoMap Str),
      expandToken Default grok nco (p, hints) (tokenText inner, inner) =
        .ok (replaceAll p (tokenText inner) (wrapNamed (encode ID) body),
          if rest.length = 1 then mapSet hints (encode ID) (rest.headD []) else hints)) ∧
    '.' ∉ encode ID ∧
    (findAllStringSubmatch body = [] →
      expand Default grok (tokenText inner) nco =
        .ok (wrapNamed (encode ID) body,
          if rest.length = 1 then mapSet [] (encode ID) (rest.headD []) else [])) := by
  have hstep : ∀ (p : Str) (hints : GoMap Str),
      expandToken Default grok nco (p, hints) (tokenText inner, inner) =
        .ok (replaceAll p (tokenText inner) (wrapNamed (encode ID) body),
          if rest.length = 1 then mapSet hints (encode ID) (rest.headD []) else hints) :=
    expandToken_with_id Default grok nco inner S ID body rest hparts hreg
  refine ⟨hstep, dot_not_mem_encode ID, ?_⟩
  intro hb
  have hti : TokenInner inner := (matchToken_spec _ _ htok).1
  have hid : ∀ c ∈ ID, isIdChar c = true := by
    rcases split_tokenInner inner hti with ⟨_, h1⟩ | ⟨w, i, _, hi, _, h1⟩ |
      ⟨w, i, t, _, hi, _, _, h1⟩
    · rw [hparts] at h1
      simp at h1
    · rw [hparts] at h1
      simp only [List.cons.injEq] at h1
      rw [h1.2.1]
      exact hi.2
    · rw [hparts] at h1
      simp only [List.cons.injEq] at h1
      rw [h1.2.1]
      exact hi.2
  apply expand_tokenText Default grok nco inner _ _ hti
  · rw [hstep, replaceAll_self _ _ (tokenText_ne_nil inner)]
  · exact noToken_wrapNamed _ _ (encode_no_percent ID hid) hb

/-- Witness of `expand_token_with_id`: the token `%{A:x.y:int}` with `A` = `\d+`. -/
theorem expand_token_with_id_witness :
    matchToken (tokenText "A:x.y:int".toList) = some "A:x.y:int".toList ∧
    split ':' "A:x.y:int".toList = ["A".toList, "x.y".toList, "int".toList] ∧
    expand [] (AddPattern NewWithoutDefaultPatterns "A".toList "\\d+".toList)
      (tokenText "A:x.y:int".toList) true =
        .ok ("(?P<x___y>\\d+)".toList, [("x___y".toList, "int".toList)]) :=
  ⟨by decide, by decide,
    (expand_token_with_id [] (AddPattern NewWithoutDefaultPatterns "A".toList "\\d+".toList)
      true "A:x.y:int".toList "A".toList "x.y".toList "\\d+".toList ["int".toList]
      (by decide) (by decide) (by decide)).2.2 (by decide)⟩

theorem expandToken_unknown (Default : GoMap Str) (grok : Grok) (nco : Bool)
    (st : Str × GoMap Str) (m : Str × Str)
    (h : (lookupPattern Default grok (syntaxOf m.2)).2 = false) :
    expandToken Default grok nco st m = .error (.parseFailure (syntaxOf m.2)) := by
  unfold expandToken
  unfold syntaxOf at h
  simp only
  split
  · rfl
  · rename_i heq
    rw [heq] at h
    exact absurd h (by simp)

theorem expandToken_known (Default : GoMap Str) (grok : Grok) (nco : Bool)
    (st : Str × GoMap Str) (m : Str × Str)
    (h : (lookupPattern Default grok (syntaxOf m.2)).2 = true) :
    ∃ st', expandToken Default grok nco st m = .ok st' := by
  unfold expandToken
  unfold syntaxOf at h
  simp only
  split
  · rename_i heq
    rw [heq] at h
    exact absurd h (by simp)
  · exact ⟨_, rfl⟩

/-- A pass over matches one of which has an unknown `SYNTAX` fails, naming an
unknown `SYNTAX` among them. -/
theorem expandPass_unknown (Default : GoMap Str) (grok : Grok) (nco : Bool) :
    ∀ (ms : List (Str × Str)) (st : Str × GoMap Str),
    (∃ m ∈ ms, (lookupPattern Default grok (syntaxOf m.2)).2 = false) →
    ∃ m' ∈ ms, (lookupPattern Default grok (syntaxOf m'.2)).2 = false ∧
      expandPass Default grok nco ms st = .error (.parseFailure (syntaxOf m'.2)) := by
  intro ms
  induction ms with
  | nil =>
    rintro st ⟨m, hm, _⟩
    exact absurd hm (List.not_mem_nil m)
  | cons m0 ms ih =>
    rintro st ⟨m, hm, hunk⟩
    cases h0 : (lookupPattern Default grok (syntaxOf m0.2)).2 with
    | false =>
      refine ⟨m0, List.mem_cons_self _ _, h0, ?_⟩
      rw [expandPass, expandToken_unknown Default grok nco st m0 h0]
    | true =>
      obtain ⟨st', hst'⟩ := expandToken_known Default grok nco st m0 h0
      have hm' : m ∈ ms := by
        rcases List.mem_cons.mp hm with h | h
        · rw [h, h0] at hunk
          exact absurd hunk (by simp)
        · exact h
      obtain ⟨m', hmem, hunk', hpass⟩ := ih st' ⟨m, hm', hunk⟩
      refine ⟨m', List.mem_cons_of_mem _ hmem, hunk', ?_⟩
      rw [expandPass, hst']
      exact hpass

/-- C3.  If the expression contains a token `%{inner}` whose `SYNTAX` part
`lookupPattern` does not resolve, then `Compile` returns an error that wraps
`ErrParseFailure` and names the `SYNTAX` of a token of the expression that
`lookupPattern` does not resolve, and the instance is left as it was: `re` and
`typeHints` keep their previous values. -/
theorem compile_unknown_pattern (regexpCompile : Str → Option Regexp) (Default : GoMap Str)
    (grok : Grok) (pattern : Str) (nco : Bool) (inner : Str)
    (htok : HasToken pattern inner)
    (hunk : (lookupPattern Default grok (syntaxOf inner)).2 = false) :
    ∃ inner',
      HasToken pattern inner' ∧
      (lookupPattern Default grok (syntaxOf inner')).2 = false ∧
      (Compile regexpCompile Default grok pattern nco).2 =
        some (.parseFailure (syntaxOf inner')) ∧
      (GrokError.parseFailure (syntaxOf inner')).wrapsParseFailure = true ∧
      (Compile regexpCompile Default grok pattern nco).1 = grok ∧
      (Compile regexpCompile Default grok pattern nco).1.re = grok.re ∧
      (Compile regexpCompile Default grok pattern nco).1.typeHints = grok.typeHints := by
  have hmem : (tokenText inner, inner) ∈ findAllStringSubmatch pattern :=
    (mem_findAll pattern _).mpr ⟨inner, rfl, htok⟩
  obtain ⟨m', hm', hunk', hpass⟩ :=
    expandPass_unknown Default grok nco (findAllStringSubmatch pattern) (pattern, [])
      ⟨_, hmem, hunk⟩
  obtain ⟨inner', hm'eq, htok'⟩ := (mem_findAll pattern m').mp hm'
  have hexp : expand Default grok pattern nco = .error (.parseFailure (syntaxOf m'.2)) := by
    unfold expand
    rw [show (1000 : Nat) = 999 + 1 from rfl, expandLoop_succ]
    simp only
    cases hfa : findAllStringSubmatch pattern with
    | nil =>
      rw [hfa] at hmem
      exact absurd hmem (List.not_mem_nil _)
    | cons m ms =>
      rw [hfa] at hpass
      simp only [hpass]
  have hsyn : syntaxOf m'.2 = syntaxOf inner' := by rw [hm'eq]
  have hc : Compile regexpCompile Default grok pattern nco =
      (grok, some (.parseFailure (syntaxOf inner'))) := by
    unfold Compile compile
    rw [hexp, hsyn]
  refine ⟨inner', htok', ?_, ?_, rfl, ?_, ?_, ?_⟩
  · rw [← hsyn]; exact hunk'
  · rw [hc]
  · rw [hc]
  · rw [hc]
  · rw [hc]

/-- Witness of `compile_unknown_pattern`: `%{NOT_A_REAL_PATTERN}` against an empty
registry with default lookup disabled. -/
theorem compile_unknown_pattern_witness :
    HasToken (tokenText "NOT_A_REAL_PATTERN".toList) "NOT_A_REAL_PATTERN".toList ∧
    (lookupPattern [] NewWithoutDefaultPatterns (syntaxOf "NOT_A_REAL_PATTERN".toList)).2 = false ∧
    ∃ inner',
      HasToken (tokenText "NOT_A_REAL_PATTERN".toList) inner' ∧
      (lookupPattern [] NewWithoutDefaultPatterns (syntaxOf inner')).2 = false ∧
      (Compile (fun _ => none) [] NewWithoutDefaultPatterns
        (tokenText "NOT_A_REAL_PATTERN".toList) true).2 =
        some (.parseFailure (syntaxOf inner')) ∧
      (GrokError.parseFailure (syntaxOf inner')).wrapsParseFailure = true ∧
      (Compile (fun _ => none) [] NewWithoutDefaultPatterns
        (tokenText "NOT_A_REAL_PATTERN".toList) true).1 = NewWithoutDefaultPatterns ∧
      (Compile (fun _ => none) [] NewWithoutDefaultPatterns
        (tokenText "NOT_A_REAL_PATTERN".toList) true).1.re = NewWithoutDefaultPatterns.re ∧
      (Compile (fun _ => none) [] NewWithoutDefaultPatterns
        (tokenText "NOT_A_REAL_PATTERN".toList) true).1.typeHints =
        NewWithoutDefaultPatterns.typeHints :=
  have htok : HasToken (tokenText "NOT_A_REAL_PATTERN".toList) "NOT_A_REAL_PATTERN".toList :=
    ⟨[], tokenText "NOT_A_REAL_PATTERN".toList, rfl, by decide⟩
  ⟨htok, by decide,
    compile_unknown_pattern (fun _ => none) [] NewWithoutDefaultPatterns
      (tokenText "NOT_A_REAL_PATTERN".toList) true "NOT_A_REAL_PATTERN".toList htok (by decide)⟩

theorem hostCompile_self (src : Str) (re : Regexp) : hostCompile src re src = some re := by
  simp [hostCompile]

theorem nestedGrok_expand (Default : GoMap Str) :
    expand Default nestedGrok (tokenText "B".toList) true =
      .ok ("((?P<x>\\d+)-(?P<y>\\d+))".toList, []) := by
  rfl

/-- C4.  With exactly the definitions `A` = `\d+` and `B` = `%{A:x}-%{A:y}`,
`expand` of `%{B}` with `namedCapturesOnly` returns the source
`((?P<x>\d+)-(?P<y>\d+))`, which has no token, with an empty hint table.  The
host engine reports for this source the groups `"", "", "x", "y"` and on
`12-34` the submatches `12-34, 12-34, 12, 34`; with them, `Compile` followed by
`ParseString` on `12-34` yields exactly `x` = `12` and `y` = `34`. -/
theorem nested_composition (Default : GoMap Str) (regexpCompile : Str → Option Regexp)
    (re : Regexp)
    (hrc : regexpCompile "((?P<x>\\d+)-(?P<y>\\d+))".toList = some re)
    (hnames : re.SubexpNames = ["".toList, "".toList, "x".toList, "y".toList])
    (hfind : re.FindStringSubmatch "12-34".toList =
      ["12-34".toList, "12-34".toList, "12".toList, "34".toList]) :
    expand Default nestedGrok (tokenText "B".toList) true =
      .ok ("((?P<x>\\d+)-(?P<y>\\d+))".toList, []) ∧
    findAllStringSubmatch "((?P<x>\\d+)-(?P<y>\\d+))".toList = [] ∧
    ParseString (Compile regexpCompile Default nestedGrok (tokenText "B".toList) true).1
        "12-34".toList =
      .ret (some [("x".toList, "12".toList), ("y".toList, "34".toList)], none) := by
  refine ⟨nestedGrok_expand Default, by decide, ?_⟩
  rw [compile_ok regexpCompile Default nestedGrok _ true _ _ re (nestedGrok_expand Default) hrc]
  simp only [ParseString, captureString, captureTypeFn]
  rw [hfind, hnames]
  decide

/-- Witness of `nested_composition`: the host engine's answer written out. -/
theorem nested_composition_witness :
    ParseString
        (Compile
          (hostCompile "((?P<x>\\d+)-(?P<y>\\d+))".toList
            ⟨["".toList, "".toList, "x".toList, "y".toList],
              fun _ => ["12-34".toList, "12-34".toList, "12".toList, "34".toList]⟩)
          [] nestedGrok (tokenText "B".toList) true).1
        "12-34".toList =
      .ret (some [("x".toList, "12".toList), ("y".toList, "34".toList)], none) :=
  (nested_composition []
    (hostCompile "((?P<x>\\d+)-(?P<y>\\d+))".toList
      ⟨["".toList, "".toList, "x".toList, "y".toList],
        fun _ => ["12-34".toList, "12-34".toList, "12".toList, "34".toList]⟩)
    ⟨["".toList, "".toList, "x".toList, "y".toList],
      fun _ => ["12-34".toList, "12-34".toList, "12".toList, "34".toList]⟩
    (hostCompile_self _ _) rfl rfl).2.2

theorem decode_nil : decode [] = [] := rfl

theorem decode_dotSep_append (s : Str) : decode (dotSep ++ s) = '.' :: decode s := by
  unfold decode
  exact replaceAll_prefix dotSep ['.'] s (by simp [dotSep])

theorem decode_cons_of_no_occ (c : Char) (cs : Str) (h : ¬ dotSep <+: c :: cs) :
    decode (c :: cs) = c :: decode cs := by
  unfold decode
  exact replaceAll_cons_of_no_occ dotSep ['.'] c cs (by simp [dotSep]) h

/-- Decoding undoes encoding on the names in which no underscore stands right
before a dot and no three underscores stand in a row. -/
theorem decode_encode_of_safe (name : Str)
    (h1 : ¬ ['_', '.'] <:+: name) (h2 : ¬ ['_', '_', '_'] <:+: name) :
    decode (encode name) = name := by
  induction name with
  | nil => rfl
  | cons c cs ih =>
    have t1 : ¬ ['_', '.'] <:+: cs := fun h => h1 (List.infix_cons h)
    have t2 : ¬ ['_', '_', '_'] <:+: cs := fun h => h2 (List.infix_cons h)
    rw [encode_cons]
    split
    · rename_i hc
      rw [decode_dotSep_append, ih t1 t2, hc]
    · rename_i hc
      rw [decode_cons_of_no_occ, ih t1 t2]
      intro hp
      have hc' : c = '_' := ((List.cons_prefix_cons.mp hp).1).symm
      have hp1 : ['_', '_'] <+: encode cs := (List.cons_prefix_cons.mp hp).2
      subst hc'
      cases cs with
      | nil =>
        rw [encode_nil] at hp1
        simp at hp1
      | cons d ds =>
        rw [encode_cons] at hp1
        by_cases hd : d = '.'
        · subst hd
          exact h1 (List.IsPrefix.isInfix (List.prefix_append ['_', '.'] ds))
        · rw [if_neg hd] at hp1
          have hd' : d = '_' := ((List.cons_prefix_cons.mp hp1).1).symm
          have hp2 : ['_'] <+: encode ds := (List.cons_prefix_cons.mp hp1).2
          subst hd'
          cases ds with
          | nil =>
            rw [encode_nil] at hp2
            simp at hp2
          | cons e es =>
            rw [encode_cons] at hp2
            by_cases he : e = '.'
            · subst he
              exact t1 (List.IsPrefix.isInfix (List.prefix_append ['_', '.'] es))
            · rw [if_neg he] at hp2
              have he' : e = '_' := ((List.cons_prefix_cons.mp hp2).1).symm
              subst he'
              exact h2 (List.IsPrefix.isInfix (List.prefix_append ['_', '_', '_'] es))

/-- C6 (amended).  For every field name, with or without dots, in which no `_`
stands right before a `.` and which does not contain `___`,
`decode(encode(name)) = name`. -/
theorem decode_encode_roundtrip (name : Str)
    (h1 : ¬ "_.".toList <:+: name) (h2 : ¬ "___".toList <:+: name) :
    decode (encode name) = name :=
  decode_encode_of_safe name h1 h2

/-- Witness of `decode_encode_roundtrip`: the name `destination.port`. -/
theorem decode_encode_roundtrip_witness :
    ¬ "_.".toList <:+: "destination.port".toList ∧
    ¬ "___".toList <:+: "destination.port".toList ∧
    decode (encode "destination.port".toList) = "destination.port".toList :=
  ⟨by decide, by decide,
    decode_encode_roundtrip "destination.port".toList (by decide) (by decide)⟩

/-- C6 as stated fails: the names `a_.b` and `a___b.c` contain a dot, are
accepted as `ID` by `reusePattern`, and do not survive the round trip. -/
theorem decode_encode_roundtrip_counterexample :
    ('.' ∈ "a_.b".toList ∧
      matchToken (tokenText "S:a_.b".toList) = some "S:a_.b".toList ∧
      encode "a_.b".toList = "a____b".toList ∧
      decode (encode "a_.b".toList) = "a._b".toList ∧
      decode (encode "a_.b".toList) ≠ "a_.b".toList) ∧
    ('.' ∈ "a___b.c".toList ∧
      matchToken (tokenText "S:a___b.c".toList) = some "S:a___b.c".toList ∧
      decode (encode "a___b.c".toList) = "a.b.c".toList ∧
      decode (encode "a___b.c".toList) ≠ "a___b.c".toList) := by
  refine ⟨⟨?_, ?_, ?_, ?_, ?_⟩, ⟨?_, ?_, ?_, ?_⟩⟩ <;> decide

/-- Groups that do not both have a name decoding to `k` and a non-empty match
leave the entry of `k` alone. -/
theorem captureGroups_untouched_zip {K : Type}
    (conv : Option (Str → Str → Except GrokError K)) (k : Str) :
    ∀ (names ms : List Str) (caps caps' : GoMap K),
    (∀ nm ∈ names.zip ms, nm.1 ≠ [] → nm.2 ≠ [] → decode nm.1 ≠ k) →
    captureGroups conv names ms caps = .ret (some caps', none) →
    mapGet caps' k = mapGet caps k := by
  intro names
  induction names with
  | nil =>
    intro ms caps caps' _ h
    simp only [captureGroups, Run.ret.injEq, Prod.mk.injEq, Option.some.injEq, and_true] at h
    rw [h]
  | cons n names ih =>
    intro ms caps caps' hn h
    rw [captureGroups_cons] at h
    cases ms with
    | nil =>
      split at h
      · exact ih _ _ _ (by simp) h
      · exact absurd h (by simp)
    | cons m rest =>
      have hrest : ∀ nm ∈ names.zip rest, nm.1 ≠ [] → nm.2 ≠ [] → decode nm.1 ≠ k :=
        fun nm h' => hn nm (by simp [List.zip_cons_cons, h'])
      split at h
      · exact ih _ _ _ hrest h
      · rename_i hlen
        have hne : n ≠ [] := fun e => hlen (by rw [e]; rfl)
        simp only at h
        split at h
        · exact ih _ _ _ hrest h
        · rename_i hmlen
          have hme : m ≠ [] := fun e => hmlen (by rw [e]; rfl)
          split at h
          · exact ih _ _ _ hrest h
          · rename_i fn
            split at h
            · exact absurd h (by simp)
            · rename_i v _
              rw [ih _ _ _ hrest h]
              refine mapGet_mapSet_ne _ _ _ _ (Ne.symm ?_)
              exact hn (n, m) (by simp [List.zip_cons_cons]) hne hme

/-- The entry written for a group survives to the returned map when no later
group with a non-empty match decodes to the same key. -/
theorem captureGroups_get {K : Type} (conv : Str → Str → Except GrokError K)
    (n m : Str) (v : K) (post mpost : List Str)
    (hn : n ≠ []) (hm : m ≠ []) (hconv : conv m n = .ok v)
    (hlater : ∀ nm ∈ post.zip mpost, nm.1 ≠ [] → nm.2 ≠ [] → decode nm.1 ≠ decode n) :
    ∀ (pre mpre : List Str) (caps caps' : GoMap K),
    pre.length = mpre.length →
    captureGroups (some conv) (pre ++ n :: post) (mpre ++ m :: mpost) caps =
      .ret (some caps', none) →
    mapGet caps' (decode n) = some v := by
  intro pre
  induction pre with
  | nil =>
    intro mpre caps caps' hlen h
    have : mpre = [] := List.length_eq_zero.mp hlen.symm
    subst this
    simp only [List.nil_append] at h
    rw [captureGroups_cons] at h
    have hnl : ¬ n.length = 0 := fun e => hn (List.length_eq_zero.mp e)
    have hml : ¬ m.length = 0 := fun e => hm (List.length_eq_zero.mp e)
    simp only [if_neg hnl, if_neg hml, hconv] at h
    rw [captureGroups_untouched_zip (some conv) (decode n) post mpost _ _ hlater h]
    exact mapGet_mapSet_same _ _ _
  | cons p pre ih =>
    intro mpre caps caps' hlen h
    cases mpre with
    | nil => simp at hlen
    | cons q mpre =>
      have hlen' : pre.length = mpre.length := by simpa using hlen
      simp only [List.cons_append] at h
      rw [captureGroups_cons] at h
      split at h
      · exact ih _ _ _ hlen' h
      · simp only at h
        split at h
        · exact ih _ _ _ hlen' h
        · split at h
          · exact absurd h (by simp)
          · exact ih _ _ _ hlen' h

theorem letters_digits_dots_safe (ID : Str)
    (hID : ∀ c ∈ ID, c.isAlphanum = true ∨ c = '.') :
    ¬ ['_', '.'] <:+: ID ∧ ¬ ['_', '_', '_'] <:+: ID := by
  have hno : '_' ∉ ID := by
    intro h
    rcases hID '_' h with h' | h'
    · exact absurd h' (by decide)
    · exact absurd h' (by decide)
  constructor
  · rintro ⟨a, b, hab⟩
    apply hno
    rw [← hab]
    simp
  · rintro ⟨a, b, hab⟩
    apply hno
    rw [← hab]
    simp

theorem isIdChar_of_letter_digit_dot (c : Char) (h : c.isAlphanum = true ∨ c = '.') :
    isIdChar c = true := by
  rcases h with h | h
  · simp [isIdChar, isWord, h]
  · subst h
    decide

theorem encode_ne_nil (name : Str) (h : name ≠ []) : encode name ≠ [] := by
  cases name with
  | nil => exact absurd rfl h
  | cons c cs =>
    rw [encode_cons]
    split <;> simp [dotSep]

/-- C7 (amended).  Let `%{S:ID}` be a token whose `ID` is made of letters, digits
and dots, with `S` registered.  The step of `expand` names the group
`encode(ID)`, and `decode(encode(ID)) = ID`.  Whenever a group of that name
matches a non-empty text `v` and no later group with a non-empty match decodes
to `ID` (in particular when the name occurs once), `ParseString` returns a
mapping that contains the key exactly `ID` mapped to `v`. -/
theorem dotted_field_extraction (Default : GoMap Str) (grok : Grok) (nco : Bool)
    (S ID body : Str)
    (hS : IsRun isWord S) (hne : ID ≠ [])
    (hID : ∀ c ∈ ID, c.isAlphanum = true ∨ c = '.')
    (hreg : lookupPattern Default grok S = (body, true)) :
    matchToken (tokenText (S ++ ':' :: ID)) = some (S ++ ':' :: ID) ∧
    (∀ (p : Str) (hints : GoMap Str),
      expandToken Default grok nco (p, hints) (tokenText (S ++ ':' :: ID), S ++ ':' :: ID) =
        .ok (replaceAll p (tokenText (S ++ ':' :: ID)) (wrapNamed (encode ID) body), hints)) ∧
    decode (encode ID) = ID ∧
    (∀ (g : Grok) (re : Regexp) (text : Str) (pre post mpre mpost : List Str) (v : Str),
      g.re = some re →
      re.SubexpNames = pre ++ encode ID :: post →
      re.FindStringSubmatch text = mpre ++ v :: mpost →
      pre.length = mpre.length →
      post.length ≤ mpost.length →
      v ≠ [] →
      (∀ nm ∈ post.zip mpost, nm.1 ≠ [] → nm.2 ≠ [] → decode nm.1 ≠ ID) →
      ∃ caps, ParseString g text = .ret (some caps, none) ∧ mapGet caps ID = some v) := by
  have hIDrun : IsRun isIdChar ID :=
    ⟨hne, fun c hc => isIdChar_of_letter_digit_dot c (hID c hc)⟩
  have hti : TokenInner (S ++ ':' :: ID) := Or.inr (Or.inl ⟨S, ID, hS, hIDrun, rfl⟩)
  have hsplit : split ':' (S ++ ':' :: ID) = S :: ID :: [] := by
    rw [split_append_sep ':' S ID (colon_not_mem_of_run isWord isWord_colon _ hS),
      split_of_not_mem ':' ID (colon_not_mem_of_run isIdChar isIdChar_colon _ hIDrun)]
  have hdec : decode (encode ID) = ID :=
    decode_encode_of_safe ID (letters_digits_dots_safe ID hID).1
      (letters_digits_dots_safe ID hID).2
  refine ⟨?_, ?_, hdec, ?_⟩
  · have := matchToken_complete (S ++ ':' :: ID) [] hti
    rwa [List.append_nil] at this
  · intro p hints
    have := expandToken_with_id Default grok nco (S ++ ':' :: ID) S ID body [] hsplit hreg
      p hints
    simpa using this
  · intro g re text pre post mpre mpost v hre hnames hfind hlen hlen2 hv hlater
    simp only [ParseString, captureString, hre, captureTypeFn]
    rw [hfind, hnames]
    have h1 : ¬ (mpre ++ v :: mpost).length = 0 := by simp
    have h2 : ¬ (pre ++ encode ID :: post).length = 0 := by simp
    simp only [if_neg h1, if_neg h2]
    obtain ⟨caps, hc⟩ := captureGroups_string_total (pre ++ encode ID :: post)
      (mpre ++ v :: mpost) [] (by simp only [List.length_append, List.length_cons]; omega)
    refine ⟨caps, hc, ?_⟩
    have hlater' : ∀ nm ∈ post.zip mpost, nm.1 ≠ [] → nm.2 ≠ [] →
        decode nm.1 ≠ decode (encode ID) := by
      rw [hdec]
      exact hlater
    have := captureGroups_get (fun v _ => .ok v) (encode ID) v v post mpost
      (encode_ne_nil ID hne) hv rfl hlater' pre mpre [] caps hlen hc
    rwa [hdec] at this

/-- Witness of `dotted_field_extraction`: the token `%{NUMBER:destination.port}` and
a match of `127.0.0.1:1234` in which the port group matched `1234`. -/
theorem dotted_field_extraction_witness :
    ∃ caps,
      ParseString
          { patternDefinitions := [("NUMBER".toList, "\\d+".toList)],
            re := some ⟨["".toList, "destination___ip".toList, "destination___port".toList],
              fun _ => ["127.0.0.1:1234".toList, "127.0.0.1".toList, "1234".toList]⟩,
            typeHints := [], lookupDefaultPatterns := false }
          "127.0.0.1:1234".toList = .ret (some caps, none) ∧
      mapGet caps "destination.port".toList = some "1234".toList :=
  (dotted_field_extraction [] (AddPattern NewWithoutDefaultPatterns "NUMBER".toList "\\d+".toList)
      true "NUMBER".toList "destination.port".toList "\\d+".toList
      ⟨by decide, by decide⟩ (by decide) (by decide) (by decide)).2.2.2
    _ ⟨["".toList, "destination___ip".toList, "destination___port".toList],
        fun _ => ["127.0.0.1:1234".toList, "127.0.0.1".toList, "1234".toList]⟩
    "127.0.0.1:1234".toList ["".toList, "destination___ip".toList] []
    ["127.0.0.1:1234".toList, "127.0.0.1".toList] [] "1234".toList
    rfl (by decide) rfl rfl (by decide) (by decide) (by simp)

/-- C7 as stated fails when two groups share a name.  With `A` = `x%{B:q.r}` and
`B` = `b`, the expression `%{A:q.r}` expands to `(?P<q___r>x(?P<q___r>b))`; on
`xb` the group of the token `%{A:q.r}` matches the non-empty text `xb`, yet the
key `q.r` is mapped to `b`, the match of the later group of that name. -/
theorem dotted_field_extraction_counterexample :
    expand []
        (AddPattern (AddPattern NewWithoutDefaultPatterns "A".toList "x%\x7bB:q.r\x7d".toList)
          "B".toList "b".toList)
        (tokenText "A:q.r".toList) true =
      .ok ("(?P<q___r>x(?P<q___r>b))".toList, []) ∧
    ParseString
        (Compile
          (hostCompile "(?P<q___r>x(?P<q___r>b))".toList
            ⟨["".toList, "q___r".toList, "q___r".toList],
              fun _ => ["xb".toList, "xb".toList, "b".toList]⟩)
          []
          (AddPattern (AddPattern NewWithoutDefaultPatterns "A".toList "x%\x7bB:q.r\x7d".toList)
            "B".toList "b".toList)
          (tokenText "A:q.r".toList) true).1 "xb".toList =
      .ret (some [("q.r".toList, "b".toList)], none) ∧
    mapGet [("q.r".toList, "b".toList)] "q.r".toList ≠ some "xb".toList := by
  refine ⟨?_, ?_, ?_⟩ <;> decide

/-! ## Typed extraction -/

theorem mapKeys_mapSet_of_mem {V : Type} (m : GoMap V) (k : Str) (v : V) (h : k ∈ mapKeys m) :
    mapKeys (mapSet m k v) = mapKeys m := by
  induction m with
  | nil => exact absurd h (List.not_mem_nil _)
  | cons kv rest ih =>
    obtain ⟨k', v'⟩ := kv
    by_cases hk : k' = k
    · simp [mapSet, mapKeys, hk]
    · have h' : k ∈ mapKeys rest := by
        simp only [mapKeys, List.map_cons, List.mem_cons] at h
        rcases h with h | h
        · exact absurd h.symm hk
        · exact h
      have := ih h'
      simp only [mapKeys] at this
      simp [mapSet, mapKeys, hk, this]

theorem mapSet_of_not_mem {V : Type} (m : GoMap V) (k : Str) (v : V) (h : k ∉ mapKeys m) :
    mapSet m k v = m ++ [(k, v)] := by
  induction m with
  | nil => rfl
  | cons kv rest ih =>
    obtain ⟨k', v'⟩ := kv
    have hk : k' ≠ k := fun e => h (by
      show k ∈ k' :: mapKeys rest
      rw [e]
      exact List.mem_cons_self _ _)
    have h' : k ∉ mapKeys rest := fun e => h (by
      simp only [mapKeys, List.map_cons, List.mem_cons]
      exact Or.inr e)
    simp [mapSet, hk, ih h']

theorem nodup_mapSet {V : Type} (m : GoMap V) (k : Str) (v : V) (h : (mapKeys m).Nodup) :
    (mapKeys (mapSet m k v)).Nodup := by
  by_cases hk : k ∈ mapKeys m
  · rw [mapKeys_mapSet_of_mem m k v hk]
    exact h
  · rw [mapSet_of_not_mem m k v hk]
    simp only [mapKeys, List.map_append, List.map_cons, List.map_nil]
    rw [List.nodup_append]
    refine ⟨h, by simp, ?_⟩
    intro a ha hb
    simp only [List.mem_singleton] at hb
    subst hb
    exact hk ha

theorem captureGroups_nodup {K : Type} (conv : Option (Str → Str → Except GrokError K)) :
    ∀ (names ms : List Str) (caps caps' : GoMap K),
    (mapKeys caps).Nodup →
    captureGroups conv names ms caps = .ret (some caps', none) →
    (mapKeys caps').Nodup := by
  intro names
  induction names with
  | nil =>
    intro ms caps caps' hnd h
    simp only [captureGroups, Run.ret.injEq, Prod.mk.injEq, Option.some.injEq, and_true] at h
    rw [← h]
    exact hnd
  | cons n names ih =>
    intro ms caps caps' hnd h
    rw [captureGroups_cons] at h
    split at h
    · exact ih _ _ _ hnd h
    · split at h
      · exact absurd h (by simp)
      · split at h
        · exact ih _ _ _ hnd h
        · split at h
          · exact ih _ _ _ hnd h
          · split at h
            · exact absurd h (by simp)
            · exact ih _ _ _ (nodup_mapSet _ _ _ hnd) h

theorem copy_foldl {V : Type} : ∀ (caps acc : GoMap V), (mapKeys (acc ++ caps)).Nodup →
    caps.foldl (fun a kv => mapSet a kv.1 kv.2) acc = acc ++ caps := by
  intro caps
  induction caps with
  | nil => intro acc _; simp only [List.foldl_nil, List.append_nil]
  | cons kv rest ih =>
    intro acc hnd
    obtain ⟨k, v⟩ := kv
    have hk : k ∉ mapKeys acc := by
      intro hmem
      simp only [mapKeys, List.map_append, List.map_cons] at hnd hmem
      rw [List.nodup_append] at hnd
      exact hnd.2.2 hmem (List.mem_cons_self _ _)
    simp only [List.foldl_cons]
    rw [mapSet_of_not_mem acc k v hk, ih]
    · simp
    · simpa using hnd

/-- On success `ParseTyped` returns the captures of `captureTyped`: the copy has
the same entries. -/
theorem parseTyped_of_captureTyped_ok (grok : Grok) (text : Str) (caps : GoMap Value)
    (h : captureTyped grok text = .ret (some caps, none)) :
    ParseTyped grok text = .ret (some caps, none) := by
  have hnd : (mapKeys caps).Nodup := by
    unfold captureTyped at h
    split at h
    · exact absurd h (by simp)
    · rename_i re _
      unfold captureTypeFn at h
      simp only at h
      split at h
      · simp only [Run.ret.injEq, Prod.mk.injEq, Option.some.injEq, and_true] at h
        rw [← h]
        exact List.nodup_nil
      · split at h
        · simp only [Run.ret.injEq, Prod.mk.injEq, Option.some.injEq, and_true] at h
          rw [← h]
          exact List.nodup_nil
        · exact captureGroups_nodup _ _ _ ([] : GoMap Value) _ List.nodup_nil h
  unfold ParseTyped
  rw [h]
  simp only [Option.getD_some]
  rw [copy_foldl caps [] (by simpa using hnd)]
  simp

theorem parseTyped_of_captureTyped_err (grok : Grok) (text : Str) (x : Option (GoMap Value))
    (e : GrokError) (h : captureTyped grok text = .ret (x, some e)) :
    ParseTyped grok text = .ret (none, some e) := by
  unfold ParseTyped
  rw [h]

theorem foldl_digits (ds : Str) : ∀ (a : Nat),
    ds.foldl (fun acc ch => acc * 10 + digitVal ch) a = a * 10 ^ ds.length + natValue ds := by
  induction ds with
  | nil => intro a; simp [natValue]
  | cons c cs ih =>
    intro a
    simp only [List.foldl_cons, ih, List.length_cons, natValue]
    ring

theorem isDigit_ne_sign (c : Char) (h : c.isDigit = true) : c ≠ '+' ∧ c ≠ '-' := by
  constructor
  · rintro rfl
    exact absurd h (by decide)
  · rintro rfl
    exact absurd h (by decide)

theorem stripSign_signed (sign digits : Str)
    (hsign : sign = [] ∨ sign = ['+'] ∨ sign = ['-'])
    (hdigits : IsRun Char.isDigit digits) :
    stripSign (sign ++ digits) = digits ∧
    ((sign ++ digits).head? = some '-' ↔ sign = ['-']) := by
  obtain ⟨hne, hall⟩ := hdigits
  rcases hsign with h | h | h
  · subst h
    cases digits with
    | nil => exact absurd rfl hne
    | cons d ds =>
      obtain ⟨hp, hm⟩ := isDigit_ne_sign d (hall d (List.mem_cons_self _ _))
      constructor
      · unfold stripSign
        rw [if_neg]
        · rfl
        · simp [hp, hm]
      · simp [hm]
  · subst h
    constructor
    · unfold stripSign
      rw [if_pos]
      · rfl
      · simp
    · simp
  · subst h
    constructor
    · unfold stripSign
      rw [if_pos]
      · rfl
      · simp
    · simp

/-- `Atoi` on an optionally signed digit string within the `int` range returns the
integer it writes. -/
theorem Atoi_decimal (sign digits : Str)
    (hsign : sign = [] ∨ sign = ['+'] ∨ sign = ['-'])
    (hdigits : IsRun Char.isDigit digits)
    (hlo : -(2 ^ 63 : Int) ≤ decimalValue sign digits)
    (hhi : decimalValue sign digits ≤ (2 ^ 63 : Int) - 1) :
    Atoi (sign ++ digits) = some (decimalValue sign digits) := by
  obtain ⟨hstrip, hneg⟩ := stripSign_signed sign digits hsign hdigits
  obtain ⟨hne, hall⟩ := hdigits
  have hall' : digits.all Char.isDigit = true := List.all_eq_true.mpr hall
  have hfold : digits.foldl (fun acc ch => acc * 10 + digitVal ch) 0 = natValue digits := by
    rw [foldl_digits]
    simp
  have hok : ¬ (digits = [] ∨ ¬ (digits.all Char.isDigit = true)) := by
    rintro (h | h)
    · exact hne h
    · exact h hall'
  unfold Atoi
  simp only [hstrip]
  rw [if_neg hok, hfold]
  unfold decimalValue at hlo hhi ⊢
  by_cases hs : sign = ['-']
  · rw [if_pos hs] at hlo hhi ⊢
    rw [if_pos (hneg.mpr hs)]
    rw [if_neg (by omega)]
  · rw [if_neg hs] at hlo hhi ⊢
    rw [if_neg (fun h => hs (hneg.mp h))]
    rw [if_neg (by omega)]

theorem convertMatch_int (grok : Grok) (m name hint : Str)
    (hhint : mapGet grok.typeHints name = some hint)
    (hty : hint = "int".toList ∨ hint = "long".toList) :
    convertMatch grok m name =
      match Atoi m with
      | some n => .ok (.int n)
      | none => .error (.numError m) := by
  unfold convertMatch
  rw [hhint]
  have h1 : hint ≠ "string".toList := by rcases hty with h | h <;> (rw [h]; decide)
  have h2 : hint ≠ "double".toList := by rcases hty with h | h <;> (rw [h]; decide)
  have h3 : hint ≠ "float".toList := by rcases hty with h | h <;> (rw [h]; decide)
  show (if hint = "string".toList then _ else _) = _
  rw [if_neg h1, if_neg h2, if_neg h3, if_pos hty]

theorem captureGroups_skip_all {K : Type} (conv : Option (Str → Str → Except GrokError K)) :
    ∀ (names ms : List Str) (caps : GoMap K),
    (∀ nm ∈ names.zip ms, nm.1 = [] ∨ nm.2 = []) →
    names.length ≤ ms.length →
    captureGroups conv names ms caps = .ret (some caps, none) := by
  intro names
  induction names with
  | nil => intro ms caps _ _; rfl
  | cons n names ih =>
    intro ms caps h hlen
    cases ms with
    | nil => simp at hlen
    | cons m rest =>
      have hrest : ∀ nm ∈ names.zip rest, nm.1 = [] ∨ nm.2 = [] :=
        fun nm h' => h nm (by simp [List.zip_cons_cons, h'])
      have hlen' : names.length ≤ rest.length := by simpa using hlen
      rw [captureGroups_cons]
      split
      · exact ih _ _ hrest hlen'
      · rename_i hn
        simp only
        split
        · exact ih _ _ hrest hlen'
        · rename_i hm
          exfalso
          rcases h (n, m) (by simp [List.zip_cons_cons]) with h1 | h1
          · exact hn (by simp at h1; rw [h1]; rfl)
          · exact hm (by simp at h1; rw [h1]; rfl)

theorem captureGroups_skip_front {K : Type} (conv : Option (Str → Str → Except GrokError K))
    (names ms : List Str) :
    ∀ (pre mpre : List Str) (caps : GoMap K),
    (∀ nm ∈ pre.zip mpre, nm.1 = [] ∨ nm.2 = []) →
    pre.length = mpre.length →
    captureGroups conv (pre ++ names) (mpre ++ ms) caps = captureGroups conv names ms caps := by
  intro pre
  induction pre with
  | nil =>
    intro mpre caps _ hlen
    have : mpre = [] := List.length_eq_zero.mp hlen.symm
    subst this
    rfl
  | cons n pre ih =>
    intro mpre caps h hlen
    cases mpre with
    | nil => simp at hlen
    | cons m rest =>
      have hrest : ∀ nm ∈ pre.zip rest, nm.1 = [] ∨ nm.2 = [] :=
        fun nm h' => h nm (by simp [List.zip_cons_cons, h'])
      have hlen' : pre.length = rest.length := by simpa using hlen
      simp only [List.cons_append]
      rw [captureGroups_cons]
      split
      · exact ih _ _ hrest hlen'
      · rename_i hn
        simp only
        split
        · exact ih _ _ hrest hlen'
        · rename_i hm
          exfalso
          rcases h (n, m) (by simp [List.zip_cons_cons]) with h1 | h1
          · exact hn (by simp at h1; rw [h1]; rfl)
          · exact hm (by simp at h1; rw [h1]; rfl)

/-- The step of the extraction loop at a group with a name, a non-empty match
and a successful conversion. -/
theorem captureGroups_step {K : Type} (conv : Str → Str → Except GrokError K)
    (n m : Str) (v : K) (names ms : List Str) (caps : GoMap K)
    (hn : n ≠ []) (hm : m ≠ []) (hconv : conv m n = .ok v) :
    captureGroups (some conv) (n :: names) (m :: ms) caps =
      captureGroups (some conv) names ms (mapSet caps (decode n) v) := by
  rw [captureGroups_cons]
  have hnl : ¬ n.length = 0 := fun e => hn (List.length_eq_zero.mp e)
  have hml : ¬ m.length = 0 := fun e => hm (List.length_eq_zero.mp e)
  simp only [if_neg hnl, if_neg hml, hconv]

/-- The step of the extraction loop at a group whose conversion fails. -/
theorem captureGroups_step_err {K : Type} (conv : Str → Str → Except GrokError K)
    (n m : Str) (e : GrokError) (names ms : List Str) (caps : GoMap K)
    (hn : n ≠ []) (hm : m ≠ []) (hconv : conv m n = .error e) :
    captureGroups (some conv) (n :: names) (m :: ms) caps = .ret (none, some e) := by
  rw [captureGroups_cons]
  have hnl : ¬ n.length = 0 := fun e => hn (List.length_eq_zero.mp e)
  have hml : ¬ m.length = 0 := fun e => hm (List.length_eq_zero.mp e)
  simp only [if_neg hnl, if_neg hml, hconv]

theorem captureGroups_ret_shape {K : Type} (conv : Option (Str → Str → Except GrokError K)) :
    ∀ (names ms : List Str) (caps : GoMap K) (x : Option (GoMap K)),
    captureGroups conv names ms caps = .ret (x, none) → ∃ caps', x = some caps' := by
  intro names
  induction names with
  | nil =>
    intro ms caps x h
    simp only [captureGroups, Run.ret.injEq, Prod.mk.injEq, and_true] at h
    exact ⟨caps, h.symm⟩
  | cons n names ih =>
    intro ms caps x h
    rw [captureGroups_cons] at h
    split at h
    · exact ih _ _ _ h
    · split at h
      · exact absurd h (by simp)
      · split at h
        · exact ih _ _ _ h
        · split at h
          · exact ih _ _ _ h
          · split at h
            · exact absurd h (by simp)
            · exact ih _ _ _ h

/-- A mapping returned by `ParseTyped` is the mapping built by `captureTyped`. -/
theorem captureTyped_of_parseTyped_ok (grok : Grok) (text : Str) (caps : GoMap Value)
    (h : ParseTyped grok text = .ret (some caps, none)) :
    captureTyped grok text = .ret (some caps, none) := by
  cases hc : captureTyped grok text with
  | panic =>
    unfold ParseTyped at h
    rw [hc] at h
    exact absurd h (by simp)
  | ret out =>
    obtain ⟨x, err⟩ := out
    cases err with
    | some e =>
      rw [parseTyped_of_captureTyped_err grok text x e hc] at h
      exact absurd h (by simp)
    | none =>
      have hshape : ∃ caps', x = some caps' := by
        unfold captureTyped at hc
        split at hc
        · exact absurd hc (by simp)
        · unfold captureTypeFn at hc
          simp only at hc
          split at hc
          · simp only [Run.ret.injEq, Prod.mk.injEq, and_true] at hc
            exact ⟨[], hc.symm⟩
          · split at hc
            · simp only [Run.ret.injEq, Prod.mk.injEq, and_true] at hc
              exact ⟨[], hc.symm⟩
            · exact captureGroups_ret_shape _ _ _ _ _ hc
      obtain ⟨caps', hx⟩ := hshape
      subst hx
      rw [parseTyped_of_captureTyped_ok grok text caps' hc] at h
      simp only [Run.ret.injEq, Prod.mk.injEq, Option.some.injEq, and_true] at h
      rw [h]

/-- Typed extraction when one group has a name, a non-empty match `m` that
converts to `v`, and every other group is unnamed or has an empty match. -/
theorem parseTyped_sole (grok : Grok) (re : Regexp) (text : Str)
    (pre post mpre mpost : List Str) (n m : Str) (v : Value)
    (hre : grok.re = some re)
    (hnames : re.SubexpNames = pre ++ n :: post)
    (hfind : re.FindStringSubmatch text = mpre ++ m :: mpost)
    (hlen : pre.length = mpre.length) (hlen2 : post.length ≤ mpost.length)
    (hpre : ∀ nm ∈ pre.zip mpre, nm.1 = [] ∨ nm.2 = [])
    (hpost : ∀ nm ∈ post.zip mpost, nm.1 = [] ∨ nm.2 = [])
    (hn : n ≠ []) (hm : m ≠ []) (hconv : convertMatch grok m n = .ok v) :
    ParseTyped grok text = .ret (some [(decode n, v)], none) := by
  apply parseTyped_of_captureTyped_ok
  simp only [captureTyped, hre, captureTypeFn]
  rw [hfind, hnames]
  have h1 : ¬ (mpre ++ m :: mpost).length = 0 := by simp
  have h2 : ¬ (pre ++ n :: post).length = 0 := by simp
  simp only [if_neg h1, if_neg h2]
  rw [captureGroups_skip_front _ _ _ pre mpre [] hpre hlen,
    captureGroups_step (convertMatch grok) n m v post mpost [] hn hm hconv,
    captureGroups_skip_all _ post mpost _ hpost hlen2]
  rfl

/-- Typed extraction that returns a mapping: the entry of a group with a name
and a non-empty match `m` that converts to `v`, when no later group with a
non-empty match decodes to the same key. -/
theorem parseTyped_get (grok : Grok) (re : Regexp) (text : Str)
    (pre post mpre mpost : List Str) (n m : Str) (v : Value) (caps : GoMap Value)
    (hre : grok.re = some re)
    (hnames : re.SubexpNames = pre ++ n :: post)
    (hfind : re.FindStringSubmatch text = mpre ++ m :: mpost)
    (hlen : pre.length = mpre.length)
    (hlater : ∀ nm ∈ post.zip mpost, nm.1 ≠ [] → nm.2 ≠ [] → decode nm.1 ≠ decode n)
    (hn : n ≠ []) (hm : m ≠ []) (hconv : convertMatch grok m n = .ok v)
    (hret : ParseTyped grok text = .ret (some caps, none)) :
    mapGet caps (decode n) = some v := by
  have hc := captureTyped_of_parseTyped_ok grok text caps hret
  simp only [captureTyped, hre, captureTypeFn] at hc
  rw [hfind, hnames] at hc
  have h1 : ¬ (mpre ++ m :: mpost).length = 0 := by simp
  have h2 : ¬ (pre ++ n :: post).length = 0 := by simp
  simp only [if_neg h1, if_neg h2] at hc
  exact captureGroups_get (convertMatch grok) n m v post mpost hn hm hconv hlater
    pre mpre [] caps hlen hc

/-- C9 (code at the failing input).  With `NUM` = `\d+\.\d+`, compiling
`%{NUM:n:float}` (or `%{NUM:n:double}`) records the hint, and `ParseTyped` on
`3.5` returns the mapping `n` to `nil`: the result of `strconv.ParseFloat` is
dropped and the switch falls through to `return nil, nil`. -/
theorem typed_float_yields_nil :
    expand [] floatGrok (tokenText "NUM:n:float".toList) true =
      .ok ("(?P<n>\\d+\\.\\d+)".toList, [("n".toList, "float".toList)]) ∧
    ParseTyped (Compile floatHost [] floatGrok (tokenText "NUM:n:float".toList) true).1
        "3.5".toList = .ret (some [("n".toList, Value.nil)], none) ∧
    ParseTyped (Compile floatHost [] floatGrok (tokenText "NUM:n:double".toList) true).1
        "3.5".toList = .ret (some [("n".toList, Value.nil)], none) := by
  refine ⟨?_, ?_, ?_⟩ <;> decide

theorem parseBool_true (m : Str) (h : m ∈ trueTexts) : ParseBool m = some true := by
  simp only [trueTexts, List.mem_cons, List.mem_singleton, List.not_mem_nil, or_false] at h
  rcases h with h | h | h | h | h | h <;> (subst h; decide)

theorem parseBool_false (m : Str) (h : m ∈ falseTexts) : ParseBool m = some false := by
  simp only [falseTexts, List.mem_cons, List.mem_singleton, List.not_mem_nil, or_false] at h
  rcases h with h | h | h | h | h | h <;> (subst h; decide)

theorem parseBool_other (m : Str) (ht : m ∉ trueTexts) (hf : m ∉ falseTexts) :
    ParseBool m = none := by
  unfold ParseBool
  rw [if_neg, if_neg]
  · intro h
    apply hf
    simp only [falseTexts, List.mem_cons, List.mem_singleton, List.not_mem_nil, or_false]
    exact h
  · intro h
    apply ht
    simp only [trueTexts, List.mem_cons, List.mem_singleton, List.not_mem_nil, or_false]
    exact h

theorem convertMatch_bool (grok : Grok) (m name hint : Str)
    (hhint : mapGet grok.typeHints name = some hint)
    (hty : hint = "bool".toList ∨ hint = "boolean".toList) :
    convertMatch grok m name =
      match ParseBool m with
      | some b => .ok (.bool b)
      | none => .error (.numError m) := by
  unfold convertMatch
  rw [hhint]
  have h1 : hint ≠ "string".toList := by rcases hty with h | h <;> (rw [h]; decide)
  have h2 : hint ≠ "double".toList := by rcases hty with h | h <;> (rw [h]; decide)
  have h3 : hint ≠ "float".toList := by rcases hty with h | h <;> (rw [h]; decide)
  have h4 : ¬ (hint = "int".toList ∨ hint = "long".toList) := by
    rcases hty with h | h <;> (rw [h]; decide)
  show (if hint = "string".toList then _ else _) = _
  rw [if_neg h1, if_neg h2, if_neg h3, if_neg h4, if_pos hty]

/-- When a group with a name and a non-empty match fails to convert, the
extraction returns an error and no mapping. -/
theorem captureGroups_err {K : Type} (conv : Str → Str → Except GrokError K)
    (n m : Str) (e : GrokError) (post mpost : List Str)
    (hn : n ≠ []) (hm : m ≠ []) (hconv : conv m n = .error e) :
    ∀ (pre mpre : List Str) (caps : GoMap K),
    pre.length = mpre.length →
    ∃ e', captureGroups (some conv) (pre ++ n :: post) (mpre ++ m :: mpost) caps =
      .ret (none, some e') := by
  intro pre
  induction pre with
  | nil =>
    intro mpre caps hlen
    have : mpre = [] := List.length_eq_zero.mp hlen.symm
    subst this
    exact ⟨e, captureGroups_step_err conv n m e post mpost caps hn hm hconv⟩
  | cons p pre ih =>
    intro mpre caps hlen
    cases mpre with
    | nil => simp at hlen
    | cons q mpre =>
      have hlen' : pre.length = mpre.length := by simpa using hlen
      simp only [List.cons_append]
      rw [captureGroups_cons]
      split
      · exact ih _ _ hlen'
      · simp only
        split
        · exact ih _ _ hlen'
        · split
          · exact ⟨_, rfl⟩
          · exact ih _ _ hlen'

/-- Typed extraction fails when some group with a name and a non-empty match
fails to convert. -/
theorem parseTyped_err (grok : Grok) (re : Regexp) (text : Str)
    (pre post mpre mpost : List Str) (n m : Str) (e : GrokError)
    (hre : grok.re = some re)
    (hnames : re.SubexpNames = pre ++ n :: post)
    (hfind : re.FindStringSubmatch text = mpre ++ m :: mpost)
    (hlen : pre.length = mpre.length)
    (hn : n ≠ []) (hm : m ≠ []) (hconv : convertMatch grok m n = .error e) :
    ∃ e', ParseTyped grok text = .ret (none, some e') := by
  obtain ⟨e', he'⟩ := captureGroups_err (convertMatch grok) n m e post mpost hn hm hconv
    pre mpre [] hlen
  refine ⟨e', parseTyped_of_captureTyped_err grok text none e' ?_⟩
  simp only [captureTyped, hre, captureTypeFn]
  rw [hfind, hnames]
  have h1 : ¬ (mpre ++ m :: mpost).length = 0 := by simp
  have h2 : ¬ (pre ++ n :: post).length = 0 := by simp
  simp only [if_neg h1, if_neg h2]
  exact he'

theorem ne_nil_of_mem_boolTexts (m : Str) (h : m ∈ trueTexts ∨ m ∈ falseTexts) : m ≠ [] := by
  rintro rfl
  rcases h with h | h
  · exact absurd h (by decide)
  · exact absurd h (by decide)

/-! ## Termination of the expansion -/

/-- A text without `(` that starts a replaced text starts the original text:
the first change made by a replacement that begins with `(` is a `(`. -/
theorem prefix_of_prefix_replaceAll (old R1 : Str) (hold : old ≠ []) :
    ∀ (s u : Str), '(' ∉ u → u <+: replaceAll s old ('(' :: R1) → u <+: s := by
  intro s
  induction s with
  | nil =>
    intro u _ hu
    rw [replaceAll_nil old _ hold] at hu
    exact hu
  | cons c cs ih =>
    intro u hnot hu
    by_cases hp : old <+: c :: cs
    · obtain ⟨r, hr⟩ := hp
      rw [← hr, replaceAll_prefix old _ r hold] at hu
      rcases List.prefix_cons_iff.mp hu with h | ⟨t, ht, _⟩
      · rw [h]
        exact List.nil_prefix
      · exfalso
        apply hnot
        rw [ht]
        exact List.mem_cons_self _ _
    · rw [replaceAll_cons_of_no_occ old _ c cs hold hp] at hu
      rcases List.prefix_cons_iff.mp hu with h | ⟨t, ht, hpre⟩
      · rw [h]
        exact List.nil_prefix
      · rw [ht]
        apply List.cons_prefix_cons.mpr
        refine ⟨rfl, ih t ?_ hpre⟩
        intro hm
        apply hnot
        rw [ht]
        exact List.mem_cons_of_mem _ hm

theorem matchToken_of_replaceAll (old R1 : Str) (hold : old ≠ []) (s inner : Str)
    (h : matchToken (replaceAll s old ('(' :: R1)) = some inner) :
    matchToken s = some inner := by
  obtain ⟨hti, r, hr⟩ := matchToken_spec _ _ h
  have hpre : tokenText inner <+: replaceAll s old ('(' :: R1) := ⟨r, hr.symm⟩
  obtain ⟨r', hr'⟩ := prefix_of_prefix_replaceAll old R1 hold s (tokenText inner)
    (not_mem_tokenText_of_breaker inner hti '(' isBreaker_lparen) hpre
  rw [← hr']
  exact matchToken_complete inner r' hti

/-- After replacing the token `%{tok}` by a text `R0)` that starts with `(`, every
token occurrence is an occurrence of another token of the original text or
lies inside `R0`. -/
theorem hasToken_replaceAll (tok R1 : Str) (inner : Str) :
    ∀ (n : Nat) (s : Str), s.length ≤ n →
    HasToken (replaceAll s (tokenText tok) (('(' :: R1) ++ [')'])) inner →
    (HasToken s inner ∧ inner ≠ tok) ∨ HasToken ('(' :: R1) inner := by
  intro n
  induction n with
  | zero =>
    intro s hs h
    have : s = [] := List.length_eq_zero.mp (Nat.le_zero.mp hs)
    subst this
    rw [replaceAll_nil _ _ (tokenText_ne_nil tok)] at h
    exact absurd h (hasToken_nil inner)
  | succ n ih =>
    intro s hs h
    cases s with
    | nil =>
      rw [replaceAll_nil _ _ (tokenText_ne_nil tok)] at h
      exact absurd h (hasToken_nil inner)
    | cons c cs =>
      by_cases hp : tokenText tok <+: c :: cs
      · obtain ⟨r, hr⟩ := hp
        rw [← hr, replaceAll_prefix _ _ r (tokenText_ne_nil tok)] at h
        have e : (('(' :: R1) ++ [')']) ++ replaceAll r (tokenText tok) (('(' :: R1) ++ [')'])
            = ('(' :: R1) ++ ')' :: replaceAll r (tokenText tok) (('(' :: R1) ++ [')']) := by
          simp
        rw [e, hasToken_append_breaker _ _ ')' isBreaker_rparen] at h
        rcases h with h | h
        · exact Or.inr h
        · have hlen : r.length ≤ n := by
            have h2 : (tokenText tok ++ r).length = (c :: cs).length := by rw [hr]
            simp only [List.length_append, List.length_cons, tokenText] at h2 hs
            omega
          rcases ih r hlen h with ⟨h1, h2⟩ | h1
          · left
            rw [← hr]
            exact ⟨hasToken_append_right _ _ _ h1, h2⟩
          · exact Or.inr h1
      · have hrw := replaceAll_cons_of_no_occ (tokenText tok) (('(' :: R1) ++ [')']) c cs
          (tokenText_ne_nil tok) hp
        rw [hrw] at h
        rcases (hasToken_cons _ _ _).mp h with h1 | h1
        · rw [← hrw] at h1
          have h2 := matchToken_of_replaceAll (tokenText tok) (R1 ++ [')'])
            (tokenText_ne_nil tok) (c :: cs) inner h1
          left
          refine ⟨(hasToken_cons _ _ _).mpr (Or.inl h2), ?_⟩
          intro heq
          apply hp
          obtain ⟨_, r, hr⟩ := matchToken_spec _ _ h2
          rw [← heq]
          exact ⟨r, hr.symm⟩
        · have hlen : cs.length ≤ n := by
            simp only [List.length_cons] at hs
            omega
          rcases ih cs hlen h1 with ⟨h2, h3⟩ | h2
          · exact Or.inl ⟨(hasToken_cons _ _ _).mpr (Or.inr h2), h3⟩
          · exact Or.inr h2

theorem hasToken_lparen_cons (R1 inner : Str) :
    HasToken ('(' :: R1) inner ↔ HasToken R1 inner := by
  have := hasToken_append_of_no_percent ['('] R1 inner (by simp)
  simpa using this

/-- The step of `expand` for a token of the grammar whose `SYNTAX` is registered:
its occurrences are replaced by a text `(R1)` whose tokens are those of the
body. -/
theorem expandToken_shape (Default : GoMap Str) (grok : Grok) (nco : Bool)
    (st : Str × GoMap Str) (inner body : Str) (hti : TokenInner inner)
    (hreg : lookupPattern Default grok (syntaxOf inner) = (body, true)) :
    ∃ R1 hints,
      expandToken Default grok nco st (tokenText inner, inner) =
        .ok (replaceAll st.1 (tokenText inner) (('(' :: R1) ++ [')']), hints) ∧
      ∀ i, HasToken ('(' :: R1) i → HasToken body i := by
  have hbare : ∀ i, HasToken ('(' :: body) i → HasToken body i :=
    fun i h => (hasToken_lparen_cons body i).mp h
  have hnamed : ∀ (tid : Str), (∀ c ∈ tid, c ≠ '%') →
      ∀ i, HasToken ('(' :: ('?' :: 'P' :: '<' :: tid ++ '>' :: body)) i → HasToken body i := by
    intro tid htid i h
    have h1 : HasToken (wrapNamed tid body) i := by
      have e : wrapNamed tid body =
          ('(' :: ('?' :: 'P' :: '<' :: tid ++ '>' :: body)) ++ ')' :: [] := by
        simp [wrapNamed]
      rw [e, hasToken_append_breaker _ _ ')' isBreaker_rparen]
      exact Or.inl h
    exact (hasToken_wrapNamed tid body i htid).mp h1
  have hwb : wrapBare body = ('(' :: body) ++ [')'] := by simp [wrapBare]
  have hwn : ∀ tid, wrapNamed tid body =
      ('(' :: ('?' :: 'P' :: '<' :: tid ++ '>' :: body)) ++ [')'] := by
    intro tid
    simp [wrapNamed]
  unfold syntaxOf at hreg
  rcases split_tokenInner inner hti with ⟨hw, hsp⟩ | ⟨w, i, hw, hi, _, hsp⟩ |
    ⟨w, i, t, hw, hi, _, _, hsp⟩
  · rw [hsp] at hreg
    cases nco with
    | true =>
      refine ⟨body, st.2, ?_, hbare⟩
      unfold expandToken
      simp only [hsp, hreg]
      simp [hwb]
    | false =>
      refine ⟨'?' :: 'P' :: '<' :: inner ++ '>' :: body, st.2, ?_,
        hnamed inner (fun c hc => isWord_ne_percent c (hw.2 c hc))⟩
      unfold expandToken
      simp only [hsp, hreg]
      simp [hwn]
  · rw [hsp] at hreg
    refine ⟨'?' :: 'P' :: '<' :: encode i ++ '>' :: body, st.2, ?_,
      hnamed (encode i) (encode_no_percent i hi.2)⟩
    unfold expandToken
    simp only [hsp, hreg]
    simp [hwn]
  · rw [hsp] at hreg
    refine ⟨'?' :: 'P' :: '<' :: encode i ++ '>' :: body, mapSet st.2 (encode i) t, ?_,
      hnamed (encode i) (encode_no_percent i hi.2)⟩
    unfold expandToken
    simp only [hsp, hreg]
    simp [hwn]

theorem resolvesWithin_succ (Default : GoMap Str) (grok : Grok) (n : Nat) (grokId : Str)
    (h : resolvesWithin Default grok (n + 1) grokId = true) :
    ∃ body, lookupPattern Default grok grokId = (body, true) ∧
      ∀ i, HasToken body i → resolvesWithin Default grok n (syntaxOf i) = true := by
  rw [resolvesWithin] at h
  split at h
  · rename_i body heq
    refine ⟨body, heq, ?_⟩
    intro i hi
    have hm : (tokenText i, i) ∈ findAllStringSubmatch body :=
      (mem_findAll body _).mpr ⟨i, rfl, hi⟩
    exact List.all_eq_true.mp h _ hm
  · exact absurd h (by simp)

/-- One pass over matches that all resolve within `n + 1` definitions succeeds,
and every token left in the text is an untouched token of the old text or
resolves within `n`. -/
theorem expandPass_resolves (Default : GoMap Str) (grok : Grok) (nco : Bool) (n : Nat) :
    ∀ (ms : List (Str × Str)) (st : Str × GoMap Str),
    (∀ m ∈ ms, ∃ inner, m = (tokenText inner, inner) ∧ TokenInner inner ∧
      resolvesWithin Default grok (n + 1) (syntaxOf inner) = true) →
    ∃ st', expandPass Default grok nco ms st = .ok st' ∧
      ∀ i, HasToken st'.1 i →
        (HasToken st.1 i ∧ (tokenText i, i) ∉ ms) ∨
        resolvesWithin Default grok n (syntaxOf i) = true := by
  intro ms
  induction ms with
  | nil =>
    intro st _
    exact ⟨st, rfl, fun i hi => Or.inl ⟨hi, List.not_mem_nil _⟩⟩
  | cons m ms ih =>
    intro st hms
    obtain ⟨i0, hm, hti, hres⟩ := hms m (List.mem_cons_self _ _)
    obtain ⟨body, hreg, hbody⟩ := resolvesWithin_succ Default grok n _ hres
    obtain ⟨R1, hints, hstep, hR⟩ := expandToken_shape Default grok nco st i0 body hti hreg
    obtain ⟨st', hpass, hst'⟩ := ih (replaceAll st.1 (tokenText i0) (('(' :: R1) ++ [')']), hints)
      (fun m' hm' => hms m' (List.mem_cons_of_mem _ hm'))
    refine ⟨st', ?_, ?_⟩
    · rw [expandPass, hm, hstep]
      exact hpass
    · intro i hi
      rcases hst' i hi with ⟨h1, h2⟩ | h1
      · rcases hasToken_replaceAll i0 R1 i st.1.length st.1 (le_refl _) h1 with ⟨h3, h4⟩ | h3
        · left
          refine ⟨h3, ?_⟩
          intro hmem
          rcases List.mem_cons.mp hmem with h5 | h5
          · rw [hm] at h5
            exact h4 (Prod.mk.inj h5).2
          · exact h2 h5
        · exact Or.inr (hbody i (hR i h3))
      · exact Or.inr h1

/-- Expansion of a text whose tokens all resolve within `n` definitions, with at
least `n` passes allowed, returns a text without token. -/
theorem expandLoop_resolves (Default : GoMap Str) (grok : Grok) (nco : Bool) :
    ∀ (n fuel : Nat) (st : Str × GoMap Str), n ≤ fuel →
    (∀ i, HasToken st.1 i → resolvesWithin Default grok n (syntaxOf i) = true) →
    ∃ st', expandLoop Default grok nco fuel st = .ok st' ∧
      findAllStringSubmatch st'.1 = [] := by
  intro n
  induction n with
  | zero =>
    intro fuel st _ h
    have hnone : findAllStringSubmatch st.1 = [] := by
      rw [findAll_eq_nil_iff]
      intro i hi
      have := h i hi
      rw [resolvesWithin] at this
      exact absurd this (by simp)
    exact ⟨st, expandLoop_of_noToken _ _ _ _ _ hnone, hnone⟩
  | succ n ih =>
    intro fuel st hle h
    cases fuel with
    | zero => omega
    | succ f =>
      rw [expandLoop_succ]
      cases hfa : findAllStringSubmatch st.1 with
      | nil => exact ⟨st, rfl, hfa⟩
      | cons m ms =>
        simp only
        have hms : ∀ m' ∈ findAllStringSubmatch st.1, ∃ inner,
            m' = (tokenText inner, inner) ∧ TokenInner inner ∧
            resolvesWithin Default grok (n + 1) (syntaxOf inner) = true := by
          intro m' hm'
          obtain ⟨inner, he, hi⟩ := (mem_findAll st.1 m').mp hm'
          exact ⟨inner, he, hasToken_tokenInner _ _ hi, h inner hi⟩
        obtain ⟨st', hpass, hst'⟩ :=
          expandPass_resolves Default grok nco n (findAllStringSubmatch st.1) st hms
        rw [hfa] at hpass
        rw [hpass]
        simp only
        apply ih f st' (by omega)
        intro i hi
        rcases hst' i hi with ⟨h1, h2⟩ | h1
        · exact absurd ((mem_findAll st.1 _).mpr ⟨i, rfl, h1⟩) h2
        · exact h1

/-- C5 (amended).  For every registry and every expression all of whose tokens
resolve transitively through reference chains of at most 1000 definitions (the
pass budget; such chains have no cycle), `expand` returns without error a
source in which the token regular expression has no match. -/
theorem expand_terminates_token_free (Default : GoMap Str) (grok : Grok) (pattern : Str)
    (nco : Bool)
    (h : ∀ m ∈ findAllStringSubmatch pattern,
      resolvesWithin Default grok 1000 (syntaxOf m.2) = true) :
    ∃ src hints, expand Default grok pattern nco = .ok (src, hints) ∧
      findAllStringSubmatch src = [] := by
  obtain ⟨st', h1, h2⟩ := expandLoop_resolves Default grok nco 1000 1000 (pattern, [])
    (le_refl _) (fun i hi => h (tokenText i, i) ((mem_findAll pattern _).mpr ⟨i, rfl, hi⟩))
  exact ⟨st'.1, st'.2, h1, h2⟩

/-- Witness of `expand_terminates_token_free`: the nested-composition registry, whose
chain `B`, `A` has two definitions. -/
theorem expand_terminates_token_free_witness :
    ∃ src hints, expand [] nestedGrok (tokenText "B".toList) true = .ok (src, hints) ∧
      findAllStringSubmatch src = [] :=
  expand_terminates_token_free [] nestedGrok (tokenText "B".toList) true (by decide)

/-! ## A reference chain deeper than the pass budget -/

theorem chainName_inj (i j : Nat) (h : chainName i = chainName j) : i = j := by
  have := congrArg List.length h
  simpa [chainName] using this

theorem chainName_run (i : Nat) : IsRun isWord (chainName i) := by
  refine ⟨by simp [chainName], ?_⟩
  intro c hc
  have : c = 'a' := List.eq_of_mem_replicate hc
  rw [this]
  decide

theorem chainGrok_succ (n : Nat) :
    chainGrok (n + 1) = AddPattern (chainGrok n) (chainName n) (chainBody n) := by
  unfold chainGrok
  rw [List.range_succ, List.foldl_append]
  rfl

theorem chainGrok_flag (n : Nat) : (chainGrok n).lookupDefaultPatterns = false := by
  induction n with
  | zero => rfl
  | succ n ih =>
    rw [chainGrok_succ]
    exact ih

theorem chainGrok_keys (n : Nat) :
    ∀ k ∈ mapKeys (chainGrok n).patternDefinitions, ∃ i, i < n ∧ k = chainName i := by
  induction n with
  | zero =>
    intro k hk
    exact absurd hk (List.not_mem_nil _)
  | succ n ih =>
    intro k hk
    rw [chainGrok_succ] at hk
    simp only [AddPattern] at hk
    by_cases hmem : chainName n ∈ mapKeys (chainGrok n).patternDefinitions
    · rw [mapKeys_mapSet_of_mem _ _ _ hmem] at hk
      obtain ⟨i, hi, he⟩ := ih k hk
      exact ⟨i, by omega, he⟩
    · rw [mapSet_of_not_mem _ _ _ hmem] at hk
      simp only [mapKeys, List.map_append, List.map_cons, List.map_nil, List.mem_append,
        List.mem_singleton] at hk
      rcases hk with hk | hk
      · obtain ⟨i, hi, he⟩ := ih k hk
        exact ⟨i, by omega, he⟩
      · exact ⟨n, by omega, hk⟩

theorem mapGet_of_not_mem {V : Type} (m : GoMap V) (k : Str) (h : k ∉ mapKeys m) :
    mapGet m k = none := by
  induction m with
  | nil => rfl
  | cons kv rest ih =>
    obtain ⟨k', v'⟩ := kv
    have hk : k' ≠ k := fun e => h (by
      show k ∈ k' :: mapKeys rest
      rw [e]
      exact List.mem_cons_self _ _)
    have h' : k ∉ mapKeys rest := fun e => h (by
      show k ∈ k' :: mapKeys rest
      exact List.mem_cons_of_mem _ e)
    simp [mapGet, hk, ih h']

theorem chainGrok_get (n : Nat) : ∀ i, i < n →
    mapGet (chainGrok n).patternDefinitions (chainName i) = some (chainBody i) := by
  induction n with
  | zero => intro i hi; omega
  | succ n ih =>
    intro i hi
    rw [chainGrok_succ]
    simp only [AddPattern]
    by_cases hin : i = n
    · subst hin
      exact mapGet_mapSet_same _ _ _
    · rw [mapGet_mapSet_ne _ _ _ _ (fun e => hin (chainName_inj _ _ e))]
      exact ih i (by omega)

theorem chainGrok_lookup (n i : Nat) (h : i < n) :
    lookupPattern [] (chainGrok n) (chainName i) = (chainBody i, true) := by
  unfold lookupPattern
  rw [chainGrok_get n i h]

theorem findAllGo_skip (x r : Str) : findAllGo x.length (x ++ r) = findAllGo 0 r := by
  induction x with
  | nil => rfl
  | cons c cs ih => simpa [findAllGo] using ih

theorem findAllGo_replicate (c : Char) (hc : c ≠ '%') (k : Nat) (r : Str) :
    findAllGo 0 (List.replicate k c ++ r) = findAllGo 0 r := by
  induction k with
  | zero => rfl
  | succ k ih =>
    rw [List.replicate_succ, List.cons_append, findAllGo, matchToken_of_head_ne c _ hc]
    exact ih

theorem findAll_chainText (k j : Nat) :
    findAllStringSubmatch (chainText k j) = [(tokenText (chainName j), chainName j)] := by
  unfold findAllStringSubmatch chainText
  rw [findAllGo_replicate '(' (by decide)]
  have hm : matchToken (tokenText (chainName j) ++ List.replicate k ')') =
      some (chainName j) :=
    matchToken_complete _ _ (Or.inl (chainName_run j))
  have e : tokenText (chainName j) ++ List.replicate k ')' =
      '%' :: (('{' :: chainName j ++ ['}']) ++ List.replicate k ')') := by
    simp [tokenText]
  rw [e] at hm ⊢
  rw [findAllGo, hm]
  simp only
  have hl : (chainName j).length + 2 = ('{' :: chainName j ++ ['}']).length := by simp
  rw [hl, findAllGo_skip]
  have := findAllGo_replicate ')' (by decide) k []
  rw [List.append_nil] at this
  rw [this]
  rfl

theorem replaceAll_replicate (old new : Str) (c c0 : Char) (olds : Str) (hold : old = c0 :: olds)
    (hc : c ≠ c0) (k : Nat) (r : Str) :
    replaceAll (List.replicate k c ++ r) old new =
      List.replicate k c ++ replaceAll r old new := by
  induction k with
  | zero => rfl
  | succ k ih =>
    rw [List.replicate_succ, List.cons_append,
      replaceAll_cons_of_no_occ old new c _ (by rw [hold]; simp), ih]
    · rfl
    · rw [hold]
      intro hp
      exact hc (List.cons_prefix_cons.mp hp).1.symm

theorem replaceAll_chainText (k j : Nat) (new : Str) :
    replaceAll (chainText k j) (tokenText (chainName j)) new =
      List.replicate k '(' ++ (new ++ List.replicate k ')') := by
  unfold chainText
  rw [replaceAll_replicate (tokenText (chainName j)) new '(' '%' _ rfl (by decide),
    replaceAll_prefix _ _ _ (tokenText_ne_nil _)]
  have := replaceAll_replicate (tokenText (chainName j)) new ')' '%' _ rfl (by decide) k []
  rw [List.append_nil, replaceAll_nil _ _ (tokenText_ne_nil _), List.append_nil] at this
  rw [this]

theorem chainText_wrap (k j : Nat) :
    List.replicate k '(' ++ (wrapBare (tokenText (chainName j)) ++ List.replicate k ')') =
      chainText (k + 1) j := by
  unfold chainText wrapBare
  rw [List.replicate_succ' (k + 0), List.replicate_succ]
  simp

/-- One pass on the chain: the token of name `j + 1` becomes the wrapped token of
name `j`. -/
theorem chain_pass (n k j : Nat) (h : j + 1 < n) (hints : GoMap Str) :
    expandPass [] (chainGrok n) true (findAllStringSubmatch (chainText k (j + 1)))
        (chainText k (j + 1), hints) = .ok (chainText (k + 1) j, hints) := by
  rw [findAll_chainText]
  have hsp : split ':' (chainName (j + 1)) = [chainName (j + 1)] :=
    split_of_not_mem ':' _ (colon_not_mem_of_run isWord isWord_colon _ (chainName_run _))
  simp only [expandPass]
  unfold expandToken
  simp only [hsp, List.headD_cons, chainGrok_lookup n (j + 1) h]
  simp only [List.length_singleton, gt_iff_lt, lt_self_iff_false, if_false,
    show (1 : Nat) = 3 ↔ False from by decide, beq_self_eq_true, Bool.and_self, if_true]
  rw [replaceAll_chainText]
  show Except.ok (List.replicate k '(' ++ (wrapBare (tokenText (chainName j)) ++
    List.replicate k ')'), hints) = _
  rw [chainText_wrap]

/-- `f` passes on the chain peel `f` names and add `f` pairs of parentheses. -/
theorem chain_loop (n : Nat) : ∀ (f k j : Nat), j + f < n →
    expandLoop [] (chainGrok n) true f (chainText k (j + f), []) =
      .ok (chainText (k + f) j, []) := by
  intro f
  induction f with
  | zero => intro k j _; rfl
  | succ f ih =>
    intro k j h
    rw [expandLoop_succ]
    have hfa := findAll_chainText k (j + (f + 1))
    have hpass := chain_pass n k (j + f) (by omega) []
    rw [show j + f + 1 = j + (f + 1) from by omega] at hpass
    simp only
    rw [hfa] at hpass ⊢
    simp only
    rw [hpass]
    simp only
    rw [ih (k + 1) j (by omega)]
    rw [show k + 1 + f = k + (f + 1) from by omega]

theorem chain_resolves (n : Nat) : ∀ j, j < n →
    resolvesWithin [] (chainGrok n) (j + 1) (chainName j) = true := by
  intro j
  induction j with
  | zero =>
    intro h
    rw [resolvesWithin, chainGrok_lookup n 0 h]
    rfl
  | succ j ih =>
    intro h
    rw [resolvesWithin, chainGrok_lookup n (j + 1) h]
    simp only [chainBody]
    rw [findAll_tokenText _ (Or.inl (chainName_run j))]
    simp only [List.all_cons, List.all_nil, Bool.and_true]
    rw [syntaxOf_word _ (chainName_run j)]
    exact ih (by omega)

/-- C5 as stated fails on a deep chain.  The registry of 1001 names, each
referring to the previous one and the first having the body `x`, has no cycle,
and the token `%{a...a}` of the last name resolves transitively (within 1001
definitions).  After its 1000 passes `expand` returns, without error, the
token of the first name inside 1000 pairs of parentheses, in which the token
regular expression still has a match. -/
theorem expand_deep_chain_counterexample :
    resolvesWithin [] (chainGrok 1001) 1001 (syntaxOf (chainName 1000)) = true ∧
    expand [] (chainGrok 1001) (tokenText (chainName 1000)) true =
      .ok (chainText 1000 0, []) ∧
    findAllStringSubmatch (chainText 1000 0) = [(tokenText (chainName 0), chainName 0)] := by
  refine ⟨?_, ?_, findAll_chainText 1000 0⟩
  · rw [syntaxOf_word _ (chainName_run 1000)]
    exact chain_resolves 1001 1000 (by omega)
  · have h := chain_loop 1001 1000 0 0 (by omega)
    have e : chainText 0 (0 + 1000) = tokenText (chainName 1000) := by
      simp [chainText]
    rw [e] at h
    unfold expand
    rw [h]

/-! ## Typed extraction: text, unknown types, failures -/

theorem convertMatch_string (grok : Grok) (m name : Str)
    (hhint : mapGet grok.typeHints name = none ∨
      mapGet grok.typeHints name = some "string".toList) :
    convertMatch grok m name = .ok (.str m) := by
  unfold convertMatch
  rcases hhint with h | h
  · rw [h]
  · rw [h]
    rfl

/-- C11.  For a capture (a named group `name` of the match) whose hint is `string`
or that has no entry in the type-hint table, the conversion applied by
`ParseTyped` returns the matched text unchanged as a text value, with no error,
and the extraction loop writes it under the decoded name.  When the other
groups are unnamed or matched nothing, `ParseTyped` returns exactly the mapping
from the decoded name to the text; and whenever `ParseTyped` returns a mapping
and no later group with a non-empty match decodes to the same key, the decoded
name is mapped to the text. -/
theorem typed_string_passthrough (grok : Grok) (name : Str)
    (hname : name ≠ [])
    (hhint : mapGet grok.typeHints name = none ∨
      mapGet grok.typeHints name = some "string".toList) :
    (∀ m, convertMatch grok m name = .ok (.str m)) ∧
    (∀ (m : Str) (names ms : List Str) (captures : GoMap Value), m ≠ [] →
      captureGroups (some (convertMatch grok)) (name :: names) (m :: ms) captures =
        captureGroups (some (convertMatch grok)) names ms
          (mapSet captures (decode name) (.str m))) ∧
    (∀ (re : Regexp) (text : Str) (pre post mpre mpost : List Str) (m : Str),
      m ≠ [] →
      grok.re = some re →
      re.SubexpNames = pre ++ name :: post →
      re.FindStringSubmatch text = mpre ++ m :: mpost →
      pre.length = mpre.length →
      post.length ≤ mpost.length →
      (∀ nm ∈ pre.zip mpre, nm.1 = [] ∨ nm.2 = []) →
      (∀ nm ∈ post.zip mpost, nm.1 = [] ∨ nm.2 = []) →
      ParseTyped grok text = .ret (some [(decode name, .str m)], none)) ∧
    (∀ (re : Regexp) (text : Str) (pre post mpre mpost : List Str) (m : Str)
      (caps : GoMap Value),
      m ≠ [] →
      grok.re = some re →
      re.SubexpNames = pre ++ name :: post →
      re.FindStringSubmatch text = mpre ++ m :: mpost →
      pre.length = mpre.length →
      (∀ nm ∈ post.zip mpost, nm.1 ≠ [] → nm.2 ≠ [] → decode nm.1 ≠ decode name) →
      ParseTyped grok text = .ret (some caps, none) →
      mapGet caps (decode name) = some (.str m)) := by
  have hconv : ∀ m, convertMatch grok m name = .ok (.str m) :=
    fun m => convertMatch_string grok m name hhint
  refine ⟨hconv, ?_, ?_, ?_⟩
  · intro m names ms captures hm
    exact captureGroups_step (convertMatch grok) name m _ names ms captures hname hm (hconv m)
  · intro re text pre post mpre mpost m hm hre hnames hfind hlen hlen2 hpre hpost
    exact parseTyped_sole grok re text pre post mpre mpost name m _ hre hnames hfind hlen
      hlen2 hpre hpost hname hm (hconv m)
  · intro re text pre post mpre mpost m caps hm hre hnames hfind hlen hlater hret
    exact parseTyped_get grok re text pre post mpre mpost name m _ caps hre hnames hfind
      hlen hlater hname hm (hconv m) hret

/-- Witness of `typed_string_passthrough`: the group `n` without hint, on `abc`. -/
theorem typed_string_passthrough_witness :
    convertMatch (oneGroupGrok []) "abc".toList "n".toList = .ok (.str "abc".toList) ∧
    ParseTyped (oneGroupGrok []) "abc".toList =
      .ret (some [("n".toList, .str "abc".toList)], none) :=
  have h := typed_string_passthrough (oneGroupGrok []) "n".toList (by decide)
    (Or.inl (by decide))
  ⟨h.1 _, h.2.2.1 _ "abc".toList ["".toList] [] ["abc".toList] [] "abc".toList
    (by decide) rfl rfl rfl rfl (by decide) (by decide) (by decide)⟩

theorem convertMatch_unrecognised (grok : Grok) (m name hint : Str)
    (hhint : mapGet grok.typeHints name = some hint)
    (hty : hint ∉ recognisedTypes) :
    convertMatch grok m name = .error (.typeNotProvided name) := by
  simp only [recognisedTypes, List.mem_cons, List.mem_singleton, List.not_mem_nil, or_false,
    not_or] at hty
  obtain ⟨h1, h2, h3, h4, h5, h6, h7⟩ := hty
  unfold convertMatch
  rw [hhint]
  show (if hint = "string".toList then _ else _) = _
  rw [if_neg h1, if_neg h4, if_neg h5, if_neg (not_or.mpr ⟨h2, h3⟩),
    if_neg (not_or.mpr ⟨h6, h7⟩)]

/-- When the groups before it convert, the error of a failing group is the error
returned. -/
theorem captureGroups_err_first {K : Type} (conv : Str → Str → Except GrokError K)
    (n m : Str) (e : GrokError) (post mpost : List Str)
    (hn : n ≠ []) (hm : m ≠ []) (hconv : conv m n = .error e) :
    ∀ (pre mpre : List Str) (caps : GoMap K),
    pre.length = mpre.length →
    (∀ nm ∈ pre.zip mpre, nm.1 ≠ [] → nm.2 ≠ [] → ∃ v, conv nm.2 nm.1 = .ok v) →
    captureGroups (some conv) (pre ++ n :: post) (mpre ++ m :: mpost) caps =
      .ret (none, some e) := by
  intro pre
  induction pre with
  | nil =>
    intro mpre caps hlen _
    have : mpre = [] := List.length_eq_zero.mp hlen.symm
    subst this
    exact captureGroups_step_err conv n m e post mpost caps hn hm hconv
  | cons p pre ih =>
    intro mpre caps hlen hok
    cases mpre with
    | nil => simp at hlen
    | cons q mpre =>
      have hlen' : pre.length = mpre.length := by simpa using hlen
      have hok' : ∀ nm ∈ pre.zip mpre, nm.1 ≠ [] → nm.2 ≠ [] → ∃ v, conv nm.2 nm.1 = .ok v :=
        fun nm h' => hok nm (by simp [List.zip_cons_cons, h'])
      simp only [List.cons_append]
      rw [captureGroups_cons]
      split
      · exact ih _ _ hlen' hok'
      · rename_i hp
        simp only
        split
        · exact ih _ _ hlen' hok'
        · rename_i hq
          have hp' : p ≠ [] := fun h => hp (by rw [h]; rfl)
          have hq' : q ≠ [] := fun h => hq (by rw [h]; rfl)
          obtain ⟨v, hv⟩ := hok (p, q) (by simp [List.zip_cons_cons]) hp' hq'
          simp only [hv]
          exact ih _ _ hlen' hok'

theorem parseTyped_err_first (grok : Grok) (re : Regexp) (text : Str)
    (pre post mpre mpost : List Str) (n m : Str) (e : GrokError)
    (hre : grok.re = some re)
    (hnames : re.SubexpNames = pre ++ n :: post)
    (hfind : re.FindStringSubmatch text = mpre ++ m :: mpost)
    (hlen : pre.length = mpre.length)
    (hn : n ≠ []) (hm : m ≠ []) (hconv : convertMatch grok m n = .error e)
    (hok : ∀ nm ∈ pre.zip mpre, nm.1 ≠ [] → nm.2 ≠ [] →
      ∃ v, convertMatch grok nm.2 nm.1 = .ok v) :
    ParseTyped grok text = .ret (none, some e) := by
  apply parseTyped_of_captureTyped_err grok text none e
  simp only [captureTyped, hre, captureTypeFn]
  rw [hfind, hnames]
  have h1 : ¬ (mpre ++ m :: mpost).length = 0 := by simp
  have h2 : ¬ (pre ++ n :: post).length = 0 := by simp
  simp only [if_neg h1, if_neg h2]
  exact captureGroups_err_first (convertMatch grok) n m e post mpost hn hm hconv
    pre mpre [] hlen hok

/-- C12 (amended).  Let `%{inner}` be a three-part token `%{S:ID:TYPE}` whose `TYPE`
is not one of `string`, `int`, `long`, `double`, `float`, `bool`, `boolean`
(compared exactly), with `S` registered.  The step of `expand` succeeds and
records the hint `TYPE` under `encode(ID)`; with a token-free body, `expand` of
the token returns the named group and exactly that hint.  For an instance whose
hint table holds `TYPE` for the capture's name, the conversion of a matched
text fails with an error wrapping `ErrTypeNotProvided`; on every input where
that capture has a non-empty match `ParseTyped` returns an error and no
mapping, and the error is that one when every earlier capture of the match
converts. -/
theorem type_not_provided (Default : GoMap Str) (grok : Grok) (nco : Bool)
    (inner S ID TYPE body : Str)
    (htok : matchToken (tokenText inner) = some inner)
    (hparts : split ':' inner = [S, ID, TYPE])
    (hty : TYPE ∉ recognisedTypes)
    (hreg : lookupPattern Default grok S = (body, true)) :
    (∀ (p : Str) (hints : GoMap Str),
      expandToken Default grok nco (p, hints) (tokenText inner, inner) =
        .ok (replaceAll p (tokenText inner) (wrapNamed (encode ID) body),
          mapSet hints (encode ID) TYPE)) ∧
    (findAllStringSubmatch body = [] →
      expand Default grok (tokenText inner) nco =
        .ok (wrapNamed (encode ID) body, [(encode ID, TYPE)])) ∧
    (GrokError.typeNotProvided (encode ID)).wrapsTypeNotProvided = true ∧
    (∀ (g : Grok) (re : Regexp) (text : Str) (pre post mpre mpost : List Str) (m : Str),
      mapGet g.typeHints (encode ID) = some TYPE →
      m ≠ [] →
      g.re = some re →
      re.SubexpNames = pre ++ encode ID :: post →
      re.FindStringSubmatch text = mpre ++ m :: mpost →
      pre.length = mpre.length →
      convertMatch g m (encode ID) = .error (.typeNotProvided (encode ID)) ∧
      (∃ e, ParseTyped g text = .ret (none, some e)) ∧
      ((∀ nm ∈ pre.zip mpre, nm.1 ≠ [] → nm.2 ≠ [] →
          ∃ v, convertMatch g nm.2 nm.1 = .ok v) →
        ParseTyped g text = .ret (none, some (.typeNotProvided (encode ID))))) := by
  have hti : TokenInner inner := (matchToken_spec _ _ htok).1
  have hID : IsRun isIdChar ID := by
    rcases split_tokenInner inner hti with ⟨_, h1⟩ | ⟨w, i, _, _, _, h1⟩ |
      ⟨w, i, t, _, hi, _, _, h1⟩
    · rw [hparts] at h1
      simp at h1
    · rw [hparts] at h1
      simp at h1
    · rw [hparts] at h1
      simp only [List.cons.injEq] at h1
      rw [h1.2.1]
      exact hi
  have hstep : ∀ (p : Str) (hints : GoMap Str),
      expandToken Default grok nco (p, hints) (tokenText inner, inner) =
        .ok (replaceAll p (tokenText inner) (wrapNamed (encode ID) body),
          mapSet hints (encode ID) TYPE) := by
    intro p hints
    have := expandToken_with_id Default grok nco inner S ID body [TYPE] hparts hreg p hints
    simpa using this
  have hname : encode ID ≠ [] := encode_ne_nil ID hID.1
  refine ⟨hstep, ?_, rfl, ?_⟩
  · intro hb
    apply expand_tokenText Default grok nco inner _ _ hti
    · rw [hstep, replaceAll_self _ _ (tokenText_ne_nil inner)]
      rfl
    · exact noToken_wrapNamed _ _ (encode_no_percent ID hID.2) hb
  · intro g re text pre post mpre mpost m hhint hm hre hnames hfind hlen
    have hconv := convertMatch_unrecognised g m (encode ID) TYPE hhint hty
    refine ⟨hconv, ?_, ?_⟩
    · exact parseTyped_err g re text pre post mpre mpost (encode ID) m _ hre hnames hfind
        hlen hname hm hconv
    · intro hok
      exact parseTyped_err_first g re text pre post mpre mpost (encode ID) m _ hre hnames
        hfind hlen hname hm hconv hok

/-- Witness of `type_not_provided`: the token `%{W:n:INT}` with `W` = `\w+`. -/
theorem type_not_provided_witness :
    expand [] wordGrok (tokenText "W:n:INT".toList) true =
      .ok ("(?P<n>\\w+)".toList, [("n".toList, "INT".toList)]) ∧
    ParseTyped (oneGroupGrok [("n".toList, "INT".toList)]) "1".toList =
      .ret (none, some (.typeNotProvided "n".toList)) :=
  have h := type_not_provided [] wordGrok true "W:n:INT".toList "W".toList "n".toList
    "INT".toList "\\w+".toList (by decide) (by decide) (by decide) (by decide)
  ⟨h.2.1 (by decide),
    (h.2.2.2 (oneGroupGrok [("n".toList, "INT".toList)]) _ "1".toList ["".toList] []
      ["1".toList] [] "1".toList (by decide) (by decide) rfl rfl rfl rfl).2.2
      (by
        intro nm h hn _
        simp only [List.zip_cons_cons, List.zip_nil_left, List.mem_singleton] at h
        rw [h] at hn
        exact absurd rfl hn)⟩

/-- C12 as stated fails.  (1) In `%{W:a:int} %{W:b:INT}` on `x 1` the capture `b`
has the unrecognised type `INT` and a non-empty match, but the error returned
is that of the earlier capture `a`, which does not wrap `ErrTypeNotProvided`.
(2) In `%{W:a:INT} %{W:a:int}` the hint `INT` recorded for `a` is overwritten by
`int`, and `ParseTyped` on `1 2` returns a mapping and no error. -/
theorem type_not_provided_counterexample :
    (expand [] wordGrok "%\x7bW:a:int\x7d %\x7bW:b:INT\x7d".toList true =
        .ok ("(?P<a>\\w+) (?P<b>\\w+)".toList,
          [("a".toList, "int".toList), ("b".toList, "INT".toList)]) ∧
      ParseTyped
          (Compile twoGroupHost [] wordGrok "%\x7bW:a:int\x7d %\x7bW:b:INT\x7d".toList true).1
          "x 1".toList = .ret (none, some (.numError "x".toList)) ∧
      (GrokError.numError "x".toList).wrapsTypeNotProvided = false) ∧
    (expand [] wordGrok "%\x7bW:a:INT\x7d %\x7bW:a:int\x7d".toList true =
        .ok ("(?P<a>\\w+) (?P<a>\\w+)".toList, [("a".toList, "int".toList)]) ∧
      ParseTyped
          (Compile sameNameHost [] wordGrok "%\x7bW:a:INT\x7d %\x7bW:a:int\x7d".toList true).1
          "1 2".toList = .ret (some [("a".toList, .int 2)], none)) := by
  refine ⟨⟨?_, ?_, ?_⟩, ⟨?_, ?_⟩⟩ <;> decide

theorem atoi_core (neg : Prop) [Decidable neg] (ds : Str) (v : Int)
    (h : (if ds = [] ∨ ¬ (ds.all Char.isDigit) then none
      else
        if (if neg then - ((ds.foldl (fun acc ch => acc * 10 + digitVal ch) 0 : Nat) : Int)
              else ((ds.foldl (fun acc ch => acc * 10 + digitVal ch) 0 : Nat) : Int))
              < -(2 ^ 63 : Int) ∨
            (2 ^ 63 : Int) - 1 <
              (if neg then - ((ds.foldl (fun acc ch => acc * 10 + digitVal ch) 0 : Nat) : Int)
                else ((ds.foldl (fun acc ch => acc * 10 + digitVal ch) 0 : Nat) : Int))
        then none
        else some
          (if neg then - ((ds.foldl (fun acc ch => acc * 10 + digitVal ch) 0 : Nat) : Int)
            else ((ds.foldl (fun acc ch => acc * 10 + digitVal ch) 0 : Nat) : Int))) = some v) :
    IsRun Char.isDigit ds ∧
    -(2 ^ 63 : Int) ≤ (if neg then - (natValue ds : Int) else (natValue ds : Int)) ∧
    (if neg then - (natValue ds : Int) else (natValue ds : Int)) ≤ (2 ^ 63 : Int) - 1 := by
  have hfold : ds.foldl (fun acc ch => acc * 10 + digitVal ch) 0 = natValue ds := by
    rw [foldl_digits]
    simp
  rw [hfold] at h
  by_cases hok : ds = [] ∨ ¬ (ds.all Char.isDigit = true)
  · rw [if_pos hok] at h
    exact absurd h (by simp)
  · rw [if_neg hok] at h
    have hne : ds ≠ [] := fun e => hok (Or.inl e)
    have hall : ds.all Char.isDigit = true := by
      by_contra hc
      exact hok (Or.inr hc)
    refine ⟨⟨hne, List.all_eq_true.mp hall⟩, ?_⟩
    by_cases hr : (if neg then - (natValue ds : Int) else (natValue ds : Int)) < -(2 ^ 63 : Int) ∨
        (2 ^ 63 : Int) - 1 < (if neg then - (natValue ds : Int) else (natValue ds : Int))
    · rw [if_pos hr] at h
      exact absurd h (by simp)
    · have hr1 := (not_or.mp hr).1
      have hr2 := (not_or.mp hr).2
      constructor
      · omega
      · omega

theorem isIntText_of_Atoi (m : Str) (v : Int) (h : Atoi m = some v) : IsIntText m := by
  obtain ⟨hrun, hlo, hhi⟩ := atoi_core (m.head? = some '-') (stripSign m) v h
  by_cases hs : m.head? = some '+' ∨ m.head? = some '-'
  · have hst : stripSign m = m.tail := by
      unfold stripSign
      rw [if_pos hs]
    cases m with
    | nil => simp at hs
    | cons c cs =>
      simp only [List.head?_cons, Option.some.injEq] at hs hlo hhi
      simp only [List.tail_cons] at hst
      rw [hst] at hrun hlo hhi
      refine ⟨[c], cs, rfl, ?_, hrun, ?_, ?_⟩
      · rcases hs with hs | hs
        · exact Or.inr (Or.inl (by rw [hs]))
        · exact Or.inr (Or.inr (by rw [hs]))
      · unfold decimalValue
        by_cases hc : c = '-'
        · rw [if_pos (by rw [hc])]
          rw [if_pos hc] at hlo
          exact hlo
        · rw [if_neg (by simpa using hc)]
          rw [if_neg hc] at hlo
          exact hlo
      · unfold decimalValue
        by_cases hc : c = '-'
        · rw [if_pos (by rw [hc])]
          rw [if_pos hc] at hhi
          exact hhi
        · rw [if_neg (by simpa using hc)]
          rw [if_neg hc] at hhi
          exact hhi
  · have hst : stripSign m = m := by
      unfold stripSign
      rw [if_neg hs]
    have hneg : ¬ m.head? = some '-' := fun e => hs (Or.inr e)
    rw [hst] at hrun hlo hhi
    rw [if_neg hneg] at hlo hhi
    refine ⟨[], m, rfl, Or.inl rfl, hrun, ?_, ?_⟩
    · unfold decimalValue
      rw [if_neg (by simp)]
      exact hlo
    · unfold decimalValue
      rw [if_neg (by simp)]
      exact hhi

theorem Atoi_eq_none_iff (m : Str) : Atoi m = none ↔ ¬ IsIntText m := by
  constructor
  · rintro h ⟨sign, digits, rfl, hs, hd, hlo, hhi⟩
    rw [Atoi_decimal sign digits hs hd hlo hhi] at h
    exact absurd h (by simp)
  · intro h
    cases hA : Atoi m with
    | none => rfl
    | some v => exact absurd (isIntText_of_Atoi m v hA) h

/-- C13.  Whenever some capture (a named group `name`) with hint `int` or `long`
has a non-empty matched text that does not write an integer of the signed
64-bit range, its conversion fails and `ParseTyped` returns an error and the
nil map, whatever the other groups of the match are and whether or not they
would convert. -/
theorem integer_failure_aborts (grok : Grok) (re : Regexp) (text : Str)
    (pre post mpre mpost : List Str) (name hint m : Str)
    (hre : grok.re = some re)
    (hnames : re.SubexpNames = pre ++ name :: post)
    (hfind : re.FindStringSubmatch text = mpre ++ m :: mpost)
    (hlen : pre.length = mpre.length)
    (hname : name ≠ []) (hm : m ≠ [])
    (hhint : mapGet grok.typeHints name = some hint)
    (hty : hint = "int".toList ∨ hint = "long".toList)
    (hbad : ¬ IsIntText m) :
    convertMatch grok m name = .error (.numError m) ∧
    ∃ e, ParseTyped grok text = .ret (none, some e) := by
  have hconv : convertMatch grok m name = .error (.numError m) := by
    rw [convertMatch_int grok m name hint hhint hty, (Atoi_eq_none_iff m).mpr hbad]
  exact ⟨hconv, parseTyped_err grok re text pre post mpre mpost name m _ hre hnames hfind
    hlen hname hm hconv⟩

/-- Witness of `integer_failure_aborts`: the captures `a` = `1` and `b` = `abc`, both
with hint `int`; `a` would convert, `b` does not. -/
theorem integer_failure_aborts_witness :
    convertMatch twoIntGrok "1".toList "a".toList = .ok (.int 1) ∧
    convertMatch twoIntGrok "abc".toList "b".toList = .error (.numError "abc".toList) ∧
    ∃ e, ParseTyped twoIntGrok "1 abc".toList = .ret (none, some e) :=
  have h := integer_failure_aborts twoIntGrok _ "1 abc".toList ["".toList, "a".toList] []
    ["1 abc".toList, "1".toList] [] "b".toList "int".toList "abc".toList rfl rfl rfl rfl
    (by decide) (by decide) (by decide) (by decide)
    ((Atoi_eq_none_iff "abc".toList).mp (by decide))
  ⟨by decide, h.1, h.2⟩

/-- C14 (code at the failing input).  With `W` = `\w+`, compiling `%{W:n:float}`
(or `%{W:n:double}`) records the hint, and `ParseTyped` on `abc`, which is no
floating-point number, returns the mapping `n` to `nil` and a nil error: the
error of `strconv.ParseFloat` is dropped with its result. -/
theorem typed_float_failure_yields_nil :
    expand [] wordGrok (tokenText "W:n:float".toList) true =
      .ok ("(?P<n>\\w+)".toList, [("n".toList, "float".toList)]) ∧
    ParseTyped (Compile wordHost [] wordGrok (tokenText "W:n:float".toList) true).1
        "abc".toList = .ret (some [("n".toList, Value.nil)], none) ∧
    ParseTyped (Compile wordHost [] wordGrok (tokenText "W:n:double".toList) true).1
        "abc".toList = .ret (some [("n".toList, Value.nil)], none) := by
  refine ⟨?_, ?_, ?_⟩ <;> decide

theorem convertMatch_float (grok : Grok) (m name hint : Str)
    (hhint : mapGet grok.typeHints name = some hint)
    (hty : hint = "double".toList ∨ hint = "float".toList) :
    convertMatch grok m name = .ok .nil := by
  unfold convertMatch
  rw [hhint]
  have h1 : hint ≠ "string".toList := by rcases hty with h | h <;> (rw [h]; decide)
  show (if hint = "string".toList then _ else _) = _
  rw [if_neg h1]
  rcases hty with h | h
  · rw [if_pos h]
  · have h2 : hint ≠ "double".toList := by rw [h]; decide
    rw [if_neg h2, if_pos h]

theorem convertMatch_error_kind (grok : Grok) (m name : Str) (e : GrokError)
    (h : convertMatch grok m name = .error e) (hw : e.wrapsTypeNotProvided = true) :
    ∃ hint, mapGet grok.typeHints name = some hint ∧ hint ∉ recognisedTypes := by
  cases hg : mapGet grok.typeHints name with
  | none =>
    rw [convertMatch_string grok m name (Or.inl hg)] at h
    exact absurd h (by simp)
  | some hint =>
    refine ⟨hint, rfl, ?_⟩
    intro hmem
    simp only [recognisedTypes, List.mem_cons, List.mem_singleton, List.not_mem_nil,
      or_false] at hmem
    rcases hmem with h1 | h1 | h1 | h1 | h1 | h1 | h1
    · rw [convertMatch_string grok m name (Or.inr (by rw [hg, h1]))] at h
      exact absurd h (by simp)
    · rw [convertMatch_int grok m name hint hg (Or.inl h1)] at h
      cases hA : Atoi m with
      | none =>
        rw [hA] at h
        simp only [Except.error.injEq] at h
        rw [← h] at hw
        exact absurd hw (by simp [GrokError.wrapsTypeNotProvided])
      | some n =>
        rw [hA] at h
        exact absurd h (by simp)
    · rw [convertMatch_int grok m name hint hg (Or.inr h1)] at h
      cases hA : Atoi m with
      | none =>
        rw [hA] at h
        simp only [Except.error.injEq] at h
        rw [← h] at hw
        exact absurd hw (by simp [GrokError.wrapsTypeNotProvided])
      | some n =>
        rw [hA] at h
        exact absurd h (by simp)
    · rw [convertMatch_float grok m name hint hg (Or.inl h1)] at h
      exact absurd h (by simp)
    · rw [convertMatch_float grok m name hint hg (Or.inr h1)] at h
      exact absurd h (by simp)
    · rw [convertMatch_bool grok m name hint hg (Or.inl h1)] at h
      cases hB : ParseBool m with
      | none =>
        rw [hB] at h
        simp only [Except.error.injEq] at h
        rw [← h] at hw
        exact absurd hw (by simp [GrokError.wrapsTypeNotProvided])
      | some b =>
        rw [hB] at h
        exact absurd h (by simp)
    · rw [convertMatch_bool grok m name hint hg (Or.inr h1)] at h
      cases hB : ParseBool m with
      | none =>
        rw [hB] at h
        simp only [Except.error.injEq] at h
        rw [← h] at hw
        exact absurd hw (by simp [GrokError.wrapsTypeNotProvided])
      | some b =>
        rw [hB] at h
        exact absurd h (by simp)

/-- An extraction whose conversion never fails returns no error. -/
theorem captureGroups_no_error {K : Type} (conv : Str → Str → Except GrokError K)
    (hconv : ∀ m n, ∃ v, conv m n = .ok v) :
    ∀ (names ms : List Str) (caps : GoMap K) (x : Option (GoMap K)) (e : GrokError),
    captureGroups (some conv) names ms caps ≠ .ret (x, some e) := by
  intro names
  induction names with
  | nil =>
    intro ms caps x e h
    simp [captureGroups] at h
  | cons n names ih =>
    intro ms caps x e h
    rw [captureGroups_cons] at h
    split at h
    · exact ih _ _ _ _ h
    · split at h
      · exact absurd h (by simp)
      · rename_i m rest
        split at h
        · exact ih _ _ _ _ h
        · obtain ⟨v, hv⟩ := hconv m n
          simp only [hv] at h
          exact ih _ _ _ _ h

/-- C15 (amended).  If no hint is found for a captured name, the conversion applied
by `ParseTyped` returns the matched text and no error; an error wrapping
`ErrTypeNotProvided` is returned only for a name whose hint is present and is
not one of the recognised types; and on an instance whose hint table has no
entry at all `ParseTyped` returns no error on any text. -/
theorem no_hint_is_no_error (grok : Grok) :
    (∀ m name, mapGet grok.typeHints name = none →
      convertMatch grok m name = .ok (.str m)) ∧
    (∀ m name e, convertMatch grok m name = .error e → e.wrapsTypeNotProvided = true →
      ∃ hint, mapGet grok.typeHints name = some hint ∧ hint ∉ recognisedTypes) ∧
    ((∀ name, mapGet grok.typeHints name = none) →
      ∀ text x e, ParseTyped grok text ≠ .ret (x, some e)) := by
  refine ⟨fun m name h => convertMatch_string grok m name (Or.inl h),
    fun m name e h hw => convertMatch_error_kind grok m name e h hw, ?_⟩
  intro hnone text x e h
  have hconv : ∀ m n, ∃ v, convertMatch grok m n = .ok v :=
    fun m n => ⟨_, convertMatch_string grok m n (Or.inl (hnone n))⟩
  cases hc : captureTyped grok text with
  | panic =>
    unfold ParseTyped at h
    rw [hc] at h
    exact absurd h (by simp)
  | ret out =>
    obtain ⟨y, err⟩ := out
    cases err with
    | none =>
      unfold ParseTyped at h
      rw [hc] at h
      exact absurd h (by simp)
    | some e' =>
      unfold captureTyped at hc
      split at hc
      · exact absurd hc (by simp)
      · unfold captureTypeFn at hc
        simp only at hc
        split at hc
        · exact absurd hc (by simp)
        · split at hc
          · exact absurd hc (by simp)
          · exact captureGroups_no_error (convertMatch grok) hconv _ _ _ _ _ hc

/-- Witness of `no_hint_is_no_error`: the group `n` without hint, on `abc`. -/
theorem no_hint_is_no_error_witness :
    convertMatch (oneGroupGrok []) "abc".toList "n".toList = .ok (.str "abc".toList) ∧
    ∀ text x e, ParseTyped (oneGroupGrok []) text ≠ .ret (x, some e) :=
  ⟨(no_hint_is_no_error (oneGroupGrok [])).1 _ _ (by decide),
    (no_hint_is_no_error (oneGroupGrok [])).2.2 (fun _ => rfl)⟩

/-- C15 as stated fails: after compiling `%{W:n}` no hint is found for the captured
name `n`, and `ParseTyped` on `abc` returns the text under `n` with a nil
error, not `ErrTypeNotProvided`. -/
theorem no_hint_is_no_error_counterexample :
    expand [] wordGrok (tokenText "W:n".toList) true = .ok ("(?P<n>\\w+)".toList, []) ∧
    mapGet (Compile wordHost [] wordGrok (tokenText "W:n".toList) true).1.typeHints
        "n".toList = none ∧
    ParseTyped (Compile wordHost [] wordGrok (tokenText "W:n".toList) true).1 "abc".toList =
      .ret (some [("n".toList, .str "abc".toList)], none) := by
  refine ⟨?_, ?_, ?_⟩ <;> decide

/-! ## Compile: failure and recompilation -/

/-- C16.  Whenever `Compile` returns an error, whichever its cause, the instance
after the call is the instance before it: the compiled expression and the
type-hint table are unchanged, and `Match`, `MatchString`, `ParseString`,
`Parse` and `ParseTyped` behave as before the call. -/
theorem compile_failure_atomic (regexpCompile : Str → Option Regexp) (Default : GoMap Str)
    (grok : Grok) (pattern : Str) (nco : Bool) (e : GrokError)
    (h : (Compile regexpCompile Default grok pattern nco).2 = some e) :
    (Compile regexpCompile Default grok pattern nco).1 = grok ∧
    (Compile regexpCompile Default grok pattern nco).1.re = grok.re ∧
    (Compile regexpCompile Default grok pattern nco).1.typeHints = grok.typeHints ∧
    (∀ text,
      Match (Compile regexpCompile Default grok pattern nco).1 text = Match grok text ∧
      MatchString (Compile regexpCompile Default grok pattern nco).1 text =
        MatchString grok text ∧
      ParseString (Compile regexpCompile Default grok pattern nco).1 text =
        ParseString grok text ∧
      Parse (Compile regexpCompile Default grok pattern nco).1 text = Parse grok text ∧
      ParseTyped (Compile regexpCompile Default grok pattern nco).1 text =
        ParseTyped grok text) := by
  have hg : (Compile regexpCompile Default grok pattern nco).1 = grok := by
    unfold Compile compile at h ⊢
    cases he : expand Default grok pattern nco with
    | error err => rfl
    | ok out =>
      obtain ⟨src, hints⟩ := out
      rw [he] at h
      simp only at h ⊢
      cases hrc : regexpCompile src with
      | none => rfl
      | some re =>
        rw [hrc] at h
        exact absurd h (by simp)
  rw [hg]
  exact ⟨rfl, rfl, rfl, fun _ => ⟨rfl, rfl, rfl, rfl, rfl⟩⟩

/-- Witness of `compile_failure_atomic`: an instance with an installed matcher, on
which the host engine rejects the source `(`. -/
theorem compile_failure_atomic_witness :
    (Compile (fun _ => none) [] (oneGroupGrok [("n".toList, "int".toList)]) "(".toList
        true).2 = some (.regexpError "(".toList) ∧
    (Compile (fun _ => none) [] (oneGroupGrok [("n".toList, "int".toList)]) "(".toList
        true).1 = oneGroupGrok [("n".toList, "int".toList)] :=
  ⟨by decide,
    (compile_failure_atomic (fun _ => none) [] (oneGroupGrok [("n".toList, "int".toList)])
      "(".toList true (.regexpError "(".toList) (by decide)).1⟩

theorem lookupPattern_congr (Default : GoMap Str) (g g' : Grok)
    (hp : g'.patternDefinitions = g.patternDefinitions)
    (hf : g'.lookupDefaultPatterns = g.lookupDefaultPatterns) (grokId : Str) :
    lookupPattern Default g' grokId = lookupPattern Default g grokId := by
  unfold lookupPattern
  rw [hp, hf]

theorem expandToken_congr (Default : GoMap Str) (g g' : Grok)
    (hp : g'.patternDefinitions = g.patternDefinitions)
    (hf : g'.lookupDefaultPatterns = g.lookupDefaultPatterns) (nco : Bool)
    (st : Str × GoMap Str) (m : Str × Str) :
    expandToken Default g' nco st m = expandToken Default g nco st m := by
  unfold expandToken
  simp only [lookupPattern_congr Default g g' hp hf]

theorem expandPass_congr (Default : GoMap Str) (g g' : Grok)
    (hp : g'.patternDefinitions = g.patternDefinitions)
    (hf : g'.lookupDefaultPatterns = g.lookupDefaultPatterns) (nco : Bool) :
    ∀ (ms : List (Str × Str)) (st : Str × GoMap Str),
    expandPass Default g' nco ms st = expandPass Default g nco ms st := by
  intro ms
  induction ms with
  | nil => intro st; rfl
  | cons m ms ih =>
    intro st
    rw [expandPass, expandPass, expandToken_congr Default g g' hp hf]
    cases expandToken Default g nco st m with
    | error e => rfl
    | ok st' => exact ih st'

theorem expandLoop_congr (Default : GoMap Str) (g g' : Grok)
    (hp : g'.patternDefinitions = g.patternDefinitions)
    (hf : g'.lookupDefaultPatterns = g.lookupDefaultPatterns) (nco : Bool) :
    ∀ (n : Nat) (st : Str × GoMap Str),
    expandLoop Default g' nco n st = expandLoop Default g nco n st := by
  intro n
  induction n with
  | zero => intro st; rfl
  | succ n ih =>
    intro st
    rw [expandLoop_succ, expandLoop_succ]
    cases findAllStringSubmatch st.1 with
    | nil => rfl
    | cons m ms =>
      simp only
      rw [expandPass_congr Default g g' hp hf]
      cases expandPass Default g nco (m :: ms) st with
      | error e => rfl
      | ok st' => exact ih st'

/-- Expansion reads the pattern table and the default-lookup flag only. -/
theorem expand_congr (Default : GoMap Str) (g g' : Grok)
    (hp : g'.patternDefinitions = g.patternDefinitions)
    (hf : g'.lookupDefaultPatterns = g.lookupDefaultPatterns) (pattern : Str) (nco : Bool) :
    expand Default g' pattern nco = expand Default g pattern nco :=
  expandLoop_congr Default g g' hp hf nco 1000 (pattern, [])

/-- What a successful `Compile` installed. -/
theorem compile_success (regexpCompile : Str → Option Regexp) (Default : GoMap Str)
    (grok g' : Grok) (pattern : Str) (nco : Bool)
    (h : Compile regexpCompile Default grok pattern nco = (g', none)) :
    ∃ src hints re, expand Default grok pattern nco = .ok (src, hints) ∧
      regexpCompile src = some re ∧
      g' = { grok with re := some re, typeHints := hints } := by
  unfold Compile compile at h
  cases he : expand Default grok pattern nco with
  | error err =>
    rw [he] at h
    simp at h
  | ok out =>
    obtain ⟨src, hints⟩ := out
    rw [he] at h
    simp only at h
    cases hrc : regexpCompile src with
    | none =>
      rw [hrc] at h
      simp at h
    | some re =>
      rw [hrc] at h
      simp only [Prod.mk.injEq, and_true] at h
      exact ⟨src, hints, re, rfl, hrc, h.symm⟩

/-- C17.  After a successful `Compile` of `p2` that follows a successful `Compile`
of `p1`, the type-hint table is exactly the table that `expand` produces for
`p2` (the same on the instance before and after the first call, since
expansion starts from an empty table and does not read the installed one), and
the compiled expression is the one the host engine returns for the source of
`p2`; the pattern table is untouched. -/
theorem recompile_replaces (regexpCompile : Str → Option Regexp) (Default : GoMap Str)
    (grok g1 g2 : Grok) (p1 p2 : Str) (nco1 nco2 : Bool)
    (h1 : Compile regexpCompile Default grok p1 nco1 = (g1, none))
    (h2 : Compile regexpCompile Default g1 p2 nco2 = (g2, none)) :
    ∃ src hints re2,
      expand Default grok p2 nco2 = .ok (src, hints) ∧
      expand Default g1 p2 nco2 = .ok (src, hints) ∧
      regexpCompile src = some re2 ∧
      g2.typeHints = hints ∧
      g2.re = some re2 ∧
      g2.patternDefinitions = grok.patternDefinitions ∧
      g2.lookupDefaultPatterns = grok.lookupDefaultPatterns := by
  obtain ⟨src1, hints1, re1, _, _, hg1⟩ := compile_success _ _ _ _ _ _ h1
  obtain ⟨src, hints, re2, he2, hrc2, hg2⟩ := compile_success _ _ _ _ _ _ h2
  have hp : g1.patternDefinitions = grok.patternDefinitions := by rw [hg1]
  have hf : g1.lookupDefaultPatterns = grok.lookupDefaultPatterns := by rw [hg1]
  refine ⟨src, hints, re2, ?_, he2, hrc2, ?_, ?_, ?_, ?_⟩
  · rw [← expand_congr Default grok g1 hp hf]
    exact he2
  · rw [hg2]
  · rw [hg2]
  · rw [hg2]
    exact hp
  · rw [hg2]
    exact hf

/-- Witness of `recompile_replaces`: `N` = `\d+`, compiling `%{N:n:int}` and then
`%{N:n}`; afterwards the hint table is empty and typed capture returns `n` as
text. -/
theorem recompile_replaces_witness :
    (∃ src hints re2,
      expand [] numGrok (tokenText "N:n".toList) true = .ok (src, hints) ∧
      expand [] (Compile numHost [] numGrok (tokenText "N:n:int".toList) true).1
        (tokenText "N:n".toList) true = .ok (src, hints) ∧
      numHost src = some re2 ∧
      (Compile numHost []
        (Compile numHost [] numGrok (tokenText "N:n:int".toList) true).1
        (tokenText "N:n".toList) true).1.typeHints = hints ∧
      (Compile numHost []
        (Compile numHost [] numGrok (tokenText "N:n:int".toList) true).1
        (tokenText "N:n".toList) true).1.re = some re2 ∧
      (Compile numHost []
        (Compile numHost [] numGrok (tokenText "N:n:int".toList) true).1
        (tokenText "N:n".toList) true).1.patternDefinitions = numGrok.patternDefinitions ∧
      (Compile numHost []
        (Compile numHost [] numGrok (tokenText "N:n:int".toList) true).1
        (tokenText "N:n".toList) true).1.lookupDefaultPatterns =
        numGrok.lookupDefaultPatterns) ∧
    (Compile numHost [] numGrok (tokenText "N:n:int".toList) true).1.typeHints =
      [("n".toList, "int".toList)] ∧
    (Compile numHost []
      (Compile numHost [] numGrok (tokenText "N:n:int".toList) true).1
      (tokenText "N:n".toList) true).1.typeHints = [] ∧
    ParseTyped
        (Compile numHost []
          (Compile numHost [] numGrok (tokenText "N:n:int".toList) true).1
          (tokenText "N:n".toList) true).1 "42".toList =
      .ret (some [("n".toList, .str "42".toList)], none) :=
  ⟨recompile_replaces numHost [] numGrok _ _ (tokenText "N:n:int".toList)
      (tokenText "N:n".toList) true true (Prod.ext rfl (by decide)) (Prod.ext rfl (by decide)),
    by decide, by decide, by decide⟩

/-! ## Untyped extraction -/

theorem mem_mapKeys_mapSet {V : Type} (m : GoMap V) (k k' : Str) (v : V) :
    k' ∈ mapKeys (mapSet m k v) ↔ k' = k ∨ k' ∈ mapKeys m := by
  by_cases hk : k ∈ mapKeys m
  · rw [mapKeys_mapSet_of_mem m k v hk]
    constructor
    · exact Or.inr
    · rintro (h | h)
      · rw [h]
        exact hk
      · exact h
  · rw [mapSet_of_not_mem m k v hk]
    simp only [mapKeys, List.map_append, List.map_cons, List.map_nil, List.mem_append,
      List.mem_singleton]
    exact or_comm

theorem mapGet_mapSet {V : Type} (m : GoMap V) (k k' : Str) (v : V) :
    mapGet (mapSet m k v) k' = if k' = k then some v else mapGet m k' := by
  by_cases h : k' = k
  · rw [if_pos h, h]
    exact mapGet_mapSet_same m k v
  · rw [if_neg h]
    exact mapGet_mapSet_ne m k k' v h

/-- The map built by the untyped extraction loop: its keys are the old keys and
the decoded names of the groups with a name and a non-empty match; each new
value is the match of such a group. -/
theorem captureGroups_string_spec : ∀ (names ms : List Str) (caps caps' : GoMap Str),
    captureGroups stringConv names ms caps = .ret (some caps', none) →
    (∀ k, k ∈ mapKeys caps' ↔
      k ∈ mapKeys caps ∨ ∃ nm ∈ names.zip ms, nm.1 ≠ [] ∧ nm.2 ≠ [] ∧ decode nm.1 = k) ∧
    (∀ k v, mapGet caps' k = some v →
      mapGet caps k = some v ∨
      ∃ nm ∈ names.zip ms, nm.1 ≠ [] ∧ nm.2 ≠ [] ∧ decode nm.1 = k ∧ nm.2 = v) := by
  intro names
  induction names with
  | nil =>
    intro ms caps caps' h
    simp only [captureGroups, Run.ret.injEq, Prod.mk.injEq, Option.some.injEq, and_true] at h
    subst h
    constructor
    · intro k
      simp
    · intro k v hv
      exact Or.inl hv
  | cons n names ih =>
    intro ms caps caps' h
    rw [captureGroups_cons] at h
    cases ms with
    | nil =>
      split at h
      · obtain ⟨h1, h2⟩ := ih _ _ _ h
        simp only [List.tail_nil, List.zip_nil_right, List.not_mem_nil, false_and,
          exists_false, or_false] at h1 h2 ⊢
        exact ⟨h1, h2⟩
      · exact absurd h (by simp)
    | cons m rest =>
      simp only [List.tail_cons] at h
      have lift : ∀ (P : Str × Str → Prop), (∃ nm ∈ names.zip rest, P nm) →
          ∃ nm ∈ (n :: names).zip (m :: rest), P nm := by
        rintro P ⟨nm, hnm, hP⟩
        exact ⟨nm, by simp [List.zip_cons_cons, hnm], hP⟩
      have skip : (n = [] ∨ m = []) →
          captureGroups stringConv names rest caps = .ret (some caps', none) →
          (∀ k, k ∈ mapKeys caps' ↔
            k ∈ mapKeys caps ∨
            ∃ nm ∈ (n :: names).zip (m :: rest), nm.1 ≠ [] ∧ nm.2 ≠ [] ∧ decode nm.1 = k) ∧
          (∀ k v, mapGet caps' k = some v →
            mapGet caps k = some v ∨
            ∃ nm ∈ (n :: names).zip (m :: rest),
              nm.1 ≠ [] ∧ nm.2 ≠ [] ∧ decode nm.1 = k ∧ nm.2 = v) := by
        intro hskip h'
        obtain ⟨h1, h2⟩ := ih _ _ _ h'
        constructor
        · intro k
          rw [h1 k]
          constructor
          · rintro (hk | hk)
            · exact Or.inl hk
            · exact Or.inr (lift _ hk)
          · rintro (hk | ⟨nm, hnm, hn1, hn2, hd⟩)
            · exact Or.inl hk
            · simp only [List.zip_cons_cons, List.mem_cons] at hnm
              rcases hnm with hnm | hnm
              · subst hnm
                rcases hskip with hs | hs
                · exact absurd hs hn1
                · exact absurd hs hn2
              · exact Or.inr ⟨nm, hnm, hn1, hn2, hd⟩
        · intro k v hv
          rcases h2 k v hv with hk | hk
          · exact Or.inl hk
          · exact Or.inr (lift _ hk)
      split at h
      · rename_i hn
        exact skip (Or.inl (List.length_eq_zero.mp hn)) h
      · rename_i hn
        split at h
        · rename_i hm
          exact skip (Or.inr (List.length_eq_zero.mp hm)) h
        · rename_i hm
          have hn' : n ≠ [] := fun e => hn (by rw [e]; rfl)
          have hm' : m ≠ [] := fun e => hm (by rw [e]; rfl)
          simp only [stringConv] at h
          obtain ⟨h1, h2⟩ := ih _ _ _ h
          constructor
          · intro k
            rw [h1 k, mem_mapKeys_mapSet]
            constructor
            · rintro ((hk | hk) | hk)
              · exact Or.inr ⟨(n, m), by simp [List.zip_cons_cons], hn', hm', hk.symm⟩
              · exact Or.inl hk
              · exact Or.inr (lift _ hk)
            · rintro (hk | ⟨nm, hnm, hn1, hn2, hd⟩)
              · exact Or.inl (Or.inr hk)
              · simp only [List.zip_cons_cons, List.mem_cons] at hnm
                rcases hnm with hnm | hnm
                · subst hnm
                  exact Or.inl (Or.inl hd.symm)
                · exact Or.inr ⟨nm, hnm, hn1, hn2, hd⟩
          · intro k v hv
            rcases h2 k v hv with hk | hk
            · rw [mapGet_mapSet] at hk
              split at hk
              · rename_i hkd
                right
                refine ⟨(n, m), by simp [List.zip_cons_cons], hn', hm', hkd.symm, ?_⟩
                exact Option.some.inj hk
              · exact Or.inl hk
            · exact Or.inr (lift _ hk)

/-- C18.  Given a match with group names `n_0..n_k` and matched texts `m_0..m_k`,
`ParseString` returns a mapping whose keys are exactly the decoded names of the
groups with a non-empty name and a non-empty match, and each of whose values is
the non-empty matched text of a group whose decoded name is the key; unnamed
groups and groups with an empty or unset match contribute no entry. -/
theorem capture_reference (grok : Grok) (re : Regexp) (text : Str)
    (hre : grok.re = some re)
    (hmatch : re.FindStringSubmatch text ≠ [])
    (hlen : re.SubexpNames.length = (re.FindStringSubmatch text).length) :
    ∃ caps, ParseString grok text = .ret (some caps, none) ∧
      (∀ k, k ∈ mapKeys caps ↔
        ∃ nm ∈ re.SubexpNames.zip (re.FindStringSubmatch text),
          nm.1 ≠ [] ∧ nm.2 ≠ [] ∧ decode nm.1 = k) ∧
      (∀ k v, mapGet caps k = some v →
        v ≠ [] ∧ ∃ nm ∈ re.SubexpNames.zip (re.FindStringSubmatch text),
          nm.1 ≠ [] ∧ decode nm.1 = k ∧ nm.2 = v) := by
  simp only [ParseString, captureString, hre, captureTypeFn]
  have h1 : ¬ (re.FindStringSubmatch text).length = 0 :=
    fun e => hmatch (List.length_eq_zero.mp e)
  have h2 : ¬ re.SubexpNames.length = 0 := by
    rw [hlen]
    exact h1
  simp only [if_neg h1, if_neg h2]
  obtain ⟨caps, hc⟩ := captureGroups_string_total re.SubexpNames (re.FindStringSubmatch text) []
    (le_of_eq hlen)
  obtain ⟨hk, hv⟩ := captureGroups_string_spec _ _ _ _ hc
  refine ⟨caps, hc, ?_, ?_⟩
  · intro k
    rw [hk k]
    constructor
    · rintro (h | h)
      · exact absurd h (List.not_mem_nil _)
      · exact h
    · exact Or.inr
  · intro k v hkv
    rcases hv k v hkv with h | ⟨nm, hnm, hn1, hn2, hd, he⟩
    · exact absurd h (by simp [mapGet])
    · exact ⟨by rw [← he]; exact hn2, nm, hnm, hn1, hd, he⟩

/-- Witness of `capture_reference`: an unnamed group, the groups `a___b` and `d`
with the matches `y` and `z`, and the group `c` with an empty match. -/
theorem capture_reference_witness :
    ParseString mixedGrok "xyz".toList =
      .ret (some [("a.b".toList, "y".toList), ("d".toList, "z".toList)], none) ∧
    ∃ caps, ParseString mixedGrok "xyz".toList = .ret (some caps, none) ∧
      (∀ k, k ∈ mapKeys caps ↔
        ∃ nm ∈ ["".toList, "".toList, "a___b".toList, "c".toList, "d".toList].zip
            ["xyz".toList, "x".toList, "y".toList, "".toList, "z".toList],
          nm.1 ≠ [] ∧ nm.2 ≠ [] ∧ decode nm.1 = k) ∧
      (∀ k v, mapGet caps k = some v →
        v ≠ [] ∧ ∃ nm ∈ ["".toList, "".toList, "a___b".toList, "c".toList, "d".toList].zip
            ["xyz".toList, "x".toList, "y".toList, "".toList, "z".toList],
          nm.1 ≠ [] ∧ decode nm.1 = k ∧ nm.2 = v) :=
  ⟨by decide, capture_reference mixedGrok _ "xyz".toList rfl (by decide) (by decide)⟩

/-- C19.  For every input text that the compiled expression does not match,
`ParseString`, `Parse` and `ParseTyped` each return a mapping with no entry
together with a nil error. -/
theorem no_match_empty (grok : Grok) (re : Regexp) (text : Str)
    (hre : grok.re = some re)
    (hno : re.FindStringSubmatch text = []) :
    ParseString grok text = .ret (some [], none) ∧
    Parse grok text = .ret (some [], none) ∧
    ParseTyped grok text = .ret (some [], none) := by
  refine ⟨?_, ?_, ?_⟩
  · simp [ParseString, captureString, hre, captureTypeFn, hno]
  · simp [Parse, captureBytes, hre, captureTypeFn, hno]
  · apply parseTyped_of_captureTyped_ok
    simp [captureTyped, hre, captureTypeFn, hno]

/-- Witness of `no_match_empty`: the expression `x` on the text `y`. -/
theorem no_match_empty_witness :
    ParseString missGrok "y".toList = .ret (some [], none) ∧
    Parse missGrok "y".toList = .ret (some [], none) ∧
    ParseTyped missGrok "y".toList = .ret (some [], none) :=
  no_match_empty missGrok _ "y".toList rfl rfl

/-- C20 (code at the failing input).  After compiling the expression `x`, on the
text `y`, which it does not match, `ParseString`, `Parse`, `ParseTyped` and
`ParseTypedString` return the map allocated by `make`, with no entry, not the nil map: in the returned
pair the map is `some []`, where `none` stands for `nil`. -/
theorem no_match_map_is_allocated :
    ParseString missGrok "y".toList = .ret (some [], none) ∧
    ParseString missGrok "y".toList ≠ .ret (none, none) ∧
    Parse missGrok "y".toList = .ret (some [], none) ∧
    Parse missGrok "y".toList ≠ .ret (none, none) ∧
    ParseTyped missGrok "y".toList = .ret (some [], none) ∧
    ParseTyped missGrok "y".toList ≠ .ret (none, none) ∧
    ParseTypedString missGrok "y".toList = .ret (some [], none) ∧
    ParseTypedString missGrok "y".toList ≠ .ret (none, none) := by
  refine ⟨?_, ?_, ?_, ?_, ?_, ?_, ?_, ?_⟩ <;> decide

/-! ## Untyped extraction: no error, no hint; duplicate names -/

theorem captureString_hints (grok : Grok) (hints : GoMap Str) (text : Str) :
    captureString { grok with typeHints := hints } text = captureString grok text := rfl

theorem captureBytes_hints (grok : Grok) (hints : GoMap Str) (text : Str) :
    captureBytes { grok with typeHints := hints } text = captureBytes grok text := rfl

theorem captureTypeFn_string_no_error (re : Regexp) (text : Str) (x : Option (GoMap Str))
    (e : GrokError) : captureTypeFn re text stringConv ≠ .ret (x, some e) := by
  unfold captureTypeFn
  simp only
  split
  · simp
  · split
    · simp
    · exact captureGroups_no_error (fun v _ => .ok v) (fun m _ => ⟨m, rfl⟩) _ _ _ x e

theorem captureTypeFn_string_total (re : Regexp) (text : Str)
    (hlen : re.FindStringSubmatch text ≠ [] →
      re.SubexpNames.length ≤ (re.FindStringSubmatch text).length) :
    ∃ caps, captureTypeFn re text stringConv = .ret (some caps, none) := by
  unfold captureTypeFn
  simp only
  split
  · exact ⟨[], rfl⟩
  · rename_i h
    split
    · exact ⟨[], rfl⟩
    · exact captureGroups_string_total _ _ []
        (hlen (fun e => h (by rw [e]; rfl)))

/-- C21.  For every compiled matcher, every type-hint table and every input text,
`ParseString` and `Parse` never return an error; when the host engine reports
either no match or one submatch for each group, they return a mapping and a nil
error; and their result is the same whatever the type-hint table contains. -/
theorem untyped_never_fails (grok : Grok) (re : Regexp) (text : Str)
    (hre : grok.re = some re) :
    (∀ x e, ParseString grok text ≠ .ret (x, some e)) ∧
    (∀ x e, Parse grok text ≠ .ret (x, some e)) ∧
    ((re.FindStringSubmatch text ≠ [] →
        re.SubexpNames.length ≤ (re.FindStringSubmatch text).length) →
      ∃ caps, ParseString grok text = .ret (some caps, none) ∧
        Parse grok text = .ret (some caps, none)) ∧
    (∀ hints : GoMap Str,
      ParseString { grok with typeHints := hints } text = ParseString grok text ∧
      Parse { grok with typeHints := hints } text = Parse grok text) := by
  refine ⟨?_, ?_, ?_, ?_⟩
  · intro x e
    simp only [ParseString, captureString, hre]
    exact captureTypeFn_string_no_error re text x e
  · intro x e
    simp only [Parse, captureBytes, hre]
    exact captureTypeFn_string_no_error re text x e
  · intro hlen
    obtain ⟨caps, hc⟩ := captureTypeFn_string_total re text hlen
    refine ⟨caps, ?_, ?_⟩
    · simp only [ParseString, captureString, hre]
      exact hc
    · simp only [Parse, captureBytes, hre]
      exact hc
  · intro hints
    exact ⟨captureString_hints grok hints text, captureBytes_hints grok hints text⟩

/-- Witness of `untyped_never_fails`: the one-group instance with the unknown hint
`INT`, on which the typed variant fails, returns the capture as text. -/
theorem untyped_never_fails_witness :
    ParseString (oneGroupGrok [("n".toList, "INT".toList)]) "7".toList =
      .ret (some [("n".toList, "7".toList)], none) ∧
    ((∀ x e, ParseString (oneGroupGrok [("n".toList, "INT".toList)]) "7".toList ≠
        .ret (x, some e)) ∧
    (∀ x e, Parse (oneGroupGrok [("n".toList, "INT".toList)]) "7".toList ≠ .ret (x, some e)) ∧
    ((["7".toList, "7".toList] ≠ [] →
        ["".toList, "n".toList].length ≤ ["7".toList, "7".toList].length) →
      ∃ caps, ParseString (oneGroupGrok [("n".toList, "INT".toList)]) "7".toList =
          .ret (some caps, none) ∧
        Parse (oneGroupGrok [("n".toList, "INT".toList)]) "7".toList =
          .ret (some caps, none)) ∧
    (∀ hints : GoMap Str,
      ParseString { oneGroupGrok [("n".toList, "INT".toList)] with typeHints := hints }
          "7".toList =
        ParseString (oneGroupGrok [("n".toList, "INT".toList)]) "7".toList ∧
      Parse { oneGroupGrok [("n".toList, "INT".toList)] with typeHints := hints }
          "7".toList =
        Parse (oneGroupGrok [("n".toList, "INT".toList)]) "7".toList)) :=
  ⟨by decide,
    untyped_never_fails (oneGroupGrok [("n".toList, "INT".toList)])
      ⟨["".toList, "n".toList], fun text => [text, text]⟩ "7".toList rfl⟩

theorem encode_append (a b : Str) : encode (a ++ b) = encode a ++ encode b := by
  induction a with
  | nil => simp [encode_nil]
  | cons c cs ih =>
    rw [List.cons_append, encode_cons, encode_cons, ih]
    split <;> simp

theorem encode_dotSep : encode dotSep = dotSep := by decide

/-- Encoding undoes decoding on a name without a dot. -/
theorem encode_decode_of_no_dot : ∀ (n : Nat) (s : Str), s.length ≤ n → '.' ∉ s →
    encode (decode s) = s := by
  intro n
  induction n with
  | zero =>
    intro s hs _
    have : s = [] := List.length_eq_zero.mp (Nat.le_zero.mp hs)
    subst this
    rw [decode_nil, encode_nil]
  | succ n ih =>
    intro s hs hdot
    cases s with
    | nil => rw [decode_nil, encode_nil]
    | cons c cs =>
      by_cases hp : dotSep <+: c :: cs
      · obtain ⟨r, hr⟩ := hp
        have hlen : r.length ≤ n := by
          have := congrArg List.length hr
          simp only [dotSep, List.length_append, List.length_cons, List.length_nil] at this
          simp only [List.length_cons] at hs
          omega
        have hdr : '.' ∉ r := by
          intro hm
          apply hdot
          rw [← hr]
          exact List.mem_append_right _ hm
        rw [← hr, decode_dotSep_append, encode_cons, if_pos rfl, ih r hlen hdr]
      · have hc : c ≠ '.' := fun e => hdot (e ▸ List.mem_cons_self _ _)
        have hcs : '.' ∉ cs := fun hm => hdot (List.mem_cons_of_mem _ hm)
        rw [decode_cons_of_no_occ c cs hp, encode_cons, if_neg hc,
          ih cs (by simp only [List.length_cons] at hs; omega) hcs]

theorem decode_inj_of_no_dot (a b : Str) (ha : '.' ∉ a) (hb : '.' ∉ b)
    (h : decode a = decode b) : a = b := by
  rw [← encode_decode_of_no_dot a.length a (le_refl _) ha,
    ← encode_decode_of_no_dot b.length b (le_refl _) hb, h]

/-- C22.  When several groups of the compiled expression share one name, the value
that `ParseString` and `Parse` return for the key of that name is the matched
text of the last group of that name, in group-index order, whose match is
non-empty.  The host engine admits only word characters in a group name, so no
name holds a dot, and it reports one submatch for each group. -/
theorem duplicate_names_last_wins (grok : Grok) (re : Regexp) (text : Str)
    (pre post mpre mpost : List Str) (n m : Str)
    (hre : grok.re = some re)
    (hnames : re.SubexpNames = pre ++ n :: post)
    (hfind : re.FindStringSubmatch text = mpre ++ m :: mpost)
    (hlen : pre.length = mpre.length)
    (hlen2 : post.length = mpost.length)
    (hword : ∀ x ∈ re.SubexpNames, '.' ∉ x)
    (hn : n ≠ []) (hm : m ≠ [])
    (hlast : ∀ nm ∈ post.zip mpost, nm.1 = n → nm.2 = []) :
    ∃ caps, ParseString grok text = .ret (some caps, none) ∧
      Parse grok text = .ret (some caps, none) ∧
      mapGet caps (decode n) = some m := by
  have hlater : ∀ nm ∈ post.zip mpost, nm.1 ≠ [] → nm.2 ≠ [] → decode nm.1 ≠ decode n := by
    intro nm hnm _ h2 hd
    have hmem : nm.1 ∈ re.SubexpNames := by
      rw [hnames]
      exact List.mem_append_right _ (List.mem_cons_of_mem _ (List.of_mem_zip hnm).1)
    have hnmem : n ∈ re.SubexpNames := by
      rw [hnames]
      exact List.mem_append_right _ (List.mem_cons_self _ _)
    exact h2 (hlast nm hnm
      (decode_inj_of_no_dot nm.1 n (hword _ hmem) (hword _ hnmem) hd))
  have key : ∃ caps, captureTypeFn re text stringConv = .ret (some caps, none) ∧
      mapGet caps (decode n) = some m := by
    simp only [captureTypeFn]
    rw [hfind, hnames]
    have h1 : ¬ (mpre ++ m :: mpost).length = 0 := by simp
    have h2 : ¬ (pre ++ n :: post).length = 0 := by simp
    simp only [if_neg h1, if_neg h2]
    obtain ⟨caps, hc⟩ := captureGroups_string_total (pre ++ n :: post)
      (mpre ++ m :: mpost) [] (by simp only [List.length_append, List.length_cons]; omega)
    exact ⟨caps, hc,
      captureGroups_get (fun v _ => .ok v) n m m post mpost hn hm rfl hlater pre mpre [] caps
        hlen hc⟩
  obtain ⟨caps, hc, hg⟩ := key
  refine ⟨caps, ?_, ?_, hg⟩
  · simp only [ParseString, captureString, hre]
    exact hc
  · simp only [Parse, captureBytes, hre]
    exact hc

/-- Witness of `duplicate_names_last_wins`: the expression `%{MONGO_QUERY}`, whose
outer and inner groups are both named `MONGO_QUERY`; the key holds the match of
the inner group. -/
theorem duplicate_names_last_wins_witness :
    expand [] mongoGrok (tokenText "MONGO_QUERY".toList) false =
      .ok ("(?P<MONGO_QUERY>\\\x7b (?P<MONGO_QUERY>(.*?)) \\\x7d ntoreturn:)".toList, []) ∧
    ∃ caps, ParseString mongoGrok "\x7b q \x7d ntoreturn:".toList = .ret (some caps, none) ∧
      Parse mongoGrok "\x7b q \x7d ntoreturn:".toList = .ret (some caps, none) ∧
      mapGet caps (decode "MONGO_QUERY".toList) = some "q".toList :=
  ⟨by decide,
    duplicate_names_last_wins mongoGrok
      ⟨["".toList, "MONGO_QUERY".toList, "MONGO_QUERY".toList, "".toList],
        fun _ => ["\x7b q \x7d ntoreturn:".toList, "\x7b q \x7d ntoreturn:".toList, "q".toList,
          "q".toList]⟩
      "\x7b q \x7d ntoreturn:".toList
      ["".toList, "MONGO_QUERY".toList] ["".toList]
      ["\x7b q \x7d ntoreturn:".toList, "\x7b q \x7d ntoreturn:".toList] ["q".toList]
      "MONGO_QUERY".toList "q".toList rfl rfl rfl rfl rfl (by decide) (by decide) (by decide)
      (by decide)⟩

/-! ## The registry -/

theorem mapSet_mapSet_same {V : Type} (m : GoMap V) (k : Str) (a b : V) :
    mapSet (mapSet m k a) k b = mapSet m k b := by
  induction m with
  | nil => simp [mapSet]
  | cons kv rest ih =>
    obtain ⟨k', v'⟩ := kv
    by_cases h : k' = k
    · simp [mapSet, h]
    · simp [mapSet, h, ih]

theorem mapGet_eq_none_iff {V : Type} (m : GoMap V) (k : Str) :
    mapGet m k = none ↔ k ∉ mapKeys m := by
  induction m with
  | nil => simp [mapGet, mapKeys]
  | cons kv rest ih =>
    obtain ⟨k', v'⟩ := kv
    by_cases h : k' = k
    · subst h
      constructor
      · intro e
        rw [mapGet, if_pos rfl] at e
        exact absurd e (by simp)
      · intro hn
        exact absurd (show k' ∈ mapKeys ((k', v') :: rest) from List.mem_cons_self _ _) hn
    · have h' : ¬ k = k' := fun e => h e.symm
      simp only [mapGet, if_neg h, ih, mapKeys, List.map_cons, List.mem_cons, h', false_or]

theorem mem_mapKeys_iff_mapGet {V : Type} (m : GoMap V) (k : Str) :
    k ∈ mapKeys m ↔ ∃ v, mapGet m k = some v := by
  constructor
  · intro h
    cases hg : mapGet m k with
    | none => exact absurd h ((mapGet_eq_none_iff m k).mp hg)
    | some v => exact ⟨v, rfl⟩
  · rintro ⟨v, hv⟩
    by_contra hk
    rw [(mapGet_eq_none_iff m k).mpr hk] at hv
    exact absurd hv (by simp)

/-- In a map with one entry per key, reading a key gives the value of its entry. -/
theorem mapGet_eq_some_iff_mem {V : Type} (m : GoMap V) (hm : (mapKeys m).Nodup) (k : Str)
    (v : V) : mapGet m k = some v ↔ (k, v) ∈ m := by
  induction m with
  | nil => simp [mapGet]
  | cons kv rest ih =>
    obtain ⟨k', v'⟩ := kv
    have hnd : (mapKeys rest).Nodup := (List.nodup_cons.mp hm).2
    have hk' : k' ∉ mapKeys rest := (List.nodup_cons.mp hm).1
    by_cases h : k' = k
    · subst h
      simp only [mapGet, if_true, Option.some.injEq, List.mem_cons, Prod.mk.injEq, true_and]
      constructor
      · intro e
        exact Or.inl e.symm
      · rintro (e | e)
        · exact e.symm
        · exact absurd (List.mem_map_of_mem Prod.fst e) hk'
    · simp only [mapGet, if_neg h, ih hnd, List.mem_cons, Prod.mk.injEq]
      constructor
      · exact Or.inr
      · rintro (⟨e, _⟩ | e)
        · exact absurd e.symm h
        · exact e

theorem mapGet_perm {V : Type} (m m' : GoMap V) (hm : (mapKeys m).Nodup) (hperm : m'.Perm m)
    (k : Str) : mapGet m' k = mapGet m k := by
  have hm' : (mapKeys m').Nodup := (List.Perm.nodup_iff (List.Perm.map Prod.fst hperm)).mpr hm
  apply Option.ext
  intro v
  show mapGet m' k = some v ↔ mapGet m k = some v
  rw [mapGet_eq_some_iff_mem m' hm', mapGet_eq_some_iff_mem m hm]
  exact List.Perm.mem_iff hperm

/-- Reading after the loop of `AddPatterns`: the entry of the argument when it has
one, the previous entry otherwise. -/
theorem mapGet_foldl_mapSet {V : Type} : ∀ (es : GoMap V) (m : GoMap V) (k : Str),
    (mapKeys es).Nodup →
    mapGet (es.foldl (fun acc kv => mapSet acc kv.1 kv.2) m) k =
      match mapGet es k with
      | some b => some b
      | none => mapGet m k := by
  intro es
  induction es with
  | nil =>
    intro m k _
    simp [mapGet]
  | cons kv rest ih =>
    intro m k hnd
    obtain ⟨k0, v0⟩ := kv
    have hnd' : (mapKeys rest).Nodup := (List.nodup_cons.mp hnd).2
    have hk0 : k0 ∉ mapKeys rest := (List.nodup_cons.mp hnd).1
    rw [List.foldl_cons, ih _ k hnd']
    by_cases h : k0 = k
    · subst h
      rw [(mapGet_eq_none_iff rest k0).mpr hk0]
      simp [mapGet, mapGet_mapSet_same]
    · have h' : k ≠ k0 := fun e => h e.symm
      simp only [mapGet, if_neg h]
      rw [mapGet_mapSet_ne m k0 k v0 h']

theorem mapKeys_foldl_mapSet {V : Type} : ∀ (es : GoMap V) (m : GoMap V) (k : Str),
    k ∈ mapKeys (es.foldl (fun acc kv => mapSet acc kv.1 kv.2) m) ↔
      k ∈ mapKeys es ∨ k ∈ mapKeys m := by
  intro es
  induction es with
  | nil =>
    intro m k
    show k ∈ mapKeys m ↔ k ∈ ([] : List Str) ∨ k ∈ mapKeys m
    constructor
    · exact Or.inr
    · rintro (h | h)
      · exact absurd h (List.not_mem_nil _)
      · exact h
  | cons kv rest ih =>
    intro m k
    rw [List.foldl_cons, ih, mem_mapKeys_mapSet]
    simp only [mapKeys, List.map_cons, List.mem_cons]
    tauto

theorem lookupPattern_ext (Default : GoMap Str) (g g' : Grok)
    (hp : ∀ k, mapGet g'.patternDefinitions k = mapGet g.patternDefinitions k)
    (hf : g'.lookupDefaultPatterns = g.lookupDefaultPatterns) (grokId : Str) :
    lookupPattern Default g' grokId = lookupPattern Default g grokId := by
  unfold lookupPattern
  rw [hp, hf]

theorem expandToken_ext (Default : GoMap Str) (g g' : Grok)
    (h : ∀ k, lookupPattern Default g' k = lookupPattern Default g k) (nco : Bool)
    (st : Str × GoMap Str) (m : Str × Str) :
    expandToken Default g' nco st m = expandToken Default g nco st m := by
  unfold expandToken
  simp only [h]

theorem expandPass_ext (Default : GoMap Str) (g g' : Grok)
    (h : ∀ k, lookupPattern Default g' k = lookupPattern Default g k) (nco : Bool) :
    ∀ (ms : List (Str × Str)) (st : Str × GoMap Str),
    expandPass Default g' nco ms st = expandPass Default g nco ms st := by
  intro ms
  induction ms with
  | nil =>
    intro st
    rfl
  | cons m ms ih =>
    intro st
    simp only [expandPass, expandToken_ext Default g g' h]
    cases expandToken Default g nco st m with
    | error e => rfl
    | ok st' => exact ih st'

theorem expandLoop_ext (Default : GoMap Str) (g g' : Grok)
    (h : ∀ k, lookupPattern Default g' k = lookupPattern Default g k) (nco : Bool) :
    ∀ (n : Nat) (st : Str × GoMap Str),
    expandLoop Default g' nco n st = expandLoop Default g nco n st := by
  intro n
  induction n with
  | zero =>
    intro st
    rfl
  | succ n ih =>
    intro st
    rw [expandLoop_succ, expandLoop_succ]
    cases findAllStringSubmatch st.1 with
    | nil => rfl
    | cons m ms =>
      simp only [expandPass_ext Default g g' h]
      cases expandPass Default g nco (m :: ms) st with
      | error e => rfl
      | ok st' => exact ih st'

theorem expand_ext (Default : GoMap Str) (g g' : Grok)
    (h : ∀ k, lookupPattern Default g' k = lookupPattern Default g k) (pattern : Str)
    (nco : Bool) :
    expand Default g' pattern nco = expand Default g pattern nco :=
  expandLoop_ext Default g g' h nco 1000 (pattern, [])

theorem addPatterns_eq_foldl : ∀ (m : GoMap Str) (grok : Grok),
    AddPatterns grok m = m.foldl (fun g kv => AddPattern g kv.1 kv.2) grok := by
  intro m
  induction m with
  | nil =>
    intro grok
    rfl
  | cons kv rest ih =>
    intro grok
    rw [List.foldl_cons, ← ih]
    rfl

theorem lookupPattern_addPattern_same (Default : GoMap Str) (grok : Grok) (n b : Str) :
    lookupPattern Default (AddPattern grok n b) n = (b, true) := by
  unfold lookupPattern
  simp only [AddPattern, mapGet_mapSet_same]

theorem lookupPattern_addPattern_ne (Default : GoMap Str) (grok : Grok) (n b k : Str)
    (h : k ≠ n) :
    lookupPattern Default (AddPattern grok n b) k = lookupPattern Default grok k := by
  unfold lookupPattern
  simp only [AddPattern, mapGet_mapSet_ne _ n k b h]

theorem expandToken_bare (Default : GoMap Str) (grok : Grok) (nco : Bool) (S body : Str)
    (hS : IsRun isWord S) (hreg : lookupPattern Default grok S = (body, true))
    (p : Str) (hints : GoMap Str) :
    expandToken Default grok nco (p, hints) (tokenText S, S) =
      .ok (replaceAll p (tokenText S) (if nco then wrapBare body else wrapNamed S body),
        hints) := by
  have hsp : split ':' S = [S] :=
    split_of_not_mem ':' S (colon_not_mem_of_run isWord isWord_colon _ hS)
  unfold expandToken
  simp only [hsp]
  cases nco <;> simp [hreg]

/-- C24.  After `AddPattern(n, b1)` followed by `AddPattern(n, b2)`, `lookupPattern(n)`
returns `(b2, true)` and the lookup of every other name is unchanged; the
instance is the one that `AddPattern(n, b2)` alone gives, so every expansion is
the same as if `b1` had never been registered; and when `%{n}` is a token, its
expansion step substitutes the group around `b2`, which is the whole expansion
when `b2` holds no token. -/
theorem reregistration_last_write_wins (Default : GoMap Str) (grok : Grok) (n b1 b2 : Str) :
    lookupPattern Default (AddPattern (AddPattern grok n b1) n b2) n = (b2, true) ∧
    (∀ k, k ≠ n →
      lookupPattern Default (AddPattern (AddPattern grok n b1) n b2) k =
        lookupPattern Default grok k) ∧
    AddPattern (AddPattern grok n b1) n b2 = AddPattern grok n b2 ∧
    (∀ pattern nco,
      expand Default (AddPattern (AddPattern grok n b1) n b2) pattern nco =
        expand Default (AddPattern grok n b2) pattern nco) ∧
    (IsRun isWord n → ∀ nco p hints,
      expandToken Default (AddPattern (AddPattern grok n b1) n b2) nco (p, hints)
          (tokenText n, n) =
        .ok (replaceAll p (tokenText n) (if nco then wrapBare b2 else wrapNamed n b2),
          hints)) ∧
    (IsRun isWord n → findAllStringSubmatch b2 = [] →
      expand Default (AddPattern (AddPattern grok n b1) n b2) (tokenText n) true =
        .ok (wrapBare b2, []) ∧
      expand Default (AddPattern (AddPattern grok n b1) n b2) (tokenText n) false =
        .ok (wrapNamed n b2, [])) := by
  have heq : AddPattern (AddPattern grok n b1) n b2 = AddPattern grok n b2 := by
    simp only [AddPattern, mapSet_mapSet_same]
  have hl : lookupPattern Default (AddPattern (AddPattern grok n b1) n b2) n = (b2, true) :=
    lookupPattern_addPattern_same Default _ n b2
  refine ⟨hl, ?_, heq, ?_, ?_, ?_⟩
  · intro k hk
    rw [lookupPattern_addPattern_ne Default _ n b2 k hk,
      lookupPattern_addPattern_ne Default _ n b1 k hk]
  · intro pattern nco
    rw [heq]
  · intro hn nco p hints
    exact expandToken_bare Default _ nco n b2 hn hl p hints
  · intro hn hb
    exact ⟨expand_bare_true Default _ n b2 hn hl hb, expand_bare_false Default _ n b2 hn hl hb⟩

/-- Witness of `reregistration_last_write_wins`: `N` registered as `a+` and then as
`\d+`. -/
theorem reregistration_last_write_wins_witness :
    expand [] (AddPattern (AddPattern NewWithoutDefaultPatterns "N".toList "a+".toList)
        "N".toList "\\d+".toList) (tokenText "N".toList) true = .ok ("(\\d+)".toList, []) ∧
    expand [] (AddPattern (AddPattern NewWithoutDefaultPatterns "N".toList "a+".toList)
        "N".toList "\\d+".toList) (tokenText "N".toList) false =
      .ok ("(?P<N>\\d+)".toList, []) :=
  (reregistration_last_write_wins [] NewWithoutDefaultPatterns "N".toList "a+".toList
    "\\d+".toList).2.2.2.2.2 ⟨by decide, by decide⟩ (by decide)

theorem lookupPattern_found_iff (Default : GoMap Str) (grok : Grok) (name : Str) :
    (lookupPattern Default grok name).2 = true ↔
      name ∈ mapKeys grok.patternDefinitions ∨
      (grok.lookupDefaultPatterns = true ∧ name ∈ mapKeys Default) := by
  rw [mem_mapKeys_iff_mapGet, mem_mapKeys_iff_mapGet]
  unfold lookupPattern
  cases h1 : mapGet grok.patternDefinitions name with
  | some b => simp
  | none =>
    cases h2 : grok.lookupDefaultPatterns with
    | false => simp
    | true =>
      cases h3 : mapGet Default name with
      | some b => simp
      | none => simp

theorem foldl_addPattern_flag : ∀ (es : GoMap Str) (grok : Grok),
    (es.foldl (fun g kv => AddPattern g kv.1 kv.2) grok).lookupDefaultPatterns =
      grok.lookupDefaultPatterns := by
  intro es grok
  rw [← addPatterns_eq_foldl]
  rfl

theorem foldl_addPattern_keys (es : GoMap Str) (grok : Grok) (k : Str) :
    k ∈ mapKeys (es.foldl (fun g kv => AddPattern g kv.1 kv.2) grok).patternDefinitions ↔
      k ∈ mapKeys es ∨ k ∈ mapKeys grok.patternDefinitions := by
  rw [← addPatterns_eq_foldl]
  exact mapKeys_foldl_mapSet es grok.patternDefinitions k

/-- C25.  `lookupPattern(name)` returns the user-registered body when `name` is
user-registered, whatever the default table holds; otherwise the default body
when default lookup is enabled and the default table has `name`; otherwise
not-found.  `New` enables default lookup and `NewWithoutDefaultPatterns` does
not, so on an instance built from `NewWithoutDefaultPatterns` by registrations
a name is found exactly when it was registered. -/
theorem lookup_reference (Default : GoMap Str) (grok : Grok) (name : Str) :
    (∀ b, mapGet grok.patternDefinitions name = some b →
      lookupPattern Default grok name = (b, true)) ∧
    (mapGet grok.patternDefinitions name = none → grok.lookupDefaultPatterns = true →
      ∀ b, mapGet Default name = some b → lookupPattern Default grok name = (b, true)) ∧
    (mapGet grok.patternDefinitions name = none →
      (grok.lookupDefaultPatterns = false ∨ mapGet Default name = none) →
      lookupPattern Default grok name = ([], false)) ∧
    New.lookupDefaultPatterns = true ∧
    NewWithoutDefaultPatterns.lookupDefaultPatterns = false ∧
    (∀ es : GoMap Str,
      ((lookupPattern Default
          (es.foldl (fun g kv => AddPattern g kv.1 kv.2) NewWithoutDefaultPatterns) name).2 =
        true ↔ name ∈ mapKeys es)) ∧
    (∀ es : GoMap Str,
      ((lookupPattern Default
          (es.foldl (fun g kv => AddPattern g kv.1 kv.2) New) name).2 =
        true ↔ name ∈ mapKeys es ∨ name ∈ mapKeys Default)) := by
  refine ⟨?_, ?_, ?_, rfl, rfl, ?_, ?_⟩
  · intro b hb
    unfold lookupPattern
    rw [hb]
  · intro h1 h2 b hb
    unfold lookupPattern
    rw [h1, h2, hb]
    rfl
  · intro h1 h2
    unfold lookupPattern
    rw [h1]
    rcases h2 with h2 | h2
    · rw [h2]
      rfl
    · rw [h2]
      cases grok.lookupDefaultPatterns <;> rfl
  · intro es
    rw [lookupPattern_found_iff, foldl_addPattern_flag, foldl_addPattern_keys]
    constructor
    · rintro ((h | h) | ⟨h, _⟩)
      · exact h
      · exact absurd h (List.not_mem_nil _)
      · exact absurd h (by decide)
    · intro h
      exact Or.inl (Or.inl h)
  · intro es
    rw [lookupPattern_found_iff, foldl_addPattern_flag, foldl_addPattern_keys]
    constructor
    · rintro ((h | h) | ⟨_, h⟩)
      · exact Or.inl h
      · exact absurd h (List.not_mem_nil _)
      · exact Or.inr h
    · rintro (h | h)
      · exact Or.inl (Or.inl h)
      · exact Or.inr ⟨rfl, h⟩

/-- Witness of `lookup_reference`: with the default table holding `A` and `B`, the
user body of `A` shadows the default, `B` is found only when default lookup is
enabled, and `C` is not found. -/
theorem lookup_reference_witness :
    lookupPattern [("A".toList, "d".toList), ("B".toList, "e".toList)]
        (AddPattern New "A".toList "u".toList) "A".toList = ("u".toList, true) ∧
    lookupPattern [("A".toList, "d".toList), ("B".toList, "e".toList)]
        (AddPattern New "A".toList "u".toList) "B".toList = ("e".toList, true) ∧
    lookupPattern [("A".toList, "d".toList), ("B".toList, "e".toList)]
        (AddPattern NewWithoutDefaultPatterns "A".toList "u".toList) "B".toList =
      ([], false) ∧
    lookupPattern [("A".toList, "d".toList), ("B".toList, "e".toList)]
        (AddPattern New "A".toList "u".toList) "C".toList = ([], false) :=
  ⟨(lookup_reference [("A".toList, "d".toList), ("B".toList, "e".toList)]
      (AddPattern New "A".toList "u".toList) "A".toList).1 "u".toList (by decide),
    (lookup_reference [("A".toList, "d".toList), ("B".toList, "e".toList)]
      (AddPattern New "A".toList "u".toList) "B".toList).2.1 (by decide) rfl "e".toList
      (by decide),
    (lookup_reference [("A".toList, "d".toList), ("B".toList, "e".toList)]
      (AddPattern NewWithoutDefaultPatterns "A".toList "u".toList) "B".toList).2.2.1
      (by decide) (Or.inl rfl),
    (lookup_reference [("A".toList, "d".toList), ("B".toList, "e".toList)]
      (AddPattern New "A".toList "u".toList) "C".toList).2.2.1
      (by decide) (Or.inr (by decide))⟩

/-- C26.  `AddPatterns(m)` leaves the user registry equal to the previous registry
overridden by `m`, whatever the order in which the entries of `m` are visited;
lookups and expansions do not depend on that order; the result is that of
applying `AddPattern` to each entry; the other fields are unchanged; and
`AddPatterns` of a nil or empty mapping leaves the instance unchanged. -/
theorem addPatterns_override (grok : Grok) (m m' : GoMap Str)
    (hm : (mapKeys m).Nodup) (hperm : m'.Perm m) :
    (∀ k b, mapGet m k = some b →
      mapGet (AddPatterns grok m').patternDefinitions k = some b) ∧
    (∀ k, mapGet m k = none →
      mapGet (AddPatterns grok m').patternDefinitions k = mapGet grok.patternDefinitions k) ∧
    (∀ Default k,
      lookupPattern Default (AddPatterns grok m') k =
        lookupPattern Default (AddPatterns grok m) k) ∧
    (∀ Default pattern nco,
      expand Default (AddPatterns grok m') pattern nco =
        expand Default (AddPatterns grok m) pattern nco) ∧
    AddPatterns grok m' = m'.foldl (fun g kv => AddPattern g kv.1 kv.2) grok ∧
    (AddPatterns grok m').re = grok.re ∧
    (AddPatterns grok m').typeHints = grok.typeHints ∧
    (AddPatterns grok m').lookupDefaultPatterns = grok.lookupDefaultPatterns ∧
    AddPatterns grok [] = grok := by
  have hm' : (mapKeys m').Nodup := (List.Perm.nodup_iff (List.Perm.map Prod.fst hperm)).mpr hm
  have hget : ∀ k, mapGet (AddPatterns grok m').patternDefinitions k =
      mapGet (AddPatterns grok m).patternDefinitions k := by
    intro k
    show mapGet (m'.foldl (fun acc kv => mapSet acc kv.1 kv.2) grok.patternDefinitions) k =
      mapGet (m.foldl (fun acc kv => mapSet acc kv.1 kv.2) grok.patternDefinitions) k
    rw [mapGet_foldl_mapSet m' _ k hm', mapGet_foldl_mapSet m _ k hm, mapGet_perm m m' hm hperm]
  have hlook : ∀ Default k, lookupPattern Default (AddPatterns grok m') k =
      lookupPattern Default (AddPatterns grok m) k :=
    fun Default k => lookupPattern_ext Default _ _ hget rfl k
  refine ⟨?_, ?_, hlook, ?_, addPatterns_eq_foldl m' grok, rfl, rfl, rfl, rfl⟩
  · intro k b hb
    rw [hget]
    show mapGet (m.foldl (fun acc kv => mapSet acc kv.1 kv.2) grok.patternDefinitions) k = _
    rw [mapGet_foldl_mapSet m _ k hm, hb]
  · intro k hb
    rw [hget]
    show mapGet (m.foldl (fun acc kv => mapSet acc kv.1 kv.2) grok.patternDefinitions) k = _
    rw [mapGet_foldl_mapSet m _ k hm, hb]
  · intro Default pattern nco
    exact expand_ext Default _ _ (hlook Default) pattern nco

/-- Witness of `addPatterns_override`: the entries `A`, `B` visited in the other
order, on a registry that already holds `A`. -/
theorem addPatterns_override_witness :
    (∀ Default k,
      lookupPattern Default
          (AddPatterns (AddPattern NewWithoutDefaultPatterns "A".toList "0".toList)
            [("B".toList, "2".toList), ("A".toList, "1".toList)]) k =
        lookupPattern Default
          (AddPatterns (AddPattern NewWithoutDefaultPatterns "A".toList "0".toList)
            [("A".toList, "1".toList), ("B".toList, "2".toList)]) k) ∧
    mapGet (AddPatterns (AddPattern NewWithoutDefaultPatterns "A".toList "0".toList)
        [("B".toList, "2".toList), ("A".toList, "1".toList)]).patternDefinitions "A".toList =
      some "1".toList :=
  ⟨(addPatterns_override (AddPattern NewWithoutDefaultPatterns "A".toList "0".toList)
      [("A".toList, "1".toList), ("B".toList, "2".toList)]
      [("B".toList, "2".toList), ("A".toList, "1".toList)] (by decide)
      (List.Perm.swap _ _ _)).2.2.1,
    (addPatterns_override (AddPattern NewWithoutDefaultPatterns "A".toList "0".toList)
      [("A".toList, "1".toList), ("B".toList, "2".toList)]
      [("B".toList, "2".toList), ("A".toList, "1".toList)] (by decide)
      (List.Perm.swap _ _ _)).1 "A".toList "1".toList (by decide)⟩

/-! ## The placeholder -/

theorem decode_head_underscore (s x : Str) (h : decode s = '_' :: x) :
    ∃ cs, s = '_' :: cs ∧ decode cs = x := by
  cases s with
  | nil =>
    rw [decode_nil] at h
    exact absurd h (by simp)
  | cons c cs =>
    by_cases hp : dotSep <+: c :: cs
    · obtain ⟨r, hr⟩ := hp
      rw [← hr, decode_dotSep_append] at h
      exact absurd (List.cons.inj h).1 (by decide)
    · rw [decode_cons_of_no_occ c cs hp] at h
      obtain ⟨h1, h2⟩ := List.cons.inj h
      exact ⟨cs, by rw [h1], h2⟩

/-- The decoded name never holds the placeholder: the replacement is done
leftmost first and puts a dot in the place of each occurrence. -/
theorem decode_no_dotSep : ∀ (n : Nat) (s : Str), s.length ≤ n → ¬ dotSep <:+: decode s := by
  intro n
  induction n with
  | zero =>
    intro s hs h
    have : s = [] := List.length_eq_zero.mp (Nat.le_zero.mp hs)
    subst this
    rw [decode_nil] at h
    obtain ⟨a, b, hab⟩ := h
    have := congrArg List.length hab
    simp [dotSep] at this
  | succ n ih =>
    intro s hs h
    cases s with
    | nil =>
      rw [decode_nil] at h
      obtain ⟨a, b, hab⟩ := h
      have := congrArg List.length hab
      simp [dotSep] at this
    | cons c cs =>
      by_cases hp : dotSep <+: c :: cs
      · obtain ⟨r, hr⟩ := hp
        have hlen : r.length ≤ n := by
          have := congrArg List.length hr
          simp only [dotSep, List.length_append, List.length_cons, List.length_nil] at this
          simp only [List.length_cons] at hs
          omega
        rw [← hr, decode_dotSep_append, List.infix_cons_iff] at h
        rcases h with h | h
        · obtain ⟨t, ht⟩ := h
          simp only [dotSep, List.cons_append, List.cons.injEq] at ht
          exact absurd ht.1 (by decide)
        · exact ih r hlen h
      · rw [decode_cons_of_no_occ c cs hp, List.infix_cons_iff] at h
        rcases h with h | h
        · obtain ⟨t, ht⟩ := h
          simp only [dotSep, List.cons_append, List.nil_append, List.cons.injEq] at ht
          obtain ⟨hc, hd⟩ := ht
          obtain ⟨cs1, hcs1, hd1⟩ := decode_head_underscore cs _ hd.symm
          obtain ⟨cs2, hcs2, _⟩ := decode_head_underscore cs1 _ hd1
          apply hp
          refine ⟨cs2, ?_⟩
          rw [hcs1, hcs2, ← hc]
          rfl
        · exact ih cs (by simp only [List.length_cons] at hs; omega) h

theorem decode_of_no_dotSep : ∀ (s : Str), ¬ dotSep <:+: s → decode s = s := by
  intro s
  induction s with
  | nil =>
    intro _
    exact decode_nil
  | cons c cs ih =>
    intro h
    have hp : ¬ dotSep <+: c :: cs := by
      rintro ⟨t, ht⟩
      exact h ⟨[], t, by simpa using ht⟩
    rw [decode_cons_of_no_occ c cs hp, ih (fun h' => h (List.infix_cons h'))]

theorem encode_of_no_dot : ∀ (s : Str), '.' ∉ s → encode s = s := by
  intro s
  induction s with
  | nil =>
    intro _
    exact encode_nil
  | cons c cs ih =>
    intro h
    have hc : c ≠ '.' := fun e => h (e ▸ List.mem_cons_self _ _)
    rw [encode_cons, if_neg hc, ih (fun hm => h (List.mem_cons_of_mem _ hm))]

/-- Every key written by the loop of `captureTypeFn` is a decoded group name. -/
theorem captureGroups_keys {K : Type} (conv : Option (Str → Str → Except GrokError K)) :
    ∀ (names ms : List Str) (caps caps' : GoMap K) (e : Option GrokError),
    captureGroups conv names ms caps = .ret (some caps', e) →
    ∀ k ∈ mapKeys caps', k ∈ mapKeys caps ∨ ∃ n ∈ names, k = decode n := by
  intro names
  induction names with
  | nil =>
    intro ms caps caps' e h k hk
    simp only [captureGroups, Run.ret.injEq, Prod.mk.injEq, Option.some.injEq] at h
    rw [← h.1] at hk
    exact Or.inl hk
  | cons n names ih =>
    intro ms caps caps' e h k hk
    have lift : (k ∈ mapKeys caps ∨ ∃ n' ∈ names, k = decode n') →
        k ∈ mapKeys caps ∨ ∃ n' ∈ n :: names, k = decode n' := by
      rintro (h' | ⟨n', hn', hd⟩)
      · exact Or.inl h'
      · exact Or.inr ⟨n', List.mem_cons_of_mem _ hn', hd⟩
    rw [captureGroups_cons] at h
    split at h
    · exact lift (ih _ _ _ _ h k hk)
    · split at h
      · exact absurd h (by simp)
      · split at h
        · exact lift (ih _ _ _ _ h k hk)
        · split at h
          · exact lift (ih _ _ _ _ h k hk)
          · split at h
            · exact absurd h (by simp)
            · rcases ih _ _ _ _ h k hk with h' | h'
              · rcases (mem_mapKeys_mapSet _ _ _ _).mp h' with h'' | h''
                · exact Or.inr ⟨n, List.mem_cons_self _ _, h''⟩
                · exact Or.inl h''
              · exact lift (Or.inr h')

theorem captureTypeFn_keys {K : Type} (re : Regexp) (text : Str)
    (conv : Option (Str → Str → Except GrokError K)) (caps : GoMap K) (e : Option GrokError)
    (h : captureTypeFn re text conv = .ret (some caps, e)) :
    ∀ k ∈ mapKeys caps, ∃ n ∈ re.SubexpNames, k = decode n := by
  intro k hk
  unfold captureTypeFn at h
  simp only at h
  split at h
  · simp only [Run.ret.injEq, Prod.mk.injEq, Option.some.injEq] at h
    rw [← h.1] at hk
    exact absurd hk (List.not_mem_nil _)
  · split at h
    · simp only [Run.ret.injEq, Prod.mk.injEq, Option.some.injEq] at h
      rw [← h.1] at hk
      exact absurd hk (List.not_mem_nil _)
    · rcases captureGroups_keys conv _ _ _ _ _ h k hk with h' | h'
      · exact absurd h' (List.not_mem_nil _)
      · exact h'

theorem parseString_keys (grok : Grok) (text : Str) (caps : GoMap Str) (e : Option GrokError)
    (h : ParseString grok text = .ret (some caps, e)) :
    ∀ k ∈ mapKeys caps, ∃ n, k = decode n := by
  intro k hk
  unfold ParseString captureString at h
  cases hre : grok.re with
  | none =>
    rw [hre] at h
    exact absurd h (by simp)
  | some re =>
    rw [hre] at h
    obtain ⟨n, _, hn⟩ := captureTypeFn_keys re text _ caps e h k hk
    exact ⟨n, hn⟩

theorem parse_keys (grok : Grok) (text : Str) (caps : GoMap Str) (e : Option GrokError)
    (h : Parse grok text = .ret (some caps, e)) :
    ∀ k ∈ mapKeys caps, ∃ n, k = decode n := by
  intro k hk
  unfold Parse captureBytes at h
  cases hre : grok.re with
  | none =>
    rw [hre] at h
    exact absurd h (by simp)
  | some re =>
    rw [hre] at h
    obtain ⟨n, _, hn⟩ := captureTypeFn_keys re text _ caps e h k hk
    exact ⟨n, hn⟩

theorem parseTyped_keys (grok : Grok) (text : Str) (caps : GoMap Value) (e : Option GrokError)
    (h : ParseTyped grok text = .ret (some caps, e)) :
    ∀ k ∈ mapKeys caps, ∃ n, k = decode n := by
  intro k hk
  unfold ParseTyped at h
  split at h
  · exact absurd h (by simp)
  · exact absurd h (by simp)
  · rename_i captures hc
    simp only [Run.ret.injEq, Prod.mk.injEq, Option.some.injEq] at h
    rw [← h.1, mapKeys_foldl_mapSet] at hk
    rcases hk with hk | hk
    · cases captures with
      | none => exact absurd hk (List.not_mem_nil _)
      | some c0 =>
        unfold captureTyped at hc
        cases hre : grok.re with
        | none =>
          rw [hre] at hc
          exact absurd hc (by simp)
        | some re =>
          rw [hre] at hc
          obtain ⟨n, _, hn⟩ := captureTypeFn_keys re text _ c0 none hc k hk
          exact ⟨n, hn⟩
    · exact absurd hk (List.not_mem_nil _)

/-- C28.  For every instance and every input, no key of the mapping returned by
`ParseString`, `Parse` or `ParseTyped` contains the placeholder `___`. -/
theorem placeholder_never_surfaced (grok : Grok) (text : Str) :
    (∀ caps e, ParseString grok text = .ret (some caps, e) →
      ∀ k ∈ mapKeys caps, ¬ dotSep <:+: k) ∧
    (∀ caps e, Parse grok text = .ret (some caps, e) →
      ∀ k ∈ mapKeys caps, ¬ dotSep <:+: k) ∧
    (∀ caps e, ParseTyped grok text = .ret (some caps, e) →
      ∀ k ∈ mapKeys caps, ¬ dotSep <:+: k) := by
  refine ⟨?_, ?_, ?_⟩
  · intro caps e h k hk
    obtain ⟨n, hn⟩ := parseString_keys grok text caps e h k hk
    rw [hn]
    exact decode_no_dotSep n.length n (le_refl _)
  · intro caps e h k hk
    obtain ⟨n, hn⟩ := parse_keys grok text caps e h k hk
    rw [hn]
    exact decode_no_dotSep n.length n (le_refl _)
  · intro caps e h k hk
    obtain ⟨n, hn⟩ := parseTyped_keys grok text caps e h k hk
    rw [hn]
    exact decode_no_dotSep n.length n (le_refl _)

/-- Witness of `placeholder_never_surfaced`: the groups `a___b` and `d` are returned
under the keys `a.b` and `d`. -/
theorem placeholder_never_surfaced_witness :
    ParseString mixedGrok "xyz".toList =
      .ret (some [("a.b".toList, "y".toList), ("d".toList, "z".toList)], none) ∧
    ∀ k ∈ mapKeys [("a.b".toList, "y".toList), ("d".toList, "z".toList)], ¬ dotSep <:+: k :=
  ⟨by decide,
    (placeholder_never_surfaced mixedGrok "xyz".toList).1
      [("a.b".toList, "y".toList), ("d".toList, "z".toList)] none (by decide)⟩

/-- C27 as stated fails.  The token `%{W:a___b}` is accepted by the token
regular expression; its ID `a___b` holds no dot and contains the placeholder;
the expression compiles to the group `a___b`, and the capture is surfaced under
the key `a.b`, not under the key `a___b`. -/
theorem placeholder_collision_counterexample :
    matchToken (tokenText "W:a___b".toList) = some "W:a___b".toList ∧
    dotSep <:+: "a___b".toList ∧
    '.' ∉ "a___b".toList ∧
    expand [] wordGrok (tokenText "W:a___b".toList) true =
      .ok ("(?P<a___b>\\w+)".toList, []) ∧
    ParseString (Compile underscoreHost [] wordGrok (tokenText "W:a___b".toList) true).1
        "x".toList = .ret (some [("a.b".toList, "x".toList)], none) ∧
    mapGet [("a.b".toList, "x".toList)] "a___b".toList = none := by
  refine ⟨?_, ⟨"a".toList, "b".toList, rfl⟩, ?_, ?_, ?_, ?_⟩ <;> decide

/-- C27 (amended).  For every token `%{S:ID}` accepted by the token regular
expression whose ID holds no dot, the group is named ID, and decode(ID) = ID
exactly when ID does not contain the placeholder `___`.  When it does not, a
group of that name with a non-empty match that no later group with a non-empty
match overrides is surfaced under exactly the key ID; when it does, no capture
result has the key ID. -/
theorem placeholder_free_id (S ID : Str) (hS : IsRun isWord S) (hID : IsRun isIdChar ID)
    (hdot : '.' ∉ ID) :
    matchToken (tokenText (S ++ ':' :: ID)) = some (S ++ ':' :: ID) ∧
    encode ID = ID ∧
    (decode (encode ID) = ID ↔ ¬ dotSep <:+: ID) ∧
    (¬ dotSep <:+: ID →
      ∀ (g : Grok) (re : Regexp) (text : Str) (pre post mpre mpost : List Str) (v : Str),
      g.re = some re →
      re.SubexpNames = pre ++ encode ID :: post →
      re.FindStringSubmatch text = mpre ++ v :: mpost →
      pre.length = mpre.length →
      post.length ≤ mpost.length →
      v ≠ [] →
      (∀ nm ∈ post.zip mpost, nm.1 ≠ [] → nm.2 ≠ [] → decode nm.1 ≠ ID) →
      ∃ caps, ParseString g text = .ret (some caps, none) ∧ mapGet caps ID = some v) ∧
    (dotSep <:+: ID →
      ∀ (g : Grok) (text : Str) (caps : GoMap Str) (e : Option GrokError),
      ParseString g text = .ret (some caps, e) → ID ∉ mapKeys caps) := by
  have henc : encode ID = ID := encode_of_no_dot ID hdot
  have hti : TokenInner (S ++ ':' :: ID) := Or.inr (Or.inl ⟨S, ID, hS, hID, rfl⟩)
  refine ⟨?_, henc, ?_, ?_, ?_⟩
  · have := matchToken_complete (S ++ ':' :: ID) [] hti
    rwa [List.append_nil] at this
  · rw [henc]
    constructor
    · intro hd hin
      have := decode_no_dotSep ID.length ID (le_refl _)
      rw [hd] at this
      exact this hin
    · exact decode_of_no_dotSep ID
  · intro hfree g re text pre post mpre mpost v hre hnames hfind hlen hlen2 hv hlater
    have hdec : decode ID = ID := decode_of_no_dotSep ID hfree
    rw [henc] at hnames
    simp only [ParseString, captureString, hre, captureTypeFn]
    rw [hfind, hnames]
    have h1 : ¬ (mpre ++ v :: mpost).length = 0 := by simp
    have h2 : ¬ (pre ++ ID :: post).length = 0 := by simp
    simp only [if_neg h1, if_neg h2]
    obtain ⟨caps, hc⟩ := captureGroups_string_total (pre ++ ID :: post)
      (mpre ++ v :: mpost) [] (by simp only [List.length_append, List.length_cons]; omega)
    refine ⟨caps, hc, ?_⟩
    have hlater' : ∀ nm ∈ post.zip mpost, nm.1 ≠ [] → nm.2 ≠ [] →
        decode nm.1 ≠ decode ID := by
      rw [hdec]
      exact hlater
    have := captureGroups_get (fun v _ => .ok v) ID v v post mpost hID.1 hv rfl hlater'
      pre mpre [] caps hlen hc
    rwa [hdec] at this
  · intro hin g text caps e h hk
    obtain ⟨n, hn⟩ := parseString_keys g text caps e h ID hk
    have := decode_no_dotSep n.length n (le_refl _)
    rw [← hn] at this
    exact this hin

/-- Witness of `placeholder_free_id`: the token `%{W:a__b}`, whose ID holds two
underscores only, is surfaced under the key `a__b`. -/
theorem placeholder_free_id_witness :
    ∃ caps,
      ParseString
          { patternDefinitions := [("W".toList, "\\w+".toList)],
            re := some ⟨["".toList, "a__b".toList], fun text => [text, text]⟩,
            typeHints := [], lookupDefaultPatterns := false }
          "x".toList = .ret (some caps, none) ∧
      mapGet caps "a__b".toList = some "x".toList :=
  (placeholder_free_id "W".toList "a__b".toList ⟨by decide, by decide⟩ ⟨by decide, by decide⟩
      (by decide)).2.2.2.1
    (decode_no_dotSep 4 "a__b".toList (by decide))
    _ ⟨["".toList, "a__b".toList], fun text => [text, text]⟩ "x".toList
    ["".toList] [] ["x".toList] [] "x".toList rfl rfl rfl rfl (by decide) (by decide)
    (by simp)

/-! ## Type hints recorded by `expand` -/

theorem reached_tokenInner (Default : GoMap Str) (grok : Grok) (pattern inner : Str)
    (h : Reached Default grok pattern inner) : TokenInner inner := by
  cases h with
  | start _ h => exact hasToken_tokenInner _ _ h
  | step _ body _ _ _ h => exact hasToken_tokenInner _ _ h

theorem split_three (w i t : Str) (hw : IsRun isWord w) (hi : IsRun isIdChar i)
    (ht : IsRun isWord t) : split ':' (w ++ ':' :: i ++ ':' :: t) = [w, i, t] := by
  have e : w ++ ':' :: i ++ ':' :: t = w ++ ':' :: (i ++ ':' :: t) := by simp
  rw [e, split_append_sep ':' w _ (colon_not_mem_of_run isWord isWord_colon _ hw),
    split_append_sep ':' i _ (colon_not_mem_of_run isIdChar isIdChar_colon _ hi),
    split_of_not_mem ':' t (colon_not_mem_of_run isWord isWord_colon _ ht)]

theorem split_two (w i : Str) (hw : IsRun isWord w) (hi : IsRun isIdChar i) :
    split ':' (w ++ ':' :: i) = [w, i] := by
  rw [split_append_sep ':' w _ (colon_not_mem_of_run isWord isWord_colon _ hw),
    split_of_not_mem ':' i (colon_not_mem_of_run isIdChar isIdChar_colon _ hi)]

theorem expandToken_typed (Default : GoMap Str) (grok : Grok) (nco : Bool) (w i t body : Str)
    (hw : IsRun isWord w) (hi : IsRun isIdChar i) (ht : IsRun isWord t)
    (hreg : lookupPattern Default grok w = (body, true)) (p : Str) (hints : GoMap Str) :
    expandToken Default grok nco (p, hints)
        (tokenText (w ++ ':' :: i ++ ':' :: t), w ++ ':' :: i ++ ':' :: t) =
      .ok (replaceAll p (tokenText (w ++ ':' :: i ++ ':' :: t)) (wrapNamed (encode i) body),
        mapSet hints (encode i) t) := by
  have := expandToken_with_id Default grok nco (w ++ ':' :: i ++ ':' :: t) w i body [t]
    (split_three w i t hw hi ht) hreg p hints
  simpa using this

theorem expandToken_untyped (Default : GoMap Str) (grok : Grok) (nco : Bool) (w i body : Str)
    (hw : IsRun isWord w) (hi : IsRun isIdChar i)
    (hreg : lookupPattern Default grok w = (body, true)) (p : Str) (hints : GoMap Str) :
    expandToken Default grok nco (p, hints) (tokenText (w ++ ':' :: i), w ++ ':' :: i) =
      .ok (replaceAll p (tokenText (w ++ ':' :: i)) (wrapNamed (encode i) body), hints) := by
  have := expandToken_with_id Default grok nco (w ++ ':' :: i) w i body []
    (split_two w i hw hi) hreg p hints
  simpa using this

theorem expandToken_reached (Default : GoMap Str) (grok : Grok) (nco : Bool) (pattern : Str)
    (st st' : Str × GoMap Str) (inner : Str)
    (hr : Reached Default grok pattern inner)
    (h1 : TokensReached Default grok pattern st.1)
    (h2 : HintsReached Default grok pattern st.2)
    (h : expandToken Default grok nco st (tokenText inner, inner) = .ok st') :
    TokensReached Default grok pattern st'.1 ∧ HintsReached Default grok pattern st'.2 := by
  have hti := reached_tokenInner Default grok pattern inner hr
  obtain ⟨p, hints⟩ := st
  cases hl : lookupPattern Default grok (syntaxOf inner) with
  | mk body found =>
    cases found with
    | false =>
      rw [expandToken_unknown Default grok nco (p, hints) (tokenText inner, inner)
        (by rw [hl])] at h
      exact absurd h (by simp)
    | true =>
      obtain ⟨R1, hints', hshape, htok⟩ :=
        expandToken_shape Default grok nco (p, hints) inner body hti hl
      have hst : st' = (replaceAll p (tokenText inner) (('(' :: R1) ++ [')']), hints') := by
        rw [hshape] at h
        exact (Except.ok.inj h).symm
      constructor
      · intro i hi
        rw [hst] at hi
        rcases hasToken_replaceAll inner R1 i _ p (le_refl _) hi with ⟨h', _⟩ | h'
        · exact h1 i h'
        · exact Reached.step inner body i hr hl (htok i h')
      · have hsame : hints' = hints → HintsReached Default grok pattern st'.2 := by
          intro e
          rw [hst, e]
          exact h2
        unfold syntaxOf at hl
        rcases split_tokenInner inner hti with ⟨hw, hsp⟩ | ⟨w, i, hw, hi, he, hsp⟩ |
          ⟨w, i, t, hw, hi, ht, he, hsp⟩
        · rw [hsp] at hl
          have hb := expandToken_bare Default grok nco inner body hw hl p hints
          rw [hshape] at hb
          exact hsame (congrArg Prod.snd (Except.ok.inj hb))
        · rw [hsp] at hl
          have hb := expandToken_untyped Default grok nco w i body hw hi hl p hints
          rw [← he, hshape] at hb
          exact hsame (congrArg Prod.snd (Except.ok.inj hb))
        · rw [hsp] at hl
          have hb := expandToken_typed Default grok nco w i t body hw hi ht hl p hints
          rw [← he, hshape] at hb
          have e : hints' = mapSet hints (encode i) t := congrArg Prod.snd (Except.ok.inj hb)
          rw [hst, e]
          intro k t' hk
          rw [mapGet_mapSet] at hk
          split at hk
          · rename_i hke
            have : t' = t := (Option.some.inj hk).symm
            subst this
            exact ⟨w, i, hw, hi, ht, he ▸ hr, hke⟩
          · exact h2 k t' hk

theorem expandPass_reached (Default : GoMap Str) (grok : Grok) (nco : Bool) (pattern : Str) :
    ∀ (ms : List (Str × Str)) (st st' : Str × GoMap Str),
    (∀ m ∈ ms, ∃ inner, m = (tokenText inner, inner) ∧ Reached Default grok pattern inner) →
    TokensReached Default grok pattern st.1 → HintsReached Default grok pattern st.2 →
    expandPass Default grok nco ms st = .ok st' →
    TokensReached Default grok pattern st'.1 ∧ HintsReached Default grok pattern st'.2 := by
  intro ms
  induction ms with
  | nil =>
    intro st st' _ h1 h2 h
    simp only [expandPass, Except.ok.injEq] at h
    rw [← h]
    exact ⟨h1, h2⟩
  | cons m ms ih =>
    intro st st' hms h1 h2 h
    obtain ⟨inner, hm, hr⟩ := hms m (List.mem_cons_self _ _)
    simp only [expandPass] at h
    cases hstep : expandToken Default grok nco st m with
    | error e =>
      rw [hstep] at h
      exact absurd h (by simp)
    | ok st1 =>
      rw [hstep] at h
      rw [hm] at hstep
      obtain ⟨t1, t2⟩ := expandToken_reached Default grok nco pattern st st1 inner hr h1 h2 hstep
      exact ih st1 st' (fun m' hm' => hms m' (List.mem_cons_of_mem _ hm')) t1 t2 h

theorem expandLoop_reached (Default : GoMap Str) (grok : Grok) (nco : Bool) (pattern : Str) :
    ∀ (n : Nat) (st st' : Str × GoMap Str),
    TokensReached Default grok pattern st.1 → HintsReached Default grok pattern st.2 →
    expandLoop Default grok nco n st = .ok st' →
    TokensReached Default grok pattern st'.1 ∧ HintsReached Default grok pattern st'.2 := by
  intro n
  induction n with
  | zero =>
    intro st st' h1 h2 h
    simp only [expandLoop, Except.ok.injEq] at h
    rw [← h]
    exact ⟨h1, h2⟩
  | succ n ih =>
    intro st st' h1 h2 h
    rw [expandLoop_succ] at h
    cases hf : findAllStringSubmatch st.1 with
    | nil =>
      rw [hf] at h
      simp only [Except.ok.injEq] at h
      rw [← h]
      exact ⟨h1, h2⟩
    | cons m ms =>
      rw [hf] at h
      simp only at h
      have hms : ∀ m' ∈ m :: ms, ∃ inner, m' = (tokenText inner, inner) ∧
          Reached Default grok pattern inner := by
        intro m' hm'
        rw [← hf, mem_findAll] at hm'
        obtain ⟨inner, e, ht⟩ := hm'
        exact ⟨inner, e, h1 inner ht⟩
      cases hp : expandPass Default grok nco (m :: ms) st with
      | error e =>
        rw [hp] at h
        exact absurd h (by simp)
      | ok st1 =>
        rw [hp] at h
        obtain ⟨t1, t2⟩ := expandPass_reached Default grok nco pattern _ st st1 hms h1 h2 hp
        exact ih st1 st' t1 t2 h

theorem expand_hintsReached (Default : GoMap Str) (grok : Grok) (nco : Bool)
    (pattern src : Str) (hints : GoMap Str)
    (h : expand Default grok pattern nco = .ok (src, hints)) :
    HintsReached Default grok pattern hints :=
  (expandLoop_reached Default grok nco pattern 1000 (pattern, []) (src, hints)
    (fun i hi => Reached.start i hi) (fun k t hk => absurd hk (by simp [mapGet])) h).2

/-! ## Passes of the outer loop -/

theorem passes_succ (Default : GoMap Str) (grok : Grok) (nco : Bool) (n : Nat)
    (st : Str × GoMap Str) :
    passes Default grok nco (n + 1) st =
      match expandPass Default grok nco (findAllStringSubmatch st.1) st with
      | .error e => .error e
      | .ok st' => passes Default grok nco n st' := rfl

theorem hasToken_append_left (a b inner : Str) (h : HasToken a inner) :
    HasToken (a ++ b) inner := by
  obtain ⟨pre, suf, hs, hm⟩ := h
  obtain ⟨hti, r, hr⟩ := (matchToken_iff suf inner).mp hm
  refine ⟨pre, suf ++ b, by rw [hs, List.append_assoc], ?_⟩
  rw [hr, List.append_assoc]
  exact matchToken_complete inner (r ++ b) hti

/-! ## Frame properties and plain expressions -/

/-- C32.  For every expression in which the token regular expression has no
match, the empty expression included, `expand` returns the expression itself
with an empty hint table and a nil error, whatever the registry and the mode;
so `Compile` hands the expression itself to the host engine. -/
theorem plain_passthrough (regexpCompile : Str → Option Regexp) (Default : GoMap Str)
    (grok : Grok) (pattern : Str) (nco : Bool)
    (h : findAllStringSubmatch pattern = []) :
    expand Default grok pattern nco = .ok (pattern, []) ∧
    Compile regexpCompile Default grok pattern nco =
      match regexpCompile pattern with
      | none => (grok, some (.regexpError pattern))
      | some re => ({ grok with re := some re, typeHints := [] }, none) := by
  have he : expand Default grok pattern nco = .ok (pattern, []) :=
    expandLoop_of_noToken Default grok nco 1000 (pattern, []) h
  refine ⟨he, ?_⟩
  unfold Compile compile
  rw [he]

/-- Witness of `plain_passthrough`: the empty expression and the expression
`foo.*`. -/
theorem plain_passthrough_witness :
    expand [] New [] true = .ok ([], []) ∧
    expand [] New "foo.*".toList false = .ok ("foo.*".toList, []) :=
  ⟨(plain_passthrough (fun _ => none) [] New [] true (by decide)).1,
    (plain_passthrough (fun _ => none) [] New "foo.*".toList false (by decide)).1⟩

/-- C33.  Whether `Compile` succeeds or fails, the user pattern table and the
default-lookup flag of the instance are the same after the call as before, and
so is every lookup. -/
theorem compile_frame (regexpCompile : Str → Option Regexp) (Default : GoMap Str)
    (grok : Grok) (pattern : Str) (nco : Bool) :
    (Compile regexpCompile Default grok pattern nco).1.patternDefinitions =
      grok.patternDefinitions ∧
    (Compile regexpCompile Default grok pattern nco).1.lookupDefaultPatterns =
      grok.lookupDefaultPatterns ∧
    (∀ D k, lookupPattern D (Compile regexpCompile Default grok pattern nco).1 k =
      lookupPattern D grok k) := by
  have h : (Compile regexpCompile Default grok pattern nco).1.patternDefinitions =
        grok.patternDefinitions ∧
      (Compile regexpCompile Default grok pattern nco).1.lookupDefaultPatterns =
        grok.lookupDefaultPatterns := by
    unfold Compile compile
    cases expand Default grok pattern nco with
    | error err => exact ⟨rfl, rfl⟩
    | ok out =>
      obtain ⟨src, hints⟩ := out
      simp only
      cases regexpCompile src with
      | none => exact ⟨rfl, rfl⟩
      | some re => exact ⟨rfl, rfl⟩
  exact ⟨h.1, h.2, fun D k => lookupPattern_congr D grok _ h.1 h.2 k⟩

/-- C34.  `AddPattern` and `AddPatterns` leave the compiled expression and the
type-hint table of the instance unchanged, so `Match`, `MatchString`,
`ParseString`, `Parse` and `ParseTyped` return after them what they returned
before. -/
theorem matcher_immutable (grok : Grok) (name body : Str) (m : GoMap Str) :
    (AddPattern grok name body).re = grok.re ∧
    (AddPattern grok name body).typeHints = grok.typeHints ∧
    (AddPatterns grok m).re = grok.re ∧
    (AddPatterns grok m).typeHints = grok.typeHints ∧
    (∀ text,
      Match (AddPattern grok name body) text = Match grok text ∧
      MatchString (AddPattern grok name body) text = MatchString grok text ∧
      ParseString (AddPattern grok name body) text = ParseString grok text ∧
      Parse (AddPattern grok name body) text = Parse grok text ∧
      ParseTyped (AddPattern grok name body) text = ParseTyped grok text) ∧
    (∀ text,
      Match (AddPatterns grok m) text = Match grok text ∧
      MatchString (AddPatterns grok m) text = MatchString grok text ∧
      ParseString (AddPatterns grok m) text = ParseString grok text ∧
      Parse (AddPatterns grok m) text = Parse grok text ∧
      ParseTyped (AddPatterns grok m) text = ParseTyped grok text) :=
  ⟨rfl, rfl, rfl, rfl, fun _ => ⟨rfl, rfl, rfl, rfl, rfl⟩, fun _ => ⟨rfl, rfl, rfl, rfl, rfl⟩⟩

/-- C38.  For every name that holds no underscore, decode(encode(name)) = name, and
encode(name) holds no dot. -/
theorem roundtrip_no_underscore (name : Str) (h : '_' ∉ name) :
    decode (encode name) = name ∧ '.' ∉ encode name := by
  refine ⟨decode_encode_of_safe name ?_ ?_, dot_not_mem_encode name⟩
  · rintro ⟨a, b, hab⟩
    apply h
    rw [← hab]
    simp
  · rintro ⟨a, b, hab⟩
    apply h
    rw [← hab]
    simp

/-- Witness of `roundtrip_no_underscore`: the name `log.level`. -/
theorem roundtrip_no_underscore_witness :
    decode (encode "log.level".toList) = "log.level".toList ∧
    '.' ∉ encode "log.level".toList :=
  roundtrip_no_underscore "log.level".toList (by decide)

/-! ## Byte-keyed and string-keyed extraction -/

theorem mapVals_mapSet {A B : Type} (f : A → B) (m : GoMap A) (k : Str) (v : A) :
    mapVals f (mapSet m k v) = mapSet (mapVals f m) k (f v) := by
  induction m with
  | nil => rfl
  | cons kv rest ih =>
    obtain ⟨k', v'⟩ := kv
    by_cases h : k' = k
    · simp [mapVals, mapSet, h]
    · have ih' : List.map (fun kv => (kv.1, f kv.2)) (mapSet rest k v) =
          mapSet (List.map (fun kv => (kv.1, f kv.2)) rest) k (f v) := ih
      simp [mapVals, mapSet, h, ih']

theorem mapKeys_mapVals {A B : Type} (f : A → B) (m : GoMap A) :
    mapKeys (mapVals f m) = mapKeys m := by
  induction m with
  | nil => rfl
  | cons kv rest ih =>
    show kv.1 :: mapKeys (mapVals f rest) = kv.1 :: mapKeys rest
    rw [ih]

theorem mapGet_mapVals {A B : Type} (f : A → B) (m : GoMap A) (k : Str) :
    mapGet (mapVals f m) k = (mapGet m k).map f := by
  induction m with
  | nil => rfl
  | cons kv rest ih =>
    obtain ⟨k', v'⟩ := kv
    show mapGet ((k', f v') :: mapVals f rest) k = _
    by_cases h : k' = k
    · simp [mapGet, h]
    · simp [mapGet, h, ih]

theorem captureGroups_cast {B : Type} (cast : Str → B) :
    ∀ (names ms : List Str) (caps : GoMap Str),
    captureGroups (some (fun v _ => .ok (cast v))) names ms (mapVals cast caps) =
      castResult cast (captureGroups stringConv names ms caps) := by
  intro names
  induction names with
  | nil =>
    intro ms caps
    rfl
  | cons n names ih =>
    intro ms caps
    rw [captureGroups_cons, captureGroups_cons]
    split
    · exact ih _ _
    · cases ms with
      | nil => rfl
      | cons m rest =>
        simp only
        split
        · exact ih _ _
        · simp only [stringConv]
          rw [← mapVals_mapSet]
          exact ih _ _

theorem captureTypeFn_cast {B : Type} (cast : Str → B) (re : Regexp) (text : Str) :
    captureTypeFn re text (some (fun v _ => .ok (cast v))) =
      castResult cast (captureTypeFn re text stringConv) := by
  unfold captureTypeFn
  simp only
  split
  · rfl
  · split
    · rfl
    · exact captureGroups_cast cast _ _ []

/-- C37.  For every instance and every text, `Parse([]byte(text))` and
`ParseString(text)` agree: whatever the representation of byte sequences, the
result of the byte-keyed extraction is the result of the string-keyed one with
each value converted, so the two mappings have the same keys and the value of
each key in the first is the byte sequence of its value in the second; with
byte sequences kept as texts the two results are equal. -/
theorem parse_agrees_with_parseString (grok : Grok) (text : Str) :
    Parse grok text = ParseString grok text ∧
    (∀ (B : Type) (cast : Str → B),
      captureBytesAs cast grok text = castResult cast (ParseString grok text) ∧
      (∀ caps e, ParseString grok text = .ret (some caps, e) →
        ∃ bcaps, captureBytesAs cast grok text = .ret (some bcaps, e) ∧
          mapKeys bcaps = mapKeys caps ∧
          ∀ k, mapGet bcaps k = (mapGet caps k).map cast)) := by
  have hcast : ∀ (B : Type) (cast : Str → B),
      captureBytesAs cast grok text = castResult cast (ParseString grok text) := by
    intro B cast
    unfold captureBytesAs ParseString captureString
    cases grok.re with
    | none => rfl
    | some re => exact captureTypeFn_cast cast re text
  refine ⟨rfl, fun B cast => ⟨hcast B cast, ?_⟩⟩
  intro caps e h
  refine ⟨mapVals cast caps, ?_, mapKeys_mapVals cast caps, mapGet_mapVals cast caps⟩
  rw [hcast, h]
  rfl

/-- Witness of `parse_agrees_with_parseString`: the captures of `mixedGrok` with
each text converted to the list of its character codes. -/
theorem parse_agrees_with_parseString_witness :
    captureBytesAs (fun v => v.map Char.toNat) mixedGrok "xyz".toList =
      .ret (some [("a.b".toList, [121]), ("d".toList, [122])], none) ∧
    captureBytesAs (fun v => v.map Char.toNat) mixedGrok "xyz".toList =
      castResult (fun v => v.map Char.toNat) (ParseString mixedGrok "xyz".toList) :=
  ⟨by decide,
    ((parse_agrees_with_parseString mixedGrok "xyz".toList).2 (List Nat)
      (fun v => v.map Char.toNat)).1⟩

/-! ## Calls on an instance without a compiled expression -/

theorem compile_rejecting_host (Default : GoMap Str) (grok : Grok) (pattern : Str) (nco : Bool) :
    (Compile (fun _ => none) Default grok pattern nco).1 = grok := by
  unfold Compile compile
  cases expand Default grok pattern nco with
  | error err => rfl
  | ok out => rfl

/-- C31 (code at the failing inputs).  On an instance from `New` or
`NewWithoutDefaultPatterns`, also after `AddPattern` and `AddPatterns` calls
and after a `Compile` call that fails, the field `re` is nil, and `Match`,
`MatchString`, `Parse`, `ParseString`, `ParseTyped` and `ParseTypedString`
panic on every input: each dereferences the nil `re`. -/
theorem uncompiled_instance_panics (Default : GoMap Str) (name body pattern : Str)
    (m : GoMap Str) (nco : Bool) (text : Str) :
    (Match New text = .panic ∧ MatchString New text = .panic ∧ Parse New text = .panic ∧
      ParseString New text = .panic ∧ ParseTyped New text = .panic ∧
      ParseTypedString New text = .panic) ∧
    (Match NewWithoutDefaultPatterns text = .panic ∧
      MatchString NewWithoutDefaultPatterns text = .panic ∧
      Parse NewWithoutDefaultPatterns text = .panic ∧
      ParseString NewWithoutDefaultPatterns text = .panic ∧
      ParseTyped NewWithoutDefaultPatterns text = .panic ∧
      ParseTypedString NewWithoutDefaultPatterns text = .panic) ∧
    (Match (AddPatterns (AddPattern New name body) m) text = .panic ∧
      MatchString (AddPatterns (AddPattern New name body) m) text = .panic ∧
      Parse (AddPatterns (AddPattern New name body) m) text = .panic ∧
      ParseString (AddPatterns (AddPattern New name body) m) text = .panic ∧
      ParseTyped (AddPatterns (AddPattern New name body) m) text = .panic ∧
      ParseTypedString (AddPatterns (AddPattern New name body) m) text = .panic) ∧
    (Match (Compile (fun _ => none) Default (AddPattern New name body) pattern nco).1 text =
        .panic ∧
      MatchString (Compile (fun _ => none) Default (AddPattern New name body) pattern nco).1
        text = .panic ∧
      Parse (Compile (fun _ => none) Default (AddPattern New name body) pattern nco).1 text =
        .panic ∧
      ParseString (Compile (fun _ => none) Default (AddPattern New name body) pattern nco).1
        text = .panic ∧
      ParseTyped (Compile (fun _ => none) Default (AddPattern New name body) pattern nco).1
        text = .panic ∧
      ParseTypedString
        (Compile (fun _ => none) Default (AddPattern New name body) pattern nco).1 text =
        .panic) ∧
    (Compile (fun _ => none) [] New (tokenText "X".toList) true).2 =
      some (.parseFailure "X".toList) ∧
    MatchString (Compile (fun _ => none) [] New (tokenText "X".toList) true).1 text = .panic := by
  refine ⟨⟨rfl, rfl, rfl, rfl, rfl, rfl⟩, ⟨rfl, rfl, rfl, rfl, rfl, rfl⟩,
    ⟨rfl, rfl, rfl, rfl, rfl, rfl⟩, ?_, by decide, ?_⟩
  · rw [compile_rejecting_host]
    exact ⟨rfl, rfl, rfl, rfl, rfl, rfl⟩
  · rw [compile_rejecting_host]
    rfl

/-! ## Simultaneous substitution -/

theorem substituteGo_skip (σ : Str → Option Str) (x r : Str) :
    substituteGo σ x.length (x ++ r) = substituteGo σ 0 r := by
  induction x with
  | nil => rfl
  | cons c cs ih => simpa [substituteGo] using ih

theorem substituteTokens_nil (σ : Str → Option Str) : substituteTokens σ [] = [] := rfl

theorem substituteTokens_replaced (σ : Str → Option Str) (inner r rest : Str)
    (hti : TokenInner inner) (hσ : σ inner = some r) :
    substituteTokens σ (tokenText inner ++ rest) = r ++ substituteTokens σ rest := by
  have hm : matchToken ('%' :: ('{' :: inner ++ ['}'] ++ rest)) = some inner :=
    matchToken_complete inner rest hti
  show substituteGo σ 0 ('%' :: ('{' :: inner ++ ['}'] ++ rest)) = _
  rw [substituteGo]
  simp only [hm, hσ]
  have hlen : inner.length + 2 = ('{' :: inner ++ ['}']).length := by simp
  rw [hlen, substituteGo_skip]
  rfl

theorem substituteTokens_keep (σ : Str → Option Str) (c : Char) (cs : Str)
    (h : ∀ inner, matchToken (c :: cs) = some inner → σ inner = none) :
    substituteTokens σ (c :: cs) = c :: substituteTokens σ cs := by
  show substituteGo σ 0 (c :: cs) = c :: substituteGo σ 0 cs
  rw [substituteGo]
  cases hm : matchToken (c :: cs) with
  | none => rfl
  | some inner =>
    simp only
    rw [h inner hm]

theorem substituteTokens_no_percent (σ : Str → Option Str) :
    ∀ (x Y : Str), (∀ c ∈ x, c ≠ '%') →
    substituteTokens σ (x ++ Y) = x ++ substituteTokens σ Y := by
  intro x
  induction x with
  | nil =>
    intro Y _
    rfl
  | cons c cs ih =>
    intro Y h
    have hc : c ≠ '%' := h c (List.mem_cons_self _ _)
    rw [List.cons_append, substituteTokens_keep σ c (cs ++ Y)
      (fun inner hm => by rw [matchToken_of_head_ne c _ hc] at hm; exact absurd hm (by simp)),
      ih Y (fun c' hc' => h c' (List.mem_cons_of_mem _ hc'))]
    rfl

theorem tokenBody_no_percent (inner : Str) (hti : TokenInner inner) :
    ∀ c ∈ ('{' :: inner ++ ['}'] : Str), c ≠ '%' := by
  intro c' hc'
  simp only [List.cons_append, List.mem_cons, List.mem_append, List.mem_singleton,
    List.not_mem_nil, or_false] at hc'
  rcases hc' with e | e | e
  · rw [e]
    decide
  · exact isTokChar_ne_percent c' (tokenInner_chars inner hti c' e)
  · rw [e]
    decide

theorem substituteTokens_kept_token (σ : Str → Option Str) (inner rest : Str)
    (hti : TokenInner inner) (hσ : σ inner = none) :
    substituteTokens σ (tokenText inner ++ rest) =
      tokenText inner ++ substituteTokens σ rest := by
  have hm : matchToken ('%' :: ('{' :: inner ++ ['}'] ++ rest)) = some inner :=
    matchToken_complete inner rest hti
  show substituteTokens σ ('%' :: ('{' :: inner ++ ['}'] ++ rest)) = _
  rw [substituteTokens_keep σ '%' _ (fun i hi => by
    rw [hm] at hi
    rw [← Option.some.inj hi]
    exact hσ),
    substituteTokens_no_percent σ _ rest (tokenBody_no_percent inner hti)]
  rfl

/-- Either a token starts the text, or the token regular expression does not match
at its start. -/
theorem token_at_head (c : Char) (cs : Str) :
    (∃ inner rest, TokenInner inner ∧ c :: cs = tokenText inner ++ rest ∧
      rest.length < (c :: cs).length) ∨ matchToken (c :: cs) = none := by
  cases hm : matchToken (c :: cs) with
  | none => exact Or.inr rfl
  | some inner =>
    obtain ⟨hti, rest, hr⟩ := (matchToken_iff (c :: cs) inner).mp hm
    refine Or.inl ⟨inner, rest, hti, hr, ?_⟩
    rw [hr]
    simp only [tokenText, List.cons_append, List.length_cons, List.length_append,
      List.length_nil]
    omega

/-- On the text of a token, `strings.ReplaceAll` is the substitution of that one
token. -/
theorem replaceAll_eq_substitute (tok repl : Str) (htok : TokenInner tok) :
    ∀ (n : Nat) (s : Str), s.length ≤ n →
    replaceAll s (tokenText tok) repl = substituteTokens (oneToken tok repl) s := by
  have hne : tokenText tok ≠ [] := List.cons_ne_nil _ _
  intro n
  induction n with
  | zero =>
    intro s hs
    have : s = [] := List.length_eq_zero.mp (Nat.le_zero.mp hs)
    subst this
    rw [replaceAll_nil _ _ hne]
    rfl
  | succ n ih =>
    intro s hs
    cases s with
    | nil =>
      rw [replaceAll_nil _ _ hne]
      rfl
    | cons c cs =>
      have keep : (∀ inner, matchToken (c :: cs) = some inner → inner ≠ tok) →
          replaceAll (c :: cs) (tokenText tok) repl =
            substituteTokens (oneToken tok repl) (c :: cs) := by
        intro hk
        have hp : ¬ tokenText tok <+: c :: cs := by
          rintro ⟨r, hr⟩
          have := matchToken_complete tok r htok
          rw [hr] at this
          exact hk tok this rfl
        rw [replaceAll_cons_of_no_occ _ _ c cs hne hp,
          substituteTokens_keep _ c cs (fun inner hm => by
            simp only [oneToken]
            rw [if_neg (hk inner hm)]),
          ih cs (by simp only [List.length_cons] at hs; omega)]
      rcases token_at_head c cs with ⟨inner, rest, hti, hr, hlt⟩ | hm
      · by_cases he : inner = tok
        · subst he
          rw [hr, replaceAll_prefix _ _ _ hne,
            substituteTokens_replaced _ inner repl rest hti (by simp [oneToken]),
            ih rest (by simp only [List.length_cons] at hs hlt; omega)]
        · apply keep
          intro inner' hm'
          have : matchToken (c :: cs) = some inner := by
            rw [hr]
            exact matchToken_complete inner rest hti
          rw [this] at hm'
          rw [← Option.some.inj hm']
          exact he
      · apply keep
        intro inner' hm'
        rw [hm] at hm'
        exact absurd hm' (by simp)

theorem prefix_of_prefix_substitute (σ : Str → Option Str)
    (hσ : ∀ inner r, σ inner = some r → ∃ R, r = '(' :: R) :
    ∀ (s u : Str), '(' ∉ u → u <+: substituteTokens σ s → u <+: s := by
  intro s
  induction s with
  | nil =>
    intro u _ h
    exact h
  | cons c cs ih =>
    intro u hu h
    cases u with
    | nil => exact List.nil_prefix
    | cons a u' =>
      have ha : a ≠ '(' := fun e => hu (e ▸ List.mem_cons_self _ _)
      have hu' : '(' ∉ u' := fun hm => hu (List.mem_cons_of_mem _ hm)
      have keep : substituteTokens σ (c :: cs) = c :: substituteTokens σ cs →
          a :: u' <+: c :: cs := by
        intro e
        rw [e] at h
        obtain ⟨h1, h2⟩ := List.cons_prefix_cons.mp h
        exact List.cons_prefix_cons.mpr ⟨h1, ih u' hu' h2⟩
      cases hm : matchToken (c :: cs) with
      | none =>
        exact keep (substituteTokens_keep σ c cs (fun inner hi => by
          rw [hm] at hi
          exact absurd hi (by simp)))
      | some inner =>
        cases hs : σ inner with
        | none =>
          exact keep (substituteTokens_keep σ c cs (fun inner' hi => by
            rw [hm] at hi
            rw [← Option.some.inj hi]
            exact hs))
        | some r =>
          obtain ⟨hti, rest, hr⟩ := (matchToken_iff (c :: cs) inner).mp hm
          obtain ⟨R, hR⟩ := hσ inner r hs
          rw [hr, substituteTokens_replaced σ inner r rest hti hs, hR] at h
          obtain ⟨h1, _⟩ := List.cons_prefix_cons.mp h
          exact absurd h1 ha

theorem matchToken_substitute (σ : Str → Option Str)
    (hσ : ∀ inner r, σ inner = some r → ∃ R, r = '(' :: R)
    (c : Char) (cs inner : Str)
    (h : matchToken (c :: substituteTokens σ cs) = some inner) :
    matchToken (c :: cs) = some inner := by
  obtain ⟨hti, r, hr⟩ := (matchToken_iff _ inner).mp h
  have hc : c = '%' := (List.cons.inj hr).1
  have hpre : ('{' :: inner ++ ['}']) <+: substituteTokens σ cs := by
    refine ⟨r, ?_⟩
    have := (List.cons.inj hr).2
    rw [this]
    simp
  have hno : '(' ∉ ('{' :: inner ++ ['}'] : Str) := by
    intro hm
    exact not_mem_tokenText_of_breaker inner hti '(' isBreaker_lparen
      (List.mem_cons_of_mem _ hm)
  obtain ⟨r', hr'⟩ := prefix_of_prefix_substitute σ hσ cs _ hno hpre
  have e : c :: cs = tokenText inner ++ r' := by
    rw [hc, ← hr']
    simp [tokenText]
  rw [e]
  exact matchToken_complete inner r' hti

theorem substituteTokens_inert (τ : Str → Option Str) :
    ∀ (x Y : Str), (∀ i, ¬ HasToken x i) →
    substituteTokens τ (x ++ ')' :: Y) = x ++ ')' :: substituteTokens τ Y := by
  intro x
  induction x with
  | nil =>
    intro Y _
    exact substituteTokens_keep τ ')' Y (fun inner hm => by
      rw [matchToken_of_head_ne ')' Y (by decide)] at hm
      exact absurd hm (by simp))
  | cons c cs ih =>
    intro Y h
    have hcs : ∀ i, ¬ HasToken cs i := fun i hi => h i ((hasToken_cons c cs i).mpr (Or.inr hi))
    have hm : ∀ inner, matchToken (c :: (cs ++ ')' :: Y)) = some inner → τ inner = none := by
      intro inner hi
      have e : c :: (cs ++ ')' :: Y) = (c :: cs) ++ ')' :: Y := rfl
      rw [e, matchToken_append_breaker (c :: cs) Y ')' isBreaker_rparen] at hi
      exact absurd ((hasToken_cons c cs inner).mpr (Or.inl hi)) (h inner)
    rw [List.cons_append, substituteTokens_keep τ c _ hm, ih Y hcs]
    rfl

/-- Substituting with `τ` after an inert substitution `σ` is the one substitution
with `σ` where it is defined and `τ` elsewhere. -/
theorem substituteTokens_comp (σ τ : Str → Option Str) (hσ : InertImages σ) :
    ∀ (n : Nat) (s : Str), s.length ≤ n →
    substituteTokens τ (substituteTokens σ s) = substituteTokens (substThen σ τ) s := by
  have hσ' : ∀ inner r, σ inner = some r → ∃ R, r = '(' :: R := by
    intro inner r h
    obtain ⟨R, hR, _⟩ := hσ inner r h
    exact ⟨R ++ [')'], by rw [hR]; rfl⟩
  intro n
  induction n with
  | zero =>
    intro s hs
    have : s = [] := List.length_eq_zero.mp (Nat.le_zero.mp hs)
    subst this
    rfl
  | succ n ih =>
    intro s hs
    cases s with
    | nil => rfl
    | cons c cs =>
      rcases token_at_head c cs with ⟨inner, rest, hti, hr, hlt⟩ | hm
      · have hrest : rest.length ≤ n := by
          simp only [List.length_cons] at hs hlt
          omega
        rw [hr]
        cases hs1 : σ inner with
        | some r =>
          obtain ⟨R, hR, hfree⟩ := hσ inner r hs1
          rw [substituteTokens_replaced σ inner r rest hti hs1,
            substituteTokens_replaced (substThen σ τ) inner r rest hti
              (by simp [substThen, hs1]), hR]
          have e : ('(' :: R) ++ [')'] ++ substituteTokens σ rest =
              ('(' :: R) ++ ')' :: substituteTokens σ rest := by simp
          rw [e, substituteTokens_inert τ _ _ hfree, ih rest hrest]
          simp
        | none =>
          rw [substituteTokens_kept_token σ inner rest hti hs1]
          cases hs2 : τ inner with
          | some r' =>
            rw [substituteTokens_replaced τ inner r' _ hti hs2,
              substituteTokens_replaced (substThen σ τ) inner r' rest hti
                (by simp [substThen, hs1, hs2]), ih rest hrest]
          | none =>
            rw [substituteTokens_kept_token τ inner _ hti hs2,
              substituteTokens_kept_token (substThen σ τ) inner rest hti
                (by simp [substThen, hs1, hs2]), ih rest hrest]
      · have hk : ∀ (ρ : Str → Option Str) inner, matchToken (c :: cs) = some inner →
            ρ inner = none := by
          intro ρ inner hi
          rw [hm] at hi
          exact absurd hi (by simp)
        rw [substituteTokens_keep σ c cs (hk σ),
          substituteTokens_keep (substThen σ τ) c cs (hk _),
          substituteTokens_keep τ c _ (fun inner hi =>
            hk τ inner (matchToken_substitute σ hσ' c cs inner hi)),
          ih cs (by simp only [List.length_cons] at hs; omega)]

theorem substituteGo_congr (σ σ' : Str → Option Str) :
    ∀ (s : Str) (k : Nat), (∀ inner, HasToken s inner → σ inner = σ' inner) →
    substituteGo σ k s = substituteGo σ' k s := by
  intro s
  induction s with
  | nil =>
    intro k _
    cases k <;> rfl
  | cons c cs ih =>
    intro k h
    have hcs : ∀ inner, HasToken cs inner → σ inner = σ' inner :=
      fun inner hi => h inner ((hasToken_cons c cs inner).mpr (Or.inr hi))
    cases k with
    | succ k =>
      rw [substituteGo, substituteGo]
      exact ih k hcs
    | zero =>
      rw [substituteGo, substituteGo]
      cases hm : matchToken (c :: cs) with
      | none =>
        simp only
        rw [ih 0 hcs]
      | some inner =>
        simp only
        rw [← h inner ((hasToken_cons c cs inner).mpr (Or.inl hm))]
        cases σ inner with
        | none =>
          simp only
          rw [ih 0 hcs]
        | some r =>
          simp only
          rw [ih _ hcs]

theorem substituteTokens_congr (σ σ' : Str → Option Str) (s : Str)
    (h : ∀ inner, HasToken s inner → σ inner = σ' inner) :
    substituteTokens σ s = substituteTokens σ' s :=
  substituteGo_congr σ σ' s 0 h

theorem substituteTokens_none (s : Str) : substituteTokens (fun _ => none) s = s := by
  induction s with
  | nil => rfl
  | cons c cs ih =>
    rw [substituteTokens_keep _ c cs (fun _ _ => rfl), ih]

/-! ## One-level expansion -/

/-- The step of `expand` in terms of the wrapped body and the recorded hint. -/
theorem expandToken_eq (Default : GoMap Str) (grok : Grok) (nco : Bool)
    (st : Str × GoMap Str) (m : Str × Str) :
    expandToken Default grok nco st m =
      match wrappedBody Default grok nco m.2 with
      | none => .error (.parseFailure (syntaxOf m.2))
      | some r => .ok (replaceAll st.1 m.1 r, recordHint st.2 m.2) := by
  unfold expandToken wrappedBody recordHint syntaxOf
  simp only
  cases hl : lookupPattern Default grok ((split ':' m.2).headD []) with
  | mk body found =>
    cases found <;> rfl

theorem wrappedBody_lookup (Default : GoMap Str) (grok : Grok) (nco : Bool) (inner r : Str)
    (h : wrappedBody Default grok nco inner = some r) :
    ∃ body, lookupPattern Default grok (syntaxOf inner) = (body, true) := by
  unfold wrappedBody at h
  unfold syntaxOf
  simp only at h
  cases hl : lookupPattern Default grok ((split ':' inner).headD []) with
  | mk body found =>
    cases found with
    | false =>
      rw [hl] at h
      exact absurd h (by simp)
    | true => exact ⟨body, rfl⟩

theorem wrappedBody_of_lookup (Default : GoMap Str) (grok : Grok) (nco : Bool)
    (inner body : Str) (h : lookupPattern Default grok (syntaxOf inner) = (body, true)) :
    ∃ r, wrappedBody Default grok nco inner = some r := by
  unfold syntaxOf at h
  unfold wrappedBody
  simp only [h]
  exact ⟨_, rfl⟩

/-- The wrapped body of a token is a parenthesised text whose tokens are tokens of
the body. -/
theorem wrappedBody_shape (Default : GoMap Str) (grok : Grok) (nco : Bool) (inner body r : Str)
    (hti : TokenInner inner)
    (hreg : lookupPattern Default grok (syntaxOf inner) = (body, true))
    (h : wrappedBody Default grok nco inner = some r) :
    ∃ R, r = ('(' :: R) ++ [')'] ∧ ∀ i, HasToken ('(' :: R) i → HasToken body i := by
  obtain ⟨R1, hints, hshape, htok⟩ :=
    expandToken_shape Default grok nco (tokenText inner, []) inner body hti hreg
  refine ⟨R1, ?_, htok⟩
  rw [expandToken_eq] at hshape
  simp only [h] at hshape
  have e := congrArg Prod.fst (Except.ok.inj hshape)
  simp only at e
  have hne : tokenText inner ≠ [] := List.cons_ne_nil _ _
  rw [replaceAll_self (tokenText inner) r hne,
    replaceAll_self (tokenText inner) (('(' :: R1) ++ [')']) hne] at e
  exact e

/-- The pass over the matches `ms`, started when the tokens of the list `l` have
been substituted in `pattern`, ends when those of `l` and of `ms` have been. -/
theorem expandPass_substitute (Default : GoMap Str) (grok : Grok) (nco : Bool) (pattern : Str) :
    ∀ (ms : List (Str × Str)) (l : List Str) (st : Str × GoMap Str),
    (∀ m ∈ ms, ∃ inner, m = (tokenText inner, inner) ∧ TokenInner inner ∧
      ∃ body, lookupPattern Default grok (syntaxOf inner) = (body, true) ∧
        findAllStringSubmatch body = []) →
    (∀ inner ∈ l, TokenInner inner ∧
      ∃ body, lookupPattern Default grok (syntaxOf inner) = (body, true) ∧
        findAllStringSubmatch body = []) →
    st.1 = substituteTokens (restrictSubst l (wrappedBody Default grok nco)) pattern →
    ∃ st', expandPass Default grok nco ms st = .ok st' ∧
      st'.1 = substituteTokens
        (restrictSubst (l ++ ms.map Prod.snd) (wrappedBody Default grok nco)) pattern := by
  intro ms
  induction ms with
  | nil =>
    intro l st _ _ hst
    refine ⟨st, rfl, ?_⟩
    simpa using hst
  | cons m ms ih =>
    intro l st hms hl hst
    obtain ⟨inner, hm, hti, body, hreg, hbody⟩ := hms m (List.mem_cons_self _ _)
    obtain ⟨r, hr⟩ := wrappedBody_of_lookup Default grok nco inner body hreg
    have hinert : InertImages (restrictSubst l (wrappedBody Default grok nco)) := by
      intro i ri hi
      unfold restrictSubst at hi
      by_cases hmem : i ∈ l
      · rw [if_pos hmem] at hi
        obtain ⟨hti', body', hreg', hbody'⟩ := hl i hmem
        obtain ⟨R, hR, htok⟩ := wrappedBody_shape Default grok nco i body' ri hti' hreg' hi
        exact ⟨R, hR, fun j hj => (findAll_eq_nil_iff body').mp hbody' j (htok j hj)⟩
      · rw [if_neg hmem] at hi
        exact absurd hi (by simp)
    have hfun : substThen (restrictSubst l (wrappedBody Default grok nco)) (oneToken inner r) =
        restrictSubst (l ++ [inner]) (wrappedBody Default grok nco) := by
      funext x
      unfold substThen restrictSubst oneToken
      by_cases hx : x ∈ l
      · have hx' : x ∈ l ++ [inner] := List.mem_append_left _ hx
        rw [if_pos hx, if_pos hx']
        cases hw : wrappedBody Default grok nco x with
        | some rx => rfl
        | none =>
          simp only
          rw [if_neg]
          intro e
          rw [e, hr] at hw
          exact absurd hw (by simp)
      · rw [if_neg hx]
        simp only
        by_cases he : x = inner
        · rw [if_pos he, if_pos (by rw [he]; simp), he, hr]
        · rw [if_neg he, if_neg (by simp [hx, he])]
    have hstep : expandToken Default grok nco st m =
        .ok (substituteTokens (restrictSubst (l ++ [inner]) (wrappedBody Default grok nco))
          pattern, recordHint st.2 inner) := by
      rw [expandToken_eq, hm]
      simp only [hr]
      rw [hst, replaceAll_eq_substitute inner r hti _ _ (le_refl _),
        substituteTokens_comp _ _ hinert _ _ (le_refl _), hfun]
    have hl' : ∀ i ∈ l ++ [inner], TokenInner i ∧
        ∃ body, lookupPattern Default grok (syntaxOf i) = (body, true) ∧
          findAllStringSubmatch body = [] := by
      intro i hi
      rcases List.mem_append.mp hi with h' | h'
      · exact hl i h'
      · rw [List.mem_singleton.mp h']
        exact ⟨hti, body, hreg, hbody⟩
    obtain ⟨st', hrest, hst'⟩ := ih (l ++ [inner])
      (substituteTokens (restrictSubst (l ++ [inner]) (wrappedBody Default grok nco))
        pattern, recordHint st.2 inner)
      (fun m' hm' => hms m' (List.mem_cons_of_mem _ hm')) hl' rfl
    refine ⟨st', ?_, ?_⟩
    · simp only [expandPass]
      rw [hstep]
      exact hrest
    · rw [hst', hm]
      simp

/-- C35.  When every token of the expression resolves to a body that holds no
token, `expand` returns the expression with every token occurrence replaced,
simultaneously, by its wrapped body, and the returned source holds no token.
The wrapped body is `(`body`)` for a bare token in named-captures-only mode and
`(?P<name>`body`)` otherwise. -/
theorem one_level_expansion (Default : GoMap Str) (grok : Grok) (nco : Bool) (pattern : Str)
    (h : ∀ inner, HasToken pattern inner →
      ∃ body, lookupPattern Default grok (syntaxOf inner) = (body, true) ∧
        findAllStringSubmatch body = []) :
    (∃ hints, expand Default grok pattern nco =
      .ok (substituteTokens (wrappedBody Default grok nco) pattern, hints)) ∧
    findAllStringSubmatch (substituteTokens (wrappedBody Default grok nco) pattern) = [] ∧
    (∀ w body, IsRun isWord w → lookupPattern Default grok w = (body, true) →
      wrappedBody Default grok nco w =
        some (if nco then wrapBare body else wrapNamed w body)) ∧
    (∀ w i body, IsRun isWord w → IsRun isIdChar i →
      lookupPattern Default grok w = (body, true) →
      wrappedBody Default grok nco (w ++ ':' :: i) = some (wrapNamed (encode i) body)) ∧
    (∀ w i t body, IsRun isWord w → IsRun isIdChar i → IsRun isWord t →
      lookupPattern Default grok w = (body, true) →
      wrappedBody Default grok nco (w ++ ':' :: i ++ ':' :: t) =
        some (wrapNamed (encode i) body)) := by
  have hms : ∀ m ∈ findAllStringSubmatch pattern, ∃ inner, m = (tokenText inner, inner) ∧
      TokenInner inner ∧
      ∃ body, lookupPattern Default grok (syntaxOf inner) = (body, true) ∧
        findAllStringSubmatch body = [] := by
    intro m hm
    obtain ⟨inner, e, ht⟩ := (mem_findAll pattern m).mp hm
    exact ⟨inner, e, hasToken_tokenInner _ _ ht, h inner ht⟩
  have hres : ∀ i, HasToken pattern i →
      resolvesWithin Default grok 1 (syntaxOf i) = true := by
    intro i hi
    obtain ⟨body, hreg, hb⟩ := h i hi
    simp only [resolvesWithin, hreg, hb, List.all_nil]
  obtain ⟨stf, hloop, hfree⟩ :=
    expandLoop_resolves Default grok nco 1 1000 (pattern, []) (by omega) hres
  have hsrc : stf.1 = substituteTokens (wrappedBody Default grok nco) pattern := by
    cases hf : findAllStringSubmatch pattern with
    | nil =>
      rw [expandLoop_of_noToken Default grok nco 1000 (pattern, []) hf] at hloop
      rw [← Except.ok.inj hloop]
      have e : substituteTokens (wrappedBody Default grok nco) pattern =
          substituteTokens (fun _ => none) pattern :=
        substituteTokens_congr _ _ pattern (fun inner hi =>
          absurd hi ((findAll_eq_nil_iff pattern).mp hf inner))
      rw [e, substituteTokens_none]
    | cons m ms =>
      obtain ⟨st1, hp, hst1⟩ := expandPass_substitute Default grok nco pattern
        (findAllStringSubmatch pattern) [] (pattern, []) hms
        (fun i hi => absurd hi (List.not_mem_nil _))
        (by
          show pattern = substituteTokens (restrictSubst [] _) pattern
          have e : restrictSubst [] (wrappedBody Default grok nco) = fun _ => none := by
            funext x
            simp [restrictSubst]
          rw [e, substituteTokens_none])
      have hst1' : st1.1 = substituteTokens (wrappedBody Default grok nco) pattern := by
        rw [hst1]
        apply substituteTokens_congr
        intro inner hi
        have hmem : inner ∈ [] ++ (findAllStringSubmatch pattern).map Prod.snd := by
          rw [List.nil_append]
          exact List.mem_map.mpr ⟨(tokenText inner, inner),
            (mem_findAll pattern _).mpr ⟨inner, rfl, hi⟩, rfl⟩
        simp only [restrictSubst, if_pos hmem]
      have hloop1 : expandLoop Default grok nco 1000 (pattern, []) =
          expandLoop Default grok nco 999 st1 := by
        rw [expandLoop_succ, hf]
        rw [hf] at hp
        simp only [hp]
      rw [hloop1] at hloop
      -- the text after the first pass holds no token
      obtain ⟨st1', hp', htok⟩ := expandPass_resolves Default grok nco 0
        (findAllStringSubmatch pattern) (pattern, []) (fun m' hm' => by
          obtain ⟨inner, e, hti, _⟩ := hms m' hm'
          obtain ⟨inner2, e2, ht2⟩ := (mem_findAll pattern m').mp hm'
          have : inner2 = inner := by
            rw [e] at e2
            exact (congrArg Prod.snd e2).symm
          subst this
          exact ⟨inner2, e, hti, hres inner2 ht2⟩)
      have hst : st1' = st1 := by
        rw [hp] at hp'
        exact (Except.ok.inj hp').symm
      rw [hst] at htok
      have hnone : findAllStringSubmatch st1.1 = [] := by
        rw [findAll_eq_nil_iff]
        intro i hi
        rcases htok i hi with ⟨h1, h2⟩ | h2
        · exact h2 ((mem_findAll pattern _).mpr ⟨i, rfl, h1⟩)
        · simp [resolvesWithin] at h2
      rw [expandLoop_of_noToken Default grok nco 999 st1 hnone] at hloop
      rw [← Except.ok.inj hloop]
      exact hst1'
  refine ⟨⟨stf.2, ?_⟩, ?_, ?_, ?_, ?_⟩
  · show expandLoop Default grok nco 1000 (pattern, []) = _
    rw [hloop, ← hsrc]
  · rw [← hsrc]
    exact hfree
  · intro w body hw hreg
    have hsp : split ':' w = [w] :=
      split_of_not_mem ':' w (colon_not_mem_of_run isWord isWord_colon _ hw)
    unfold wrappedBody
    simp only [hsp, List.headD_cons, hreg]
    cases nco <;> simp
  · intro w i body hw hi hreg
    unfold wrappedBody
    simp only [split_two w i hw hi, List.headD_cons, hreg]
    simp
  · intro w i t body hw hi ht hreg
    unfold wrappedBody
    simp only [split_three w i t hw hi ht, List.headD_cons, hreg]
    simp

/-- Witness of `one_level_expansion`: the expression `%{A}-%{B:x}-%{A}` with `A` = `a+`
and `B` = `b`, where the token `%{A}` occurs twice. -/
theorem one_level_expansion_witness :
    substituteTokens (wrappedBody [] levelGrok true) "%\x7bA\x7d-%\x7bB:x\x7d-%\x7bA\x7d".toList =
      "(a+)-(?P<x>b)-(a+)".toList ∧
    ∃ hints, expand [] levelGrok "%\x7bA\x7d-%\x7bB:x\x7d-%\x7bA\x7d".toList true =
      .ok (substituteTokens (wrappedBody [] levelGrok true)
        "%\x7bA\x7d-%\x7bB:x\x7d-%\x7bA\x7d".toList, hints) :=
  ⟨by decide,
    (one_level_expansion [] levelGrok true "%\x7bA\x7d-%\x7bB:x\x7d-%\x7bA\x7d".toList
      (fun inner hi => by
        have hm := (mem_findAll _ (tokenText inner, inner)).mpr ⟨inner, rfl, hi⟩
        have hf : findAllStringSubmatch "%\x7bA\x7d-%\x7bB:x\x7d-%\x7bA\x7d".toList =
            [(tokenText "A".toList, "A".toList), (tokenText "B:x".toList, "B:x".toList),
              (tokenText "A".toList, "A".toList)] := by decide
        rw [hf] at hm
        simp only [List.mem_cons, Prod.mk.injEq, List.mem_singleton, List.not_mem_nil,
          or_false] at hm
        rcases hm with ⟨_, e⟩ | ⟨_, e⟩ | ⟨_, e⟩
        · rw [e]
          exact ⟨"a+".toList, by decide, by decide⟩
        · rw [e]
          exact ⟨"b".toList, by decide, by decide⟩
        · rw [e]
          exact ⟨"a+".toList, by decide, by decide⟩)).1⟩

/-! ## Independence of the capture mode -/

theorem wrapSim_refl : ∀ (s : Str), WrapSim s s
  | [] => WrapSim.nil
  | c :: cs => WrapSim.cons c cs cs (wrapSim_refl cs)

theorem wrapSim_nil_left (f : Str) (h : WrapSim [] f) : f = [] := by
  cases h
  rfl

theorem wrapSim_append (a b c d : Str) (h1 : WrapSim a b) (h2 : WrapSim c d) :
    WrapSim (a ++ c) (b ++ d) := by
  induction h1 with
  | nil => exact h2
  | cons x t f _ ih => exact WrapSim.cons x _ _ ih
  | name S t f hS _ ih =>
    have e : ('(' :: '?' :: 'P' :: '<' :: S ++ '>' :: f) ++ d =
        '(' :: '?' :: 'P' :: '<' :: S ++ '>' :: (f ++ d) := by simp
    rw [e]
    exact WrapSim.name S _ _ hS ih

theorem wrapSim_prefix_left : ∀ (u t2 f : Str), '(' ∉ u → WrapSim (u ++ t2) f →
    ∃ f2, f = u ++ f2 ∧ WrapSim t2 f2 := by
  intro u
  induction u with
  | nil =>
    intro t2 f _ h
    exact ⟨f, rfl, h⟩
  | cons a u' ih =>
    intro t2 f hu h
    have ha : a ≠ '(' := fun e => hu (e ▸ List.mem_cons_self _ _)
    have hu' : '(' ∉ u' := fun hm => hu (List.mem_cons_of_mem _ hm)
    cases h with
    | cons _ _ f' h' =>
      obtain ⟨f2, hf2, hs⟩ := ih t2 f' hu' h'
      exact ⟨f2, by rw [hf2]; rfl, hs⟩
    | name S _ f' _ _ => exact absurd rfl ha

theorem wrapSim_prefix_right : ∀ (u f2 t : Str), '(' ∉ u → WrapSim t (u ++ f2) →
    ∃ t2, t = u ++ t2 ∧ WrapSim t2 f2 := by
  intro u
  induction u with
  | nil =>
    intro f2 t _ h
    exact ⟨t, rfl, h⟩
  | cons a u' ih =>
    intro f2 t hu h
    have ha : a ≠ '(' := fun e => hu (e ▸ List.mem_cons_self _ _)
    have hu' : '(' ∉ u' := fun hm => hu (List.mem_cons_of_mem _ hm)
    generalize hfe : (a :: u') ++ f2 = fe at h
    cases h with
    | nil => exact absurd hfe (by simp)
    | cons c t' f' h' =>
      simp only [List.cons_append, List.cons.injEq] at hfe
      obtain ⟨hc, hf⟩ := hfe
      rw [← hf] at h'
      obtain ⟨t2, ht2, hs⟩ := ih f2 t' hu' h'
      exact ⟨t2, by rw [ht2, hc]; rfl, hs⟩
    | name S t' f' _ _ =>
      simp only [List.cons_append, List.cons.injEq] at hfe
      exact absurd hfe.1 ha

theorem lparen_not_mem_tokenText (inner : Str) (hti : TokenInner inner) :
    '(' ∉ tokenText inner :=
  not_mem_tokenText_of_breaker inner hti '(' isBreaker_lparen

theorem wrapSim_matchToken (t f : Str) (h : WrapSim t f) : matchToken t = matchToken f := by
  apply Option.ext
  intro inner
  show matchToken t = some inner ↔ matchToken f = some inner
  rw [matchToken_iff, matchToken_iff]
  constructor
  · rintro ⟨hti, r, hr⟩
    rw [hr] at h
    obtain ⟨f2, hf2, _⟩ := wrapSim_prefix_left _ r f (lparen_not_mem_tokenText inner hti) h
    exact ⟨hti, f2, hf2⟩
  · rintro ⟨hti, r, hr⟩
    rw [hr] at h
    obtain ⟨t2, ht2, _⟩ := wrapSim_prefix_right _ r t (lparen_not_mem_tokenText inner hti) h
    exact ⟨hti, t2, ht2⟩

theorem groupName_no_percent (S : Str) (hS : ∀ c ∈ S, c ≠ '%') :
    ∀ c ∈ ('?' :: 'P' :: '<' :: S ++ ['>'] : Str), c ≠ '%' := by
  intro c hc
  simp only [List.cons_append, List.mem_cons, List.mem_append, List.mem_singleton,
    List.not_mem_nil, or_false] at hc
  rcases hc with e | e | e | e | e
  · rw [e]
    decide
  · rw [e]
    decide
  · rw [e]
    decide
  · exact hS c e
  · rw [e]
    decide

/-- Related substitutions applied to related texts give related texts. -/
theorem wrapSim_substitute (σt σf : Str → Option Str) (hσ : SubstSim σt σf) :
    ∀ (n : Nat) (t f : Str), t.length ≤ n → WrapSim t f →
    WrapSim (substituteTokens σt t) (substituteTokens σf f) := by
  intro n
  induction n with
  | zero =>
    intro t f ht h
    have : t = [] := List.length_eq_zero.mp (Nat.le_zero.mp ht)
    subst this
    rw [wrapSim_nil_left f h]
    exact WrapSim.nil
  | succ n ih =>
    intro t f ht h
    cases t with
    | nil =>
      rw [wrapSim_nil_left f h]
      exact WrapSim.nil
    | cons c cs =>
      rcases token_at_head c cs with ⟨inner, rest, hti, hr, hlt⟩ | hm
      · have hrest : rest.length ≤ n := by
          simp only [List.length_cons] at ht hlt
          omega
        rw [hr] at h ⊢
        obtain ⟨f2, hf2, hs⟩ :=
          wrapSim_prefix_left _ rest f (lparen_not_mem_tokenText inner hti) h
        rw [hf2]
        rcases hσ inner with ⟨h1, h2⟩ | ⟨rt, rf, h1, h2, hrr⟩
        · rw [substituteTokens_kept_token σt inner rest hti h1,
            substituteTokens_kept_token σf inner f2 hti h2]
          exact wrapSim_append _ _ _ _ (wrapSim_refl _) (ih rest f2 hrest hs)
        · rw [substituteTokens_replaced σt inner rt rest hti h1,
            substituteTokens_replaced σf inner rf f2 hti h2]
          exact wrapSim_append _ _ _ _ hrr (ih rest f2 hrest hs)
      · have hk : ∀ (ρ : Str → Option Str) inner, matchToken (c :: cs) = some inner →
            ρ inner = none := by
          intro ρ inner hi
          rw [hm] at hi
          exact absurd hi (by simp)
        have hcs : cs.length ≤ n := by
          simp only [List.length_cons] at ht
          omega
        rw [substituteTokens_keep σt c cs (hk σt)]
        cases h with
        | cons _ _ f' h' =>
          have hmf : matchToken (c :: f') = none := by
            rw [← wrapSim_matchToken _ _ (WrapSim.cons c cs f' h')]
            exact hm
          rw [substituteTokens_keep σf c f' (fun inner hi => by
            rw [hmf] at hi
            exact absurd hi (by simp))]
          exact WrapSim.cons c _ _ (ih cs f' hcs h')
        | name S _ f' hS h' =>
          have e : ('(' :: '?' :: 'P' :: '<' :: S ++ '>' :: f' : Str) =
              '(' :: (('?' :: 'P' :: '<' :: S ++ ['>']) ++ f') := by simp
          rw [e, substituteTokens_keep σf '(' _ (fun inner hi => by
              rw [matchToken_of_head_ne '(' _ (by decide)] at hi
              exact absurd hi (by simp)),
            substituteTokens_no_percent σf _ f' (groupName_no_percent S hS)]
          have e2 : '(' :: (('?' :: 'P' :: '<' :: S ++ ['>']) ++ substituteTokens σf f') =
              '(' :: '?' :: 'P' :: '<' :: S ++ '>' :: substituteTokens σf f' := by simp
          rw [e2]
          exact WrapSim.name S _ _ hS (ih cs f' hcs h')

theorem findAll_token (inner rest : Str) (hti : TokenInner inner) :
    findAllStringSubmatch (tokenText inner ++ rest) =
      (tokenText inner, inner) :: findAllStringSubmatch rest := by
  have hm : matchToken ('%' :: ('{' :: inner ++ ['}'] ++ rest)) = some inner :=
    matchToken_complete inner rest hti
  show findAllGo 0 ('%' :: ('{' :: inner ++ ['}'] ++ rest)) = _
  rw [findAllGo]
  simp only [hm]
  have hlen : inner.length + 2 = ('{' :: inner ++ ['}']).length := by simp
  rw [hlen, findAllGo_skip]
  rfl

theorem findAll_no_match (c : Char) (cs : Str) (h : matchToken (c :: cs) = none) :
    findAllStringSubmatch (c :: cs) = findAllStringSubmatch cs := by
  show findAllGo 0 (c :: cs) = findAllGo 0 cs
  rw [findAllGo]
  simp only [h]

theorem findAll_no_percent : ∀ (x Y : Str), (∀ c ∈ x, c ≠ '%') →
    findAllStringSubmatch (x ++ Y) = findAllStringSubmatch Y := by
  intro x
  induction x with
  | nil =>
    intro Y _
    rfl
  | cons c cs ih =>
    intro Y h
    rw [List.cons_append, findAll_no_match c _
      (matchToken_of_head_ne c _ (h c (List.mem_cons_self _ _))),
      ih Y (fun c' hc' => h c' (List.mem_cons_of_mem _ hc'))]

/-- Related texts hold the same tokens in the same order. -/
theorem wrapSim_findAll : ∀ (n : Nat) (t f : Str), t.length ≤ n → WrapSim t f →
    findAllStringSubmatch t = findAllStringSubmatch f := by
  intro n
  induction n with
  | zero =>
    intro t f ht h
    have : t = [] := List.length_eq_zero.mp (Nat.le_zero.mp ht)
    subst this
    rw [wrapSim_nil_left f h]
  | succ n ih =>
    intro t f ht h
    cases t with
    | nil => rw [wrapSim_nil_left f h]
    | cons c cs =>
      rcases token_at_head c cs with ⟨inner, rest, hti, hr, hlt⟩ | hm
      · have hrest : rest.length ≤ n := by
          simp only [List.length_cons] at ht hlt
          omega
        rw [hr] at h ⊢
        obtain ⟨f2, hf2, hs⟩ :=
          wrapSim_prefix_left _ rest f (lparen_not_mem_tokenText inner hti) h
        rw [hf2, findAll_token inner rest hti, findAll_token inner f2 hti, ih rest f2 hrest hs]
      · have hcs : cs.length ≤ n := by
          simp only [List.length_cons] at ht
          omega
        rw [findAll_no_match c cs hm]
        cases h with
        | cons _ _ f' h' =>
          have hmf : matchToken (c :: f') = none := by
            rw [← wrapSim_matchToken _ _ (WrapSim.cons c cs f' h')]
            exact hm
          rw [findAll_no_match c f' hmf]
          exact ih cs f' hcs h'
        | name S _ f' hS h' =>
          have e : ('(' :: '?' :: 'P' :: '<' :: S ++ '>' :: f' : Str) =
              ('(' :: '?' :: 'P' :: '<' :: S ++ ['>']) ++ f' := by simp
          rw [e, findAll_no_percent _ f' (fun c' hc' => by
            rcases List.mem_cons.mp hc' with e' | e'
            · rw [e']
              decide
            · exact groupName_no_percent S hS c' e')]
          exact ih cs f' hcs h'

theorem wrapNamed_eq (S body : Str) :
    wrapNamed S body = '(' :: '?' :: 'P' :: '<' :: S ++ '>' :: (body ++ [')']) := by
  simp [wrapNamed]

/-- The wrapped bodies of a token in the two modes are both undefined, or related. -/
theorem wrappedBody_sim (Default : GoMap Str) (grok : Grok) (inner : Str)
    (hti : TokenInner inner) :
    (wrappedBody Default grok true inner = none ∧ wrappedBody Default grok false inner = none) ∨
    ∃ rt rf, wrappedBody Default grok true inner = some rt ∧
      wrappedBody Default grok false inner = some rf ∧ WrapSim rt rf := by
  cases hl : lookupPattern Default grok ((split ':' inner).headD []) with
  | mk body found =>
    cases found with
    | false =>
      left
      unfold wrappedBody
      simp only [hl]
      exact ⟨trivial, trivial⟩
    | true =>
      right
      rcases split_tokenInner inner hti with ⟨hw, hsp⟩ | ⟨w, i, hw, hi, he, hsp⟩ |
        ⟨w, i, t, hw, hi, ht, he, hsp⟩
      · refine ⟨wrapBare body, wrapNamed inner body, ?_, ?_, ?_⟩
        · unfold wrappedBody
          simp only [hl]
          simp [hsp]
        · unfold wrappedBody
          simp only [hl]
          simp [hsp]
        · rw [wrapNamed_eq]
          exact WrapSim.name inner _ _ (fun c hc => isWord_ne_percent c (hw.2 c hc))
            (wrapSim_refl _)
      · refine ⟨wrapNamed (encode i) body, wrapNamed (encode i) body, ?_, ?_, wrapSim_refl _⟩
        · unfold wrappedBody
          simp only [hl]
          simp [hsp]
        · unfold wrappedBody
          simp only [hl]
          simp [hsp]
      · refine ⟨wrapNamed (encode i) body, wrapNamed (encode i) body, ?_, ?_, wrapSim_refl _⟩
        · unfold wrappedBody
          simp only [hl]
          simp [hsp]
        · unfold wrappedBody
          simp only [hl]
          simp [hsp]

theorem expandToken_sim (Default : GoMap Str) (grok : Grok) (t f : Str) (hints : GoMap Str)
    (inner : Str) (hti : TokenInner inner) (h : WrapSim t f) :
    ResultSim (expandToken Default grok true (t, hints) (tokenText inner, inner))
      (expandToken Default grok false (f, hints) (tokenText inner, inner)) := by
  rw [expandToken_eq, expandToken_eq]
  rcases wrappedBody_sim Default grok inner hti with ⟨h1, h2⟩ | ⟨rt, rf, h1, h2, hrr⟩
  · simp only [h1, h2]
    exact rfl
  · simp only [h1, h2]
    refine ⟨?_, rfl⟩
    show WrapSim (replaceAll t (tokenText inner) rt) (replaceAll f (tokenText inner) rf)
    rw [replaceAll_eq_substitute inner rt hti _ t (le_refl _),
      replaceAll_eq_substitute inner rf hti _ f (le_refl _)]
    apply wrapSim_substitute _ _ _ _ t f (le_refl _) h
    intro x
    unfold oneToken
    by_cases hx : x = inner
    · right
      exact ⟨rt, rf, by rw [if_pos hx], by rw [if_pos hx], hrr⟩
    · left
      exact ⟨by rw [if_neg hx], by rw [if_neg hx]⟩

theorem expandPass_sim (Default : GoMap Str) (grok : Grok) :
    ∀ (ms : List (Str × Str)) (st1 st2 : Str × GoMap Str),
    (∀ m ∈ ms, ∃ inner, m = (tokenText inner, inner) ∧ TokenInner inner) →
    WrapSim st1.1 st2.1 → st1.2 = st2.2 →
    ResultSim (expandPass Default grok true ms st1) (expandPass Default grok false ms st2) := by
  intro ms
  induction ms with
  | nil =>
    intro st1 st2 _ h1 h2
    exact ⟨h1, h2⟩
  | cons m ms ih =>
    intro st1 st2 hms h1 h2
    obtain ⟨inner, hm, hti⟩ := hms m (List.mem_cons_self _ _)
    obtain ⟨t, ht⟩ := st1
    obtain ⟨f, hf⟩ := st2
    simp only at h1 h2
    subst h2
    have hstep := expandToken_sim Default grok t f ht inner hti h1
    rw [← hm] at hstep
    simp only [expandPass]
    cases hr1 : expandToken Default grok true (t, ht) m with
    | error e1 =>
      cases hr2 : expandToken Default grok false (f, ht) m with
      | error e2 =>
        rw [hr1, hr2] at hstep
        exact hstep
      | ok s2 =>
        rw [hr1, hr2] at hstep
        exact hstep.elim
    | ok s1 =>
      cases hr2 : expandToken Default grok false (f, ht) m with
      | error e2 =>
        rw [hr1, hr2] at hstep
        exact hstep.elim
      | ok s2 =>
        rw [hr1, hr2] at hstep
        exact ih s1 s2 (fun m' hm' => hms m' (List.mem_cons_of_mem _ hm')) hstep.1 hstep.2

theorem expandLoop_sim (Default : GoMap Str) (grok : Grok) :
    ∀ (n : Nat) (st1 st2 : Str × GoMap Str),
    WrapSim st1.1 st2.1 → st1.2 = st2.2 →
    ResultSim (expandLoop Default grok true n st1) (expandLoop Default grok false n st2) := by
  intro n
  induction n with
  | zero =>
    intro st1 st2 h1 h2
    exact ⟨h1, h2⟩
  | succ n ih =>
    intro st1 st2 h1 h2
    have hfind := wrapSim_findAll _ st1.1 st2.1 (le_refl _) h1
    have hall : ∀ m ∈ findAllStringSubmatch st1.1, ∃ inner, m = (tokenText inner, inner) ∧
        TokenInner inner := by
      intro m hm
      obtain ⟨inner, e, ht⟩ := (mem_findAll st1.1 m).mp hm
      exact ⟨inner, e, hasToken_tokenInner _ _ ht⟩
    rw [expandLoop_succ, expandLoop_succ, ← hfind]
    revert hall
    generalize findAllStringSubmatch st1.1 = ms
    intro hall
    cases ms with
    | nil => exact ⟨h1, h2⟩
    | cons m ms =>
      have hp := expandPass_sim Default grok (m :: ms) st1 st2 hall h1 h2
      simp only
      cases hr1 : expandPass Default grok true (m :: ms) st1 with
      | error e1 =>
        cases hr2 : expandPass Default grok false (m :: ms) st2 with
        | error e2 =>
          rw [hr1, hr2] at hp
          exact hp
        | ok s2 =>
          rw [hr1, hr2] at hp
          exact hp.elim
      | ok s1 =>
        cases hr2 : expandPass Default grok false (m :: ms) st2 with
        | error e2 =>
          rw [hr1, hr2] at hp
          exact hp.elim
        | ok s2 =>
          rw [hr1, hr2] at hp
          exact ih s1 s2 hp.1 hp.2

theorem expand_sim (Default : GoMap Str) (grok : Grok) (pattern : Str) :
    ResultSim (expand Default grok pattern true) (expand Default grok pattern false) :=
  expandLoop_sim Default grok 1000 (pattern, []) (pattern, []) (wrapSim_refl _) rfl

/-- C36.  For every registry and expression, `expand` with namedCapturesOnly true
returns an error exactly when `expand` with namedCapturesOnly false does, and
then the same error; when both succeed they return equal hint tables, and
sources that differ only by the group names `?P<S>` of the bare tokens. -/
theorem hints_mode_independent (Default : GoMap Str) (grok : Grok) (pattern : Str) :
    ((∃ e, expand Default grok pattern true = .error e) ↔
      (∃ e, expand Default grok pattern false = .error e)) ∧
    (∀ e, expand Default grok pattern true = .error e ↔
      expand Default grok pattern false = .error e) ∧
    (∀ s1 h1 s2 h2, expand Default grok pattern true = .ok (s1, h1) →
      expand Default grok pattern false = .ok (s2, h2) → h1 = h2 ∧ WrapSim s1 s2) := by
  have hsim := expand_sim Default grok pattern
  have herr : ∀ e, expand Default grok pattern true = .error e ↔
      expand Default grok pattern false = .error e := by
    intro e
    cases hr1 : expand Default grok pattern true with
    | error e1 =>
      cases hr2 : expand Default grok pattern false with
      | error e2 =>
        rw [hr1, hr2] at hsim
        have : e1 = e2 := hsim
        rw [this]
      | ok s2 =>
        rw [hr1, hr2] at hsim
        exact hsim.elim
    | ok s1 =>
      cases hr2 : expand Default grok pattern false with
      | error e2 =>
        rw [hr1, hr2] at hsim
        exact hsim.elim
      | ok s2 => simp
  refine ⟨?_, herr, ?_⟩
  · constructor
    · rintro ⟨e, he⟩
      exact ⟨e, (herr e).mp he⟩
    · rintro ⟨e, he⟩
      exact ⟨e, (herr e).mpr he⟩
  · intro s1 h1 s2 h2 hr1 hr2
    rw [hr1, hr2] at hsim
    exact ⟨hsim.2, hsim.1⟩

/-- Witness of `hints_mode_independent`: the expression `%{N} %{N:a:int}` gives the
hint `int` for `a` in both modes. -/
theorem hints_mode_independent_witness :
    expand [] numGrok "%\x7bN\x7d %\x7bN:a:int\x7d".toList true =
      .ok ("(\\d+) (?P<a>\\d+)".toList, [("a".toList, "int".toList)]) ∧
    expand [] numGrok "%\x7bN\x7d %\x7bN:a:int\x7d".toList false =
      .ok ("(?P<N>\\d+) (?P<a>\\d+)".toList, [("a".toList, "int".toList)]) ∧
    ([("a".toList, "int".toList)] = [("a".toList, "int".toList)] ∧
      WrapSim "(\\d+) (?P<a>\\d+)".toList "(?P<N>\\d+) (?P<a>\\d+)".toList) :=
  ⟨by decide, by decide,
    (hints_mode_independent [] numGrok "%\x7bN\x7d %\x7bN:a:int\x7d".toList).2.2 _ _ _ _
      (by decide) (by decide)⟩

/-! ## Typed conversion among several captures -/

/-- The extraction loop returns a mapping when every group with a name and a
non-empty match converts. -/
theorem captureGroups_total {K : Type} (conv : Str → Str → Except GrokError K) :
    ∀ (names ms : List Str) (caps : GoMap K),
    names.length ≤ ms.length →
    (∀ nm ∈ names.zip ms, nm.1 ≠ [] → nm.2 ≠ [] → ∃ v, conv nm.2 nm.1 = .ok v) →
    ∃ caps', captureGroups (some conv) names ms caps = .ret (some caps', none) := by
  intro names
  induction names with
  | nil =>
    intro ms caps _ _
    exact ⟨caps, rfl⟩
  | cons n names ih =>
    intro ms caps hlen hok
    cases ms with
    | nil => simp at hlen
    | cons m rest =>
      have hlen' : names.length ≤ rest.length := by simpa using hlen
      have hok' : ∀ nm ∈ names.zip rest, nm.1 ≠ [] → nm.2 ≠ [] →
          ∃ v, conv nm.2 nm.1 = .ok v :=
        fun nm h' => hok nm (by simp [List.zip_cons_cons, h'])
      rw [captureGroups_cons]
      split
      · exact ih _ _ hlen' hok'
      · rename_i hn
        simp only
        split
        · exact ih _ _ hlen' hok'
        · rename_i hm
          have hn' : n ≠ [] := fun h => hn (by rw [h]; rfl)
          have hm' : m ≠ [] := fun h => hm (by rw [h]; rfl)
          obtain ⟨v, hv⟩ := hok (n, m) (by simp [List.zip_cons_cons]) hn' hm'
          simp only [hv]
          exact ih _ _ hlen' hok'

/-- Typed extraction returns a mapping, with the value of a capture under its
decoded name, when every other capture converts and no later one overrides
the key. -/
theorem parseTyped_entry (grok : Grok) (re : Regexp) (text : Str)
    (pre post mpre mpost : List Str) (n m : Str) (v : Value)
    (hre : grok.re = some re)
    (hnames : re.SubexpNames = pre ++ n :: post)
    (hfind : re.FindStringSubmatch text = mpre ++ m :: mpost)
    (hlen : pre.length = mpre.length) (hlen2 : post.length ≤ mpost.length)
    (hpre : ∀ nm ∈ pre.zip mpre, nm.1 ≠ [] → nm.2 ≠ [] →
      ∃ v', convertMatch grok nm.2 nm.1 = .ok v')
    (hpost : ∀ nm ∈ post.zip mpost, nm.1 ≠ [] → nm.2 ≠ [] →
      ∃ v', convertMatch grok nm.2 nm.1 = .ok v')
    (hlater : ∀ nm ∈ post.zip mpost, nm.1 ≠ [] → nm.2 ≠ [] → decode nm.1 ≠ decode n)
    (hn : n ≠ []) (hm : m ≠ []) (hconv : convertMatch grok m n = .ok v) :
    ∃ caps, ParseTyped grok text = .ret (some caps, none) ∧
      mapGet caps (decode n) = some v := by
  have hall : ∀ nm ∈ (pre ++ n :: post).zip (mpre ++ m :: mpost), nm.1 ≠ [] → nm.2 ≠ [] →
      ∃ v', convertMatch grok nm.2 nm.1 = .ok v' := by
    intro nm hnm h1 h2
    rw [List.zip_append hlen, List.zip_cons_cons] at hnm
    rcases List.mem_append.mp hnm with h | h
    · exact hpre nm h h1 h2
    · rcases List.mem_cons.mp h with h | h
      · rw [h]
        exact ⟨v, hconv⟩
      · exact hpost nm h h1 h2
  obtain ⟨caps, hc⟩ := captureGroups_total (convertMatch grok) (pre ++ n :: post)
    (mpre ++ m :: mpost) [] (by simp only [List.length_append, List.length_cons]; omega) hall
  have hcap : captureTyped grok text = .ret (some caps, none) := by
    simp only [captureTyped, hre, captureTypeFn]
    rw [hfind, hnames]
    have h1 : ¬ (mpre ++ m :: mpost).length = 0 := by simp
    have h2 : ¬ (pre ++ n :: post).length = 0 := by simp
    simp only [if_neg h1, if_neg h2]
    exact hc
  have hret := parseTyped_of_captureTyped_ok grok text caps hcap
  exact ⟨caps, hret,
    parseTyped_get grok re text pre post mpre mpost n m v caps hre hnames hfind hlen hlater
      hn hm hconv hret⟩

/-- C8 as stated fails.  (1) With the groups `a` and `b`, both of hint `int`, on
`1 abc`: the capture `a` has the text `1`, which converts to the integer 1, but
`ParseTyped` returns the error of `b` and no mapping.  (2) With two groups named
`a` of hint `int` on `1 2`: the first capture has the text `1`, but `ParseTyped`
maps `a` to 2. -/
theorem typed_integer_conversion_counterexample :
    (mapGet twoIntGrok.typeHints "a".toList = some "int".toList ∧
      convertMatch twoIntGrok "1".toList "a".toList = .ok (.int 1) ∧
      ParseTyped twoIntGrok "1 abc".toList = .ret (none, some (.numError "abc".toList))) ∧
    (mapGet sameNameIntGrok.typeHints "a".toList = some "int".toList ∧
      convertMatch sameNameIntGrok "1".toList "a".toList = .ok (.int 1) ∧
      ParseTyped sameNameIntGrok "1 2".toList = .ret (some [("a".toList, .int 2)], none)) := by
  refine ⟨⟨?_, ?_, ?_⟩, ⟨?_, ?_, ?_⟩⟩ <;> decide

/-- C8 (amended).  For a capture (a named group `name` of the match) whose hint is
`int` or `long` and whose matched text is an optional sign followed by decimal
digits writing an integer within the signed 64-bit range, the conversion
applied by `ParseTyped` returns that integer, not the text, and the extraction
loop writes it under the decoded name.  When every other capture of the match
with a non-empty text converts without error and no later group with a
non-empty match decodes to the same key, `ParseTyped` returns a mapping and a
nil error, and the mapping holds the integer under the decoded name; when the
other groups are unnamed or matched nothing, that entry is the whole mapping. -/
theorem typed_integer_conversion (grok : Grok) (name hint sign digits : Str)
    (hname : name ≠ [])
    (hhint : mapGet grok.typeHints name = some hint)
    (hty : hint = "int".toList ∨ hint = "long".toList)
    (hsign : sign = [] ∨ sign = ['+'] ∨ sign = ['-'])
    (hdigits : IsRun Char.isDigit digits)
    (hlo : -(2 ^ 63 : Int) ≤ decimalValue sign digits)
    (hhi : decimalValue sign digits ≤ (2 ^ 63 : Int) - 1) :
    convertMatch grok (sign ++ digits) name = .ok (.int (decimalValue sign digits)) ∧
    (∀ (names ms : List Str) (captures : GoMap Value),
      captureGroups (some (convertMatch grok)) (name :: names) ((sign ++ digits) :: ms)
          captures =
        captureGroups (some (convertMatch grok)) names ms
          (mapSet captures (decode name) (.int (decimalValue sign digits)))) ∧
    (∀ (re : Regexp) (text : Str) (pre post mpre mpost : List Str),
      grok.re = some re →
      re.SubexpNames = pre ++ name :: post →
      re.FindStringSubmatch text = mpre ++ (sign ++ digits) :: mpost →
      pre.length = mpre.length →
      post.length ≤ mpost.length →
      (∀ nm ∈ pre.zip mpre, nm.1 ≠ [] → nm.2 ≠ [] →
        ∃ v, convertMatch grok nm.2 nm.1 = .ok v) →
      (∀ nm ∈ post.zip mpost, nm.1 ≠ [] → nm.2 ≠ [] →
        ∃ v, convertMatch grok nm.2 nm.1 = .ok v) →
      (∀ nm ∈ post.zip mpost, nm.1 ≠ [] → nm.2 ≠ [] → decode nm.1 ≠ decode name) →
      ∃ caps, ParseTyped grok text = .ret (some caps, none) ∧
        mapGet caps (decode name) = some (.int (decimalValue sign digits))) ∧
    (∀ (re : Regexp) (text : Str) (pre post mpre mpost : List Str),
      grok.re = some re →
      re.SubexpNames = pre ++ name :: post →
      re.FindStringSubmatch text = mpre ++ (sign ++ digits) :: mpost →
      pre.length = mpre.length →
      post.length ≤ mpost.length →
      (∀ nm ∈ pre.zip mpre, nm.1 = [] ∨ nm.2 = []) →
      (∀ nm ∈ post.zip mpost, nm.1 = [] ∨ nm.2 = []) →
      ParseTyped grok text =
        .ret (some [(decode name, .int (decimalValue sign digits))], none)) := by
  have hconv : convertMatch grok (sign ++ digits) name =
      .ok (.int (decimalValue sign digits)) := by
    rw [convertMatch_int grok _ name hint hhint hty,
      Atoi_decimal sign digits hsign hdigits hlo hhi]
  have hm : sign ++ digits ≠ [] := by
    intro h
    exact hdigits.1 (List.append_eq_nil.mp h).2
  refine ⟨hconv, ?_, ?_, ?_⟩
  · intro names ms captures
    exact captureGroups_step (convertMatch grok) name _ _ names ms captures hname hm hconv
  · intro re text pre post mpre mpost hre hnames hfind hlen hlen2 hpre hpost hlater
    exact parseTyped_entry grok re text pre post mpre mpost name _ _ hre hnames hfind hlen
      hlen2 hpre hpost hlater hname hm hconv
  · intro re text pre post mpre mpost hre hnames hfind hlen hlen2 hpre hpost
    exact parseTyped_sole grok re text pre post mpre mpost name _ _ hre hnames hfind hlen
      hlen2 hpre hpost hname hm hconv

/-- Witness of `typed_integer_conversion`: the capture `destination.port` of hint
`int` on `1234`, after a capture `ok` of hint `bool` on `true`. -/
theorem typed_integer_conversion_witness :
    convertMatch boolPortGrok "1234".toList "destination___port".toList = .ok (.int 1234) ∧
    ∃ caps, ParseTyped boolPortGrok "true 1234".toList = .ret (some caps, none) ∧
      mapGet caps (decode "destination___port".toList) = some (.int 1234) :=
  have h := typed_integer_conversion boolPortGrok "destination___port".toList "int".toList []
    "1234".toList (by decide) (by decide) (by decide) (by decide)
    ⟨by decide, by decide⟩ (by decide) (by decide)
  ⟨h.1, h.2.2.1 _ "true 1234".toList ["".toList, "ok".toList] []
    ["true 1234".toList, "true".toList] [] rfl rfl rfl rfl (by decide)
    (by
      intro nm hnm h1 _
      simp only [List.zip_cons_cons, List.zip_nil_left, List.mem_cons, List.not_mem_nil,
        or_false] at hnm
      rcases hnm with e | e
      · rw [e] at h1
        exact absurd rfl h1
      · rw [e]
        exact ⟨.bool true, by decide⟩)
    (fun nm hnm => absurd hnm (by simp)) (fun nm hnm => absurd hnm (by simp))⟩

/-- C10 as stated fails.  (1) With the groups `a` and `b`, both of hint `bool`, on
`true x`: the capture `a` has the text `true`, but `ParseTyped` returns the
error of `b` and no mapping.  (2) With two groups named `a` of hint `bool` on
`true false`: the first capture has the text `true`, but `ParseTyped` maps `a`
to false. -/
theorem typed_boolean_conversion_counterexample :
    (mapGet twoBoolGrok.typeHints "a".toList = some "bool".toList ∧
      convertMatch twoBoolGrok "true".toList "a".toList = .ok (.bool true) ∧
      ParseTyped twoBoolGrok "true x".toList = .ret (none, some (.numError "x".toList))) ∧
    (mapGet sameNameBoolGrok.typeHints "a".toList = some "bool".toList ∧
      convertMatch sameNameBoolGrok "true".toList "a".toList = .ok (.bool true) ∧
      ParseTyped sameNameBoolGrok "true false".toList =
        .ret (some [("a".toList, .bool false)], none)) := by
  refine ⟨⟨?_, ?_, ?_⟩, ⟨?_, ?_, ?_⟩⟩ <;> decide

/-- C10 (amended).  For a capture (a named group `name` of the match) whose hint is
`bool` or `boolean`, the conversion applied by `ParseTyped` returns true on `1`,
`t`, `T`, `TRUE`, `true`, `True`, false on `0`, `f`, `F`, `FALSE`, `false`,
`False`, and an error on every other text; on one of the twelve texts the
extraction loop writes the boolean under the decoded name.  On one of them, when
every other capture of the match with a non-empty text converts without error
and no later group with a non-empty match decodes to the same key,
`ParseTyped` returns a mapping and a nil error, and the mapping holds the
boolean under the decoded name; when the other groups are unnamed or matched
nothing, that entry is the whole mapping.  On every other non-empty text
`ParseTyped` returns an error and no mapping. -/
theorem typed_boolean_conversion (grok : Grok) (name hint : Str)
    (hname : name ≠ [])
    (hhint : mapGet grok.typeHints name = some hint)
    (hty : hint = "bool".toList ∨ hint = "boolean".toList) :
    (∀ m ∈ trueTexts, convertMatch grok m name = .ok (.bool true)) ∧
    (∀ m ∈ falseTexts, convertMatch grok m name = .ok (.bool false)) ∧
    (∀ m, m ∉ trueTexts → m ∉ falseTexts →
      convertMatch grok m name = .error (.numError m)) ∧
    (∀ (m : Str) (b : Bool) (names ms : List Str) (captures : GoMap Value),
      (m ∈ trueTexts ∧ b = true ∨ m ∈ falseTexts ∧ b = false) →
      captureGroups (some (convertMatch grok)) (name :: names) (m :: ms) captures =
        captureGroups (some (convertMatch grok)) names ms
          (mapSet captures (decode name) (.bool b))) ∧
    (∀ (re : Regexp) (text : Str) (pre post mpre mpost : List Str) (m : Str) (b : Bool),
      (m ∈ trueTexts ∧ b = true ∨ m ∈ falseTexts ∧ b = false) →
      grok.re = some re →
      re.SubexpNames = pre ++ name :: post →
      re.FindStringSubmatch text = mpre ++ m :: mpost →
      pre.length = mpre.length →
      post.length ≤ mpost.length →
      (∀ nm ∈ pre.zip mpre, nm.1 ≠ [] → nm.2 ≠ [] →
        ∃ v, convertMatch grok nm.2 nm.1 = .ok v) →
      (∀ nm ∈ post.zip mpost, nm.1 ≠ [] → nm.2 ≠ [] →
        ∃ v, convertMatch grok nm.2 nm.1 = .ok v) →
      (∀ nm ∈ post.zip mpost, nm.1 ≠ [] → nm.2 ≠ [] → decode nm.1 ≠ decode name) →
      ∃ caps, ParseTyped grok text = .ret (some caps, none) ∧
        mapGet caps (decode name) = some (.bool b)) ∧
    (∀ (re : Regexp) (text : Str) (pre post mpre mpost : List Str) (m : Str) (b : Bool),
      (m ∈ trueTexts ∧ b = true ∨ m ∈ falseTexts ∧ b = false) →
      grok.re = some re →
      re.SubexpNames = pre ++ name :: post →
      re.FindStringSubmatch text = mpre ++ m :: mpost →
      pre.length = mpre.length →
      post.length ≤ mpost.length →
      (∀ nm ∈ pre.zip mpre, nm.1 = [] ∨ nm.2 = []) →
      (∀ nm ∈ post.zip mpost, nm.1 = [] ∨ nm.2 = []) →
      ParseTyped grok text = .ret (some [(decode name, .bool b)], none)) ∧
    (∀ (re : Regexp) (text : Str) (pre post mpre mpost : List Str) (m : Str),
      m ≠ [] → m ∉ trueTexts → m ∉ falseTexts →
      grok.re = some re →
      re.SubexpNames = pre ++ name :: post →
      re.FindStringSubmatch text = mpre ++ m :: mpost →
      pre.length = mpre.length →
      ∃ e, ParseTyped grok text = .ret (none, some e)) := by
  have ht : ∀ m ∈ trueTexts, convertMatch grok m name = .ok (.bool true) := by
    intro m hm
    rw [convertMatch_bool grok m name hint hhint hty, parseBool_true m hm]
  have hf : ∀ m ∈ falseTexts, convertMatch grok m name = .ok (.bool false) := by
    intro m hm
    rw [convertMatch_bool grok m name hint hhint hty, parseBool_false m hm]
  have he : ∀ m, m ∉ trueTexts → m ∉ falseTexts →
      convertMatch grok m name = .error (.numError m) := by
    intro m h1 h2
    rw [convertMatch_bool grok m name hint hhint hty, parseBool_other m h1 h2]
  have hb : ∀ (m : Str) (b : Bool),
      (m ∈ trueTexts ∧ b = true ∨ m ∈ falseTexts ∧ b = false) →
      m ≠ [] ∧ convertMatch grok m name = .ok (.bool b) := by
    rintro m b (⟨h, rfl⟩ | ⟨h, rfl⟩)
    · exact ⟨ne_nil_of_mem_boolTexts m (Or.inl h), ht m h⟩
    · exact ⟨ne_nil_of_mem_boolTexts m (Or.inr h), hf m h⟩
  refine ⟨ht, hf, he, ?_, ?_, ?_, ?_⟩
  · intro m b names ms captures hmb
    exact captureGroups_step (convertMatch grok) name m _ names ms captures hname
      (hb m b hmb).1 (hb m b hmb).2
  · intro re text pre post mpre mpost m b hmb hre hnames hfind hlen hlen2 hpre hpost hlater
    exact parseTyped_entry grok re text pre post mpre mpost name m _ hre hnames hfind hlen
      hlen2 hpre hpost hlater hname (hb m b hmb).1 (hb m b hmb).2
  · intro re text pre post mpre mpost m b hmb hre hnames hfind hlen hlen2 hpre hpost
    exact parseTyped_sole grok re text pre post mpre mpost name m _ hre hnames hfind hlen
      hlen2 hpre hpost hname (hb m b hmb).1 (hb m b hmb).2
  · intro re text pre post mpre mpost m hm h1 h2 hre hnames hfind hlen
    exact parseTyped_err grok re text pre post mpre mpost name m _ hre hnames hfind hlen
      hname hm (he m h1 h2)

/-- Witness of `typed_boolean_conversion`: the capture `ok` of hint `bool` on `true`,
before a capture `destination.port` of hint `int` on `1234`. -/
theorem typed_boolean_conversion_witness :
    convertMatch boolPortGrok "true".toList "ok".toList = .ok (.bool true) ∧
    ∃ caps, ParseTyped boolPortGrok "true 1234".toList = .ret (some caps, none) ∧
      mapGet caps (decode "ok".toList) = some (.bool true) :=
  have h := typed_boolean_conversion boolPortGrok "ok".toList "bool".toList
    (by decide) (by decide) (by decide)
  ⟨h.1 _ (by decide),
    h.2.2.2.2.1 _ "true 1234".toList ["".toList] ["destination___port".toList]
      ["true 1234".toList] ["1234".toList] "true".toList true
      (Or.inl ⟨by decide, rfl⟩) rfl rfl rfl rfl (by decide)
      (by
        intro nm hnm h1 _
        simp only [List.zip_cons_cons, List.zip_nil_left, List.mem_cons, List.not_mem_nil,
          or_false] at hnm
        rw [hnm] at h1
        exact absurd rfl h1)
      (by
        intro nm hnm _ _
        simp only [List.zip_cons_cons, List.zip_nil_left, List.mem_cons, List.not_mem_nil,
          or_false] at hnm
        rw [hnm]
        exact ⟨.int 1234, by decide⟩)
      (by
        intro nm hnm _ _
        simp only [List.zip_cons_cons, List.zip_nil_left, List.mem_cons, List.not_mem_nil,
          or_false] at hnm
        rw [hnm]
        decide)⟩

/-! ## Type hints recorded by `expand`: the returned table -/

theorem recordHint_bare (hints : GoMap Str) (w : Str) (hw : IsRun isWord w) :
    recordHint hints w = hints := by
  unfold recordHint
  simp [split_of_not_mem ':' w (colon_not_mem_of_run isWord isWord_colon _ hw)]

theorem recordHint_untyped (hints : GoMap Str) (w i : Str) (hw : IsRun isWord w)
    (hi : IsRun isIdChar i) : recordHint hints (w ++ ':' :: i) = hints := by
  unfold recordHint
  simp [split_two w i hw hi]

theorem recordHint_typed (hints : GoMap Str) (w i t : Str) (hw : IsRun isWord w)
    (hi : IsRun isIdChar i) (ht : IsRun isWord t) :
    recordHint hints (w ++ ':' :: i ++ ':' :: t) = mapSet hints (encode i) t := by
  unfold recordHint
  simp only [split_three w i t hw hi ht]
  simp

/-- The step on a token either leaves the table or writes the `TYPE` of a
three-part token under its encoded `ID`. -/
theorem recordHint_cases (hints : GoMap Str) (inner : Str) (hti : TokenInner inner) :
    recordHint hints inner = hints ∨
    ∃ w i t, IsRun isWord w ∧ IsRun isIdChar i ∧ IsRun isWord t ∧
      inner = w ++ ':' :: i ++ ':' :: t ∧
      recordHint hints inner = mapSet hints (encode i) t := by
  rcases hti with hw | ⟨w, i, hw, hi, he⟩ | ⟨w, i, t, hw, hi, ht, he⟩
  · exact Or.inl (recordHint_bare hints inner hw)
  · rw [he]
    exact Or.inl (recordHint_untyped hints w i hw hi)
  · rw [he]
    exact Or.inr ⟨w, i, t, hw, hi, ht, rfl, recordHint_typed hints w i t hw hi ht⟩

theorem expandPass_hints (Default : GoMap Str) (grok : Grok) (nco : Bool) :
    ∀ (ms : List (Str × Str)) (st st' : Str × GoMap Str),
    expandPass Default grok nco ms st = .ok st' →
    st'.2 = (ms.map Prod.snd).foldl recordHint st.2 := by
  intro ms
  induction ms with
  | nil =>
    intro st st' h
    simp only [expandPass, Except.ok.injEq] at h
    rw [← h]
    rfl
  | cons m ms ih =>
    intro st st' h
    simp only [expandPass] at h
    cases hstep : expandToken Default grok nco st m with
    | error e =>
      rw [hstep] at h
      exact absurd h (by simp)
    | ok st1 =>
      rw [hstep] at h
      have h1 : st1.2 = recordHint st.2 m.2 := by
        rw [expandToken_eq] at hstep
        cases hw : wrappedBody Default grok nco m.2 with
        | none =>
          rw [hw] at hstep
          exact absurd hstep (by simp)
        | some r =>
          rw [hw] at hstep
          rw [← Except.ok.inj hstep]
      rw [ih st1 st' h, h1]
      rfl

theorem processedTokens_of_noToken (Default : GoMap Str) (grok : Grok) (nco : Bool) :
    ∀ (n : Nat) (st : Str × GoMap Str), findAllStringSubmatch st.1 = [] →
    processedTokens Default grok nco n st = [] := by
  intro n
  induction n with
  | zero =>
    intro st _
    rfl
  | succ n _ =>
    intro st h
    simp only [processedTokens, h]

/-- The table that the outer loop returns is the table it started from after the
steps on the processed tokens, in order. -/
theorem expandLoop_hints (Default : GoMap Str) (grok : Grok) (nco : Bool) :
    ∀ (n : Nat) (st st' : Str × GoMap Str),
    expandLoop Default grok nco n st = .ok st' →
    st'.2 = (processedTokens Default grok nco n st).foldl recordHint st.2 := by
  intro n
  induction n with
  | zero =>
    intro st st' h
    simp only [expandLoop, Except.ok.injEq] at h
    rw [← h]
    rfl
  | succ n ih =>
    intro st st' h
    cases hf : findAllStringSubmatch st.1 with
    | nil =>
      rw [expandLoop_of_noToken Default grok nco (n + 1) st hf] at h
      rw [processedTokens_of_noToken Default grok nco (n + 1) st hf, ← Except.ok.inj h]
      rfl
    | cons m ms =>
      cases hp : expandPass Default grok nco (findAllStringSubmatch st.1) st with
      | error e =>
        rw [expandLoop_succ, hf] at h
        rw [hf] at hp
        simp only [hp] at h
        exact absurd h (by simp)
      | ok st1 =>
        have hl : expandLoop Default grok nco (n + 1) st = expandLoop Default grok nco n st1 := by
          rw [expandLoop_succ, hf]
          rw [hf] at hp
          simp only [hp]
        rw [hl] at h
        have hpt : processedTokens Default grok nco (n + 1) st =
            (findAllStringSubmatch st.1).map Prod.snd ++
              processedTokens Default grok nco n st1 := by
          rw [hf] at hp ⊢
          simp only [processedTokens, hf, hp]
        rw [hpt, List.foldl_append, ← expandPass_hints Default grok nco _ st st1 hp]
        exact ih st1 st' h

theorem processedTokens_tokenInner (Default : GoMap Str) (grok : Grok) (nco : Bool) :
    ∀ (n : Nat) (st : Str × GoMap Str), ∀ x ∈ processedTokens Default grok nco n st,
    TokenInner x := by
  intro n
  induction n with
  | zero =>
    intro st x hx
    exact absurd hx (List.not_mem_nil _)
  | succ n ih =>
    intro st x hx
    have hfirst : ∀ y ∈ (findAllStringSubmatch st.1).map Prod.snd, TokenInner y := by
      intro y hy
      obtain ⟨m, hm, e⟩ := List.mem_map.mp hy
      obtain ⟨inner, e', ht⟩ := (mem_findAll st.1 m).mp hm
      rw [← e, e']
      exact hasToken_tokenInner _ _ ht
    cases hf : findAllStringSubmatch st.1 with
    | nil =>
      rw [processedTokens_of_noToken Default grok nco (n + 1) st hf] at hx
      exact absurd hx (List.not_mem_nil _)
    | cons m ms =>
      rw [hf] at hfirst
      simp only [processedTokens, hf] at hx
      cases hp : expandPass Default grok nco (m :: ms) st with
      | error e =>
        rw [hp] at hx
        exact hfirst x hx
      | ok st1 =>
        rw [hp] at hx
        rcases List.mem_append.mp hx with h | h
        · exact hfirst x h
        · exact ih st1 x h

theorem processedTokens_first (Default : GoMap Str) (grok : Grok) (nco : Bool) (n : Nat)
    (st : Str × GoMap Str) (inner : Str) (h : HasToken st.1 inner) :
    inner ∈ processedTokens Default grok nco (n + 1) st := by
  have hm : inner ∈ (findAllStringSubmatch st.1).map Prod.snd :=
    List.mem_map.mpr ⟨(tokenText inner, inner), (mem_findAll st.1 _).mpr ⟨inner, rfl, h⟩, rfl⟩
  cases hf : findAllStringSubmatch st.1 with
  | nil =>
    rw [hf] at hm
    exact absurd hm (List.not_mem_nil _)
  | cons m ms =>
    rw [hf] at hm
    simp only [processedTokens, hf]
    cases expandPass Default grok nco (m :: ms) st with
    | error e => exact hm
    | ok st1 => exact List.mem_append_left _ hm

theorem recordHint_keys (hints : GoMap Str) (inner k : Str) (hti : TokenInner inner)
    (hk : k ∈ mapKeys hints) : k ∈ mapKeys (recordHint hints inner) := by
  rcases recordHint_cases hints inner hti with e | ⟨w, i, t, _, _, _, _, e⟩
  · rw [e]
    exact hk
  · rw [e]
    exact (mem_mapKeys_mapSet _ _ _ _).mpr (Or.inr hk)

theorem foldl_recordHint_keys : ∀ (l : List Str) (hints : GoMap Str) (k : Str),
    (∀ x ∈ l, TokenInner x) → k ∈ mapKeys hints →
    k ∈ mapKeys (l.foldl recordHint hints) := by
  intro l
  induction l with
  | nil =>
    intro hints k _ hk
    exact hk
  | cons x l ih =>
    intro hints k hl hk
    exact ih _ k (fun y hy => hl y (List.mem_cons_of_mem _ hy))
      (recordHint_keys hints x k (hl x (List.mem_cons_self _ _)) hk)

/-- Steps that do not write the key leave its value. -/
theorem foldl_recordHint_get : ∀ (l : List Str) (hints : GoMap Str) (k : Str),
    (∀ x ∈ l, TokenInner x) →
    (∀ w i t, IsRun isWord w → IsRun isIdChar i → IsRun isWord t →
      w ++ ':' :: i ++ ':' :: t ∈ l → encode i ≠ k) →
    mapGet (l.foldl recordHint hints) k = mapGet hints k := by
  intro l
  induction l with
  | nil =>
    intro hints k _ _
    rfl
  | cons x l ih =>
    intro hints k hl hno
    rw [List.foldl_cons, ih _ k (fun y hy => hl y (List.mem_cons_of_mem _ hy))
      (fun w i t hw hi ht hm => hno w i t hw hi ht (List.mem_cons_of_mem _ hm))]
    rcases recordHint_cases hints x (hl x (List.mem_cons_self _ _)) with
      e | ⟨w, i, t, hw, hi, ht, hx, e⟩
    · rw [e]
    · rw [e]
      have hne : encode i ≠ k := hno w i t hw hi ht (by rw [← hx]; exact List.mem_cons_self _ _)
      exact mapGet_mapSet_ne _ _ _ _ (Ne.symm hne)

/-- C23.  The step of `expand` on a three-part token `%{S:ID:TYPE}` records `TYPE`
under `encode(ID)` and the step on a one-part or two-part token leaves the hint
table as it is.  The table that `expand` returns is the empty table after
these steps on the tokens it processed, in order: it holds a key `encode(ID)`
for every three-part token processed (the tokens of the expression are among
them), with the `TYPE` of the last processed three-part token of that key;
every entry is `encode(ID)` ↦ `TYPE` for a three-part token reached by the
expansion; when no reached token has a `TYPE` part the table is empty; and no
key holds a dot. -/
theorem hint_bookkeeping (Default : GoMap Str) (grok : Grok) (nco : Bool) :
    (∀ (w i t body p : Str) (hints : GoMap Str),
      IsRun isWord w → IsRun isIdChar i → IsRun isWord t →
      lookupPattern Default grok w = (body, true) →
      ∃ src, expandToken Default grok nco (p, hints)
          (tokenText (w ++ ':' :: i ++ ':' :: t), w ++ ':' :: i ++ ':' :: t) =
        .ok (src, mapSet hints (encode i) t)) ∧
    (∀ (w i body p : Str) (hints : GoMap Str),
      IsRun isWord w → IsRun isIdChar i →
      lookupPattern Default grok w = (body, true) →
      ∃ src, expandToken Default grok nco (p, hints)
          (tokenText (w ++ ':' :: i), w ++ ':' :: i) = .ok (src, hints)) ∧
    (∀ (w body p : Str) (hints : GoMap Str),
      IsRun isWord w →
      lookupPattern Default grok w = (body, true) →
      ∃ src, expandToken Default grok nco (p, hints) (tokenText w, w) = .ok (src, hints)) ∧
    (∀ (hints : GoMap Str) (w i t : Str),
      IsRun isWord w → IsRun isIdChar i → IsRun isWord t →
      recordHint hints w = hints ∧ recordHint hints (w ++ ':' :: i) = hints ∧
      recordHint hints (w ++ ':' :: i ++ ':' :: t) = mapSet hints (encode i) t) ∧
    (∀ (pattern src : Str) (hints : GoMap Str),
      expand Default grok pattern nco = .ok (src, hints) →
      hints = (processedTokens Default grok nco 1000 (pattern, [])).foldl recordHint [] ∧
      (∀ inner, HasToken pattern inner →
        inner ∈ processedTokens Default grok nco 1000 (pattern, [])) ∧
      (∀ w i t, IsRun isWord w → IsRun isIdChar i → IsRun isWord t →
        w ++ ':' :: i ++ ':' :: t ∈ processedTokens Default grok nco 1000 (pattern, []) →
        ∃ t', mapGet hints (encode i) = some t') ∧
      (∀ (w i t : Str) (before after : List Str),
        IsRun isWord w → IsRun isIdChar i → IsRun isWord t →
        processedTokens Default grok nco 1000 (pattern, []) =
          before ++ (w ++ ':' :: i ++ ':' :: t) :: after →
        (∀ w' i' t', IsRun isWord w' → IsRun isIdChar i' → IsRun isWord t' →
          w' ++ ':' :: i' ++ ':' :: t' ∈ after → encode i' ≠ encode i) →
        mapGet hints (encode i) = some t) ∧
      (∀ k t, mapGet hints k = some t →
        ∃ w i, IsRun isWord w ∧ IsRun isIdChar i ∧ IsRun isWord t ∧
          Reached Default grok pattern (w ++ ':' :: i ++ ':' :: t) ∧ k = encode i) ∧
      ((∀ w i t, IsRun isWord w → IsRun isIdChar i → IsRun isWord t →
          ¬ Reached Default grok pattern (w ++ ':' :: i ++ ':' :: t)) → hints = []) ∧
      (∀ k ∈ mapKeys hints, '.' ∉ k)) := by
  refine ⟨?_, ?_, ?_, ?_, ?_⟩
  · intro w i t body p hints hw hi ht hreg
    exact ⟨_, expandToken_typed Default grok nco w i t body hw hi ht hreg p hints⟩
  · intro w i body p hints hw hi hreg
    exact ⟨_, expandToken_untyped Default grok nco w i body hw hi hreg p hints⟩
  · intro w body p hints hw hreg
    exact ⟨_, expandToken_bare Default grok nco w body hw hreg p hints⟩
  · intro hints w i t hw hi ht
    exact ⟨recordHint_bare hints w hw, recordHint_untyped hints w i hw hi,
      recordHint_typed hints w i t hw hi ht⟩
  · intro pattern src hints h
    have hr := expand_hintsReached Default grok nco pattern src hints h
    have hfold : hints =
        (processedTokens Default grok nco 1000 (pattern, [])).foldl recordHint [] :=
      expandLoop_hints Default grok nco 1000 (pattern, []) (src, hints) h
    have hti := processedTokens_tokenInner Default grok nco 1000 (pattern, [])
    have hlast : ∀ (w i t : Str) (before after : List Str),
        IsRun isWord w → IsRun isIdChar i → IsRun isWord t →
        processedTokens Default grok nco 1000 (pattern, []) =
          before ++ (w ++ ':' :: i ++ ':' :: t) :: after →
        (∀ w' i' t', IsRun isWord w' → IsRun isIdChar i' → IsRun isWord t' →
          w' ++ ':' :: i' ++ ':' :: t' ∈ after → encode i' ≠ encode i) →
        mapGet hints (encode i) = some t := by
      intro w i t before after hw hi ht hsplit hno
      have hafter : ∀ x ∈ after, TokenInner x := fun x hx =>
        hti x (by rw [hsplit]; exact List.mem_append_right _ (List.mem_cons_of_mem _ hx))
      rw [hfold, hsplit, List.foldl_append, List.foldl_cons,
        foldl_recordHint_get after _ (encode i) hafter hno,
        recordHint_typed _ w i t hw hi ht]
      exact mapGet_mapSet_same _ _ _
    refine ⟨hfold, ?_, ?_, hlast, hr, ?_, ?_⟩
    · intro inner hi
      exact processedTokens_first Default grok nco 999 (pattern, []) inner hi
    · intro w i t hw hi ht hmem
      obtain ⟨before, after, hsplit⟩ := List.append_of_mem hmem
      have hafter : ∀ x ∈ after, TokenInner x := fun x hx =>
        hti x (by rw [hsplit]; exact List.mem_append_right _ (List.mem_cons_of_mem _ hx))
      apply (mem_mapKeys_iff_mapGet hints (encode i)).mp
      rw [hfold, hsplit, List.foldl_append, List.foldl_cons]
      apply foldl_recordHint_keys after _ _ hafter
      rw [recordHint_typed _ w i t hw hi ht]
      exact (mem_mapKeys_mapSet _ _ _ _).mpr (Or.inl rfl)
    · intro hno
      cases hints with
      | nil => rfl
      | cons kv rest =>
        obtain ⟨k, t⟩ := kv
        obtain ⟨w, i, hw, hi, ht, hreach, _⟩ := hr k t (by simp [mapGet])
        exact absurd hreach (hno w i t hw hi ht)
    · intro k hk
      obtain ⟨t, ht⟩ := (mem_mapKeys_iff_mapGet hints k).mp hk
      obtain ⟨w, i, _, _, _, _, he⟩ := hr k t ht
      rw [he]
      exact dot_not_mem_encode i

/-- Witness of `hint_bookkeeping`: the expression `%{N:a.b:int} %{N:c}` records the
one hint `int` under `a___b`. -/
theorem hint_bookkeeping_witness :
    expand [] numGrok "%\x7bN:a.b:int\x7d %\x7bN:c\x7d".toList true =
      .ok ("(?P<a___b>\\d+) (?P<c>\\d+)".toList, [("a___b".toList, "int".toList)]) ∧
    processedTokens [] numGrok true 1000 ("%\x7bN:a.b:int\x7d %\x7bN:c\x7d".toList, []) =
      ["N:a.b:int".toList, "N:c".toList] ∧
    mapGet [("a___b".toList, "int".toList)] (encode "a.b".toList) = some "int".toList :=
  ⟨by decide, by decide,
    ((hint_bookkeeping [] numGrok true).2.2.2.2 "%\x7bN:a.b:int\x7d %\x7bN:c\x7d".toList
      "(?P<a___b>\\d+) (?P<c>\\d+)".toList [("a___b".toList, "int".toList)]
      (by decide)).2.2.2.1 "N".toList "a.b".toList "int".toList [] ["N:c".toList]
      ⟨by decide, by decide⟩ ⟨by decide, by decide⟩ ⟨by decide, by decide⟩ (by decide)
      (by
        intro w' i' t' hw' hi' ht' hmem
        have e : w' ++ ':' :: i' ++ ':' :: t' = "N:c".toList := List.mem_singleton.mp hmem
        have h3 : split ':' (w' ++ ':' :: i' ++ ':' :: t') = split ':' "N:c".toList := by
          rw [e]
        rw [split_three w' i' t' hw' hi' ht'] at h3
        have h4 := congrArg List.length h3
        have h2 : (split ':' "N:c".toList).length = 2 := by decide
        rw [h2] at h4
        exact absurd h4 (by simp))⟩

/-! ## The tokens of a text after a replacement -/

theorem findAll_nil : findAllStringSubmatch [] = [] := rfl

theorem findAll_append_breaker : ∀ (n : Nat) (x Y : Str), x.length ≤ n →
    findAllStringSubmatch (x ++ ')' :: Y) =
      findAllStringSubmatch x ++ findAllStringSubmatch Y := by
  intro n
  induction n with
  | zero =>
    intro x Y hx
    have : x = [] := List.length_eq_zero.mp (Nat.le_zero.mp hx)
    subst this
    rw [List.nil_append, findAll_no_match ')' Y (matchToken_of_head_ne ')' Y (by decide)),
      findAll_nil, List.nil_append]
  | succ n ih =>
    intro x Y hx
    cases x with
    | nil =>
      rw [List.nil_append, findAll_no_match ')' Y (matchToken_of_head_ne ')' Y (by decide)),
        findAll_nil, List.nil_append]
    | cons c cs =>
      rcases token_at_head c cs with ⟨inner, rest, hti, hr, hlt⟩ | hm
      · have hrest : rest.length ≤ n := by
          simp only [List.length_cons] at hx hlt
          omega
        rw [hr, List.append_assoc, findAll_token inner _ hti, findAll_token inner rest hti,
          ih rest Y hrest]
        rfl
      · have hm' : matchToken (c :: (cs ++ ')' :: Y)) = none := by
          have e : c :: (cs ++ ')' :: Y) = (c :: cs) ++ ')' :: Y := rfl
          rw [e, matchToken_append_breaker (c :: cs) Y ')' isBreaker_rparen]
          exact hm
        rw [List.cons_append, findAll_no_match c _ hm', findAll_no_match c cs hm,
          ih cs Y (by simp only [List.length_cons] at hx; omega)]

/-- The matches in a text after `strings.ReplaceAll` of a token by a parenthesised
text: each match of that token gives way to the matches of the replacement,
the other matches stay. -/
theorem findAll_replaceAll (tok R : Str) (htok : TokenInner tok) :
    ∀ (n : Nat) (s : Str), s.length ≤ n →
    findAllStringSubmatch (replaceAll s (tokenText tok) (('(' :: R) ++ [')'])) =
      (findAllStringSubmatch s).flatMap
        (fun m => if m.2 = tok then findAllStringSubmatch ('(' :: R) else [m]) := by
  have hσ : ∀ inner r, oneToken tok (('(' :: R) ++ [')']) inner = some r →
      ∃ R', r = '(' :: R' := by
    intro inner r h
    unfold oneToken at h
    split at h
    · exact ⟨R ++ [')'], by rw [← Option.some.inj h]; rfl⟩
    · exact absurd h (by simp)
  intro n
  induction n with
  | zero =>
    intro s hs
    have : s = [] := List.length_eq_zero.mp (Nat.le_zero.mp hs)
    subst this
    have hne : tokenText tok ≠ [] := List.cons_ne_nil _ _
    rw [replaceAll_nil (tokenText tok) _ hne]
    rfl
  | succ n ih =>
    intro s hs
    cases s with
    | nil =>
      have hne : tokenText tok ≠ [] := List.cons_ne_nil _ _
      rw [replaceAll_nil (tokenText tok) _ hne]
      rfl
    | cons c cs =>
      have hcs : cs.length ≤ n := by
        simp only [List.length_cons] at hs
        omega
      rw [replaceAll_eq_substitute tok _ htok _ (c :: cs) (le_refl _)]
      rcases token_at_head c cs with ⟨inner, rest, hti, hr, hlt⟩ | hm
      · have hrest : rest.length ≤ n := by
          simp only [List.length_cons] at hs hlt
          omega
        have ihr := ih rest hrest
        rw [replaceAll_eq_substitute tok _ htok _ rest (le_refl _)] at ihr
        rw [hr, findAll_token inner rest hti, List.flatMap_cons]
        by_cases he : inner = tok
        · subst he
          rw [substituteTokens_replaced _ inner (('(' :: R) ++ [')']) rest hti
            (by simp [oneToken])]
          have e : ('(' :: R) ++ [')'] ++
              substituteTokens (oneToken inner (('(' :: R) ++ [')'])) rest =
              ('(' :: R) ++ ')' ::
                substituteTokens (oneToken inner (('(' :: R) ++ [')'])) rest := by simp
          rw [e, findAll_append_breaker _ _ _ (le_refl _), ihr]
          simp
        · rw [substituteTokens_kept_token _ inner rest hti (by simp [oneToken, he]),
            findAll_token inner _ hti, ihr]
          simp [he]
      · have ihc := ih cs hcs
        rw [replaceAll_eq_substitute tok _ htok _ cs (le_refl _)] at ihc
        have hk : ∀ inner, matchToken (c :: cs) = some inner →
            oneToken tok (('(' :: R) ++ [')']) inner = none := by
          intro inner hi
          rw [hm] at hi
          exact absurd hi (by simp)
        have hm' : matchToken
            (c :: substituteTokens (oneToken tok (('(' :: R) ++ [')'])) cs) = none := by
          cases hx : matchToken
              (c :: substituteTokens (oneToken tok (('(' :: R) ++ [')'])) cs) with
          | none => rfl
          | some inner =>
            have := matchToken_substitute _ hσ c cs inner hx
            rw [hm] at this
            exact absurd this (by simp)
        rw [substituteTokens_keep _ c cs hk, findAll_no_match c _ hm',
          findAll_no_match c cs hm, ihc]

theorem findAll_wrapBare (body : Str) :
    findAllStringSubmatch ('(' :: body) = findAllStringSubmatch body :=
  findAll_no_match '(' body (matchToken_of_head_ne '(' body (by decide))

theorem findAll_wrapNamed (tid body : Str) (htid : ∀ c ∈ tid, c ≠ '%') :
    findAllStringSubmatch ('(' :: ('?' :: 'P' :: '<' :: tid ++ '>' :: body)) =
      findAllStringSubmatch body := by
  have e : ('(' :: ('?' :: 'P' :: '<' :: tid ++ '>' :: body) : Str) =
      ('(' :: '?' :: 'P' :: '<' :: tid ++ ['>']) ++ body := by simp
  rw [e]
  apply findAll_no_percent
  intro c hc
  rcases List.mem_cons.mp hc with h | h
  · rw [h]
    decide
  · exact groupName_no_percent tid htid c h

/-- The matches in the text after the step of `expand` on a token: each match of
that token gives way to the matches of the body, the other matches stay. -/
theorem expandToken_findAll (Default : GoMap Str) (grok : Grok) (nco : Bool)
    (p : Str) (hints : GoMap Str) (inner body : Str) (hti : TokenInner inner)
    (hreg : lookupPattern Default grok (syntaxOf inner) = (body, true)) :
    ∃ st', expandToken Default grok nco (p, hints) (tokenText inner, inner) = .ok st' ∧
      findAllStringSubmatch st'.1 =
        (findAllStringSubmatch p).flatMap
          (fun m => if m.2 = inner then findAllStringSubmatch body else [m]) := by
  have hbare : ∀ (h' : GoMap Str),
      expandToken Default grok nco (p, hints) (tokenText inner, inner) =
        .ok (replaceAll p (tokenText inner) (wrapBare body), h') →
      ∃ st', expandToken Default grok nco (p, hints) (tokenText inner, inner) = .ok st' ∧
        findAllStringSubmatch st'.1 =
          (findAllStringSubmatch p).flatMap
            (fun m => if m.2 = inner then findAllStringSubmatch body else [m]) := by
    intro h' he
    refine ⟨_, he, ?_⟩
    have e : wrapBare body = ('(' :: body) ++ [')'] := by simp [wrapBare]
    show findAllStringSubmatch (replaceAll p (tokenText inner) (wrapBare body)) = _
    rw [e, findAll_replaceAll inner body hti _ p (le_refl _), findAll_wrapBare]
  have hnamed : ∀ (tid : Str) (h' : GoMap Str), (∀ c ∈ tid, c ≠ '%') →
      expandToken Default grok nco (p, hints) (tokenText inner, inner) =
        .ok (replaceAll p (tokenText inner) (wrapNamed tid body), h') →
      ∃ st', expandToken Default grok nco (p, hints) (tokenText inner, inner) = .ok st' ∧
        findAllStringSubmatch st'.1 =
          (findAllStringSubmatch p).flatMap
            (fun m => if m.2 = inner then findAllStringSubmatch body else [m]) := by
    intro tid h' htid he
    refine ⟨_, he, ?_⟩
    have e : wrapNamed tid body =
        ('(' :: ('?' :: 'P' :: '<' :: tid ++ '>' :: body)) ++ [')'] := by simp [wrapNamed]
    show findAllStringSubmatch (replaceAll p (tokenText inner) (wrapNamed tid body)) = _
    rw [e, findAll_replaceAll inner _ hti _ p (le_refl _), findAll_wrapNamed tid body htid]
  unfold syntaxOf at hreg
  rcases split_tokenInner inner hti with ⟨hw, hsp⟩ | ⟨w, i, hw, hi, he, hsp⟩ |
    ⟨w, i, t, hw, hi, ht, he, hsp⟩
  · rw [hsp] at hreg
    have hb := expandToken_bare Default grok nco inner body hw hreg p hints
    cases nco with
    | true => exact hbare _ hb
    | false => exact hnamed inner _ (fun c hc => isWord_ne_percent c (hw.2 c hc)) hb
  · rw [hsp] at hreg
    have hb := expandToken_untyped Default grok nco w i body hw hi hreg p hints
    rw [← he] at hb
    exact hnamed (encode i) _ (encode_no_percent i hi.2) hb
  · rw [hsp] at hreg
    have hb := expandToken_typed Default grok nco w i t body hw hi ht hreg p hints
    rw [← he] at hb
    exact hnamed (encode i) _ (encode_no_percent i hi.2) hb

/-- The outer loop with budget `n` is `n` passes: a pass on a text without a token
changes nothing. -/
theorem expandLoop_eq_passes (Default : GoMap Str) (grok : Grok) (nco : Bool) :
    ∀ (n : Nat) (st : Str × GoMap Str),
    expandLoop Default grok nco n st = passes Default grok nco n st := by
  intro n
  induction n with
  | zero =>
    intro st
    rfl
  | succ n ih =>
    intro st
    rw [expandLoop_succ, passes_succ]
    cases hf : findAllStringSubmatch st.1 with
    | nil =>
      simp only [expandPass]
      rw [← ih st, expandLoop_of_noToken Default grok nco n st hf]
    | cons m ms =>
      simp only
      cases expandPass Default grok nco (m :: ms) st with
      | error e => rfl
      | ok st1 => exact ih st1

/-! ## The pass budget and the size of the text -/

theorem flatMap_replicate_double (m : Str × Str) (body : List (Str × Str)) (A : Str)
    (hm : m.2 = A) (hb : body = [m, m]) :
    ∀ (c : Nat), (List.replicate c m).flatMap (fun x => if x.2 = A then body else [x]) =
      List.replicate (2 * c) m := by
  intro c
  induction c with
  | zero => rfl
  | succ c ih =>
    rw [List.replicate_succ, List.flatMap_cons, ih, if_pos hm, hb]
    have e : 2 * (c + 1) = (2 * c + 1) + 1 := by omega
    rw [e, List.replicate_succ, List.replicate_succ]
    rfl

theorem doubleGrok_lookup (Default : GoMap Str) :
    lookupPattern Default doubleGrok (syntaxOf "A".toList) =
      (tokenText "A".toList ++ tokenText "A".toList, true) :=
  lookupPattern_addPattern_same Default NewWithoutDefaultPatterns _ _

theorem doubleGrok_step (Default : GoMap Str) (nco : Bool) (p : Str) (hints : GoMap Str)
    (c : Nat)
    (hp : findAllStringSubmatch p = List.replicate c (tokenText "A".toList, "A".toList)) :
    ∃ st', expandToken Default doubleGrok nco (p, hints) (tokenText "A".toList, "A".toList) =
        .ok st' ∧
      findAllStringSubmatch st'.1 =
        List.replicate (2 * c) (tokenText "A".toList, "A".toList) := by
  obtain ⟨st', hst, hf⟩ := expandToken_findAll Default doubleGrok nco p hints "A".toList _
    (Or.inl ⟨by decide, by decide⟩) (doubleGrok_lookup Default)
  refine ⟨st', hst, ?_⟩
  rw [hf, hp]
  exact flatMap_replicate_double _ _ _ rfl (by decide) c

theorem doubleGrok_pass (Default : GoMap Str) (nco : Bool) :
    ∀ (k : Nat) (st : Str × GoMap Str) (c : Nat),
    findAllStringSubmatch st.1 = List.replicate c (tokenText "A".toList, "A".toList) →
    ∃ st', expandPass Default doubleGrok nco
        (List.replicate k (tokenText "A".toList, "A".toList)) st = .ok st' ∧
      findAllStringSubmatch st'.1 =
        List.replicate (c * 2 ^ k) (tokenText "A".toList, "A".toList) := by
  intro k
  induction k with
  | zero =>
    intro st c h
    refine ⟨st, rfl, ?_⟩
    rw [h]
    simp
  | succ k ih =>
    intro st c h
    obtain ⟨p, hints⟩ := st
    obtain ⟨st1, hstep, h1⟩ := doubleGrok_step Default nco p hints c h
    obtain ⟨st2, hrest, h2⟩ := ih st1 (2 * c) h1
    refine ⟨st2, ?_, ?_⟩
    · rw [List.replicate_succ]
      simp only [expandPass]
      rw [hstep]
      exact hrest
    · rw [h2]
      have e : 2 * c * 2 ^ k = c * 2 ^ (k + 1) := by
        rw [pow_succ]
        ring
      rw [e]

/-- Under `A` = `%{A}%{A}` a text of `c` tokens `%{A}` holds `tokenGrowth c j` of them
after `j` passes. -/
theorem doubleGrok_passes (Default : GoMap Str) (nco : Bool) :
    ∀ (j : Nat) (st : Str × GoMap Str) (c : Nat),
    findAllStringSubmatch st.1 = List.replicate c (tokenText "A".toList, "A".toList) →
    ∃ st', passes Default doubleGrok nco j st = .ok st' ∧
      findAllStringSubmatch st'.1 =
        List.replicate (tokenGrowth c j) (tokenText "A".toList, "A".toList) := by
  intro j
  induction j with
  | zero =>
    intro st c h
    exact ⟨st, rfl, h⟩
  | succ j ih =>
    intro st c h
    obtain ⟨st1, hp, h1⟩ := doubleGrok_pass Default nco c st c h
    obtain ⟨st2, hrest, h2⟩ := ih st1 (c * 2 ^ c) h1
    refine ⟨st2, ?_, h2⟩
    rw [passes_succ, h, hp]
    exact hrest

theorem tokenGrowth_one (c : Nat) : tokenGrowth c 1 = c * 2 ^ c := rfl

theorem tokenGrowth_succ_right : ∀ (j c : Nat),
    tokenGrowth c (j + 1) = tokenGrowth (tokenGrowth c j) 1 := by
  intro j
  induction j with
  | zero =>
    intro c
    rfl
  | succ j ih =>
    intro c
    show tokenGrowth (c * 2 ^ c) (j + 1) = tokenGrowth (tokenGrowth (c * 2 ^ c) j) 1
    exact ih (c * 2 ^ c)

/-- C29 (code at the failing input).  With `A` defined as `%{A}%{A}`, every pass of
`expand` on `%{A}` succeeds and every match of a pass doubles the tokens of the
text: after `j` passes the text holds `tokenGrowth 1 j` tokens, that is 2, 8 and
2048 after the first three passes and 2048 · 2^2048 after the fourth.  The
budget bounds the number of passes, not the text: the source that `expand`
returns after 1000 passes holds `tokenGrowth 1 1000` tokens. -/
theorem pass_budget_token_growth (Default : GoMap Str) (nco : Bool) :
    (∀ j, ∃ st, passes Default doubleGrok nco j (tokenText "A".toList, []) = .ok st ∧
      (findAllStringSubmatch st.1).length = tokenGrowth 1 j) ∧
    tokenGrowth 1 1 = 2 ∧ tokenGrowth 1 2 = 8 ∧ tokenGrowth 1 3 = 2048 ∧
    tokenGrowth 1 4 = 2048 * 2 ^ 2048 ∧
    (∃ st, expand Default doubleGrok (tokenText "A".toList) nco = .ok st ∧
      (findAllStringSubmatch st.1).length = tokenGrowth 1 1000) := by
  have h0 : findAllStringSubmatch (tokenText "A".toList, ([] : GoMap Str)).1 =
      List.replicate 1 (tokenText "A".toList, "A".toList) := by decide
  have hall : ∀ j, ∃ st, passes Default doubleGrok nco j (tokenText "A".toList, []) = .ok st ∧
      (findAllStringSubmatch st.1).length = tokenGrowth 1 j := by
    intro j
    obtain ⟨st, hst, hf⟩ := doubleGrok_passes Default nco j _ 1 h0
    exact ⟨st, hst, by rw [hf, List.length_replicate]⟩
  have h3 : tokenGrowth 1 3 = 2048 := rfl
  have h4 : tokenGrowth 1 4 = 2048 * 2 ^ 2048 := by
    rw [tokenGrowth_succ_right 3 1, h3, tokenGrowth_one]
  refine ⟨hall, rfl, rfl, h3, h4, ?_⟩
  obtain ⟨st, hst, hf⟩ := hall 1000
  refine ⟨st, ?_, hf⟩
  show expandLoop Default doubleGrok nco 1000 (tokenText "A".toList, []) = _
  rw [expandLoop_eq_passes]
  exact hst

/-! ## Cyclic definitions -/

/-- C30 as stated fails.  With `A` defined as `%{A}%{X}`, where `X` is not defined,
the definition of `A` is cyclic, and `expand` of `%{A}` returns an error in its
second pass, in both modes.  With `A` defined as `%{A}%{A}` the text holds 2048
tokens after three passes. -/
theorem cyclic_not_reported_counterexample :
    (lookupPattern [] cycleUnknownGrok "A".toList =
        (tokenText "A".toList ++ tokenText "X".toList, true) ∧
      findAllStringSubmatch (tokenText "A".toList ++ tokenText "X".toList) =
        [(tokenText "A".toList, "A".toList), (tokenText "X".toList, "X".toList)] ∧
      expand [] cycleUnknownGrok (tokenText "A".toList) true =
        .error (.parseFailure "X".toList) ∧
      expand [] cycleUnknownGrok (tokenText "A".toList) false =
        .error (.parseFailure "X".toList)) ∧
    (∃ st, passes [] doubleGrok true 3 (tokenText "A".toList, []) = .ok st ∧
      (findAllStringSubmatch st.1).length = 2048) := by
  refine ⟨⟨by decide, by decide, by decide, by decide⟩, ?_⟩
  obtain ⟨st, hst, hf⟩ := doubleGrok_passes [] true 3 (tokenText "A".toList, []) 1
    (by decide)
  refine ⟨st, hst, ?_⟩
  rw [hf, List.length_replicate]
  rfl

theorem singleReference_pass (Default : GoMap Str) (grok : Grok) (nco : Bool)
    (S : Str → Prop) (hS : SingleReferenceNames Default grok S)
    (st : Str × GoMap Str) (m : Str × Str)
    (hf : findAllStringSubmatch st.1 = [m]) (hm : S (syntaxOf m.2)) :
    ∃ st' m', expandPass Default grok nco [m] st = .ok st' ∧
      findAllStringSubmatch st'.1 = [m'] ∧ S (syntaxOf m'.2) := by
  obtain ⟨p, hints⟩ := st
  obtain ⟨inner, e, ht⟩ := (mem_findAll p m).mp (by
    show m ∈ findAllStringSubmatch p
    rw [show findAllStringSubmatch p = [m] from hf]
    exact List.mem_singleton.mpr rfl)
  have hti := hasToken_tokenInner _ _ ht
  rw [e] at hm hf ⊢
  obtain ⟨body, m', hreg, hbody, hm'⟩ := hS _ hm
  obtain ⟨st', hstep, hfind⟩ := expandToken_findAll Default grok nco p hints inner body hti hreg
  refine ⟨st', m', ?_, ?_, hm'⟩
  · simp only [expandPass]
    rw [hstep]
  · rw [hfind, show findAllStringSubmatch p = [(tokenText inner, inner)] from hf]
    simp [hbody]

theorem singleReference_passes (Default : GoMap Str) (grok : Grok) (nco : Bool)
    (S : Str → Prop) (hS : SingleReferenceNames Default grok S) :
    ∀ (j : Nat) (st : Str × GoMap Str) (m : Str × Str),
    findAllStringSubmatch st.1 = [m] → S (syntaxOf m.2) →
    ∃ st' m', passes Default grok nco j st = .ok st' ∧
      findAllStringSubmatch st'.1 = [m'] ∧ S (syntaxOf m'.2) := by
  intro j
  induction j with
  | zero =>
    intro st m hf hm
    exact ⟨st, m, rfl, hf, hm⟩
  | succ j ih =>
    intro st m hf hm
    obtain ⟨st1, m1, hp, hf1, hm1⟩ := singleReference_pass Default grok nco S hS st m hf hm
    obtain ⟨st2, m2, hrest, hf2, hm2⟩ := ih st1 m1 hf1 hm1
    refine ⟨st2, m2, ?_, hf2, hm2⟩
    rw [passes_succ, hf, hp]
    exact hrest

/-- C30 (amended).  Let every name of a set `S` be defined by a body that holds
exactly one token occurrence, which refers to a name of `S` (as `A` defined as
`%{A}`, or `A` as `%{B}` and `B` as `%{A}`).  For an expression that holds
exactly one token occurrence, which refers to a name of `S` (as `%{A}`),
`expand` returns a nil error after the 1000 passes of the budget; each pass
starts from a text that holds exactly one token occurrence, and so does the
returned source. -/
theorem single_reference_cycle (Default : GoMap Str) (grok : Grok) (nco : Bool)
    (S : Str → Prop) (pattern : Str) (m0 : Str × Str)
    (hS : SingleReferenceNames Default grok S)
    (hp : findAllStringSubmatch pattern = [m0]) (hm0 : S (syntaxOf m0.2)) :
    (∃ src hints m, expand Default grok pattern nco = .ok (src, hints) ∧
      findAllStringSubmatch src = [m] ∧ S (syntaxOf m.2)) ∧
    expand Default grok pattern nco = passes Default grok nco 1000 (pattern, []) ∧
    (∀ j, j ≤ 1000 → ∃ st m, passes Default grok nco j (pattern, []) = .ok st ∧
      findAllStringSubmatch st.1 = [m] ∧ S (syntaxOf m.2)) := by
  have hall := fun j => singleReference_passes Default grok nco S hS j (pattern, []) m0 hp hm0
  have heq : expand Default grok pattern nco = passes Default grok nco 1000 (pattern, []) :=
    expandLoop_eq_passes Default grok nco 1000 (pattern, [])
  refine ⟨?_, heq, fun j _ => hall j⟩
  obtain ⟨st, m, hst, hf, hm⟩ := hall 1000
  exact ⟨st.1, st.2, m, by rw [heq, hst], hf, hm⟩

/-- Witness of `single_reference_cycle`: `A` defined as `%{A}`, and `A` defined as
`%{B}` with `B` defined as `%{A}`. -/
theorem single_reference_cycle_witness :
    (∃ src hints m, expand [] selfCycleGrok (tokenText "A".toList) true = .ok (src, hints) ∧
      findAllStringSubmatch src = [m] ∧ syntaxOf m.2 = "A".toList) ∧
    (∃ src hints m, expand [] twoCycleGrok (tokenText "A".toList) false = .ok (src, hints) ∧
      findAllStringSubmatch src = [m] ∧
      (syntaxOf m.2 = "A".toList ∨ syntaxOf m.2 = "B".toList)) :=
  ⟨(single_reference_cycle [] selfCycleGrok true (fun n => n = "A".toList)
      (tokenText "A".toList) (tokenText "A".toList, "A".toList)
      (fun n hn => ⟨tokenText "A".toList, (tokenText "A".toList, "A".toList),
        by rw [hn]; decide, by decide, by decide⟩)
      (by decide) (by decide)).1,
    (single_reference_cycle [] twoCycleGrok false
      (fun n => n = "A".toList ∨ n = "B".toList)
      (tokenText "A".toList) (tokenText "A".toList, "A".toList)
      (fun n hn => hn.elim
        (fun h => ⟨tokenText "B".toList, (tokenText "B".toList, "B".toList),
          by rw [h]; decide, by decide, by decide⟩)
        (fun h => ⟨tokenText "A".toList, (tokenText "A".toList, "A".toList),
          by rw [h]; decide, by decide, by decide⟩))
      (by decide) (by decide)).1⟩

end GoGrok
